import Mathlib

/-!
# beep: streamers, compositors, mixer and sample codec

A shallow embedding of `interface.go`, `compositors.go`, `mixer.go` and the codec of
`buffer.go`.

Conventions of the embedding.

* A Go slice argument `samples []P` that a `Stream` method writes into is a `List P`; a
  call returns the contents of that slice after the call together with `n` and `ok`.
* A stateful streamer is a state together with its `Stream` step function; calling
  `Stream` returns the streamer in its next state.
* Go `int` is `Int`; slice expressions that can go out of range return `Option`
  (`none` is the run-time fault).
* Loops whose termination depends on the children take a `fuel` argument; `none` is
  returned when it runs out.
-/

namespace Beep

/-! ## Definitions -/

/-- What one call `n, ok := s.Stream(samples)` leaves behind: the contents of `samples`
after the call, and the two results. -/
structure Pulled (P : Type) where
  samples : List P
  n : Int
  ok : Bool
deriving DecidableEq, Repr

/-- The `Streamer` interface of `interface.go`: a state, the `Stream` method as a step
function on it and `Err` (`true` stands for a non-nil error). A callee cannot change the
length of the caller's slice, which is the field `len_samples`. -/
structure Streamer (P : Type) where
  σ : Type
  st : σ
  streamFn : σ → List P → Pulled P × σ
  errFn : σ → Bool
  len_samples : ∀ (x : σ) (samples : List P), (streamFn x samples).1.samples.length = samples.length

/-- The method call `s.Stream(samples)`: the outcome and the streamer afterwards. -/
def Streamer.Stream {P : Type} (s : Streamer P) (samples : List P) : Pulled P × Streamer P :=
  ((s.streamFn s.st samples).1, { s with st := (s.streamFn s.st samples).2 })

/-- The method call `s.Err() != nil`. -/
def Streamer.Err {P : Type} (s : Streamer P) : Bool := s.errFn s.st

/-- The `StreamSeeker` interface: a `Streamer` with `Len`, `Position` and `Seek`; `seekFn`
returns whether `Seek` returned a non-nil error, and the next state. -/
structure StreamSeeker (P : Type) extends Streamer P where
  lenFn : σ → Int
  posFn : σ → Int
  seekFn : σ → Int → Bool × σ

/-- The method call `s.Stream(samples)` on a `StreamSeeker`. -/
def StreamSeeker.Stream {P : Type} (s : StreamSeeker P) (samples : List P) :
    Pulled P × StreamSeeker P :=
  ((s.streamFn s.st samples).1, { s with st := (s.streamFn s.st samples).2 })

/-- The method call `s.Seek(p)`: whether it failed, and the seeker afterwards. -/
def StreamSeeker.Seek {P : Type} (s : StreamSeeker P) (p : Int) : Bool × StreamSeeker P :=
  ((s.seekFn s.st p).1, { s with st := (s.seekFn s.st p).2 })

/-- The method call `s.Err() != nil` on a `StreamSeeker`. -/
def StreamSeeker.Err {P : Type} (s : StreamSeeker P) : Bool := s.errFn s.st

/-- Go's builtin `copy(dst, src)`: the contents of `dst` afterwards and the number of
elements copied, `min(len(dst), len(src))`. -/
def copy {P : Type} (dst src : List P) : List P × Nat :=
  (src.take dst.length ++ dst.drop src.length, min dst.length src.length)

/-- The slice expression `l[lo:]`; out of range is a run-time fault. -/
def sliceFrom {α : Type} (l : List α) (lo : Int) : Option (List α) :=
  if 0 ≤ lo ∧ lo ≤ l.length then some (l.drop lo.toNat) else none

/-- The slice expression `l[:hi]`; out of range is a run-time fault. -/
def sliceTo {α : Type} (l : List α) (hi : Int) : Option (List α) :=
  if 0 ≤ hi ∧ hi ≤ l.length then some (l.take hi.toNat) else none

/-! ### The test streamer and the reference behaviour of a finite stream -/

/-- `dataStreamer.Stream` of `compositors_test.go` on the state `(data, pos)`. -/
def dataStreamer.streamFn {P : Type} (x : List P × Nat) (samples : List P) :
    Pulled P × (List P × Nat) :=
  if x.2 ≥ x.1.length then (⟨samples, 0, false⟩, x)
  else
    let c := copy samples (x.1.drop x.2)
    (⟨c.1, c.2, true⟩, (x.1, x.2 + c.2))

/-- `dataStreamer` of `compositors_test.go`: streams `data` from position `pos`; `Seek`
sets the position and never fails, `Err` is always nil. (Positions are naturals: the
test only seeks to 0.) -/
def dataStreamer {P : Type} (data : List P) (pos : Nat) : StreamSeeker P where
  σ := List P × Nat
  st := (data, pos)
  streamFn := dataStreamer.streamFn
  errFn := fun _ => false
  len_samples := by
    intro x samples
    unfold dataStreamer.streamFn copy
    split
    · rfl
    · simp only [List.length_append, List.length_take, List.length_drop]
      omega
  lenFn := fun x => x.1.length
  posFn := fun x => x.2
  seekFn := fun x p => (false, (x.1, p.toNat))

/-- One pull of `samples` on a finite stream that obeys the pull contract and still has
the content `d` to deliver: it delivers `min(len(samples), len(d))` samples into the front
of `samples`, leaves the rest of `samples` alone and reports `ok` exactly when `d` is not
empty. The second component is the content left. -/
def refPull {P : Type} (d : List P) (samples : List P) : Pulled P × List P :=
  (⟨d.take samples.length ++ samples.drop d.length, (min samples.length d.length : Nat),
    !d.isEmpty⟩, d.drop samples.length)

/-- The outcomes of a sequence of pulls on a step function `pull`. -/
def trace {P T : Type _} (pull : T → List P → Pulled P × T) : T → List (List P) → List (Pulled P)
  | _, [] => []
  | t, b :: bs => (pull t b).1 :: trace pull (pull t b).2 bs

/-- The state a step function `pull` is in after a sequence of pulls. -/
def after {P T : Type _} (pull : T → List P → Pulled P × T) : T → List (List P) → T
  | t, [] => t
  | t, b :: bs => after pull (pull t b).2 bs

/-- The outcomes of a sequence of pulls on a contract-obeying finite stream with
content `d`. -/
def refTrace {P : Type} : List P → List (List P) → List (Pulled P)
  | _, [] => []
  | d, b :: bs => (refPull d b).1 :: refTrace (refPull d b).2 bs

/-- The samples a caller has collected from a sequence of pulls: `samples[:n]` of each. -/
def collected {P : Type} (rs : List (Pulled P)) : List P :=
  (rs.map (fun r => r.samples.take r.n.toNat)).flatten

/-- The total number of slots requested by a sequence of pulls. -/
def totalSlots {P : Type} (bufs : List (List P)) : Nat :=
  (bufs.map List.length).sum

/-- A finite stream that obeys the pull contract and has content `d`: on every sequence
of non-empty pulls it returns what the contract prescribes for a stream with `d` left. -/
def Streamer.HasContent {P : Type} (s : Streamer P) (d : List P) : Prop :=
  ∀ bufs : List (List P), (∀ b ∈ bufs, b ≠ []) → trace Streamer.Stream s bufs = refTrace d bufs

/-! ### Take -/

/-- The struct `take`. -/
structure take (P : Type) where
  s : Streamer P
  remains : Int

/-- The constructor `Take(num, s)`. -/
def Take {P : Type} (num : Int) (s : Streamer P) : take P :=
  { s := s, remains := num }

/-- The method `take.Stream`. -/
def take.Stream {P : Type} (t : take P) (samples : List P) : Pulled P × take P :=
  if t.remains ≤ 0 then (⟨samples, 0, false⟩, t)
  else
    let toStream : Int := if (samples.length : Int) < t.remains then samples.length else t.remains
    let r := t.s.Stream (samples.take toStream.toNat)
    (⟨r.1.samples ++ samples.drop toStream.toNat, r.1.n, r.1.ok⟩,
      { s := r.2, remains := t.remains - r.1.n })

/-! ### Seq -/

/-- The outcomes of a sequence of pulls on a step function that can fail. -/
def traceO {P T : Type _} (pull : T → List P → Option (Pulled P × T)) :
    T → List (List P) → Option (List (Pulled P))
  | _, [] => some []
  | t, b :: bs =>
    match pull t b with
    | none => none
    | some r =>
      match traceO pull r.2 bs with
      | none => none
      | some rs => some (r.1 :: rs)

/-- The variables captured by the closure that `Seq` returns: the children `s` and the
index `i` of the child being streamed. -/
structure SeqState (P : Type) where
  s : List (Streamer P)
  i : Nat

/-- The constructor `Seq(s...)`. -/
def Seq {P : Type} (s : List (Streamer P)) : SeqState P :=
  { s := s, i := 0 }

/-- The loop of the closure of `Seq`. `filled` is the part of the caller's slice in front
of the current `samples`, which the loop has already passed (`samples = samples[sn:]`). -/
def SeqState.loop {P : Type} : Nat → List (Streamer P) → Nat → List P → List P → Int → Bool →
    Option (Pulled P × SeqState P)
  | fuel, s, i, filled, samples, n, ok =>
    if h : i < s.length ∧ 0 < samples.length then
      match fuel with
      | 0 => none
      | fuel + 1 =>
        let r := (s.get ⟨i, h.1⟩).Stream samples
        match sliceFrom r.1.samples r.1.n with
        | none => none
        | some rest =>
          SeqState.loop fuel (s.set i r.2) (if r.1.ok then i else i + 1)
            (filled ++ r.1.samples.take r.1.n.toNat) rest (n + r.1.n) (ok || r.1.ok)
    else some (⟨filled ++ samples, n, ok⟩, { s := s, i := i })

/-- The closure that `Seq` returns, called on `samples`. -/
def SeqState.Stream {P : Type} (fuel : Nat) (q : SeqState P) (samples : List P) :
    Option (Pulled P × SeqState P) :=
  SeqState.loop fuel q.s q.i [] samples 0 false


/-- What is left to stream in a `Seq` whose children from index `i` on have the
contents `ds`. -/
def SeqState.Left {P : Type} (q : SeqState P) (y : List P) : Prop :=
  ∃ ds : List (List P), List.Forall₂ Streamer.HasContent (q.s.drop q.i) ds ∧ y = ds.flatten

/-! ### Loop -/

/-- The struct `loop`. -/
structure loop (P : Type) where
  s : StreamSeeker P
  remains : Int

/-- The constructor `Loop(count, s)`. -/
def Loop {P : Type} (count : Int) (s : StreamSeeker P) : loop P :=
  { s := s, remains := count }

/-- The `for len(samples) > 0` loop of `loop.Stream`. `filled` is the part of the caller's
slice in front of the current `samples`. -/
def loop.body {P : Type} : Nat → StreamSeeker P → Int → List P → List P → Int →
    Option (Pulled P × loop P)
  | fuel, s, remains, filled, samples, n =>
    if 0 < samples.length then
      match fuel with
      | 0 => none
      | fuel + 1 =>
        let r := s.Stream samples
        if !r.1.ok then
          let remains1 := if remains > 0 then remains - 1 else remains
          if remains1 = 0 then
            some (⟨filled ++ r.1.samples, n, true⟩, { s := r.2, remains := remains1 })
          else
            let e := r.2.Seek 0
            if e.1 then
              some (⟨filled ++ r.1.samples, n, true⟩, { s := e.2, remains := remains1 })
            else loop.body fuel e.2 remains1 filled r.1.samples n
        else
          match sliceFrom r.1.samples r.1.n with
          | none => none
          | some rest =>
            loop.body fuel r.2 remains (filled ++ r.1.samples.take r.1.n.toNat) rest (n + r.1.n)
    else some (⟨filled ++ samples, n, true⟩, { s := s, remains := remains })

/-- The method `loop.Stream`. -/
def loop.Stream {P : Type} (fuel : Nat) (l : loop P) (samples : List P) :
    Option (Pulled P × loop P) :=
  if l.remains = 0 ∨ l.s.Err = true then some (⟨samples, 0, false⟩, l)
  else loop.body fuel l.s l.remains [] samples 0

/-- An error-free seekable stream with content `d`, of which `r` is left to stream, whose
`Seek(0)` always succeeds: some invariant on its states holds now for `r` and is kept by
`Stream` (on a non-empty slice) and by `Seek(0)`; under it `Err` is nil, `Stream` returns
what the pull contract prescribes for the content left, and `Seek(0)` returns nil and
makes all of `d` the content left. -/
def StreamSeeker.Replays {P : Type} (s : StreamSeeker P) (d r : List P) : Prop :=
  ∃ R : s.σ → List P → Prop, R s.st r ∧ ∀ x y, R x y →
    s.errFn x = false ∧
    (∀ b : List P, b ≠ [] → (s.streamFn x b).1 = (refPull y b).1 ∧
      R (s.streamFn x b).2 (refPull y b).2) ∧
    (s.seekFn x 0).1 = false ∧ R (s.seekFn x 0).2 d

/-- `c` copies of `d` in a row. -/
def copies {P : Type} (c : Nat) (d : List P) : List P :=
  (List.replicate c d).flatten

/-- What is left to stream in a `Loop` over a seeker with content `d`: nothing when
`remains` is 0, otherwise what is left in the child and `remains - 1` more copies. -/
def loop.Left {P : Type} (d : List P) (l : loop P) (y : List P) : Prop :=
  (l.remains = 0 ∧ y = []) ∨
    ∃ (k : Nat) (r : List P), l.remains = (k : Int) + 1 ∧ l.s.Replays d r ∧ y = r ++ copies k d

/-- One pull on the reference behaviour of a `Loop`: `y` is what is left to stream and
`live` tells that `remains` is not 0. -/
def loopRefPull {P : Type} (y : List P) (live : Bool) (b : List P) : Pulled P × List P × Bool :=
  (⟨y.take b.length ++ b.drop y.length, (min b.length y.length : Nat), live⟩,
    y.drop b.length, live && decide (b.length ≤ y.length))

/-- The reference behaviour of a `Loop` over a sequence of pulls. -/
def loopRefTrace {P : Type} : List P → Bool → List (List P) → List (Pulled P)
  | _, _, [] => []
  | y, live, b :: bs =>
    (loopRefPull y live b).1 :: loopRefTrace (loopRefPull y live b).2.1 (loopRefPull y live b).2.2 bs

/-! ### Dup -/

/-- Which of the two streamers returned by `Dup` is called: `t` or `u`. -/
inductive DupHandle where
  | t
  | u
deriving DecidableEq, Repr

/-- The other handle. -/
def DupHandle.other : DupHandle → DupHandle
  | .t => .u
  | .u => .t

/-- The variables shared by the two `dup` structs that `Dup` returns: the queues `tBuf`
and `uBuf` and the child `s`. Handle `t` has `myBuf = &tBuf`, `itsBuf = &uBuf`; handle
`u` has them the other way round. -/
structure DupState (P : Type) where
  tBuf : List P
  uBuf : List P
  s : Streamer P

/-- The constructor `Dup(s)`: both queues start empty (`var tBuf, uBuf []P`). -/
def Dup {P : Type} (s : Streamer P) : DupState P :=
  { tBuf := [], uBuf := [], s := s }

/-- The queue `*d.myBuf` of handle `h`. -/
def DupState.myBuf {P : Type} (q : DupState P) : DupHandle → List P
  | .t => q.tBuf
  | .u => q.uBuf

/-- The assignment `*d.myBuf = buf` of handle `h`. -/
def DupState.setMyBuf {P : Type} (q : DupState P) (h : DupHandle) (buf : List P) : DupState P :=
  match h with
  | .t => { q with tBuf := buf }
  | .u => { q with uBuf := buf }

/-- The shared child `d.s` after a call of its `Stream` method. -/
def DupState.setS {P : Type} (q : DupState P) (x : Streamer P) : DupState P :=
  { tBuf := q.tBuf, uBuf := q.uBuf, s := x }

/-- The method `dup.Stream` of handle `h`. -/
def dup.Stream {P : Type} (h : DupHandle) (q : DupState P) (samples : List P) :
    Option (Pulled P × DupState P) :=
  let buf := q.myBuf h
  let c := copy samples buf
  let n : Int := c.2
  let ok : Bool := decide (0 < buf.length)
  let q1 := q.setMyBuf h (buf.drop c.2)
  let rest := c.1.drop c.2
  if 0 < rest.length then
    let r := q1.s.Stream rest
    match sliceTo r.1.samples r.1.n with
    | none => none
    | some fresh =>
      some (⟨c.1.take c.2 ++ r.1.samples, n + r.1.n, ok || r.1.ok⟩,
        (q1.setS r.2).setMyBuf h.other (q1.myBuf h.other ++ fresh))
  else some (⟨c.1, n, ok⟩, q1)

/-- A serialized sequence of calls on the two handles: the outcome of each call, or
`none` when a call faults. -/
def dupTrace {P : Type} : DupState P → List (DupHandle × List P) →
    Option (List (DupHandle × Pulled P))
  | _, [] => some []
  | q, (h, b) :: calls =>
    match dup.Stream h q b with
    | none => none
    | some r =>
      match dupTrace r.2 calls with
      | none => none
      | some rs => some ((h, r.1) :: rs)

/-- The samples handle `h` has returned in a sequence of outcomes. -/
def returnedBy {P : Type} (h : DupHandle) (rs : List (DupHandle × Pulled P)) : List P :=
  collected ((rs.filter (fun x => decide (x.1 = h))).map (fun x => x.2))

/-- The invariant of `Dup` over a stream with content `d`: with `out h` the samples
handle `h` has returned so far, `d` is, for each handle, what it has returned, then its
queue, then what is left in the child. -/
def DupState.Inv {P : Type} (q : DupState P) (d : List P) (out : DupHandle → List P) : Prop :=
  ∃ R : List P, q.s.HasContent R ∧ ∀ h : DupHandle, d = out h ++ q.myBuf h ++ R

/-! ### Points and the Mixer -/

/-- The interface `Point[S]` of `interface.go`, together with the zero value `var p P`.
The sample types index a fixed-size array, so `Set`, `Add` and `Get` fault (`none`) on an
index out of range. -/
class Point (S : outParam Type) (P : Type) where
  Count : P → Nat
  Set : P → Nat → S → Option P
  Add : P → Nat → S → Option P
  Get : P → Nat → Option S
  Slice : P → List S
  zero : P

/-- The type `Mono[S]`, `[1]S`. -/
structure Mono (S : Type) where
  c0 : S
deriving DecidableEq, Repr

/-- The type `Stereo[S]`, `[2]S`. -/
structure Stereo (S : Type) where
  c0 : S
  c1 : S
deriving DecidableEq, Repr

instance instPointMono {S : Type} [Add S] [Zero S] : Point S (Mono S) where
  Count := fun _ => 1
  Set := fun _ index v => if index = 0 then some ⟨v⟩ else none
  Add := fun p index v => if index = 0 then some ⟨p.c0 + v⟩ else none
  Get := fun p index => if index = 0 then some p.c0 else none
  Slice := fun p => [p.c0]
  zero := ⟨0⟩

instance instPointStereo {S : Type} [Add S] [Zero S] : Point S (Stereo S) where
  Count := fun _ => 2
  Set := fun p index v =>
    if index = 0 then some ⟨v, p.c1⟩ else if index = 1 then some ⟨p.c0, v⟩ else none
  Add := fun p index v =>
    if index = 0 then some ⟨p.c0 + v, p.c1⟩ else if index = 1 then some ⟨p.c0, p.c1 + v⟩ else none
  Get := fun p index => if index = 0 then some p.c0 else if index = 1 then some p.c1 else none
  Slice := fun p => [p.c0, p.c1]
  zero := ⟨0, 0⟩

/-- A sample type whose `Get` and `Add` accept every index below `Count()`. -/
class LawfulPoint (S : outParam Type) (P : Type) [Point S P] : Prop where
  get_some : ∀ (p : P) (j : Nat), j < Point.Count (Point.zero : P) → ∃ v, Point.Get p j = some v
  add_some : ∀ (p : P) (j : Nat) (v : S), j < Point.Count (Point.zero : P) →
    ∃ q : P, Point.Add p j v = some q

instance instLawfulMono {S : Type} [Add S] [Zero S] : LawfulPoint S (Mono S) where
  get_some := by
    intro p j hj
    have : j = 0 := by simpa [Point.Count] using hj
    subst this
    exact ⟨p.c0, rfl⟩
  add_some := by
    intro p j v hj
    have : j = 0 := by simpa [Point.Count] using hj
    subst this
    exact ⟨_, rfl⟩

instance instLawfulStereo {S : Type} [Add S] [Zero S] : LawfulPoint S (Stereo S) where
  get_some := by
    intro p j hj
    have hj2 : j < 2 := hj
    interval_cases j
    · exact ⟨p.c0, rfl⟩
    · exact ⟨p.c1, rfl⟩
  add_some := by
    intro p j v hj
    have hj2 : j < 2 := hj
    interval_cases j
    · exact ⟨_, rfl⟩
    · exact ⟨_, rfl⟩

/-- The type `Mixer`. -/
structure Mixer (P : Type) where
  streamers : List (Streamer P)

/-- The method `Mixer.Len`. -/
def Mixer.Len {P : Type} (m : Mixer P) : Int := m.streamers.length

/-- The method `Mixer.Add`. -/
def Mixer.Add {P : Type} (m : Mixer P) (s : List (Streamer P)) : Mixer P :=
  { streamers := m.streamers ++ s }

/-- The method `Mixer.Clear`. -/
def Mixer.Clear {P : Type} (m : Mixer P) : Mixer P :=
  { streamers := m.streamers.take 0 }

/-- The loop `for j := 0; j < ct; j++ { samples[i].Add(j, tmp[i].Get(j)) }` of
`Mixer.Stream` for one `i`, started at `j`, on the values `sample = samples[i]` and
`t = tmp[i]`; `fuel` counts the iterations left, `ct - j`. The result is `samples[i]`
after the loop, or `none` when `Get` or `Add` faults. `Add` has a value receiver and the
point it returns is dropped by the statement, so `samples[i]` is left as it was. -/
def Mixer.addChannels {S P : Type} [Point S P] (sample t : P) : Nat → Nat → Option P
  | 0, _ => some sample
  | fuel + 1, j =>
    match Point.Get t j with
    | none => none
    | some v =>
      match Point.Add sample j v with
      | none => none
      | some _ => Mixer.addChannels sample t fuel (j + 1)

/-- The loop `for i := range tmp[:sn]` of `Mixer.Stream` from index `i` on, with `fuel`
the iterations left, `sn - i`: the contents of `samples` afterwards, or `none` when
`samples[i]` or `tmp[i]` is out of range. -/
def Mixer.addSamples {S P : Type} [Point S P] (ct : Nat) (tmp : List P) :
    Nat → Nat → List P → Option (List P)
  | 0, _, samples => some samples
  | fuel + 1, i, samples =>
    match samples.get? i, tmp.get? i with
    | some sample, some t =>
      match Mixer.addChannels sample t ct 0 with
      | none => none
      | some sample1 => Mixer.addSamples ct tmp fuel (i + 1) (samples.set i sample1)
    | _, _ => none

/-- One call `m.streamers[si].Stream(tmp[:toStream])` that `Mixer.Stream` made: the streamer
before and after the call and the `ok` it returned. (A record kept for stating what the
rounds do; it has no influence on the results.) -/
structure MixerCall (P : Type) where
  before : Streamer P
  after : Streamer P
  ok : Bool

/-- The loop `for si := 0; si < len(m.streamers); si++` of one round of `Mixer.Stream`,
from index `si` on. `fuel` bounds the iterations; `len(m.streamers) - si` of it is
enough. Returns `m.streamers`, `samples`, `tmp` after the loop and the calls made.
`tmp[:sn]` faults unless `0 ≤ sn ≤ 512`. On `!sok` the streamer is swapped with the last
one, the slice is cut by one, and `si--` followed by the loop's `si++` leaves `si` as it
is. -/
def Mixer.round {S P : Type} [Point S P] (ct toStream : Nat) :
    Nat → List (Streamer P) → Nat → List P → List P → List (MixerCall P) →
    Option (List (Streamer P) × List P × List P × List (MixerCall P))
  | fuel, streamers, si, samples, tmp, calls =>
    if h : si < streamers.length then
      match fuel with
      | 0 => none
      | fuel + 1 =>
        match (streamers.get ⟨si, h⟩).Stream (tmp.take toStream) with
        | (r, s1) =>
          let tmp1 := r.samples ++ tmp.drop toStream
          if 0 ≤ r.n ∧ r.n ≤ 512 then
            match Mixer.addSamples ct tmp1 r.n.toNat 0 samples with
            | none => none
            | some samples1 =>
              let calls1 := calls ++ [{ before := streamers.get ⟨si, h⟩, after := s1, ok := r.ok }]
              if !r.ok then
                let sj := streamers.length - 1
                let held := streamers.set si s1
                let swapped := (held.set si (held.getD sj s1)).set sj s1
                Mixer.round ct toStream fuel (swapped.take sj) si samples1 tmp1 calls1
              else
                Mixer.round ct toStream fuel (streamers.set si s1) (si + 1) samples1 tmp1 calls1
          else none
    else some (streamers, samples, tmp, calls)

/-- The loop `for len(samples) > 0` of `Mixer.Stream`; `fuel` bounds the rounds and
`len(samples)` of it is enough. `filled` is the part of the caller's slice in front of the
current `samples`. Returns the outcome, the mixer afterwards and the calls of each round. -/
def Mixer.rounds {S P : Type} [Point S P] (ct : Nat) :
    Nat → Mixer P → List P → List P → List P → Int → List (List (MixerCall P)) →
    Option (Pulled P × Mixer P × List (List (MixerCall P)))
  | fuel, m, filled, samples, tmp, n, log =>
    if 0 < samples.length then
      match fuel with
      | 0 => none
      | fuel + 1 =>
        let toStream := if 512 > samples.length then samples.length else 512
        let cleared := List.replicate toStream (Point.zero : P) ++ samples.drop toStream
        match Mixer.round ct toStream m.streamers.length m.streamers 0 cleared tmp [] with
        | none => none
        | some (streamers, samples1, tmp1, calls) =>
          Mixer.rounds ct fuel { streamers := streamers } (filled ++ samples1.take toStream)
            (samples1.drop toStream) tmp1 (n + toStream) (log ++ [calls])
    else some (⟨filled ++ samples, n, true⟩, m, log)

/-- The method `Mixer.Stream`, with the calls made in each round. -/
def Mixer.StreamLog {S P : Type} [Point S P] (m : Mixer P) (samples : List P) :
    Option (Pulled P × Mixer P × List (List (MixerCall P))) :=
  Mixer.rounds (Point.Count (Point.zero : P)) samples.length m [] samples
    (List.replicate 512 (Point.zero : P)) 0 []

/-- The method `Mixer.Stream`. -/
def Mixer.Stream {S P : Type} [Point S P] (m : Mixer P) (samples : List P) :
    Option (Pulled P × Mixer P) :=
  match Mixer.StreamLog m samples with
  | none => none
  | some (r, m1, _) => some (r, m1)

/-- A streamer that breaks the pull contract: it leaves the slice alone and returns
`n = len(samples) + 1`. -/
def overlongStreamer {P : Type} : Streamer P where
  σ := Unit
  st := ()
  streamFn := fun _ samples => (⟨samples, samples.length + 1, true⟩, ())
  errFn := fun _ => false
  len_samples := fun _ _ => rfl

/-- A streamer that, in every state and on every slice, returns a count `n` with
`0 ≤ n ≤ len(samples)`. -/
def Streamer.InRange {P : Type} (s : Streamer P) : Prop :=
  ∀ (x : s.σ) (samples : List P),
    0 ≤ (s.streamFn x samples).1.n ∧ (s.streamFn x samples).1.n ≤ samples.length

/-- The streamers that stay in the mixer after the calls of one round: those whose call
returned `ok`, as they are after the call. -/
def survivors {P : Type} (calls : List (MixerCall P)) : List (Streamer P) :=
  (calls.filter (fun c => c.ok)).map (fun c => c.after)

/-- The number of calls in a list of rounds that returned `ok = false`. -/
def drainedCount {P : Type} (log : List (List (MixerCall P))) : Nat :=
  (log.map (fun calls => (calls.filter (fun c => !c.ok)).length)).sum

/-- The rounds `log` lead from the held streamers `held` to `held1` without pulling a
removed streamer: each round calls, once each, exactly the streamers held when it starts,
and the streamers held after it are exactly those whose call returned `ok`. Order is not
kept, so lists count up to permutation. -/
def MixerRounds {P : Type} : List (Streamer P) → List (List (MixerCall P)) → List (Streamer P) → Prop
  | held, [], held1 => held1.Perm held
  | held, calls :: log, held1 =>
    (calls.map (fun c => c.before)).Perm held ∧ MixerRounds (survivors calls) log held1

/-- A sequence of calls of `Mixer.Stream`: the mixer afterwards and the rounds of all the
calls in order. -/
def Mixer.pullsLog {S P : Type} [Point S P] : Mixer P → List (List P) →
    Option (Mixer P × List (List (MixerCall P)))
  | m, [] => some (m, [])
  | m, b :: bs =>
    match Mixer.StreamLog m b with
    | none => none
    | some (_, m1, log) =>
      match Mixer.pullsLog m1 bs with
      | none => none
      | some (m2, log2) => some (m2, log ++ log2)

/-! ### Floating-point arithmetic -/

/-- The constraint `Size` of `interface.go`: the sample type `S` is `float64` or
`float32`. -/
inductive Size where
  | float64
  | float32
deriving DecidableEq, Repr

/-- The number of bits in the significand of the type. -/
def Size.prec : Size → Nat
  | .float64 => 53
  | .float32 => 24

/-- The exponent of the smallest normal number of the type. -/
def Size.emin : Size → Int
  | .float64 => -1022
  | .float32 => -126

/-- The integer nearest to `t`, the even one of the two when `t` lies half way. -/
def roundHalfEven (t : ℚ) : Int :=
  if t - (⌊t⌋ : ℚ) < 1 / 2 then ⌊t⌋
  else if 1 / 2 < t - (⌊t⌋ : ℚ) then ⌊t⌋ + 1
  else if ⌊t⌋ % 2 = 0 then ⌊t⌋ else ⌊t⌋ + 1

/-- The result of a floating-point operation of type `S` whose exact result is `x`, and of
a conversion of `x` to `S`: the value of the type nearest to `x`, ties to even (IEEE 754,
which Go follows). With `e = floor(log2 |x|)`, not below `emin`, the values of the type
around `x` are the multiples of `2^(e - prec + 1)`. Every operation is rounded on its own:
the one product that the codec adds to, `... * 2 - 1` in `unsignedToFloat`, is a doubling
and exact, so that fusing it with the sum changes nothing. Overflow to infinity is not
part of the model. -/
def Size.round (S : Size) (x : ℚ) : ℚ :=
  if x = 0 then 0
  else
    (roundHalfEven (x / (2 : ℚ) ^ (max (Int.log 2 |x|) S.emin - ((S.prec : Int) - 1))) : ℚ) *
      (2 : ℚ) ^ (max (Int.log 2 |x|) S.emin - ((S.prec : Int) - 1))

/-! ### The sample codec -/

/-- A Go `byte`. -/
abbrev Byte := Fin 256

/-- The type `Format[S, P]`. The type parameter `S` is the field `S`; sample values are
the rationals that the values of that type are, and the operations on them round as
`Size.round` tells. -/
structure Format where
  SampleRate : Int
  NumChannels : Int
  Precision : Int
  S : Size

/-- The method `Format.Width`. -/
def Format.Width (f : Format) : Int := f.NumChannels * f.Precision

/-- The conversion `uint64(q)` of a float: truncation, for `0 ≤ q < 2^64`. (Outside that
range the Go result depends on the implementation; the value here is then arbitrary.) -/
def uint64OfRat (q : ℚ) : Nat := ⌊q⌋₊ % 2 ^ 64

/-- The function `math.Exp2` on the values it is called with, `2^e` for an integer `e`. -/
def exp2 (e : Int) : ℚ := (2 : ℚ) ^ e

/-- The `uint64` expression `1 << uint(k)` for an `int` `k`. -/
def shl1 (k : Int) : Nat := if 0 ≤ k ∧ k < 64 then 2 ^ k.toNat else 0

/-- The conversion `int64(c)` of a `uint64`. -/
def int64OfUint64 (c : Nat) : Int := if c < 2 ^ 63 then (c : Int) else (c : Int) - 2 ^ 64

/-- The function `floatToSigned`. The conversion `float64(x)` is exact; the difference
`math.Exp2(...) - 1` and the product are operations of `float64`. -/
def floatToSigned (precision : Int) (x : ℚ) : Nat :=
  if x < 0 then
    let compl := uint64OfRat
      (Size.float64.round (-x * Size.float64.round (exp2 (precision * 8 - 1) - 1)))
    (shl1 (precision * 8) + 2 ^ 64 - compl) % 2 ^ 64
  else uint64OfRat (Size.float64.round (x * Size.float64.round (exp2 (precision * 8 - 1) - 1)))

/-- The function `floatToUnsigned`. The sum, the quotient, the difference
`math.Exp2(...) - 1` and the product are operations of `float64`. -/
def floatToUnsigned (precision : Int) (x : ℚ) : Nat :=
  uint64OfRat (Size.float64.round
    (Size.float64.round (Size.float64.round (x + 1) / 2) *
      Size.float64.round (exp2 (precision * 8) - 1)))

/-- The function `signedToFloat` for the sample type `S`: the conversions `S(...)` and the
division round to `S`, the difference `math.Exp2(...) - 1` is an operation of `float64`. -/
def signedToFloat (S : Size) (precision : Int) (xUint64 : Nat) : ℚ :=
  if xUint64 ≥ shl1 (precision * 8 - 1) then
    let compl := (shl1 (precision * 8) + 2 ^ 64 - xUint64) % 2 ^ 64;
    S.round (-S.round (Int.cast (int64OfUint64 compl) : ℚ) /
      S.round (Size.float64.round (exp2 (precision * 8 - 1) - 1)))
  else
    S.round (S.round (Int.cast (int64OfUint64 xUint64) : ℚ) /
      S.round (Size.float64.round (exp2 (precision * 8 - 1) - 1)))

/-- The function `unsignedToFloat` for the sample type `S`: the conversions `S(...)`, the
division, the product and the difference round to `S`, the difference
`math.Exp2(...) - 1` is an operation of `float64`. -/
def unsignedToFloat (S : Size) (precision : Int) (xUint64 : Nat) : ℚ :=
  S.round (S.round (S.round (S.round (xUint64 : ℚ) /
    S.round (Size.float64.round (exp2 (precision * 8) - 1))) * 2) - 1)

/-- The function `norm`. -/
def norm (x : ℚ) : ℚ :=
  if x < -1 then -1 else if x > 1 then 1 else x

/-- The bytes written by the loop `p[i] = byte(xUint64); xUint64 >>= 8` in `n` rounds. -/
def bytesLE (xUint64 : Nat) : Nat → List Byte
  | 0 => []
  | n + 1 => Fin.ofNat (xUint64 % 256) :: bytesLE (xUint64 / 256) n

/-- The value built by the loop `xUint64 <<= 8; xUint64 += uint64(p[i])` of `decodeFloat`,
run from the last byte of the list down to the first, in `uint64` arithmetic. -/
def uintLE : List Byte → Nat
  | [] => 0
  | b :: bs => (uintLE bs * 256 % 2 ^ 64 + b.val) % 2 ^ 64

/-- The function `encodeFloat`: the contents of `p` afterwards and the result `n`. It
faults when `p` has fewer than `precision` bytes. -/
def encodeFloat (signed : Bool) (precision : Int) (p : List Byte) (x : ℚ) :
    Option (List Byte × Int) :=
  let xUint64 := if signed then floatToSigned precision x else floatToUnsigned precision x
  if precision.toNat ≤ p.length then
    some (bytesLE xUint64 precision.toNat ++ p.drop precision.toNat, precision)
  else none

/-- The function `decodeFloat` for the sample type `S`. It faults when `p` has fewer than
`precision` bytes. -/
def decodeFloat (S : Size) (signed : Bool) (precision : Int) (p : List Byte) :
    Option (ℚ × Int) :=
  if precision.toNat ≤ p.length then
    let xUint64 := uintLE (p.take precision.toNat)
    if signed then some (signedToFloat S precision xUint64, precision)
    else some (unsignedToFloat S precision xUint64, precision)
  else none

/-- The statements `p = p[encodeFloat(signed, f.Precision, p, x):]` of `Format.encode`
for the values `xs` in turn. `filled` is the part of the caller's slice in front of the
current `p`. Returns `filled` and `p` afterwards. -/
def encodeAll (signed : Bool) (precision : Int) : List ℚ → List Byte → List Byte →
    Option (List Byte × List Byte)
  | [], filled, p => some (filled, p)
  | x :: xs, filled, p =>
    match encodeFloat signed precision p x with
    | none => none
    | some (p1, n) =>
      match sliceFrom p1 n with
      | none => none
      | some rest => encodeAll signed precision xs (filled ++ p1.take n.toNat) rest

/-- The mean `x / S(ct)` of `Format.encode`, with `x` summed up by `x += v` over the
channels: every sum, the conversion `S(ct)` and the quotient round to `S`. -/
def Format.mean (S : Size) (channels : List ℚ) (ct : Nat) : ℚ :=
  S.round (channels.foldl (fun x v => S.round (x + v)) 0 / S.round (ct : ℚ))

/-- The method `Format.encode`: the contents of `p` afterwards and the result, or `none`
on a fault. -/
def Format.encode {P : Type} [Point ℚ P] (f : Format) (signed : Bool) (p : List Byte)
    (sample : P) : Option (List Byte × Int) :=
  if f.NumChannels = 1 then
    let ct := Point.Count sample
    let x : Option ℚ :=
      if ct = 1 then Point.Get sample 0
      else some (norm (Format.mean f.S (Point.Slice sample) ct))
    match x with
    | none => none
    | some x =>
      match encodeAll signed f.Precision [x] [] p with
      | none => none
      | some (filled, rest) => some (filled ++ rest, f.Width)
  else if f.NumChannels ≥ 2 then
    match encodeAll signed f.Precision
        ((Point.Slice sample).map norm ++
          List.replicate (f.NumChannels - (Point.Count sample : Int)).toNat 0) [] p with
    | none => none
    | some (filled, rest) => some (filled ++ rest, f.Width)
  else none

/-- The loop `for c := range sl { x, n := decodeFloat(...); sample = sample.Set(c, x).(P);
p = p[n:] }` of `Format.decode` from index `c` on, with `k` rounds left. -/
def decodeChannels {P : Type} [Point ℚ P] (S : Size) (signed : Bool) (precision : Int) :
    Nat → Nat → P → List Byte → Option (P × List Byte)
  | 0, _, sample, p => some (sample, p)
  | k + 1, c, sample, p =>
    match decodeFloat S signed precision p with
    | none => none
    | some (x, n) =>
      match Point.Set sample c x, sliceFrom p n with
      | some sample1, some rest => decodeChannels S signed precision k (c + 1) sample1 rest
      | _, _ => none

/-- The loop `for c := sample.Count(); c < f.NumChannels; c++ { _, n := decodeFloat(...);
p = p[n:] }` of `Format.decode`, with `k` rounds left. -/
def skipChannels (S : Size) (signed : Bool) (precision : Int) :
    Nat → List Byte → Option (List Byte)
  | 0, p => some p
  | k + 1, p =>
    match decodeFloat S signed precision p with
    | none => none
    | some (_, n) =>
      match sliceFrom p n with
      | none => none
      | some rest => skipChannels S signed precision k rest

/-- The loop `for i := range xx.Slice() { xx = xx.Set(i, x).(P) }` of `Format.decode`
from index `i` on, with `k` rounds left. -/
def setAll {P : Type} [Point ℚ P] (x : ℚ) : Nat → Nat → P → Option P
  | 0, _, xx => some xx
  | k + 1, i, xx =>
    match Point.Set xx i x with
    | none => none
    | some xx1 => setAll x k (i + 1) xx1

/-- The method `Format.decode`: the sample and the result `n`, or `none` on a fault. -/
def Format.decode {P : Type} [Point ℚ P] (f : Format) (signed : Bool) (p : List Byte) :
    Option (P × Int) :=
  if f.NumChannels = 1 then
    match decodeFloat f.S signed f.Precision p with
    | none => none
    | some (x, _) =>
      match setAll x (Point.Slice (Point.zero : P)).length 0 (Point.zero : P) with
      | none => none
      | some xx => some (xx, f.Width)
  else if f.NumChannels ≥ 2 then
    match decodeChannels f.S signed f.Precision (Point.Slice (Point.zero : P)).length 0
        (Point.zero : P) p with
    | none => none
    | some (sample, rest) =>
      match skipChannels f.S signed f.Precision
          (f.NumChannels - (Point.Count sample : Int)).toNat rest with
      | none => none
      | some _ => some (sample, f.Width)
  else none

/-- The method `Format.EncodeSigned`. -/
def Format.EncodeSigned {P : Type} [Point ℚ P] (f : Format) (p : List Byte) (sample : P) :
    Option (List Byte × Int) := f.encode true p sample

/-- The method `Format.EncodeUnsigned`. -/
def Format.EncodeUnsigned {P : Type} [Point ℚ P] (f : Format) (p : List Byte) (sample : P) :
    Option (List Byte × Int) := f.encode false p sample

/-- The method `Format.DecodeSigned`. -/
def Format.DecodeSigned {P : Type} [Point ℚ P] (f : Format) (p : List Byte) :
    Option (P × Int) := f.decode true p

/-- The method `Format.DecodeUnsigned`. -/
def Format.DecodeUnsigned {P : Type} [Point ℚ P] (f : Format) (p : List Byte) :
    Option (P × Int) := f.decode false p

/-- The bound `1 / (2^(8·precision - 1) - 1)` of the round trip. -/
def epsilon (precision : Int) : ℚ := 1 / ((2 : ℚ) ^ (8 * precision - 1) - 1)

/-- The bound of the round trip in the sample type `S`: `epsilon` and the room that the
rounding of the operations takes, 20 units of the last place of 1. -/
def roundTripBound (S : Size) (precision : Int) : ℚ :=
  epsilon precision + 20 / (2 : ℚ) ^ S.prec

/-- The value that `decodeFloat` reads back from the `precision` bytes that `encodeFloat`
wrote for `x`. -/
def readBack (S : Size) (signed : Bool) (precision : Int) (x : ℚ) : ℚ :=
  if signed then signedToFloat S precision (floatToSigned precision x % 256 ^ precision.toNat)
  else unsignedToFloat S precision (floatToUnsigned precision x % 256 ^ precision.toNat)

/-- The integer code `encodeFloat` writes for `x`. -/
def codeOf (signed : Bool) (precision : Int) (x : ℚ) : Nat :=
  if signed then floatToSigned precision x else floatToUnsigned precision x

/-! ### Mix -/

/-- The variables captured by the closure that `Mix` returns: the children `s`. -/
structure MixState (P : Type) where
  s : List (Streamer P)

/-- The constructor `Mix(s...)`. -/
def Mix {P : Type} (s : List (Streamer P)) : MixState P :=
  { s := s }

/-- The statements `samples[i][0] += tmp[i][0]; samples[i][1] += tmp[i][1]` of `Mix` on
the values `sample = samples[i]` and `t = tmp[i]`: `samples[i]` afterwards, or `none` when
an index is out of range for the point type. Reading `t[k]` is `Get` and `p[k] += v` is
what `Add` does to the point. -/
def MixState.addPoint {S P : Type} [Point S P] (sample t : P) : Option P :=
  match Point.Get t 0 with
  | none => none
  | some v0 =>
    match Point.Add sample 0 v0 with
    | none => none
    | some sample1 =>
      match Point.Get t 1 with
      | none => none
      | some v1 => Point.Add sample1 1 v1

/-- The loop `for i := range tmp[:sn]` of `Mix` from index `i` on, with `fuel` the
iterations left, `sn - i`: the contents of `samples` afterwards, or `none` on a fault. -/
def MixState.addSamples {S P : Type} [Point S P] (tmp : List P) :
    Nat → Nat → List P → Option (List P)
  | 0, _, samples => some samples
  | fuel + 1, i, samples =>
    match samples.get? i, tmp.get? i with
    | some sample, some t =>
      match MixState.addPoint sample t with
      | none => none
      | some sample1 => MixState.addSamples tmp fuel (i + 1) (samples.set i sample1)
    | _, _ => none

/-- The loop `for _, st := range s` of one round of `Mix` over the children still to be
called, `todo`; `called` are the children already called in this round, as they are after
their call. Returns the children, `samples`, `tmp`, `snMax` and `ok` after the loop.
`tmp[:sn]` faults unless `0 ≤ sn ≤ 512`. -/
def MixState.round {S P : Type} [Point S P] (toStream : Nat) :
    List (Streamer P) → List (Streamer P) → List P → List P → Int → Bool →
    Option (List (Streamer P) × List P × List P × Int × Bool)
  | [], called, samples, tmp, snMax, ok => some (called, samples, tmp, snMax, ok)
  | st :: todo, called, samples, tmp, snMax, ok =>
    match st.Stream (tmp.take toStream) with
    | (r, st1) =>
      let tmp1 := r.samples ++ tmp.drop toStream
      let snMax1 := if r.n > snMax then r.n else snMax
      if 0 ≤ r.n ∧ r.n ≤ 512 then
        match MixState.addSamples tmp1 r.n.toNat 0 samples with
        | none => none
        | some samples1 =>
          MixState.round toStream todo (called ++ [st1]) samples1 tmp1 snMax1 (ok || r.ok)
      else none

/-- The loop `for len(samples) > 0` of the closure of `Mix`; `fuel` bounds the rounds and
`len(samples)` of it is enough. `filled` is the part of the caller's slice in front of the
current `samples`. -/
def MixState.rounds {S P : Type} [Point S P] :
    Nat → List (Streamer P) → List P → List P → List P → Int → Bool →
    Option (Pulled P × MixState P)
  | fuel, s, filled, samples, tmp, n, ok =>
    if 0 < samples.length then
      match fuel with
      | 0 => none
      | fuel + 1 =>
        let toStream := if 512 > samples.length then samples.length else 512
        let cleared := List.replicate toStream (Point.zero : P) ++ samples.drop toStream
        match MixState.round toStream s [] cleared tmp 0 ok with
        | none => none
        | some (s1, samples1, tmp1, snMax, ok1) =>
          if snMax < 512 then
            some (⟨filled ++ samples1, n + snMax, ok1⟩, { s := s1 })
          else
            match sliceFrom samples1 snMax with
            | none => none
            | some rest =>
              MixState.rounds fuel s1 (filled ++ samples1.take snMax.toNat) rest tmp1
                (n + snMax) ok1
    else some (⟨filled ++ samples, n, ok⟩, { s := s })

/-- The closure that `Mix` returns, called on `samples`. -/
def MixState.Stream {S P : Type} [Point S P] (q : MixState P) (samples : List P) :
    Option (Pulled P × MixState P) :=
  MixState.rounds samples.length q.s [] samples (List.replicate 512 (Point.zero : P)) 0 false

/-! ### Mix of Stereo streams -/

/-- Addition of Stereo points, channel by channel. -/
instance instAddStereo {S : Type} [Add S] : Add (Stereo S) where
  add := fun a b => ⟨a.c0 + b.c0, a.c1 + b.c1⟩

/-- The samples `acc` with the samples `l` added into its front, point by point. -/
def addInto {P : Type} [Add P] : List P → List P → List P
  | a :: as, x :: xs => (a + x) :: addInto as xs
  | as, [] => as
  | [], _ :: _ => []

/-- Output sample `j` of a mix of streams with contents `ds`: the zero point with
`d[j]` added, in the order of the streams, for exactly those contents `d` that have a
sample `j`. -/
def mixAt {S : Type} [Add S] [Zero S] (ds : List (List (Stereo S))) (j : Nat) : Stereo S :=
  ds.foldl (fun acc d => match d.get? j with
    | some v => acc + v
    | none => acc) ⟨0, 0⟩

/-- The greatest length among the contents `ds`. -/
def maxLen {P : Type} (ds : List (List P)) : Nat :=
  ds.foldl (fun m d => max m d.length) 0

/-- The content of a mix of streams with contents `ds`: `maxLen ds` samples, sample `j`
being `mixAt ds j`. -/
def mixContent {S : Type} [Add S] [Zero S] (ds : List (List (Stereo S))) : List (Stereo S) :=
  (List.range (maxLen ds)).map (mixAt ds)

/-- Two sequences of pull outcomes that agree in what the caller may look at: the count,
the flag, the length of the slice and the first `n` samples of it. -/
def SameDelivery {P : Type} (r r1 : Pulled P) : Prop :=
  r.n = r1.n ∧ r.ok = r1.ok ∧ r.samples.length = r1.samples.length ∧
    r.samples.take r.n.toNat = r1.samples.take r1.n.toNat

/-! ### Integer codes -/

/-- The signed code as the specification words it: `round(x · (2^(8p-1) - 1))` for
`x ≥ 0` and `2^(8p) - round(-x · (2^(8p-1) - 1))` for `x < 0`, where `round` rounds to the
nearest integer. -/
def roundedSignedCode (precision : Int) (x : ℚ) : Int :=
  if x < 0 then 2 ^ (8 * precision).toNat - round (-x * ((2 : ℚ) ^ (8 * precision - 1) - 1))
  else round (x * ((2 : ℚ) ^ (8 * precision - 1) - 1))

/-- The signed code with the product, as `float64` holds it, cut to the integer below it
instead of rounded to the nearest integer: `⌊fl(x · (2^(8p-1) - 1))⌋` for `x ≥ 0` and
`2^(8p) - ⌊fl(-x · (2^(8p-1) - 1))⌋` for `x < 0`, where `fl` rounds to `float64`. -/
def truncatedSignedCode (precision : Int) (x : ℚ) : Int :=
  if x < 0 then
    2 ^ (8 * precision).toNat - ⌊Size.float64.round (-x * ((2 : ℚ) ^ (8 * precision - 1) - 1))⌋
  else ⌊Size.float64.round (x * ((2 : ℚ) ^ (8 * precision - 1) - 1))⌋

/-! ### Frames -/

/-- The sample types of the package, `Mono` and `Stereo`, are arrays of one or two
channels: `Slice` lists the channels, `Count` is their number, `Get` reads a channel and
`Set` writes one. -/
class ArrayPoint (P : Type) [Point ℚ P] : Prop where
  count_zero : ∀ p : P, Point.Count p = Point.Count (Point.zero : P)
  count_pos : 1 ≤ Point.Count (Point.zero : P)
  count_le : Point.Count (Point.zero : P) ≤ 2
  length_slice : ∀ p : P, (Point.Slice p).length = Point.Count p
  get_eq : ∀ (p : P) (j : Nat), Point.Get p j = (Point.Slice p).get? j
  set_eq : ∀ (p : P) (j : Nat) (v : ℚ), j < Point.Count p →
    ∃ q : P, Point.Set p j v = some q ∧ Point.Slice q = (Point.Slice p).set j v

instance instArrayMono : ArrayPoint (Mono ℚ) where
  count_zero := fun _ => rfl
  count_pos := le_refl 1
  count_le := by decide
  length_slice := fun _ => rfl
  get_eq := by
    intro p j
    cases j with
    | zero => rfl
    | succ j => rfl
  set_eq := by
    intro p j v hj
    have : j = 0 := by
      have h1 : j < 1 := hj
      omega
    subst this
    exact ⟨⟨v⟩, rfl, rfl⟩

instance instArrayStereo : ArrayPoint (Stereo ℚ) where
  count_zero := fun _ => rfl
  count_pos := by decide
  count_le := le_refl 2
  length_slice := fun _ => rfl
  get_eq := by
    intro p j
    match j with
    | 0 => rfl
    | 1 => rfl
    | j + 2 => rfl
  set_eq := by
    intro p j v hj
    have h1 : j < 2 := hj
    match j with
    | 0 => exact ⟨⟨v, p.c1⟩, rfl, rfl⟩
    | 1 => exact ⟨⟨p.c0, v⟩, rfl, rfl⟩
    | j + 2 => omega

/-- The amplitude that `Format.encode` writes into channel `c` of a frame of two or more
channels: the clamped channel `c` of the sample, or 0 (silence) when the sample has no
channel `c`. -/
def channelValue {P : Type} [Point ℚ P] (sample : P) (c : Nat) : ℚ :=
  if c < Point.Count sample then norm ((Point.Slice sample).getD c 0) else 0

/-! ### Buffer -/

/-- A Go slice of bytes: the window `[off, off + len)` on the backing array `arr`, which
the slice may be extended over up to `off + cap`. -/
structure ByteSlice where
  arr : Nat
  off : Nat
  len : Nat
  cap : Nat
deriving DecidableEq, Repr

/-- The backing arrays allocated so far; a slice names its array by position. -/
abbrev Heap := List (List Byte)

/-- The backing array with identity `a`. -/
def Heap.array (h : Heap) (a : Nat) : List Byte := h.getD a []

/-- The bytes a slice shows, `s[0], ..., s[len(s)-1]`. -/
def ByteSlice.bytes (h : Heap) (s : ByteSlice) : List Byte :=
  ((h.array s.arr).drop s.off).take s.len

/-- The `nil` slice. -/
def ByteSlice.nilSlice : ByteSlice := ⟨0, 0, 0, 0⟩

/-- The slice expression `s[lo:hi]` on a slice. It is in range when
`0 ≤ lo ≤ hi ≤ cap(s)`: the upper bound of a slice expression on a slice is the capacity,
not the length. Out of range is a run-time fault. -/
def ByteSlice.slice (s : ByteSlice) (lo hi : Int) : Option ByteSlice :=
  if 0 ≤ lo ∧ lo ≤ hi ∧ hi ≤ s.cap then
    some ⟨s.arr, s.off + lo.toNat, (hi - lo).toNat, s.cap - lo.toNat⟩
  else none

/-- The slice expression `s[lo:]`, which is `s[lo:len(s)]`. -/
def ByteSlice.sliceFrom (s : ByteSlice) (lo : Int) : Option ByteSlice :=
  s.slice lo s.len

/-- The array `l` with `bs` written over it from index `i` on. -/
def writeAt (l : List Byte) (i : Nat) (bs : List Byte) : List Byte :=
  l.take i ++ bs ++ l.drop (i + bs.length)

/-- Go's builtin `append(s, bs...)`: the heap and the slice afterwards. When the capacity
suffices the bytes are written into the backing array behind the slice; otherwise a new
array is allocated and the old contents are copied. How much room the new array has is the
choice of the run-time system: `grow cap need` is the capacity it chooses when a slice of
capacity `cap` has to hold `need` bytes (at least `need`). -/
def goAppend (grow : Nat → Nat → Nat) (h : Heap) (s : ByteSlice) (bs : List Byte) :
    Heap × ByteSlice :=
  if s.len + bs.length ≤ s.cap then
    (h.set s.arr (writeAt (h.array s.arr) (s.off + s.len) bs),
      ⟨s.arr, s.off, s.len + bs.length, s.cap⟩)
  else
    let c := max (grow s.cap (s.len + bs.length)) (s.len + bs.length)
    (h ++ [s.bytes h ++ bs ++ List.replicate (c - (s.len + bs.length)) 0],
      ⟨h.length, 0, s.len + bs.length, c⟩)

/-- The struct `Buffer`. The scratch slice `tmp` is never handed out, so it is kept by its
contents; `data` is a slice on the heap, shared with the views handed out. -/
structure Buffer where
  f : Format
  data : ByteSlice
  tmp : List Byte

/-- The function `NewBuffer`: `make([]byte, f.Width())` faults on a negative length. -/
def NewBuffer (f : Format) : Option Buffer :=
  if 0 ≤ f.Width then some ⟨f, ByteSlice.nilSlice, List.replicate f.Width.toNat 0⟩ else none

/-- The method `Buffer.Format`. -/
def Buffer.Format (b : Buffer) : Format := b.f

/-- The method `Buffer.Len`: the integer division faults on a zero divisor. -/
def Buffer.Len (b : Buffer) : Option Int :=
  if b.f.Width = 0 then none else some (Int.tdiv b.data.len b.f.Width)

/-- The method `Buffer.Pop`. -/
def Buffer.Pop (b : Buffer) (n : Int) : Option Buffer :=
  match b.data.sliceFrom (n * b.f.Width) with
  | none => none
  | some d => some ⟨b.f, d, b.tmp⟩

/-- The loop `for _, sample := range samples[:n]` of `Buffer.Append`. -/
def Buffer.appendSamples {P : Type} [Point ℚ P] (grow : Nat → Nat → Nat) :
    Heap → Buffer → List P → Option (Heap × Buffer)
  | h, b, [] => some (h, b)
  | h, b, sample :: rest =>
    match b.f.EncodeSigned b.tmp sample with
    | none => none
    | some (tmp1, _) =>
      match goAppend grow h b.data tmp1 with
      | (h1, data1) => Buffer.appendSamples grow h1 ⟨b.f, data1, tmp1⟩ rest

/-- The loop `for { ... }` of `Buffer.Append`, `fuel` bounding its rounds; `samples` is
the array `var samples [512]P` as the previous round left it. -/
def Buffer.appendLoop {P : Type} [Point ℚ P] (grow : Nat → Nat → Nat) :
    Nat → Heap → Buffer → Streamer P → List P → Option (Heap × Buffer × Streamer P)
  | 0, _, _, _, _ => none
  | fuel + 1, h, b, s, samples =>
    match s.Stream samples with
    | (r, s1) =>
      if r.ok = false then some (h, b, s1)
      else
        match sliceTo r.samples r.n with
        | none => none
        | some part =>
          match Buffer.appendSamples grow h b part with
          | none => none
          | some (h1, b1) => Buffer.appendLoop grow fuel h1 b1 s1 r.samples

/-- The method `Buffer.Append`: the heap, the buffer and the streamer afterwards. -/
def Buffer.Append {P : Type} [Point ℚ P] (grow : Nat → Nat → Nat) (fuel : Nat) (h : Heap)
    (b : Buffer) (s : Streamer P) : Option (Heap × Buffer × Streamer P) :=
  Buffer.appendLoop grow fuel h b s (List.replicate 512 (Point.zero : P))

/-- The struct `bufferStreamer`. -/
structure bufferStreamer where
  f : Format
  data : ByteSlice
  pos : Int

/-- The method `Buffer.Streamer`. -/
def Buffer.Streamer (b : Buffer) (from_ to_ : Int) : Option bufferStreamer :=
  match b.data.slice (from_ * b.f.Width) (to_ * b.f.Width) with
  | none => none
  | some d => some ⟨b.f, d, 0⟩

/-- The loop `for i := range samples` of `bufferStreamer.Stream` from index `i` on, with
`k` rounds left: `samples`, `n` and the streamer afterwards. -/
def bufferStreamer.loop {P : Type} [Point ℚ P] (h : Heap) :
    Nat → Nat → bufferStreamer → List P → Int → Option (List P × Int × bufferStreamer)
  | 0, _, bs, samples, n => some (samples, n, bs)
  | k + 1, i, bs, samples, n =>
    if bs.pos ≥ bs.data.len then some (samples, n, bs)
    else
      match bs.data.sliceFrom bs.pos with
      | none => none
      | some rest =>
        match bs.f.DecodeSigned (rest.bytes h) with
        | none => none
        | some (sample, advance) =>
          bufferStreamer.loop h k (i + 1) ⟨bs.f, bs.data, bs.pos + advance⟩
            (samples.set i sample) (n + 1)

/-- The method `bufferStreamer.Stream`. -/
def bufferStreamer.Stream {P : Type} [Point ℚ P] (h : Heap) (bs : bufferStreamer)
    (samples : List P) : Option (Pulled P × bufferStreamer) :=
  if bs.pos ≥ bs.data.len then some (⟨samples, 0, false⟩, bs)
  else
    match bufferStreamer.loop h samples.length 0 bs samples 0 with
    | none => none
    | some (samples1, n, bs1) => some (⟨samples1, n, true⟩, bs1)

/-- The method `bufferStreamer.Err() != nil`. -/
def bufferStreamer.Err (_bs : bufferStreamer) : Bool := false

/-- The method `bufferStreamer.Len`. -/
def bufferStreamer.Len (bs : bufferStreamer) : Option Int :=
  if bs.f.Width = 0 then none else some (Int.tdiv bs.data.len bs.f.Width)

/-- The method `bufferStreamer.Position`. -/
def bufferStreamer.Position (bs : bufferStreamer) : Option Int :=
  if bs.f.Width = 0 then none else some (Int.tdiv bs.pos bs.f.Width)

/-- The method `bufferStreamer.Seek`: whether it returned an error, and the streamer
afterwards. -/
def bufferStreamer.Seek (bs : bufferStreamer) (p : Int) : Option (Bool × bufferStreamer) :=
  if p < 0 then some (true, bs)
  else
    match bs.Len with
    | none => none
    | some l =>
      if l < p then some (true, bs) else some (false, ⟨bs.f, bs.data, p * bs.f.Width⟩)

/-- A slice lies within its backing array. -/
def ByteSlice.Valid (h : Heap) (s : ByteSlice) : Prop :=
  s.len ≤ s.cap ∧ s.off + s.cap ≤ (h.array s.arr).length

/-- The bytes of the slice `v` lie in front of the end of the slice `s` whenever the two
share a backing array (and `v` names an array that exists); a slice without bytes has
nothing to lose. -/
def ByteSlice.Frozen (h : Heap) (s v : ByteSlice) : Prop :=
  v.len = 0 ∨ (v.arr < h.length ∧ (v.arr = s.arr → v.off + v.len ≤ s.off + s.len))

/-- The invariant of a Buffer: `data` lies within its backing array and holds whole
frames, and `tmp` is one frame long. -/
def Buffer.WF (h : Heap) (b : Buffer) : Prop :=
  b.data.Valid h ∧ b.tmp.length = b.f.Width.toNat ∧
    ∃ L : Nat, b.data.len = L * b.f.Width.toNat

/-- Sample `i` of a view: what `DecodeSigned` reads from the bytes of the view from frame
`i` on. -/
def bufferStreamer.sampleAt {P : Type} [Point ℚ P] (h : Heap) (bs : bufferStreamer) (i : Nat) :
    Option P :=
  match bs.data.sliceFrom ((i : Int) * bs.f.Width) with
  | none => none
  | some rest => (bs.f.DecodeSigned (rest.bytes h)).map Prod.fst

/-- The samples of a view, frame by frame. -/
def bufferStreamer.content {P : Type} [Point ℚ P] (h : Heap) (bs : bufferStreamer) : List P :=
  (List.range (bs.data.len / bs.f.Width.toNat)).map
    (fun i => (bufferStreamer.sampleAt h bs i).getD Point.zero)

/-- A view of `L` frames at position `q`: its bytes lie within the backing array and are
`L` whole frames, and `pos` is the start of frame `q ≤ L`. -/
def bufferStreamer.At (h : Heap) (bs : bufferStreamer) (L q : Nat) : Prop :=
  bs.data.Valid h ∧ bs.data.len = L * bs.f.Width.toNat ∧ bs.pos = (q : Int) * bs.f.Width ∧ q ≤ L

/-- The frame `EncodeSigned` writes for a sample, taken from a call on a scratch slice of
`Width()` zero bytes (as `tmp` of a new Buffer is). -/
def Format.frameOf {P : Type} [Point ℚ P] (f : Format) (x : P) : List Byte :=
  match f.EncodeSigned (List.replicate f.Width.toNat 0) x with
  | some (p1, _) => p1
  | none => []

/-- The sample `DecodeSigned(EncodeSigned(x))`: what `DecodeSigned` reads from the frame
that `EncodeSigned` writes for `x`. -/
def Format.recode {P : Type} [Point ℚ P] (f : Format) (x : P) : P :=
  match f.DecodeSigned (f.frameOf x) with
  | some (y, _) => y
  | none => Point.zero

/-- One operation on a Buffer that changes it, `Pop` or `Append`, as a step from the heap
and the buffer before to the heap and the buffer after. -/
inductive Buffer.Step (P : Type) [Point ℚ P] (grow : Nat → Nat → Nat) :
    Heap × Buffer → Heap × Buffer → Prop
  | pop (h : Heap) (b b1 : Buffer) (n : Int) :
      b.Pop n = some b1 → Buffer.Step P grow (h, b) (h, b1)
  | append (h h1 : Heap) (b b1 : Buffer) (fuel : Nat) (s s1 : Beep.Streamer P) :
      Buffer.Append grow fuel h b s = some (h1, b1, s1) → Buffer.Step P grow (h, b) (h1, b1)

/-! ### Ctrl, Silence and the rules of the pull contract -/

/-- The method `take.Err() != nil`. -/
def take.Err {P : Type} (t : take P) : Bool := t.s.Err

/-- The method `loop.Err() != nil`. -/
def loop.Err {P : Type} (l : loop P) : Bool := l.s.Err

/-- The method `dup.Err() != nil` of handle `h`: both `dup` structs hold the same child. -/
def dup.Err {P : Type} (_h : DupHandle) (q : DupState P) : Bool := q.s.Err

/-- The method `StreamerFunc.Err() != nil`: it returns nil whatever the function is. -/
def StreamerFunc.Err : Bool := false

/-- The method `Err() != nil` of the `StreamerFunc` that `Seq` returns. -/
def SeqState.Err {P : Type} (_q : SeqState P) : Bool := StreamerFunc.Err

/-- The method `Err() != nil` of the `StreamerFunc` that `Mix` returns. -/
def MixState.Err {P : Type} (_q : MixState P) : Bool := StreamerFunc.Err

/-- The method `Mixer.Err() != nil`: it returns nil. -/
def Mixer.Err {P : Type} (_m : Mixer P) : Bool := false

/-- The struct `Ctrl`: the wrapped streamer, `none` standing for `nil`, and the flag
`Paused`. Both fields are public and the caller may change them between calls. -/
structure Ctrl (P : Type) where
  Streamer : Option (Beep.Streamer P)
  Paused : Bool

/-- The method `Ctrl.Stream`. -/
def Ctrl.Stream {S P : Type} [Point S P] (c : Ctrl P) (samples : List P) :
    Pulled P × Ctrl P :=
  match c.Streamer with
  | none => (⟨samples, 0, false⟩, c)
  | some s =>
    if c.Paused then (⟨samples.map (fun _ => (Point.zero : P)), samples.length, true⟩, c)
    else ((s.Stream samples).1, { Streamer := some (s.Stream samples).2, Paused := c.Paused })

/-- The method `Ctrl.Err() != nil`. -/
def Ctrl.Err {P : Type} (c : Ctrl P) : Bool :=
  match c.Streamer with
  | none => false
  | some s => s.Err

/-- The closure that `Silence(num)` returns, on the captured variable `num`: the outcome
and `num` afterwards. -/
def Silence.streamFn {S P : Type} [Point S P] (num : Int) (samples : List P) :
    Pulled P × Int :=
  if num = 0 then (⟨samples, 0, false⟩, num)
  else
    let k : Nat := if 0 < num ∧ num < samples.length then num.toNat else samples.length
    (⟨List.replicate k (Point.zero : P) ++ samples.drop k, k, true⟩,
      if num > 0 then num - k else num)

/-- The function `Silence`. -/
def Silence {S P : Type} [Point S P] (num : Int) : Streamer P where
  σ := Int
  st := num
  streamFn := Silence.streamFn
  errFn := fun _ => false
  len_samples := by
    intro x samples
    unfold Silence.streamFn
    split
    · rfl
    · simp only [List.length_append, List.length_replicate, List.length_drop]
      split <;> omega

/-- A test streamer that fails when its data runs out (as a decoder does on a truncated
file): it streams `data` from position `pos` as `dataStreamer` does, and `Err` is non-nil
from the moment the data is used up, when `Stream` returns 0 and false for good. -/
def truncatedStreamer {P : Type} (data : List P) (pos : Nat) : Streamer P where
  σ := List P × Nat
  st := (data, pos)
  streamFn := dataStreamer.streamFn
  errFn := fun x => decide (x.2 ≥ x.1.length)
  len_samples := (dataStreamer data pos).len_samples

/-- A test seeker that cannot seek: it streams `data` from position `pos` as
`dataStreamer` does, and `Seek` returns an error and leaves the position unchanged. -/
def unseekableStreamer {P : Type} (data : List P) (pos : Nat) : StreamSeeker P where
  σ := List P × Nat
  st := (data, pos)
  streamFn := dataStreamer.streamFn
  errFn := fun _ => false
  len_samples := (dataStreamer data pos).len_samples
  lenFn := fun x => x.1.length
  posFn := fun x => x.2
  seekFn := fun x _ => (true, x)

/-- Return pattern 1 of `Stream`: `n == len(samples) && ok`. -/
def Pulled.Full {P : Type} (r : Pulled P) : Prop :=
  r.n = (r.samples.length : Int) ∧ r.ok = true

/-- Return pattern 2 of `Stream`: `0 < n && n < len(samples) && ok`. -/
def Pulled.Short {P : Type} (r : Pulled P) : Prop :=
  0 < r.n ∧ r.n < (r.samples.length : Int) ∧ r.ok = true

/-- Return pattern 3 of `Stream`: `n == 0 && !ok`. -/
def Pulled.Drained {P : Type} (r : Pulled P) : Prop :=
  r.n = 0 ∧ r.ok = false

/-- A sequence of outcomes that the documentation of `Stream` allows: every outcome is
one of the three return patterns, after pattern 1 any of them may follow, and after
pattern 2 or 3 only pattern 3 follows. -/
def Legal {P : Type} : List (Pulled P) → Prop
  | [] => True
  | r :: rs => (r.Full ∧ Legal rs) ∨ ((r.Short ∨ r.Drained) ∧ ∀ x ∈ rs, x.Drained)

/-- A streamer that obeys the pull contract: on every sequence of calls with non-empty
slices its outcomes are a legal sequence. -/
def Streamer.Obeys {P : Type} (s : Streamer P) : Prop :=
  ∀ bufs : List (List P), (∀ b ∈ bufs, b ≠ []) → Legal (trace Streamer.Stream s bufs)

/-- A streamer that is drained: every call with a non-empty slice returns 0 and false. -/
def Streamer.Dead {P : Type} (s : Streamer P) : Prop :=
  ∀ bufs : List (List P), (∀ b ∈ bufs, b ≠ []) → ∀ x ∈ trace Streamer.Stream s bufs, x.Drained

/-- A streamer that stays drained on every request: every call, also one with an empty
slice, returns 0 and false. -/
def Streamer.Faulted {P : Type} (s : Streamer P) : Prop :=
  ∀ bufs : List (List P), ∀ x ∈ trace Streamer.Stream s bufs, x.Drained

/-- The rule of `Err` for a streamer: whenever, after any calls, `Err` is non-nil, every
call from then on returns 0 and false. -/
def Streamer.ErrDrains {P : Type} (s : Streamer P) : Prop :=
  ∀ pre : List (List P), (after Streamer.Stream s pre).Err = true →
    (after Streamer.Stream s pre).Faulted

/-! ### The pull contract kept by Take, Seq, Mix and Dup -/

/-- A point type to which `Mix` can add: the statements `samples[i][0] += tmp[i][0]` and
`samples[i][1] += tmp[i][1]` do not fault on it (as they do on `Mono`). -/
def MixState.Adds (P : Type) {S : Type} [Point S P] : Prop :=
  ∀ a t : P, ∃ c : P, MixState.addPoint a t = some c

/-- The outcomes of handle `h` in a serialized sequence of outcomes on the two handles. -/
def outcomesOf {P : Type} (h : DupHandle) (rs : List (DupHandle × Pulled P)) : List (Pulled P) :=
  (rs.filter (fun x => decide (x.1 = h))).map (fun x => x.2)

/-! ### Sample rates and durations -/

/-- The value of an integer expression in the type `int64` (and `int` on a 64-bit
platform): arithmetic wraps around modulo `2^64`. -/
def wrapInt64 (x : Int) : Int := (x + 2 ^ 63) % 2 ^ 64 - 2 ^ 63

/-- The constant `time.Second`, in nanoseconds. -/
def Second : Int := 1000000000

/-- The method `SampleRate.D`: `time.Second * time.Duration(n) / time.Duration(sr)`, in
nanoseconds. Integer division truncates and faults on a zero divisor. -/
def SampleRate.D (sr n : Int) : Option Int :=
  if sr = 0 then none else some (wrapInt64 (Int.tdiv (wrapInt64 (Second * n)) sr))

/-- The method `SampleRate.N`: `int(d * time.Duration(sr) / time.Second)`. -/
def SampleRate.N (sr d : Int) : Int :=
  wrapInt64 (Int.tdiv (wrapInt64 (d * sr)) Second)

/-! ### Frames of the codec, requests of Take, and the end of a Loop call -/

/-- The slice `samples[:toStream]` that `take.Stream` hands to the child's `Stream`, and
`none` when it returns before calling the child. -/
def take.request {P : Type} (t : take P) (samples : List P) : Option (List P) :=
  if t.remains ≤ 0 then none
  else
    let toStream : Int := if (samples.length : Int) < t.remains then samples.length else t.remains
    some (samples.take toStream.toNat)

/-- A finite contract-obeying seekable stream with content `d`, of which `r` is left to
stream: some invariant on its states holds now for `r` and is kept by `Stream` (on a
non-empty slice), which returns what the pull contract prescribes for the content left;
a `Seek(0)` that returns nil makes all of `d` the content left, and one that returns an
error leaves the position unchanged. Nothing is asked of `Err`. -/
def StreamSeeker.Rewinds {P : Type} (s : StreamSeeker P) (d r : List P) : Prop :=
  ∃ R : s.σ → List P → Prop, R s.st r ∧ ∀ x y, R x y →
    (∀ b : List P, b ≠ [] → (s.streamFn x b).1 = (refPull y b).1 ∧
      R (s.streamFn x b).2 (refPull y b).2) ∧
    ((s.seekFn x 0).1 = false → R (s.seekFn x 0).2 d) ∧
    ((s.seekFn x 0).1 = true → R (s.seekFn x 0).2 y)

/-- How often the loop of `loop.Stream` sees the child drained (the branch `if !sok`) in
one call: `loop.body` with a counter in place of the results. -/
def loop.bodyDrains {P : Type} : Nat → StreamSeeker P → Int → List P → Option Nat
  | fuel, s, remains, samples =>
    if 0 < samples.length then
      match fuel with
      | 0 => none
      | fuel + 1 =>
        let r := s.Stream samples
        if !r.1.ok then
          let remains1 := if remains > 0 then remains - 1 else remains
          if remains1 = 0 then some 1
          else
            let e := r.2.Seek 0
            if e.1 then some 1
            else (loop.bodyDrains fuel e.2 remains1 r.1.samples).map (fun k => k + 1)
        else
          match sliceFrom r.1.samples r.1.n with
          | none => none
          | some rest => loop.bodyDrains fuel r.2 remains rest
    else some 0

/-- How often one call of `loop.Stream` sees the child drained. -/
def loop.drains {P : Type} (fuel : Nat) (l : loop P) (samples : List P) : Option Nat :=
  if l.remains = 0 ∨ l.s.Err = true then some 0
  else loop.bodyDrains fuel l.s l.remains samples

/-! ### One round of the Mixer -/

/-- The call `c` was a call of `Stream` on a slice of `size` slots: `after` and `ok` are
what that call left and returned. -/
def MixerCall.OfSize {P : Type} (c : MixerCall P) (size : Nat) : Prop :=
  ∃ req : List P, req.length = size ∧ c.after = (c.before.Stream req).2 ∧
    c.ok = (c.before.Stream req).1.ok

/-! ### The queues of Dup -/

/-- The samples that a call of `dup.Stream` on handle `h` takes from the shared child,
`samples[:sn]`, which it appends to the queue of the other handle; `none` when the call
does not call the child. -/
def dup.fetched {P : Type} (h : DupHandle) (q : DupState P) (samples : List P) :
    Option (List P) :=
  let buf := q.myBuf h
  let c := copy samples buf
  let rest := c.1.drop c.2
  if 0 < rest.length then sliceTo (q.s.Stream rest).1.samples (q.s.Stream rest).1.n
  else none

/-- A serialized sequence of calls on the two handles: the outcome of each call, the
samples each call took from the shared child (nothing when it did not call the child) in
the order they were taken, and the state afterwards; `none` when a call faults. -/
def dupRun {P : Type} : DupState P → List (DupHandle × List P) →
    Option (List (DupHandle × Pulled P) × List (DupHandle × List P) × DupState P)
  | q, [] => some ([], [], q)
  | q, (h, b) :: calls =>
    match dup.Stream h q b with
    | none => none
    | some r =>
      match dupRun r.2 calls with
      | none => none
      | some (rs, f, q2) => some ((h, r.1) :: rs, (h, (dup.fetched h q b).getD []) :: f, q2)

/-- All the samples taken from the shared child, in the order they were taken. -/
def fetchedAll {P : Type} (f : List (DupHandle × List P)) : List P :=
  (f.map (fun x => x.2)).flatten

/-- The samples taken from the shared child by the calls on handle `h`. -/
def fetchedBy {P : Type} (h : DupHandle) (f : List (DupHandle × List P)) : List P :=
  fetchedAll (f.filter (fun x => decide (x.1 = h)))

/-! ### Iterate -/

/-- The variables captured by the closure that `Iterate` returns. The generator `g` is
given by what its calls return in order: `g i` is what call number `i` (counted from 0)
returns, `none` being nil; `calls` counts the calls of `g` made so far. `s` is the current
streamer (`none` is nil) and `first` the flag of the same name. -/
structure IterState (P : Type) where
  g : Nat → Option (Streamer P)
  calls : Nat
  s : Option (Streamer P)
  first : Bool

/-- The constructor `Iterate(g)`. -/
def Iterate {P : Type} (g : Nat → Option (Streamer P)) : IterState P :=
  { g := g, calls := 0, s := none, first := true }

/-- The assignment `s = g()`. -/
def IterState.callG {P : Type} (q : IterState P) : IterState P :=
  { q with s := q.g q.calls, calls := q.calls + 1 }

/-- The `for len(samples) > 0` loop of the closure of `Iterate`. `filled` is the part of
the caller's slice in front of the current `samples`. -/
def IterState.loop {P : Type} : Nat → IterState P → List P → List P → Int →
    Option (Pulled P × IterState P)
  | fuel, q, filled, samples, n =>
    if 0 < samples.length then
      match q.s with
      | none => some (⟨filled ++ samples, n, true⟩, q)
      | some s =>
        match fuel with
        | 0 => none
        | fuel + 1 =>
          let r := s.Stream samples
          let q1 := if !r.1.ok then q.callG else { q with s := some r.2 }
          match sliceFrom r.1.samples r.1.n with
          | none => none
          | some rest =>
            IterState.loop fuel q1 (filled ++ r.1.samples.take r.1.n.toNat) rest (n + r.1.n)
    else some (⟨filled ++ samples, n, true⟩, q)

/-- The closure that `Iterate` returns, called on `samples`. -/
def IterState.Stream {P : Type} (fuel : Nat) (q : IterState P) (samples : List P) :
    Option (Pulled P × IterState P) :=
  let q1 := if q.first then { q.callG with first := false } else q
  match q1.s with
  | none => some (⟨samples, 0, false⟩, q1)
  | some _ => IterState.loop fuel q1 [] samples 0

/-- A sequence of pulls on the closure of `Iterate`: the outcomes and the state afterwards;
`none` when a pull faults or runs out of fuel. -/
def iterRun {P : Type} (fuel : Nat) : IterState P → List (List P) →
    Option (List (Pulled P) × IterState P)
  | q, [] => some ([], q)
  | q, b :: bs =>
    match IterState.Stream fuel q b with
    | none => none
    | some r =>
      match iterRun fuel r.2 bs with
      | none => none
      | some (rs, q2) => some (r.1 :: rs, q2)

/-- From call number `c` on, the generator `g` returns the streamers `ss` one after the
other and then nil. -/
def Yields {P : Type} (g : Nat → Option (Streamer P)) : Nat → List (Streamer P) → Prop
  | c, [] => g c = none
  | c, s :: ss => g c = some s ∧ Yields g (c + 1) ss

/-- What is left to stream in an `Iterate` over a generator that returns `k` streamers and
then nil: either `g` has returned nil, or the current streamer and the streamers `g` has
still to return hold `y`, or no pull has been made yet. `live` tells that the next pull
will not find `s` nil. -/
def IterState.Left {P : Type} (q : IterState P) (k : Nat) (y : List P) (live : Bool) : Prop :=
  (q.first = false ∧ q.s = none ∧ y = [] ∧ live = false ∧ q.calls = k + 1) ∨
  (q.first = false ∧ 1 ≤ q.calls ∧ live = true ∧
    ∃ (s : Streamer P) (d : List P) (ss : List (Streamer P)) (ds : List (List P)),
      q.s = some s ∧ s.HasContent d ∧ List.Forall₂ Streamer.HasContent ss ds ∧
      Yields q.g q.calls ss ∧ y = d ++ ds.flatten ∧ q.calls + ss.length = k) ∨
  (q.first = true ∧ q.calls = 0 ∧
    ∃ (ss : List (Streamer P)) (ds : List (List P)),
      List.Forall₂ Streamer.HasContent ss ds ∧ Yields q.g 0 ss ∧ y = ds.flatten ∧
      ss.length = k ∧ live = !ss.isEmpty)

/-! ### Tone generators -/

/-- The fractional part that `math.Modf` returns: `x` less its integer part, which is `x`
cut toward zero. -/
def modfFrac (x : ℚ) : ℚ :=
  x - (if 0 ≤ x then (⌊x⌋ : ℚ) else (⌈x⌉ : ℚ))

/-- The loop `for i := range samples` that the generators share: each slot gets the value
`value g.t` by `samples[i][0] = v; samples[i][1] = v`, then `g.t` steps by `g.dt` through
`math.Modf`. The result is the slots written and `g.t` afterwards, or `none` when an index
is out of range for the point type. -/
def toneLoop {P : Type} [Point ℚ P] (value : ℚ → ℚ) (dt : ℚ) : ℚ → List P → Option (List P × ℚ)
  | t, [] => some ([], t)
  | t, sample :: rest =>
    match Point.Set sample 0 (value t) with
    | none => none
    | some p0 =>
      match Point.Set p0 1 (value t) with
      | none => none
      | some p1 =>
        match toneLoop value dt (modfFrac (t + dt)) rest with
        | none => none
        | some r => some (p1 :: r.1, r.2)

/-- The struct `sineGenerator`. -/
structure sineGenerator where
  dt : ℚ
  t : ℚ

/-- The function `SineTone`; `none` is the return `nil, errors.New(...)`. -/
def SineTone (sr : Int) (freq : ℚ) : Option sineGenerator :=
  let dt := freq / (sr : ℚ)
  if dt ≥ 1 / 2 then none else some ⟨dt, 0⟩

/-- The method `sineGenerator.Stream`, with `sin t` standing for
`S(math.Sin(t * 2.0 * math.Pi))`. -/
def sineGenerator.Stream {P : Type} [Point ℚ P] (sin : ℚ → ℚ) (g : sineGenerator)
    (samples : List P) : Option (Pulled P × sineGenerator) :=
  match toneLoop sin g.dt g.t samples with
  | none => none
  | some r => some (⟨r.1, samples.length, true⟩, { g with t := r.2 })

/-- The method `sineGenerator.Err() != nil`. -/
def sineGenerator.Err (_g : sineGenerator) : Bool := false

/-- The struct `squareGenerator`. -/
structure squareGenerator where
  dt : ℚ
  t : ℚ

/-- The function `SquareTone`; `none` is the return `nil, errors.New(...)`. -/
def SquareTone (sr : Int) (freq : ℚ) : Option squareGenerator :=
  let dt := freq / (sr : ℚ)
  if dt ≥ 1 / 2 then none else some ⟨dt, 0⟩

/-- The method `squareGenerator.Stream`: both channels get 1 when `g.t < 0.5` and -1
otherwise. -/
def squareGenerator.Stream {P : Type} [Point ℚ P] (g : squareGenerator) (samples : List P) :
    Option (Pulled P × squareGenerator) :=
  match toneLoop (fun t => if t < 1 / 2 then 1 else -1) g.dt g.t samples with
  | none => none
  | some r => some (⟨r.1, samples.length, true⟩, { g with t := r.2 })

/-- The method `squareGenerator.Err() != nil`. -/
def squareGenerator.Err (_g : squareGenerator) : Bool := false

/-- The struct `sawGenerator`. -/
structure sawGenerator where
  dt : ℚ
  t : ℚ
  reverse : Bool

/-- The function `SawtoothTone`; `none` is the return `nil, errors.New(...)`. -/
def SawtoothTone (sr : Int) (freq : ℚ) : Option sawGenerator :=
  let dt := freq / (sr : ℚ)
  if dt ≥ 1 / 2 then none else some ⟨dt, 0, false⟩

/-- The function `SawtoothToneReversed`; `none` is the return `nil, errors.New(...)`. -/
def SawtoothToneReversed (sr : Int) (freq : ℚ) : Option sawGenerator :=
  let dt := freq / (sr : ℚ)
  if dt ≥ 1 / 2 then none else some ⟨dt, 0, true⟩

/-- The method `sawGenerator.Stream`. -/
def sawGenerator.Stream {P : Type} [Point ℚ P] (g : sawGenerator) (samples : List P) :
    Option (Pulled P × sawGenerator) :=
  match (if g.reverse then toneLoop (fun t => 2 * (1 - t) - 1) g.dt g.t samples
      else toneLoop (fun t => 2 * t - 1) g.dt g.t samples) with
  | none => none
  | some r => some (⟨r.1, samples.length, true⟩, { g with t := r.2 })

/-- The method `sawGenerator.Err() != nil`. -/
def sawGenerator.Err (_g : sawGenerator) : Bool := false

/-! ### The reference resampling -/

/-- The struct `point` of `resample_test.go`. -/
structure point where
  X : ℚ
  Y : ℚ

/-- The inner loop `for m := range pts` of `lagrange` from index `m` on, over the points
`rest` still to visit: `l` after the loop. `pj` is `pts[j]`. -/
def lagrange.term (pj : point) (j : Nat) (x : ℚ) : Nat → List point → ℚ → ℚ
  | _, [], l => l
  | m, pm :: rest, l =>
    lagrange.term pj j x (m + 1) rest (if j = m then l else l * ((x - pm.X) / (pj.X - pm.X)))

/-- The outer loop `for j := range pts` of `lagrange` from index `j` on, over the points
`rest` still to visit: `y` after the loop. -/
def lagrange.sum (pts : List point) (x : ℚ) : Nat → List point → ℚ → ℚ
  | _, [], y => y
  | j, pj :: rest, y =>
    lagrange.sum pts x (j + 1) rest (y + pj.Y * lagrange.term pj j x 0 pts 1)

/-- The function `lagrange` of `resample_test.go`. -/
def lagrange (pts : List point) (x : ℚ) : ℚ :=
  lagrange.sum pts x 0 pts 0

/-- The conversion `int(j)` of a floating-point number: it cuts toward zero. -/
def truncInt (j : ℚ) : Int :=
  if 0 ≤ j then ⌊j⌋ else ⌈j⌉

/-- The body of the loop `for k := range pts` of `resampleCorrect`: the value assigned to
`pts[k]` for channel `c`, with `fl` standing for `int(j)` and `len` for `len(pts)`; `none`
when `Get` faults. -/
def resampleCorrect.node {P : Type} [Point ℚ P] (p : List P) (c : Nat) (fl : Int) (len : Nat)
    (k : Nat) : Option point :=
  let l : Int := fl + (k : Int) - ((len / 2 : Nat) : Int) + 1
  if 0 ≤ l ∧ l < (p.length : Int) then
    match p.get? l.toNat with
    | none => none
    | some pl =>
      match Point.Get pl c with
      | none => none
      | some y => some ⟨(l : ℚ), y⟩
  else some ⟨(l : ℚ), 0⟩

/-- The loop `for k := range pts` of `resampleCorrect` from index `k` on, with `cnt` the
iterations left: the points assigned. -/
def resampleCorrect.points {P : Type} [Point ℚ P] (p : List P) (c : Nat) (fl : Int) (len : Nat) :
    Nat → Nat → Option (List point)
  | _, 0 => some []
  | k, cnt + 1 =>
    match resampleCorrect.node p c fl len k with
    | none => none
    | some pt =>
      match resampleCorrect.points p c fl len (k + 1) cnt with
      | none => none
      | some rest => some (pt :: rest)

/-- The loop `for c := range sl` of `resampleCorrect` from channel `c` on, with `cnt` the
iterations left: `sample` after the loop, or `none` on a fault. -/
def resampleCorrect.channels {P : Type} [Point ℚ P] (p : List P) (j : ℚ) (len : Nat) :
    Nat → Nat → P → Option P
  | _, 0, sample => some sample
  | c, cnt + 1, sample =>
    match resampleCorrect.points p c (truncInt j) len 0 len with
    | none => none
    | some pts =>
      match Point.Set sample c (lagrange pts j) with
      | none => none
      | some sample1 => resampleCorrect.channels p j len (c + 1) cnt sample1

/-- The loop `for i := 0; ; i++` of `resampleCorrect` from index `i` on: the samples
appended to `resampled`; `none` on a fault or when the fuel runs out. -/
def resampleCorrect.loop {P : Type} [Point ℚ P] (ratio : ℚ) (len : Nat) (p : List P) :
    Nat → Nat → Option (List P)
  | 0, _ => none
  | fuel + 1, i =>
    let j : ℚ := (i : ℚ) * ratio
    if truncInt j ≥ (p.length : Int) then some []
    else
      match resampleCorrect.channels p j len 0 (Point.Slice (Point.zero : P)).length
          (Point.zero : P) with
      | none => none
      | some sample =>
        match resampleCorrect.loop ratio len p fuel (i + 1) with
        | none => none
        | some rest => some (sample :: rest)

/-- The function `resampleCorrect` of `resample_test.go`; `make` faults on a negative
length. -/
def resampleCorrect {P : Type} [Point ℚ P] (fuel : Nat) (quality : Int) (old new : Int)
    (p : List P) : Option (List P) :=
  if quality * 2 < 0 then none
  else resampleCorrect.loop ((old : ℚ) / (new : ℚ)) (quality * 2).toNat p fuel 0

/-! ### Resample -/

/-- Modelled from the spec: the source that `Resample` of resample.go (which is not under
src/) interpolates. §4.6 has the window zero-filled at positions before the start or past
the end of the source: the value of channel `c` of source sample `l`, and 0 outside. -/
def Resample.source {P : Type} [Point ℚ P] (p : List P) (c : Nat) (l : Int) : ℚ :=
  if 0 ≤ l ∧ l < (p.length : Int) then
    ((p.get? l.toNat).bind (fun pl => Point.Get pl c)).getD 0
  else 0

/-- Modelled from the spec: the interpolation of `Resample` of resample.go, which is not
under src/. §4.6: the Lagrange polynomial interpolant through the `n` points `(X k, Y k)`
evaluated at `x`. -/
def Resample.interpolant (n : Nat) (X Y : Nat → ℚ) (x : ℚ) : ℚ :=
  ∑ k ∈ Finset.range n, Y k * ∏ m ∈ (Finset.range n).erase k, (x - X m) / (X k - X m)

/-- Modelled from the spec: the channel values of `Resample` of resample.go, which is not
under src/. §4.6: the value of channel `c` of the output at the fractional source position
`pos` is the Lagrange interpolant through the `2q` window points, the source samples at
the indices `floor(pos) - q + 1` to `floor(pos) + q`, evaluated at `pos`. -/
def Resample.value {P : Type} [Point ℚ P] (q : Nat) (p : List P) (c : Nat) (pos : ℚ) : ℚ :=
  Resample.interpolant (2 * q)
    (fun k => ((⌊pos⌋ - (q : Int) + 1 + (k : Int) : Int) : ℚ))
    (fun k => Resample.source p c (⌊pos⌋ - (q : Int) + 1 + (k : Int))) pos

/-- Modelled from the spec: the output sample of `Resample` of resample.go, which is not
under src/, at the position `pos`: the channels from `c` on, `cnt` of them, are set to
their values. -/
def Resample.fill {P : Type} [Point ℚ P] (q : Nat) (p : List P) (pos : ℚ) :
    Nat → Nat → P → Option P
  | _, 0, sample => some sample
  | c, cnt + 1, sample =>
    match Point.Set sample c (Resample.value q p c pos) with
    | none => none
    | some sample1 => Resample.fill q p pos (c + 1) cnt sample1

/-- Modelled from the spec: the samples that draining `Resample` of resample.go, which is
not under src/, yields from the position `pos` on, over a child with content `p`. §4.6: the
position is tracked incrementally, each output moves it by the ratio; an output is emitted
as long as `floor(pos)` is a position of the source. -/
def Resample.drain {P : Type} [Point ℚ P] (q : Nat) (ratio : ℚ) (p : List P) :
    Nat → ℚ → Option (List P)
  | 0, _ => none
  | fuel + 1, pos =>
    if ⌊pos⌋ ≥ (p.length : Int) then some []
    else
      match Resample.fill q p pos 0 (Point.Count (Point.zero : P)) (Point.zero : P) with
      | none => none
      | some sample =>
        match Resample.drain q ratio p fuel (pos + ratio) with
        | none => none
        | some rest => some (sample :: rest)

/-- Modelled from the spec: the function `Resample(quality, old, new, s)` of resample.go,
which is not under src/, by the samples that draining it yields over a child `s` with
content `p`. §4.6: the ratio is `old / new` source samples per output sample and the
position starts at 0. -/
def Resample {P : Type} [Point ℚ P] (fuel : Nat) (quality : Nat) (old new : Int) (p : List P) :
    Option (List P) :=
  Resample.drain quality ((old : ℚ) / (new : ℚ)) p fuel 0

/-! ## Theorems -/

theorem Streamer.HasContent.step {P : Type} {s : Streamer P} {d : List P} (h : s.HasContent d)
    {b : List P} (hb : b ≠ []) :
    (s.Stream b).1 = (refPull d b).1 ∧ (s.Stream b).2.HasContent (refPull d b).2 := by
  constructor
  · have := h [b] (by simpa using hb)
    simpa [trace, refTrace] using this
  · intro bufs hbufs
    have := h (b :: bufs) (by
      intro x hx
      rcases List.mem_cons.1 hx with rfl | hx
      · exact hb
      · exact hbufs x hx)
    simp only [trace, refTrace, List.cons.injEq] at this
    exact this.2

/-! ### Take -/

theorem refPull_nil {P : Type} (b : List P) : refPull ([] : List P) b = (⟨b, 0, false⟩, []) := by
  simp [refPull]

theorem refTrace_nil {P : Type} (bufs : List (List P)) :
    refTrace ([] : List P) bufs = bufs.map (fun b => ⟨b, 0, false⟩) := by
  induction bufs with
  | nil => rfl
  | cons b bs ih => simp [refTrace, refPull_nil, ih]

theorem refPull_of_le {P : Type} {d b : List P} (h : d.length ≤ b.length) :
    refPull d b = (⟨d ++ b.drop d.length, d.length, !d.isEmpty⟩, []) := by
  simp [refPull, List.take_of_length_le h, List.drop_eq_nil_of_le h, min_eq_right h]

theorem refPull_of_ge {P : Type} {d b : List P} (h : b.length ≤ d.length) :
    refPull d b = (⟨d.take b.length, b.length, !d.isEmpty⟩, d.drop b.length) := by
  simp [refPull, List.drop_eq_nil_of_le h, min_eq_left h]

theorem drop_take_append_drop {α : Type} (b : List α) {n t : Nat} (hnt : n ≤ t) :
    (b.take t).drop n ++ b.drop t = b.drop n := by
  conv_rhs => rw [← List.take_append_drop t b]
  by_cases ht : t ≤ b.length
  · rw [List.drop_append_of_le_length (by simpa [List.length_take, min_eq_left ht] using hnt)]
  · have h1 : b.take t = b := List.take_of_length_le (by omega)
    have h2 : b.drop t = [] := List.drop_eq_nil_of_le (by omega)
    simp [h1, h2]

theorem take_trace {P : Type} (bufs : List (List P)) (hne : ∀ b ∈ bufs, b ≠ []) :
    ∀ (k : Int) (s : Streamer P) (d : List P), s.HasContent d →
      trace take.Stream { s := s, remains := k } bufs = refTrace (d.take k.toNat) bufs := by
  induction bufs with
  | nil => intros; rfl
  | cons b bs ih =>
    intro k s d h
    have hb : b ≠ [] := hne b (List.mem_cons_self _ _)
    have hbs : ∀ x ∈ bs, x ≠ [] := fun x hx => hne x (List.mem_cons_of_mem _ hx)
    have hlen : 0 < b.length := List.length_pos.2 hb
    by_cases hk : k ≤ 0
    · have hk0 : k.toNat = 0 := by omega
      simp only [trace, refTrace, take.Stream, hk, if_true, hk0, List.take_zero, refPull_nil]
      have := ih hbs k s d h
      rw [hk0] at this
      simpa using this
    · obtain ⟨kn, rfl⟩ : ∃ kn : Nat, k = kn := ⟨k.toNat, (Int.toNat_of_nonneg (by omega)).symm⟩
      have hkn : 0 < kn := by omega
      obtain ⟨t, ht, htk⟩ : ∃ t : Nat, (if (b.length : Int) < (kn : Int) then (b.length : Int) else kn) = (t : Int)
          ∧ t ≤ b.length ∧ t ≤ kn ∧ (t = b.length ∨ t = kn) := by
        by_cases hbk : (b.length : Int) < kn
        · exact ⟨b.length, by rw [if_pos hbk], by omega⟩
        · exact ⟨kn, by rw [if_neg hbk], by omega⟩
      have hbt : b.take t ≠ [] := by
        intro h0
        have := congrArg List.length h0
        simp only [List.length_take, List.length_nil] at this
        omega
      obtain ⟨h1, h2⟩ := h.step hbt
      have hstep : take.Stream { s := s, remains := kn } b =
          (⟨(s.Stream (b.take t)).1.samples ++ b.drop t,
            (s.Stream (b.take t)).1.n, (s.Stream (b.take t)).1.ok⟩,
            { s := (s.Stream (b.take t)).2,
              remains := kn - (s.Stream (b.take t)).1.n }) := by
        simp only [take.Stream, hk, if_false, ht, Int.toNat_ofNat]
      have hlt : (b.take t).length = t := by
        rw [List.length_take]; exact min_eq_left htk.1
      simp only [trace, refTrace, hstep, List.cons.injEq, Int.toNat_ofNat]
      rw [h1]
      by_cases hd : d.length ≤ t
      · -- the child runs dry within this pull
        have e1 : refPull d (b.take t) = (⟨d ++ (b.take t).drop d.length, d.length, !d.isEmpty⟩, []) :=
          refPull_of_le (by omega)
        have e2 : refPull (d.take kn) b = (⟨d ++ b.drop d.length, d.length, !d.isEmpty⟩, []) := by
          have : d.take kn = d := List.take_of_length_le (by omega)
          rw [this]; exact refPull_of_le (by omega)
        rw [e1] at h2 ⊢
        rw [e2]
        refine ⟨?_, ?_⟩
        · simp [List.append_assoc, drop_take_append_drop b hd]
        · have := ih hbs ((kn : Int) - (d.length : Nat)) _ _ h2
          simpa using this
      · have e1 : refPull d (b.take t) = (⟨d.take t, t, !d.isEmpty⟩, d.drop t) := by
          have := refPull_of_ge (d := d) (b := b.take t) (by omega)
          rw [hlt] at this
          exact this
        have e2 : refPull (d.take kn) b =
            (⟨d.take t ++ b.drop t, t, !d.isEmpty⟩, (d.drop t).take (kn - t)) := by
          have hemp : (d.take kn).isEmpty = d.isEmpty := by
            cases d with
            | nil => simp
            | cons x xs =>
              obtain ⟨m, rfl⟩ : ∃ m, kn = m + 1 := ⟨kn - 1, by omega⟩
              simp
          by_cases hbk : b.length ≤ kn
          · have hl : b.length ≤ (d.take kn).length := by
              rw [List.length_take]; exact Nat.le_min.2 ⟨by omega, by omega⟩
            have : t = b.length := by omega
            subst this
            rw [refPull_of_ge hl]
            simp [List.take_take, min_eq_left hbk, List.drop_take, hemp]
          · have hl : (d.take kn).length = kn := by
              rw [List.length_take]; exact min_eq_left (by omega)
            have : t = kn := by omega
            subst this
            rw [refPull_of_le (by omega), hl]
            simp [hemp]
        rw [e1] at h2 ⊢
        rw [e2]
        refine ⟨?_, ?_⟩
        · simp
        · have := ih hbs (kn - t) _ _ h2
          have e : ((kn : Int) - (t : Int)).toNat = kn - t := by omega
          simpa [e] using this

theorem trace_append {P T : Type _} (pull : T → List P → Pulled P × T) (t : T)
    (a b : List (List P)) :
    trace pull t (a ++ b) = trace pull t a ++ trace pull (after pull t a) b := by
  induction a generalizing t with
  | nil => rfl
  | cons x xs ih => simp [trace, after, ih]

theorem refTrace_append {P : Type} (d : List P) (a b : List (List P)) :
    refTrace d (a ++ b) = refTrace d a ++ refTrace (d.drop (totalSlots a)) b := by
  induction a generalizing d with
  | nil => simp [refTrace, totalSlots]
  | cons x xs ih =>
    simp [refTrace, ih, totalSlots, refPull, List.drop_drop, Nat.add_comm]

theorem collected_refTrace {P : Type} (d : List P) (bufs : List (List P)) :
    collected (refTrace d bufs) = d.take (totalSlots bufs) := by
  induction bufs generalizing d with
  | nil => simp [refTrace, collected, totalSlots]
  | cons x xs ih =>
    have ih2 := ih (d.drop x.length)
    simp only [collected] at ih2
    simp only [refTrace, collected, totalSlots, List.map_cons, List.flatten_cons, List.sum_cons,
      refPull]
    rw [ih2]
    simp only [totalSlots, Int.toNat_ofNat]
    rw [List.take_add]
    congr 1
    by_cases h : x.length ≤ d.length
    · rw [min_eq_left h, List.take_append_of_le_length (by simp [h]), List.take_take]
      simp
    · have h2 : d.length ≤ x.length := by omega
      rw [min_eq_right h2, List.take_of_length_le h2, List.take_left]

theorem dataStreamer_trace {P : Type} (data : List P) (bufs : List (List P)) :
    ∀ pos : Nat, trace Streamer.Stream (dataStreamer data pos).toStreamer bufs =
      refTrace (data.drop pos) bufs := by
  induction bufs with
  | nil => intro; rfl
  | cons b bs ih =>
    intro pos
    by_cases hp : pos ≥ data.length
    · have e : data.drop pos = [] := List.drop_eq_nil_of_le hp
      have hs : Streamer.Stream (dataStreamer data pos).toStreamer b =
          (⟨b, 0, false⟩, (dataStreamer data pos).toStreamer) := by
        simp [Streamer.Stream, dataStreamer, dataStreamer.streamFn, hp]
      simp only [trace, refTrace, hs, e, refPull_nil, List.cons.injEq, true_and]
      have := ih pos
      rw [e] at this
      exact this
    · have hs : Streamer.Stream (dataStreamer data pos).toStreamer b =
          ((refPull (data.drop pos) b).1,
            (dataStreamer data (pos + min b.length (data.drop pos).length)).toStreamer) := by
        simp [Streamer.Stream, dataStreamer, dataStreamer.streamFn, hp, copy, refPull]
      simp only [trace, refTrace, hs, List.cons.injEq, true_and]
      rw [ih]
      congr 1
      simp only [refPull, List.drop_drop, List.length_drop]
      by_cases hb : b.length ≤ data.length - pos
      · rw [min_eq_left hb]
      · rw [min_eq_right (by omega), List.drop_eq_nil_of_le (by omega),
          List.drop_eq_nil_of_le (by omega)]

theorem dataStreamer_hasContent {P : Type} (data : List P) :
    (dataStreamer data 0).toStreamer.HasContent data := by
  intro bufs _
  simpa using dataStreamer_trace data bufs 0

/-- C1. For every `k ≥ 0` and every finite contract-obeying stream `s` with content `d`,
the samples collected from `Take(k, s)` over any sequence of non-empty pulls are the first
`min(k, |d|)` samples of `d` (cut at the number of slots requested so far), and once that
many slots have been requested every later pull returns `(0, false)` and leaves its
buffer alone. -/
theorem take_drain {P : Type} (k : Nat) (s : Streamer P) (d : List P) (h : s.HasContent d)
    (bufs : List (List P)) (hne : ∀ b ∈ bufs, b ≠ []) :
    collected (trace take.Stream (Take k s) bufs) = (d.take k).take (totalSlots bufs) ∧
    (min k d.length ≤ totalSlots bufs →
      ∀ more : List (List P), (∀ b ∈ more, b ≠ []) →
        trace take.Stream (after take.Stream (Take k s) bufs) more =
          more.map (fun b => ⟨b, 0, false⟩)) := by
  constructor
  · rw [Take, take_trace bufs hne k s d h, collected_refTrace]
    simp
  · intro hle more hmore
    have hall : ∀ b ∈ bufs ++ more, b ≠ [] := by
      intro b hb
      rcases List.mem_append.1 hb with hb | hb
      · exact hne b hb
      · exact hmore b hb
    have h1 := take_trace (bufs ++ more) hall k s d h
    rw [trace_append, refTrace_append, take_trace bufs hne k s d h] at h1
    have h2 := List.append_cancel_left h1
    rw [Take, h2]
    have : (d.take (k : Int).toNat).drop (totalSlots bufs) = [] := by
      apply List.drop_eq_nil_of_le
      simpa [List.length_take] using hle
    rw [this, refTrace_nil]

theorem take_drain_witness :
    (dataStreamer [1, 2, 3] 0).toStreamer.HasContent [1, 2, 3] ∧
    collected (trace take.Stream (Take (2 : Nat) (dataStreamer [1, 2, 3] 0).toStreamer) [[0], [0, 0]])
      = [1, 2] :=
  ⟨dataStreamer_hasContent _, (take_drain 2 _ [1, 2, 3] (dataStreamer_hasContent _) [[0], [0, 0]]
    (by decide)).1⟩

/-! ### Seq -/

theorem sliceFrom_ofNat {α : Type} (l : List α) {k : Nat} (h : k ≤ l.length) :
    sliceFrom l (k : Int) = some (l.drop k) := by
  simp [sliceFrom, h]

theorem refPull_samples_take {P : Type} (d b : List P) :
    (refPull d b).1.samples.take (min b.length d.length) = d.take (min b.length d.length) := by
  simp only [refPull]
  rw [List.take_append_of_le_length (by simp [List.length_take]), List.take_take]
  simp

theorem refPull_samples_drop {P : Type} (d b : List P) :
    (refPull d b).1.samples.drop (min b.length d.length) = b.drop (min b.length d.length) := by
  simp only [refPull]
  by_cases h : b.length ≤ d.length
  · rw [min_eq_left h, (List.drop_eq_nil_of_le (le_refl b.length) : b.drop b.length = []), List.drop_eq_nil_of_le h]
    simp [List.length_take, min_eq_left h]
  · have h2 : d.length ≤ b.length := by omega
    rw [min_eq_right h2, List.take_of_length_le h2, List.drop_left]

theorem take_append_take_drop {α : Type} (y : List α) {m k : Nat} (hm : m ≤ k) :
    y.take m ++ (y.drop m).take (k - m) = y.take k := by
  have : k = m + (k - m) := by omega
  conv_rhs => rw [this, List.take_add]

theorem drop_set_self {α : Type _} (l : List α) {i : Nat} (h : i < l.length) (a : α) :
    (l.set i a).drop i = a :: l.drop (i + 1) := by
  have h2 : i < (l.set i a).length := by simpa using h
  rw [List.drop_eq_getElem_cons h2, List.getElem_set_self, List.drop_set_of_lt _ _ (by omega)]

theorem SeqState.loop_spec {P : Type} (fuel : Nat) :
    ∀ (s : List (Streamer P)) (i : Nat) (filled samples : List P) (n : Int) (ok : Bool)
      (y : List P), SeqState.Left { s := s, i := i } y →
      samples.length + (s.length - i) ≤ fuel →
      ∃ q : SeqState P, SeqState.loop fuel s i filled samples n ok =
          some (⟨filled ++ (y.take samples.length ++ samples.drop y.length),
            n + (min samples.length y.length : Nat),
            ok || (!y.isEmpty && !samples.isEmpty)⟩, q) ∧
        q.Left (y.drop samples.length) ∧ q.s.length = s.length := by
  induction fuel with
  | zero =>
    intro s i filled samples n ok y hy hfuel
    have hs : samples = [] := List.length_eq_zero.1 (by omega)
    subst hs
    refine ⟨{ s := s, i := i }, ?_, by simpa using hy, rfl⟩
    unfold SeqState.loop
    simp
  | succ fuel ih =>
    intro s i filled samples n ok y hy hfuel
    by_cases hc : i < s.length ∧ 0 < samples.length
    · obtain ⟨ds, hds, rfl⟩ := hy
      have hdrop : s.drop i = s.get ⟨i, hc.1⟩ :: s.drop (i + 1) := by
        simp
      simp only at hds
      rw [hdrop] at hds
      cases hds with
      | cons hd htl =>
        rename_i d ds
        have hne : samples ≠ [] := List.length_pos.1 hc.2
        obtain ⟨h1, h2⟩ := hd.step hne
        set c := (s.get ⟨i, hc.1⟩).Stream samples with hcdef
        obtain ⟨m, hm⟩ : ∃ m, m = min samples.length d.length := ⟨_, rfl⟩
        have hm1 : m ≤ samples.length := hm ▸ Nat.min_le_left _ _
        have hm2 : m ≤ d.length := hm ▸ Nat.min_le_right _ _
        have hm3 : d ≠ [] → 0 < m := by
          intro hd0
          have : 0 < d.length := List.length_pos.2 hd0
          rw [hm]; exact Nat.lt_min.2 ⟨hc.2, this⟩
        have hm4 : m = samples.length ∨ m = d.length := by
          rcases Nat.le_total samples.length d.length with h | h
          · left; rw [hm, min_eq_left h]
          · right; rw [hm, min_eq_right h]
        have hn1 : c.1.n = (m : Int) := by rw [h1, hm]; rfl
        have hok : c.1.ok = !d.isEmpty := by rw [h1]; rfl
        have hlen : c.1.samples.length = samples.length := by
          rw [h1]; simp only [refPull, List.length_append, List.length_take, List.length_drop]
          omega
        have hslice : sliceFrom c.1.samples c.1.n = some (samples.drop m) := by
          rw [hn1, sliceFrom_ofNat _ (by omega), h1, hm, refPull_samples_drop]
        have htake : c.1.samples.take c.1.n.toNat = d.take m := by
          rw [hn1, Int.toNat_ofNat, h1, hm, refPull_samples_take]
        -- the state and the content left after this child call
        have hleft : SeqState.Left { s := s.set i c.2, i := if c.1.ok then i else i + 1 }
            ((d ++ ds.flatten).drop m) := by
          rw [hok]
          cases d with
          | nil =>
            refine ⟨ds, ?_, by simp [hm]⟩
            simp only [List.isEmpty_nil, Bool.not_true, Bool.false_eq_true, if_false]
            rw [List.drop_set_of_lt _ _ (by omega)]
            exact htl
          | cons x xs =>
            refine ⟨(x :: xs).drop samples.length :: ds, ?_, ?_⟩
            · simp only [List.isEmpty_cons, Bool.not_false, if_true]
              rw [drop_set_self s hc.1]
              exact List.Forall₂.cons h2 htl
            · rw [List.flatten_cons, List.drop_append_of_le_length hm2]
              congr 1
              rcases hm4 with h | h
              · rw [h]
              · rw [h, List.drop_eq_nil_of_le (le_refl _), List.drop_eq_nil_of_le (by omega)]
        have hfuel2 : (samples.drop m).length +
            ((s.set i c.2).length - (if c.1.ok then i else i + 1)) ≤ fuel := by
          rw [hok, List.length_drop, List.length_set]
          cases d with
          | nil => simp; omega
          | cons x xs =>
            have := hm3 (by simp)
            simp; omega
        obtain ⟨q, hq1, hq2, hq3⟩ := ih (s.set i c.2) (if c.1.ok then i else i + 1)
          (filled ++ d.take m) (samples.drop m) (n + m) (ok || !d.isEmpty) _ hleft hfuel2
        rw [hok] at hq1
        have hY : m ≤ (d ++ ds.flatten).length := by
          rw [List.length_append]; omega
        refine ⟨q, ?_, ?_, ?_⟩
        · unfold SeqState.loop
          rw [dif_pos hc]
          simp only
          rw [← hcdef, hslice]
          simp only
          rw [htake, hn1, hok, hq1, List.flatten_cons]
          congr 2
          refine Pulled.mk.injEq .. ▸ ⟨?_, ?_, ?_⟩
          · rw [List.append_assoc]
            congr 1
            rw [← List.append_assoc, List.length_drop, List.length_drop, List.drop_drop,
              ← (List.take_append_of_le_length hm2 : (d ++ ds.flatten).take m = d.take m),
              take_append_take_drop _ hm1]
            congr 2
            omega
          · rw [List.length_drop, List.length_drop]
            have : m + min (samples.length - m) ((d ++ ds.flatten).length - m)
                = min samples.length (d ++ ds.flatten).length := by omega
            rw [← this]
            push_cast
            ring
          · cases d with
            | nil =>
              have : m = 0 := by simpa using hm2
              subst this
              simp
            | cons x xs => simp [hne]
        · rw [List.flatten_cons]
          rw [List.drop_drop, List.length_drop] at hq2
          have : m + (samples.length - m) = samples.length := by omega
          rw [this] at hq2
          exact hq2
        · simpa using hq3
    · have hcase : samples = [] ∨ (samples ≠ [] ∧ y = []) := by
        by_cases hs : samples = []
        · exact Or.inl hs
        · right
          refine ⟨hs, ?_⟩
          have hi : s.length ≤ i := by
            by_contra hlt
            exact hc ⟨by omega, List.length_pos.2 hs⟩
          obtain ⟨ds, hds, rfl⟩ := hy
          simp only [List.drop_eq_nil_of_le hi] at hds
          cases hds
          rfl
      refine ⟨{ s := s, i := i }, ?_, ?_, rfl⟩
      · unfold SeqState.loop
        rw [dif_neg hc]
        rcases hcase with h | ⟨_, h⟩ <;> subst h <;> simp
      · rcases hcase with h | ⟨_, h⟩ <;> subst h
        · simpa using hy
        · simpa using hy

theorem SeqState.seqStream_spec {P : Type} (fuel : Nat) (q : SeqState P) (y samples : List P)
    (hq : q.Left y) (hs : samples ≠ []) (hfuel : samples.length + q.s.length ≤ fuel) :
    ∃ q2 : SeqState P, SeqState.Stream fuel q samples = some ((refPull y samples).1, q2) ∧
      q2.Left (refPull y samples).2 ∧ q2.s.length = q.s.length := by
  obtain ⟨q2, h1, h2, h3⟩ := SeqState.loop_spec fuel q.s q.i [] samples 0 false y hq (by omega)
  refine ⟨q2, ?_, h2, h3⟩
  rw [SeqState.Stream, h1]
  cases samples with
  | nil => exact absurd rfl hs
  | cons x xs => simp [refPull]

theorem SeqState.seqTrace_spec {P : Type} (fuel : Nat) (bufs : List (List P)) :
    ∀ (q : SeqState P) (y : List P), q.Left y →
      (∀ b ∈ bufs, b ≠ [] ∧ b.length + q.s.length ≤ fuel) →
      traceO (SeqState.Stream fuel) q bufs = some (refTrace y bufs) := by
  induction bufs with
  | nil => intros; rfl
  | cons b bs ih =>
    intro q y hq hb
    obtain ⟨hb1, hb2⟩ := hb b (List.mem_cons_self _ _)
    obtain ⟨q2, h1, h2, h3⟩ := SeqState.seqStream_spec fuel q y b hq hb1 hb2
    have := ih q2 _ h2 (fun x hx => by
      rw [h3]; exact hb x (List.mem_cons_of_mem _ hx))
    simp only [traceO, h1, this, refTrace]

theorem Seq_left {P : Type} (s : List (Streamer P)) (ds : List (List P))
    (h : List.Forall₂ Streamer.HasContent s ds) : (Seq s).Left ds.flatten :=
  ⟨ds, by simpa [Seq] using h, rfl⟩

/-- C2. For every list of finite contract-obeying streams with contents `ds`, a sequence
of non-empty pulls on `Seq(s...)` (given enough fuel for each pull) returns the pulls of
a contract-obeying stream whose content is the concatenation of `ds`: the samples collected
are that concatenation cut at the number of slots requested, and once enough slots have
been requested they are the whole concatenation, whose length is the sum of the lengths. -/
theorem seq_drain {P : Type} (s : List (Streamer P)) (ds : List (List P))
    (h : List.Forall₂ Streamer.HasContent s ds) (fuel : Nat) (bufs : List (List P))
    (hne : ∀ b ∈ bufs, b ≠ [] ∧ b.length + s.length ≤ fuel) :
    ∃ rs : List (Pulled P), traceO (SeqState.Stream fuel) (Seq s) bufs = some rs ∧
      rs = refTrace ds.flatten bufs ∧
      collected rs = ds.flatten.take (totalSlots bufs) ∧
      (ds.flatten.length ≤ totalSlots bufs →
        collected rs = ds.flatten ∧ (collected rs).length = (ds.map List.length).sum) := by
  refine ⟨_, SeqState.seqTrace_spec fuel bufs (Seq s) _ (Seq_left s ds h) hne, rfl, ?_, ?_⟩
  · exact collected_refTrace _ _
  · intro hle
    rw [collected_refTrace, List.take_of_length_le hle]
    exact ⟨rfl, by simp [List.length_flatten]⟩

theorem seq_drain_witness :
    List.Forall₂ Streamer.HasContent
      [(dataStreamer [1, 2] 0).toStreamer, (dataStreamer [3] 0).toStreamer] [[1, 2], [3]] ∧
    ∃ rs : List (Pulled Nat),
      traceO (SeqState.Stream 5)
        (Seq [(dataStreamer [1, 2] 0).toStreamer, (dataStreamer [3] 0).toStreamer])
        [[0, 0], [0, 0]] = some rs ∧
      rs = refTrace [[1, 2], [3]].flatten [[0, 0], [0, 0]] ∧
      collected rs = [[1, 2], [3]].flatten.take (totalSlots [[0, 0], [0, 0]]) ∧
      ([[1, 2], [3]].flatten.length ≤ totalSlots [[0, 0], [0, 0]] →
        collected rs = [[1, 2], [3]].flatten ∧
          (collected rs).length = ([[1, 2], [3]].map List.length).sum) :=
  ⟨List.Forall₂.cons (dataStreamer_hasContent _)
      (List.Forall₂.cons (dataStreamer_hasContent _) List.Forall₂.nil),
    seq_drain _ [[1, 2], [3]]
      (List.Forall₂.cons (dataStreamer_hasContent _)
        (List.Forall₂.cons (dataStreamer_hasContent _) List.Forall₂.nil))
      5 [[0, 0], [0, 0]] (by decide)⟩

/-! ### Loop -/

theorem copies_succ {P : Type} (c : Nat) (d : List P) : copies (c + 1) d = d ++ copies c d := by
  simp [copies, List.replicate_succ]

theorem length_copies {P : Type} (c : Nat) (d : List P) : (copies c d).length = c * d.length := by
  induction c with
  | zero => simp [copies]
  | succ c ih => rw [copies_succ, List.length_append, ih]; ring

theorem StreamSeeker.Replays.err {P : Type} {s : StreamSeeker P} {d r : List P}
    (h : s.Replays d r) : s.Err = false := by
  obtain ⟨R, h0, hR⟩ := h
  exact (hR _ _ h0).1

theorem StreamSeeker.Replays.pull {P : Type} {s : StreamSeeker P} {d r : List P}
    (h : s.Replays d r) {b : List P} (hb : b ≠ []) :
    (s.Stream b).1 = (refPull r b).1 ∧ (s.Stream b).2.Replays d (refPull r b).2 := by
  obtain ⟨R, h0, hR⟩ := h
  obtain ⟨h1, h2⟩ := (hR _ _ h0).2.1 b hb
  exact ⟨h1, R, h2, hR⟩

theorem StreamSeeker.Replays.seek {P : Type} {s : StreamSeeker P} {d r : List P}
    (h : s.Replays d r) : (s.Seek 0).1 = false ∧ (s.Seek 0).2.Replays d d := by
  obtain ⟨R, h0, hR⟩ := h
  obtain ⟨h1, h2⟩ := (hR _ _ h0).2.2
  exact ⟨h1, R, h2, hR⟩

theorem loop.body_spec {P : Type} (d : List P) (fuel : Nat) :
    ∀ (s : StreamSeeker P) (k : Nat) (filled samples : List P) (n : Int) (r : List P),
      s.Replays d r → samples.length + (k + 1) ≤ fuel →
      ∃ l : loop P, loop.body fuel s ((k : Int) + 1) filled samples n =
          some (⟨filled ++ ((r ++ copies k d).take samples.length ++
              samples.drop (r ++ copies k d).length),
            n + (min samples.length (r ++ copies k d).length : Nat), true⟩, l) ∧
        loop.Left d l ((r ++ copies k d).drop samples.length) ∧
        ((r ++ copies k d).length < samples.length ↔ l.remains = 0) ∧
        l.remains.toNat ≤ k + 1 := by
  induction fuel with
  | zero => intro s k filled samples n r _ hfuel; omega
  | succ fuel ih =>
    intro s k filled samples n r hs hfuel
    by_cases hc : 0 < samples.length
    · have hne : samples ≠ [] := List.length_pos.1 hc
      obtain ⟨h1, h2⟩ := hs.pull hne
      set c := s.Stream samples with hcdef
      have hok : c.1.ok = !r.isEmpty := by rw [h1]; rfl
      unfold loop.body
      rw [if_pos hc]
      simp only
      rw [← hcdef, hok]
      cases r with
      | nil =>
        have hsm : c.1.samples = samples := by rw [h1]; simp [refPull]
        rw [refPull_nil] at h2
        simp only [List.isEmpty_nil, Bool.not_true, Bool.not_false, if_true, hsm]
        have hk1 : ((k : Int) + 1 > 0) := by omega
        rw [if_pos hk1]
        cases k with
        | zero =>
          refine ⟨{ s := c.2, remains := ((0 : Nat) : Int) + 1 - 1 }, ?_, Or.inl ⟨?_, ?_⟩, ?_, ?_⟩
          · simp [copies]
          · simp
          · simp [copies]
          · simp [copies, hc]
          · simp
        | succ k =>
          have hk2 : ¬ ((k + 1 : Nat) : Int) + 1 - 1 = 0 := by omega
          rw [if_neg hk2]
          obtain ⟨e1, e2⟩ := h2.seek
          rw [e1]
          simp only [Bool.false_eq_true, if_false]
          have hk3 : ((k + 1 : Nat) : Int) + 1 - 1 = (k : Int) + 1 := by omega
          rw [hk3]
          obtain ⟨l, hl1, hl2, hl3, hl4⟩ := ih _ k filled samples n d e2 (by omega)
          refine ⟨l, ?_, ?_, ?_, by omega⟩
          · rw [hl1, copies_succ]; simp
          · rw [copies_succ]; simpa using hl2
          · rw [copies_succ]; simpa using hl3
      | cons x xs =>
        simp only [List.isEmpty_cons, Bool.not_false, Bool.not_true, Bool.false_eq_true, if_false]
        obtain ⟨m, hm⟩ : ∃ m, m = min samples.length (x :: xs).length := ⟨_, rfl⟩
        have hm1 : m ≤ samples.length := hm ▸ Nat.min_le_left _ _
        have hm2 : m ≤ (x :: xs).length := hm ▸ Nat.min_le_right _ _
        have hm3 : 0 < m := by
          rw [hm]; exact Nat.lt_min.2 ⟨hc, by simp⟩
        have hm4 : m = samples.length ∨ m = (x :: xs).length := by
          rcases Nat.le_total samples.length (x :: xs).length with h | h
          · left; rw [hm, min_eq_left h]
          · right; rw [hm, min_eq_right h]
        have hn1 : c.1.n = (m : Int) := by rw [h1, hm]; rfl
        have hlen : c.1.samples.length = samples.length := by
          rw [h1]; simp only [refPull, List.length_append, List.length_take, List.length_drop]
          omega
        have hslice : sliceFrom c.1.samples c.1.n = some (samples.drop m) := by
          rw [hn1, sliceFrom_ofNat _ (by omega), h1, hm, refPull_samples_drop]
        have htake : c.1.samples.take c.1.n.toNat = (x :: xs).take m := by
          rw [hn1, Int.toNat_ofNat, h1, hm, refPull_samples_take]
        have hrest : (refPull (x :: xs) samples).2 = (x :: xs).drop m := by
          simp only [refPull]
          rcases hm4 with h | h
          · rw [h]
          · rw [h, List.drop_eq_nil_of_le (le_refl _), List.drop_eq_nil_of_le (by omega)]
        rw [hrest] at h2
        rw [hslice]
        simp only
        rw [htake, hn1]
        obtain ⟨l, hl1, hl2, hl3, hl4⟩ := ih c.2 k (filled ++ (x :: xs).take m) (samples.drop m)
          (n + m) _ h2 (by rw [List.length_drop]; omega)
        have hY : m ≤ (x :: xs ++ copies k d).length := by
          rw [List.length_append]; omega
        have hdrop : (x :: xs).drop m ++ copies k d = (x :: xs ++ copies k d).drop m :=
          (List.drop_append_of_le_length hm2).symm
        rw [hdrop] at hl1 hl2 hl3
        refine ⟨l, ?_, ?_, ?_, hl4⟩
        · rw [hl1]
          congr 2
          refine Pulled.mk.injEq .. ▸ ⟨?_, ?_, rfl⟩
          · rw [List.append_assoc]
            congr 1
            rw [← List.append_assoc, List.length_drop, List.length_drop, List.drop_drop,
              ← (List.take_append_of_le_length hm2 :
                ((x :: xs) ++ copies k d).take m = (x :: xs).take m),
              take_append_take_drop _ hm1]
            congr 2
            omega
          · rw [List.length_drop, List.length_drop]
            have : m + min (samples.length - m) ((x :: xs ++ copies k d).length - m)
                = min samples.length (x :: xs ++ copies k d).length := by omega
            rw [← this]
            push_cast
            ring
        · rw [List.drop_drop, List.length_drop] at hl2
          have : m + (samples.length - m) = samples.length := by omega
          rw [this] at hl2
          exact hl2
        · rw [← hl3, List.length_drop, List.length_drop]
          omega
    · have hs0 : samples = [] := List.length_eq_zero.1 (by omega)
      subst hs0
      refine ⟨{ s := s, remains := (k : Int) + 1 }, ?_, Or.inr ⟨k, r, rfl, hs, by simp⟩, ?_, ?_⟩
      · unfold loop.body
        simp
      · simp only [List.length_nil, Nat.not_lt_zero, false_iff]; omega
      · simp only; omega

theorem loop.loopStream_spec {P : Type} (d : List P) (fuel : Nat) (l : loop P) (y samples : List P)
    (hl : loop.Left d l y) (hfuel : samples.length + l.remains.toNat ≤ fuel) :
    ∃ l2 : loop P, loop.Stream fuel l samples =
        some ((loopRefPull y (decide (l.remains ≠ 0)) samples).1, l2) ∧
      loop.Left d l2 (y.drop samples.length) ∧ l2.remains.toNat ≤ l.remains.toNat ∧
      decide (l2.remains ≠ 0) = (loopRefPull y (decide (l.remains ≠ 0)) samples).2.2 := by
  rcases hl with ⟨h0, rfl⟩ | ⟨k, r, hk, hr, rfl⟩
  · refine ⟨l, ?_, Or.inl ⟨h0, by simp⟩, le_refl _, ?_⟩
    · simp [loop.Stream, h0, loopRefPull]
    · simp [loopRefPull, h0]
  · obtain ⟨l2, h1, h2, h3, h4⟩ := loop.body_spec d fuel l.s k [] samples 0 r hr (by omega)
    have hne : ¬ (l.remains = 0 ∨ l.s.Err = true) := by
      rw [hr.err]; simp; omega
    refine ⟨l2, ?_, h2, by omega, ?_⟩
    · rw [loop.Stream, if_neg hne, hk, h1]
      simp [loopRefPull]
      omega
    · have : l.remains ≠ 0 := by omega
      simp only [loopRefPull, this, ne_eq, not_false_eq_true, decide_True, Bool.true_and]
      rw [decide_eq_decide, ← not_iff_not, not_not, ← h3]
      omega

theorem loop.loopTrace_spec {P : Type} (d : List P) (fuel : Nat) (bufs : List (List P)) :
    ∀ (l : loop P) (y : List P), loop.Left d l y →
      (∀ b ∈ bufs, b.length + l.remains.toNat ≤ fuel) →
      traceO (loop.Stream fuel) l bufs = some (loopRefTrace y (decide (l.remains ≠ 0)) bufs) := by
  induction bufs with
  | nil => intro l y _ _; rfl
  | cons b bs ih =>
    intro l y hl hb
    have hb2 := hb b (List.mem_cons_self _ _)
    obtain ⟨l2, h1, h2, h3, h4⟩ := loop.loopStream_spec d fuel l y b hl hb2
    have h5 := ih l2 _ h2 (fun x hx => by
      have := hb x (List.mem_cons_of_mem _ hx)
      omega)
    simp only [traceO, h1, h5, loopRefTrace, h4]
    rfl

theorem collected_cons {P : Type} (r : Pulled P) (rs : List (Pulled P)) :
    collected (r :: rs) = r.samples.take r.n.toNat ++ collected rs := by
  simp [collected]

theorem loopRefTrace_collected {P : Type} (bufs : List (List P)) :
    ∀ (y : List P) (live : Bool),
      collected (loopRefTrace y live bufs) = y.take (totalSlots bufs) := by
  induction bufs with
  | nil => intros; simp [loopRefTrace, collected, totalSlots]
  | cons b bs ih =>
    intro y live
    rw [loopRefTrace, collected_cons, ih]
    simp only [loopRefPull, Int.toNat_ofNat, totalSlots, List.map_cons, List.sum_cons]
    rw [List.take_add]
    congr 1
    by_cases h : b.length ≤ y.length
    · rw [min_eq_left h, List.take_append_of_le_length (by simp [h]), List.take_take]
      simp
    · have h2 : y.length ≤ b.length := by omega
      rw [min_eq_right h2, List.take_of_length_le h2, List.take_left]

theorem loopRefTrace_drained {P : Type} (bufs : List (List P)) :
    ∀ (y : List P) (live : Bool), (live = false → y = []) →
      ∀ (pre : List (Pulled P)) (r : Pulled P) (post : List (Pulled P)),
        loopRefTrace y live bufs = pre ++ r :: post → r.ok = false →
        r.n = 0 ∧ collected pre = y := by
  induction bufs with
  | nil =>
    intro y live _ pre r post h
    simp [loopRefTrace] at h
  | cons b bs ih =>
    intro y live hy pre r post h hr
    cases pre with
    | nil =>
      simp only [loopRefTrace, List.nil_append, List.cons.injEq] at h
      obtain ⟨h1, -⟩ := h
      subst h1
      have hl : live = false := hr
      have hy0 := hy hl
      subst hy0
      simp [loopRefPull, collected]
    | cons p pre =>
      simp only [loopRefTrace, List.cons_append, List.cons.injEq] at h
      obtain ⟨h1, h2⟩ := h
      have hy2 : ((loopRefPull y live b).2.2 = false → (loopRefPull y live b).2.1 = []) := by
        simp only [loopRefPull, Bool.and_eq_false_imp, decide_eq_false_iff_not, not_le]
        intro h3
        by_cases hl : live = true
        · exact List.drop_eq_nil_of_le (le_of_lt (h3 hl))
        · rw [hy (by simpa using hl)]; simp
      obtain ⟨h3, h4⟩ := ih _ _ hy2 pre r post h2 hr
      refine ⟨h3, ?_⟩
      rw [collected_cons, h4, ← h1]
      simp only [loopRefPull, Int.toNat_ofNat]
      by_cases h : b.length ≤ y.length
      · rw [min_eq_left h, List.take_append_of_le_length (by simp [h]), List.take_take]
        simp
      · have h2 : y.length ≤ b.length := by omega
        rw [min_eq_right h2, List.take_of_length_le h2, List.take_left,
          List.drop_eq_nil_of_le h2]
        simp

theorem loopRefTrace_reports {P : Type} (bufs : List (List P)) (hne : ∀ b ∈ bufs, b ≠ []) :
    ∀ (y : List P) (live : Bool)
      (pre : List (Pulled P)) (r1 r2 : Pulled P) (post : List (Pulled P)),
        loopRefTrace y live bufs = pre ++ r1 :: r2 :: post →
        y.length ≤ totalSlots (bufs.take pre.length) → r2.ok = false := by
  induction bufs with
  | nil =>
    intro y live pre r1 r2 post h
    simp [loopRefTrace] at h
  | cons b bs ih =>
    intro y live pre r1 r2 post h hy
    have hb : b ≠ [] := hne b (List.mem_cons_self _ _)
    have hbs : ∀ x ∈ bs, x ≠ [] := fun x hx => hne x (List.mem_cons_of_mem _ hx)
    cases pre with
    | nil =>
      have hy0 : y = [] := List.length_eq_zero.1 (by simpa [totalSlots] using hy)
      subst hy0
      cases bs with
      | nil => simp [loopRefTrace] at h
      | cons b2 bs =>
        simp only [loopRefTrace, List.nil_append, List.cons.injEq] at h
        obtain ⟨-, h2, -⟩ := h
        rw [← h2]
        simp [loopRefPull, hb]
    | cons p pre =>
      simp only [loopRefTrace, List.cons_append, List.cons.injEq] at h
      obtain ⟨-, h2⟩ := h
      refine ih hbs _ _ pre r1 r2 post h2 ?_
      simp only [loopRefPull, List.length_drop]
      simp only [List.length_cons, List.take_succ_cons, totalSlots, List.map_cons,
        List.sum_cons] at hy
      simp only [totalSlots]
      omega

theorem Loop_left {P : Type} (c : Nat) (s : StreamSeeker P) (d : List P) (h : s.Replays d d) :
    loop.Left d (Loop c s) (copies c d) := by
  cases c with
  | zero => exact Or.inl ⟨rfl, rfl⟩
  | succ k => exact Or.inr ⟨k, d, by simp [Loop], h, copies_succ k d⟩

/-- C3. For every count `c ≥ 0` and every error-free seekable stream `s` with content `d`
whose `Seek(0)` always succeeds, a sequence of non-empty pulls on `Loop(c, s)` (given
enough fuel for each pull) succeeds and the samples collected are `c` copies of `d`, cut
at the number of slots requested: all `c * |d|` samples once that many slots have been
requested. A pull reports drained only with `n = 0` and after the `c` copies have been
delivered, and does so at the latest on the second pull after that. `Loop(0, s)` yields
nothing. -/
theorem loop_drain {P : Type} (c : Nat) (s : StreamSeeker P) (d : List P) (h : s.Replays d d)
    (fuel : Nat) (bufs : List (List P)) (hne : ∀ b ∈ bufs, b ≠ [] ∧ b.length + c ≤ fuel) :
    ∃ rs : List (Pulled P), traceO (loop.Stream fuel) (Loop c s) bufs = some rs ∧
      collected rs = (copies c d).take (totalSlots bufs) ∧
      (c * d.length ≤ totalSlots bufs →
        collected rs = copies c d ∧ (collected rs).length = c * d.length) ∧
      (∀ (pre : List (Pulled P)) (r : Pulled P) (post : List (Pulled P)),
        rs = pre ++ r :: post → r.ok = false → r.n = 0 ∧ collected pre = copies c d) ∧
      (∀ (pre : List (Pulled P)) (r1 r2 : Pulled P) (post : List (Pulled P)),
        rs = pre ++ r1 :: r2 :: post →
        c * d.length ≤ totalSlots (bufs.take pre.length) → r2.ok = false) ∧
      (c = 0 → collected rs = []) := by
  have htr := loop.loopTrace_spec d fuel bufs (Loop c s) (copies c d) (Loop_left c s d h)
    (fun b hb => by simpa [Loop] using (hne b hb).2)
  refine ⟨_, htr, loopRefTrace_collected _ _ _, ?_, ?_, ?_, ?_⟩
  · intro hle
    rw [loopRefTrace_collected, List.take_of_length_le (by rw [length_copies]; exact hle)]
    exact ⟨rfl, length_copies c d⟩
  · intro pre r post hrs hr
    refine loopRefTrace_drained bufs _ _ ?_ pre r post hrs hr
    intro hl
    have : c = 0 := by simpa [Loop] using hl
    subst this
    rfl
  · intro pre r1 r2 post hrs hle
    refine loopRefTrace_reports bufs (fun b hb => (hne b hb).1) _ _ pre r1 r2 post hrs ?_
    rw [length_copies]; exact hle
  · intro hc
    subst hc
    rw [loopRefTrace_collected]
    simp [copies]

theorem dataStreamer.streamFn_spec {P : Type} (data : List P) (pos : Nat) (b : List P) :
    (dataStreamer.streamFn (data, pos) b).1 = (refPull (data.drop pos) b).1 ∧
    (dataStreamer.streamFn (data, pos) b).2.1 = data ∧
    data.drop (dataStreamer.streamFn (data, pos) b).2.2 = (refPull (data.drop pos) b).2 := by
  by_cases hp : pos ≥ data.length
  · have e : data.drop pos = [] := List.drop_eq_nil_of_le hp
    simp [dataStreamer.streamFn, hp, e, refPull_nil]
  · have hne : (data.drop pos).isEmpty = false := by
      cases h : data.drop pos with
      | nil =>
        have := congrArg List.length h
        simp only [List.length_drop, List.length_nil] at this
        omega
      | cons x xs => rfl
    have hs : dataStreamer.streamFn (data, pos) b =
        (⟨(data.drop pos).take b.length ++ b.drop (data.drop pos).length,
          (min b.length (data.drop pos).length : Nat), true⟩,
          (data, pos + min b.length (data.drop pos).length)) := by
      simp only [dataStreamer.streamFn, copy]
      rw [if_neg hp]
    rw [hs]
    refine ⟨?_, rfl, ?_⟩
    · simp [refPull, hne]
    · simp only [refPull, List.drop_drop, List.length_drop]
      by_cases hb : b.length ≤ data.length - pos
      · rw [min_eq_left hb]
      · rw [min_eq_right (by omega), List.drop_eq_nil_of_le (by omega),
          List.drop_eq_nil_of_le (by omega)]

theorem dataStreamer_replays {P : Type} (data : List P) :
    (dataStreamer data 0).Replays data data := by
  refine ⟨fun x y => x.1 = data ∧ y = data.drop x.2, ⟨rfl, rfl⟩, ?_⟩
  rintro ⟨x1, pos⟩ y ⟨h1, h2⟩
  simp only at h1
  subst h1 h2
  refine ⟨rfl, ?_, rfl, rfl, rfl⟩
  intro b _
  obtain ⟨e1, e2, e3⟩ := dataStreamer.streamFn_spec x1 pos b
  exact ⟨e1, e2, e3.symm⟩

theorem loop_drain_witness :
    (dataStreamer [1, 2] 0).Replays [1, 2] [1, 2] ∧
    ∃ rs : List (Pulled Nat),
      traceO (loop.Stream 5) (Loop (2 : Nat) (dataStreamer [1, 2] 0)) [[0, 0, 0]] = some rs ∧
      collected rs = (copies 2 [1, 2]).take (totalSlots [[0, 0, 0]]) :=
  ⟨dataStreamer_replays _,
    (loop_drain 2 (dataStreamer [1, 2] 0) [1, 2] (dataStreamer_replays _) 5 [[0, 0, 0]]
      (by decide)).imp (fun _ hrs => ⟨hrs.1, hrs.2.1⟩)⟩

/-! ### Dup -/

theorem DupState.myBuf_setMyBuf {P : Type} (q : DupState P) (h : DupHandle) (l : List P) :
    (q.setMyBuf h l).myBuf h = l := by
  cases h <;> rfl

theorem DupState.myBuf_setMyBuf_other {P : Type} (q : DupState P) (h : DupHandle) (l : List P) :
    (q.setMyBuf h l).myBuf h.other = q.myBuf h.other := by
  cases h <;> rfl

theorem DupState.myBuf_setMyBuf_other2 {P : Type} (q : DupState P) (h : DupHandle) (l : List P) :
    (q.setMyBuf h.other l).myBuf h = q.myBuf h := by
  cases h <;> rfl

theorem DupState.s_setMyBuf {P : Type} (q : DupState P) (h : DupHandle) (l : List P) :
    (q.setMyBuf h l).s = q.s := by
  cases h <;> rfl

theorem DupState.myBuf_with_s {P : Type} (q : DupState P) (h : DupHandle) (x : Streamer P) :
    (q.setS x).myBuf h = q.myBuf h := by
  cases h <;> rfl

theorem DupState.s_setS {P : Type} (q : DupState P) (x : Streamer P) : (q.setS x).s = x := rfl

theorem DupHandle.eq_or_other (h g : DupHandle) : g = h ∨ g = h.other := by
  cases h <;> cases g <;> simp [DupHandle.other]

theorem sliceTo_ofNat {α : Type} (l : List α) {k : Nat} (h : k ≤ l.length) :
    sliceTo l (k : Int) = some (l.take k) := by
  simp [sliceTo, h]

theorem dup.dupStream_spec {P : Type} (h : DupHandle) (q : DupState P) (d b : List P)
    (out : DupHandle → List P) (hq : q.Inv d out) :
    ∃ (r : Pulled P) (q2 : DupState P), dup.Stream h q b = some (r, q2) ∧
      q2.Inv d (Function.update out h (out h ++ r.samples.take r.n.toNat)) ∧
      (r.ok = false → b ≠ [] → r.n = 0 ∧ out h = d) ∧ r.samples.length = b.length := by
  obtain ⟨R, hR, hd⟩ := hq
  by_cases hlen : b.length ≤ (q.myBuf h).length
  · -- the queue of `h` serves the whole request
    have hc : copy b (q.myBuf h) = ((q.myBuf h).take b.length, b.length) := by
      simp [copy, List.drop_eq_nil_of_le hlen, min_eq_left hlen]
    have hrest : ((q.myBuf h).take b.length).drop b.length = [] :=
      List.drop_eq_nil_of_le (by simp)
    refine ⟨⟨(q.myBuf h).take b.length, b.length, decide (0 < (q.myBuf h).length)⟩,
      q.setMyBuf h ((q.myBuf h).drop b.length), ?_, ⟨R, ?_, ?_⟩, ?_, ?_⟩
    · simp only [dup.Stream, hc, hrest, List.length_nil, lt_irrefl, if_false]
    · rw [DupState.s_setMyBuf]; exact hR
    · intro g
      rcases DupHandle.eq_or_other h g with rfl | rfl
      · rw [DupState.myBuf_setMyBuf, Function.update_same, hd g]
        simp only [Int.toNat_ofNat, List.take_take, min_self, List.append_assoc]
        rw [← List.append_assoc ((q.myBuf g).take b.length), List.take_append_drop]
      · rw [DupState.myBuf_setMyBuf_other, Function.update_noteq (by cases h <;> simp [DupHandle.other])]
        exact hd _
    · intro hok hb
      have h0 : (q.myBuf h).length = 0 := by simpa using hok
      have : 0 < b.length := List.length_pos.2 hb
      omega
    · simp [hlen]
  · -- the queue runs out and the child is pulled
    have hlt : (q.myBuf h).length < b.length := by omega
    have hc : copy b (q.myBuf h) = (q.myBuf h ++ b.drop (q.myBuf h).length, (q.myBuf h).length) := by
      simp [copy, List.take_of_length_le (le_of_lt hlt), min_eq_right (le_of_lt hlt)]
    have hrest : (q.myBuf h ++ b.drop (q.myBuf h).length).drop (q.myBuf h).length
        = b.drop (q.myBuf h).length := List.drop_left _ _
    have hpos : 0 < (b.drop (q.myBuf h).length).length := by
      rw [List.length_drop]; omega
    have hne : b.drop (q.myBuf h).length ≠ [] := List.length_pos.1 hpos
    obtain ⟨h1, h2⟩ := hR.step hne
    obtain ⟨m, hm⟩ : ∃ m, m = min (b.drop (q.myBuf h).length).length R.length := ⟨_, rfl⟩
    have hm1 : m ≤ (b.drop (q.myBuf h).length).length := hm ▸ Nat.min_le_left _ _
    have hm2 : m ≤ R.length := hm ▸ Nat.min_le_right _ _
    have hm4 : m = (b.drop (q.myBuf h).length).length ∨ m = R.length := by
      rcases Nat.le_total (b.drop (q.myBuf h).length).length R.length with h | h
      · left; rw [hm, min_eq_left h]
      · right; rw [hm, min_eq_right h]
    set c := q.s.Stream (b.drop (q.myBuf h).length) with hcdef
    have hn1 : c.1.n = (m : Int) := by rw [h1, hm]; rfl
    have hok : c.1.ok = !R.isEmpty := by rw [h1]; rfl
    have hclen : c.1.samples.length = (b.drop (q.myBuf h).length).length := by
      rw [h1]; simp only [refPull, List.length_append, List.length_take, List.length_drop]
      omega
    have htake : c.1.samples.take m = R.take m := by
      rw [h1, hm, refPull_samples_take]
    have hslice : sliceTo c.1.samples (m : Int) = some (R.take m) := by
      rw [sliceTo_ofNat _ (by omega), htake]
    have hleft : (refPull R (b.drop (q.myBuf h).length)).2 = R.drop m := by
      simp only [refPull]
      rcases hm4 with h | h
      · rw [← h]
      · rw [h, List.drop_eq_nil_of_le (le_refl _), List.drop_eq_nil_of_le (by omega)]
    rw [hleft] at h2
    refine ⟨⟨q.myBuf h ++ c.1.samples, ((q.myBuf h).length : Int) + m,
        decide (0 < (q.myBuf h).length) || !R.isEmpty⟩,
      ((q.setMyBuf h ((q.myBuf h).drop (q.myBuf h).length)).setS c.2).setMyBuf
        h.other ((q.setMyBuf h ((q.myBuf h).drop (q.myBuf h).length)).myBuf h.other ++ R.take m),
      ?_, ⟨R.drop m, ?_, ?_⟩, ?_, ?_⟩
    · simp only [dup.Stream, hc, hrest, hpos, if_true, DupState.s_setMyBuf, ← hcdef, hslice,
        hn1, hok, List.take_left]
    · rw [DupState.s_setMyBuf, DupState.s_setS]; exact h2
    · intro g
      have hpiece : (q.myBuf h ++ c.1.samples).take (((q.myBuf h).length : Int) + m).toNat
          = q.myBuf h ++ R.take m := by
        have : (((q.myBuf h).length : Int) + m).toNat = (q.myBuf h).length + m := by omega
        rw [this, List.take_append, htake]
      rcases DupHandle.eq_or_other h g with rfl | rfl
      · rw [DupState.myBuf_setMyBuf_other2, DupState.myBuf_with_s, DupState.myBuf_setMyBuf,
          Function.update_same, hpiece, hd g]
        simp only [List.drop_length, List.append_nil, List.append_assoc, List.take_append_drop]
      · rw [DupState.myBuf_setMyBuf, DupState.myBuf_setMyBuf_other,
          Function.update_noteq (by cases h <;> simp [DupHandle.other]), hd h.other]
        simp only [List.append_assoc, List.take_append_drop]
    · intro hok2 hb
      simp only [Bool.or_eq_false_iff, decide_eq_false_iff_not, not_lt, Nat.le_zero,
        Bool.not_eq_false', List.isEmpty_iff] at hok2
      obtain ⟨h0, hR0⟩ := hok2
      subst hR0
      have hm0 : m = 0 := by simpa using hm2
      have hmy : q.myBuf h = [] := List.length_eq_zero.1 h0
      refine ⟨by simp [h0, hm0], ?_⟩
      rw [hd h, hmy]; simp
    · simp only [List.length_append, hclen, List.length_drop]
      omega

theorem returnedBy_cons {P : Type} (g h : DupHandle) (r : Pulled P)
    (rs : List (DupHandle × Pulled P)) (out : DupHandle → List P) :
    out g ++ returnedBy g ((h, r) :: rs) =
      (Function.update out h (out h ++ r.samples.take r.n.toNat)) g ++ returnedBy g rs := by
  by_cases hg : g = h
  · subst hg
    simp [returnedBy, collected]
  · have hg2 : ¬ h = g := fun e => hg e.symm
    simp [returnedBy, Function.update_noteq hg, hg2]

theorem returnedBy_nil {P : Type} (g : DupHandle) :
    returnedBy g ([] : List (DupHandle × Pulled P)) = [] := rfl

theorem returnedBy_append {P : Type} (g : DupHandle) (a b : List (DupHandle × Pulled P)) :
    returnedBy g (a ++ b) = returnedBy g a ++ returnedBy g b := by
  simp [returnedBy, collected]

theorem dupTrace_spec {P : Type} (d : List P) (calls : List (DupHandle × List P)) :
    ∀ (q : DupState P) (out : DupHandle → List P), q.Inv d out →
      ∃ rs : List (DupHandle × Pulled P), dupTrace q calls = some rs ∧
        (∀ g : DupHandle, ∃ rest : List P, out g ++ returnedBy g rs ++ rest = d) ∧
        (∀ (pre : List (DupHandle × Pulled P)) (g : DupHandle) (r : Pulled P)
          (post : List (DupHandle × Pulled P)),
          rs = pre ++ (g, r) :: post → r.ok = false → r.samples ≠ [] →
          r.n = 0 ∧ out g ++ returnedBy g pre = d) := by
  induction calls with
  | nil =>
    intro q out hq
    refine ⟨[], rfl, ?_, ?_⟩
    · intro g
      obtain ⟨R, -, hd⟩ := hq
      exact ⟨q.myBuf g ++ R, by rw [returnedBy_nil, hd g]; simp⟩
    · intro pre g r post h
      simp at h
  | cons c calls ih =>
    obtain ⟨h, b⟩ := c
    intro q out hq
    obtain ⟨r, q2, h1, h2, h3, h4⟩ := dup.dupStream_spec h q d b out hq
    obtain ⟨rs, h5, h6, h7⟩ := ih q2 _ h2
    refine ⟨(h, r) :: rs, ?_, ?_, ?_⟩
    · simp only [dupTrace, h1, h5]
    · intro g
      obtain ⟨rest, hrest⟩ := h6 g
      exact ⟨rest, by rw [returnedBy_cons]; exact hrest⟩
    · intro pre g r0 post hrs hok hne
      cases pre with
      | nil =>
        simp only [List.nil_append, List.cons.injEq, Prod.mk.injEq] at hrs
        obtain ⟨⟨rfl, rfl⟩, -⟩ := hrs
        have hb : b ≠ [] := by
          intro hb0
          apply hne
          apply List.length_eq_zero.1
          rw [h4, hb0]; rfl
        obtain ⟨e1, e2⟩ := h3 hok hb
        exact ⟨e1, by rw [returnedBy_nil, e2]; simp⟩
      | cons p pre =>
        simp only [List.cons_append, List.cons.injEq] at hrs
        obtain ⟨rfl, hrs⟩ := hrs
        obtain ⟨e1, e2⟩ := h7 pre g r0 post hrs hok hne
        exact ⟨e1, by rw [returnedBy_cons]; exact e2⟩

theorem Dup_inv {P : Type} (s : Streamer P) (d : List P) (h : s.HasContent d) :
    (Dup s).Inv d (fun _ => []) :=
  ⟨d, h, fun g => by cases g <;> simp [Dup, DupState.myBuf]⟩

/-- The two handles of `Dup(s)` on calls that have slots. For every finite
contract-obeying stream `s` with content `d` and every serialized sequence of calls, of
arbitrary sizes, on the two handles: no call faults, the samples each handle has returned
so far are an initial segment of `d`, and a handle that reports drained on a call with at
least one slot returns `n = 0` there and has returned exactly `d`, before that call and at
the end of the sequence. -/
theorem dup_handles {P : Type} (s : Streamer P) (d : List P) (h : s.HasContent d)
    (calls : List (DupHandle × List P)) :
    ∃ rs : List (DupHandle × Pulled P), dupTrace (Dup s) calls = some rs ∧
      (∀ g : DupHandle, ∃ rest : List P, returnedBy g rs ++ rest = d) ∧
      (∀ (pre : List (DupHandle × Pulled P)) (g : DupHandle) (r : Pulled P)
        (post : List (DupHandle × Pulled P)),
        rs = pre ++ (g, r) :: post → r.ok = false → r.samples ≠ [] →
        r.n = 0 ∧ returnedBy g pre = d ∧ returnedBy g rs = d) := by
  obtain ⟨rs, h1, h2, h3⟩ := dupTrace_spec d calls (Dup s) (fun _ => []) (Dup_inv s d h)
  refine ⟨rs, h1, ?_, ?_⟩
  · intro g
    obtain ⟨rest, hrest⟩ := h2 g
    exact ⟨rest, by simpa using hrest⟩
  · intro pre g r post hrs hok hne
    obtain ⟨e1, e2⟩ := h3 pre g r post hrs hok hne
    simp only [List.nil_append] at e2
    refine ⟨e1, e2, ?_⟩
    obtain ⟨rest, hrest⟩ := h2 g
    simp only [List.nil_append] at hrest
    rw [hrs, returnedBy_append, e2] at hrest ⊢
    have hlen := congrArg List.length hrest
    simp only [List.length_append] at hlen
    have h0 : returnedBy g ((g, r) :: post) = [] := List.length_eq_zero.1 (by omega)
    rw [h0, List.append_nil]

theorem dup_handles_witness :
    (dataStreamer [1, 2] 0).toStreamer.HasContent [1, 2] ∧
    ∃ rs : List (DupHandle × Pulled Nat),
      dupTrace (Dup (dataStreamer [1, 2] 0).toStreamer) [(DupHandle.t, [0]), (DupHandle.u, [0, 0])]
        = some rs ∧
      (∀ g : DupHandle, ∃ rest : List Nat, returnedBy g rs ++ rest = [1, 2]) :=
  ⟨dataStreamer_hasContent _,
    (dup_handles _ [1, 2] (dataStreamer_hasContent _)
      [(DupHandle.t, [0]), (DupHandle.u, [0, 0])]).imp (fun _ hrs => ⟨hrs.1, hrs.2.1⟩)⟩

/-- C5 fails on the code for a call with no slots: on a stream with content `[1]`, one
call of `dup.Stream` with an empty slice on each handle returns 0 and false on both
handles, the report of a drained stream, although neither handle has returned the
sample. -/
theorem dup_empty_pull_drained :
    (dataStreamer [1] 0).toStreamer.HasContent [1] ∧
    ∃ rs : List (DupHandle × Pulled Nat),
      dupTrace (Dup (dataStreamer [1] 0).toStreamer) [(DupHandle.t, []), (DupHandle.u, [])] =
        some rs ∧
      (∃ r, (DupHandle.t, r) ∈ rs ∧ r.ok = false) ∧
      (∃ r, (DupHandle.u, r) ∈ rs ∧ r.ok = false) ∧
      returnedBy DupHandle.t rs ≠ [1] ∧ returnedBy DupHandle.u rs ≠ [1] :=
  ⟨dataStreamer_hasContent _,
    [(DupHandle.t, ⟨[], 0, false⟩), (DupHandle.u, ⟨[], 0, false⟩)], by decide,
    ⟨⟨[], 0, false⟩, by decide, rfl⟩, ⟨⟨[], 0, false⟩, by decide, rfl⟩, by decide, by decide⟩

/-! ### Points and the Mixer -/

theorem Streamer.InRange.call {P : Type} {s : Streamer P} (h : s.InRange) (b : List P) :
    0 ≤ (s.Stream b).1.n ∧ (s.Stream b).1.n ≤ b.length ∧ (s.Stream b).2.InRange ∧
      (s.Stream b).1.samples.length = b.length :=
  ⟨(h s.st b).1, (h s.st b).2, fun x y => h x y, s.len_samples s.st b⟩

theorem set_get_self {α : Type _} (l : List α) (i : Nat) (h : i < l.length) :
    l.set i (l.get ⟨i, h⟩) = l := by
  induction l generalizing i with
  | nil => rfl
  | cons x xs ih =>
    cases i with
    | zero => rfl
    | succ i => simp only [List.set_cons_succ, List.get_cons_succ, List.cons.injEq, true_and]; exact ih i _

theorem getD_mem_or_eq {α : Type _} (l : List α) (i : Nat) (d : α) :
    l.getD i d ∈ l ∨ l.getD i d = d := by
  by_cases h : i < l.length
  · left
    rw [List.getD_eq_getElem _ _ h]
    exact List.getElem_mem h
  · right
    simp [List.getD_eq_getElem?_getD, List.getElem?_eq_none (by omega : l.length ≤ i)]

theorem dataStreamer_inRange {P : Type} (data : List P) (pos : Nat) :
    (dataStreamer data pos).toStreamer.InRange := by
  intro x samples
  simp only [dataStreamer, dataStreamer.streamFn, copy]
  split
  · simp
  · simp only [Nat.cast_nonneg, true_and]
    exact_mod_cast Nat.min_le_left _ _

theorem Mixer.addChannels_eq {S P : Type} [Point S P] [LawfulPoint S P] (sample t : P)
    (fuel : Nat) : ∀ j : Nat, j + fuel ≤ Point.Count (Point.zero : P) →
      Mixer.addChannels sample t fuel j = some sample := by
  induction fuel with
  | zero => intro j _; rfl
  | succ fuel ih =>
    intro j hj
    obtain ⟨v, hv⟩ := LawfulPoint.get_some t j (by omega)
    obtain ⟨q, hq⟩ := LawfulPoint.add_some sample j v (by omega)
    simp only [Mixer.addChannels, hv, hq]
    exact ih (j + 1) (by omega)

theorem Mixer.addSamples_eq {S P : Type} [Point S P] [LawfulPoint S P] (tmp : List P)
    (fuel : Nat) : ∀ (i : Nat) (samples : List P), i + fuel ≤ samples.length →
      i + fuel ≤ tmp.length →
      Mixer.addSamples (Point.Count (Point.zero : P)) tmp fuel i samples = some samples := by
  induction fuel with
  | zero => intro i samples _ _; rfl
  | succ fuel ih =>
    intro i samples h1 h2
    have e1 : samples.get? i = some (samples.get ⟨i, by omega⟩) := List.get?_eq_get _
    have e2 : tmp.get? i = some (tmp.get ⟨i, by omega⟩) := List.get?_eq_get _
    have e0 := Mixer.addChannels_eq (samples.get ⟨i, by omega⟩) (tmp.get ⟨i, by omega⟩)
      (Point.Count (Point.zero : P)) 0 (by omega)
    simp only [Mixer.addSamples, e1, e2, e0]
    rw [set_get_self]
    exact ih (i + 1) samples (by omega) (by omega)

theorem Mixer.round_total {S P : Type} [Point S P] [LawfulPoint S P] (toStream : Nat)
    (fuel : Nat) :
    ∀ (streamers : List (Streamer P)) (si : Nat) (samples tmp : List P)
      (calls : List (MixerCall P)),
      (∀ s ∈ streamers, s.InRange) → tmp.length = 512 → toStream ≤ samples.length →
      toStream ≤ 512 → streamers.length - si ≤ fuel →
      ∃ (streamers1 : List (Streamer P)) (tmp1 : List P) (calls1 : List (MixerCall P)),
        Mixer.round (Point.Count (Point.zero : P)) toStream fuel streamers si samples tmp calls
          = some (streamers1, samples, tmp1, calls1) ∧
        (∀ s ∈ streamers1, s.InRange) ∧ tmp1.length = 512 := by
  induction fuel with
  | zero =>
    intro streamers si samples tmp calls hin htmp _ _ hfuel
    refine ⟨streamers, tmp, calls, ?_, hin, htmp⟩
    unfold Mixer.round
    rw [dif_neg (by omega)]
  | succ fuel ih =>
    intro streamers si samples tmp calls hin htmp hts hts2 hfuel
    by_cases hsi : si < streamers.length
    · have hs := hin _ (List.get_mem streamers si hsi)
      obtain ⟨h1, h2, h3, h4⟩ := hs.call (tmp.take toStream)
      have hlen : (tmp.take toStream).length = toStream := by
        rw [List.length_take, htmp]; omega
      rw [hlen] at h2 h4
      have htmp1 : (((streamers.get ⟨si, hsi⟩).Stream (tmp.take toStream)).1.samples
          ++ tmp.drop toStream).length = 512 := by
        rw [List.length_append, h4, List.length_drop, htmp]; omega
      unfold Mixer.round
      rw [dif_pos hsi]
      simp only
      rw [if_pos ⟨h1, by omega⟩]
      rw [Mixer.addSamples_eq _ _ 0 samples (by omega) (by omega)]
      simp only
      split
      · -- the streamer reported drained and is removed
        apply ih
        · intro s hs
          have hs2 := List.mem_of_mem_take hs
          rcases List.mem_or_eq_of_mem_set hs2 with h | h
          · rcases List.mem_or_eq_of_mem_set h with h | h
            · rcases List.mem_or_eq_of_mem_set h with h | h
              · exact hin s h
              · exact h ▸ h3
            · rcases getD_mem_or_eq (streamers.set si
                ((streamers.get ⟨si, hsi⟩).Stream (tmp.take toStream)).2) (streamers.length - 1)
                ((streamers.get ⟨si, hsi⟩).Stream (tmp.take toStream)).2 with h5 | h5
              · rw [← h] at h5
                rcases List.mem_or_eq_of_mem_set h5 with h6 | h6
                · exact hin s h6
                · exact h6 ▸ h3
              · rw [← h] at h5
                exact h5 ▸ h3
          · exact h ▸ h3
        · exact htmp1
        · exact hts
        · exact hts2
        · simp only [List.length_take, List.length_set]
          omega
      · apply ih
        · intro s hs
          rcases List.mem_or_eq_of_mem_set hs with h | h
          · exact hin s h
          · exact h ▸ h3
        · exact htmp1
        · exact hts
        · exact hts2
        · simp only [List.length_set]
          omega
    · refine ⟨streamers, tmp, calls, ?_, hin, htmp⟩
      unfold Mixer.round
      rw [dif_neg hsi]

theorem Mixer.rounds_total {S P : Type} [Point S P] [LawfulPoint S P] (fuel : Nat) :
    ∀ (m : Mixer P) (filled samples tmp : List P) (n : Int) (log : List (List (MixerCall P))),
      (∀ s ∈ m.streamers, s.InRange) → tmp.length = 512 → samples.length ≤ fuel →
      ∃ (m1 : Mixer P) (log1 : List (List (MixerCall P))),
        Mixer.rounds (Point.Count (Point.zero : P)) fuel m filled samples tmp n log
          = some (⟨filled ++ List.replicate samples.length (Point.zero : P),
              n + samples.length, true⟩, m1, log1) ∧
        (∀ s ∈ m1.streamers, s.InRange) := by
  induction fuel with
  | zero =>
    intro m filled samples tmp n log hin _ hfuel
    have hs : samples = [] := List.length_eq_zero.1 (by omega)
    subst hs
    refine ⟨m, log, ?_, hin⟩
    unfold Mixer.rounds
    simp
  | succ fuel ih =>
    intro m filled samples tmp n log hin htmp hfuel
    by_cases hc : 0 < samples.length
    · obtain ⟨t, ht, ht1, ht2, ht3⟩ : ∃ t : Nat,
          (if 512 > samples.length then samples.length else 512) = t ∧ t ≤ samples.length ∧
          t ≤ 512 ∧ 0 < t := by
        by_cases h : 512 > samples.length
        · exact ⟨samples.length, by rw [if_pos h], le_refl _, by omega, hc⟩
        · exact ⟨512, by rw [if_neg h], by omega, le_refl _, by omega⟩
      have hcl : t ≤ (List.replicate t (Point.zero : P) ++ samples.drop t).length := by
        simp
      obtain ⟨streamers1, tmp1, calls1, hr, hin1, htmp1⟩ :=
        Mixer.round_total (P := P) t m.streamers.length m.streamers 0
          (List.replicate t (Point.zero : P) ++ samples.drop t) tmp [] hin htmp hcl ht2 (by omega)
      obtain ⟨m1, log1, h1, h2⟩ := ih { streamers := streamers1 }
        (filled ++ (List.replicate t (Point.zero : P) ++ samples.drop t).take t)
        ((List.replicate t (Point.zero : P) ++ samples.drop t).drop t) tmp1 (n + t)
        (log ++ [calls1]) hin1 htmp1 (by simp; omega)
      refine ⟨m1, log1, ?_, h2⟩
      unfold Mixer.rounds
      rw [if_pos hc]
      simp only [ht, hr]
      rw [h1]
      congr 2
      refine Pulled.mk.injEq .. ▸ ⟨?_, ?_, rfl⟩
      · have e1 : (List.replicate t (Point.zero : P) ++ samples.drop t).take t
            = List.replicate t Point.zero := by
          rw [List.take_append_of_le_length (by simp)]; simp
        have e2 : ((List.replicate t (Point.zero : P) ++ samples.drop t).drop t).length
            = samples.length - t := by
          simp
        rw [e1, e2, List.append_assoc, ← List.replicate_add]
        congr 2
        omega
      · simp only [List.length_drop, List.length_append, List.length_replicate]
        omega
    · have hs : samples = [] := List.length_eq_zero.1 (by omega)
      subst hs
      refine ⟨m, log, ?_, hin⟩
      unfold Mixer.rounds
      simp

theorem Mixer.StreamLog_total {S P : Type} [Point S P] [LawfulPoint S P] (m : Mixer P)
    (hin : ∀ s ∈ m.streamers, s.InRange) (samples : List P) :
    ∃ (m1 : Mixer P) (log : List (List (MixerCall P))),
      Mixer.StreamLog m samples = some (⟨List.replicate samples.length (Point.zero : P),
        samples.length, true⟩, m1, log) ∧ (∀ s ∈ m1.streamers, s.InRange) := by
  obtain ⟨m1, log1, h1, h2⟩ := Mixer.rounds_total (P := P) samples.length m [] samples
    (List.replicate 512 (Point.zero : P)) 0 [] hin (List.length_replicate _ _) (le_refl _)
  refine ⟨m1, log1, ?_, h2⟩
  rw [Mixer.StreamLog, h1]
  simp

/-- Whatever in-range streamers the mixer holds, the samples `Mixer.Stream` delivers are
all the zero value: the points returned by `Add` are dropped. -/
theorem mixer_stream_silence {S P : Type} [Point S P] [LawfulPoint S P] (m : Mixer P)
    (hin : ∀ s ∈ m.streamers, s.InRange) (samples : List P) :
    ∃ m1 : Mixer P, Mixer.Stream m samples =
      some (⟨List.replicate samples.length (Point.zero : P), samples.length, true⟩, m1) := by
  obtain ⟨m1, log, h1, -⟩ := Mixer.StreamLog_total m hin samples
  exact ⟨m1, by rw [Mixer.Stream, h1]⟩

/-- C6 (amended). For every Mixer whose held streams return counts `0 ≤ n ≤ len(samples)`
(with any samples and any `ok`), and every request of `N ≥ 0` slots, `Mixer.Stream`
returns exactly `(N, true)` and `N` samples; when the Mixer holds no streams all `N`
samples are the zero value. -/
theorem mixer_stream_full {S P : Type} [Point S P] [LawfulPoint S P] (m : Mixer P)
    (hin : ∀ s ∈ m.streamers, s.InRange) (samples : List P) :
    ∃ (out : List P) (m1 : Mixer P),
      Mixer.Stream m samples = some (⟨out, samples.length, true⟩, m1) ∧
      out.length = samples.length ∧
      (m.streamers = [] → out = List.replicate samples.length (Point.zero : P)) := by
  obtain ⟨m1, log, h1, -⟩ := Mixer.StreamLog_total m hin samples
  refine ⟨_, m1, ?_, ?_, fun _ => rfl⟩
  · rw [Mixer.Stream, h1]
  · simp

theorem mixer_stream_full_witness :
    (∀ s ∈ [(dataStreamer [(⟨1, 1⟩ : Stereo Int)] 0).toStreamer], s.InRange) ∧
    ∃ (out : List (Stereo Int)) (m1 : Mixer (Stereo Int)),
      Mixer.Stream { streamers := [(dataStreamer [(⟨1, 1⟩ : Stereo Int)] 0).toStreamer] }
        [⟨5, 5⟩, ⟨6, 6⟩] = some (⟨out, 2, true⟩, m1) ∧ out.length = 2 :=
  ⟨by simpa using dataStreamer_inRange _ 0,
    (mixer_stream_full
      { streamers := [(dataStreamer [(⟨1, 1⟩ : Stereo Int)] 0).toStreamer] }
      (by simpa using dataStreamer_inRange _ 0) [⟨5, 5⟩, ⟨6, 6⟩]).imp
      (fun _ h => h.imp (fun _ h2 => ⟨h2.1, h2.2.1⟩))⟩

/-- C6 as stated fails for a held stream that returns more than it was asked for: with
one stream that returns `n = 2` on a request of one slot, `Mixer.Stream` on a slice of
one slot faults at `samples[1]` and returns nothing. -/
theorem mixer_stream_fault_counterexample :
    (Mixer.Stream { streamers := [overlongStreamer] } [(⟨0, 0⟩ : Stereo Int)]).isNone = true := by
  decide

/-- C7 fails on the code: a Mixer holding one stream with the single sample `(1, 1)`,
asked for one slot, delivers the sample `(0, 0)`, not `(1, 1)`. -/
theorem mixer_output_not_mixed :
    (Mixer.Stream { streamers := [(dataStreamer [(⟨1, 1⟩ : Stereo Int)] 0).toStreamer] }
      [⟨5, 5⟩]).map (fun r => r.1) = some ⟨[⟨0, 0⟩], 1, true⟩ := by
  decide

theorem swap_remove_perm {α : Type _} (l : List α) (si : Nat) (h : si < l.length) (x : α) :
    ((((l.set si x).set si ((l.set si x).getD (l.length - 1) x)).set (l.length - 1) x).take
        (l.length - 1)).take si = l.take si ∧
    (((((l.set si x).set si ((l.set si x).getD (l.length - 1) x)).set (l.length - 1) x).take
        (l.length - 1)).drop si).Perm (l.drop (si + 1)) := by
  obtain ⟨A, a, B, rfl, hA⟩ : ∃ A a B, l = A ++ a :: B ∧ A.length = si :=
    ⟨l.take si, l.get ⟨si, h⟩, l.drop (si + 1), by simp, by simp; omega⟩
  subst hA
  rcases List.eq_nil_or_concat B with rfl | ⟨B1, z, rfl⟩
  · simp
  · simp only [List.concat_eq_append]
    have hlen : (A ++ a :: (B1 ++ [z])).length - 1 = A.length + (B1.length + 1) := by
      simp
    rw [hlen]
    have e1 : ∀ y : α, (A ++ y :: (B1 ++ [z])).set A.length x = A ++ x :: (B1 ++ [z]) := by
      intro y; simp
    have e2 : (A ++ x :: (B1 ++ [z])).getD (A.length + (B1.length + 1)) x = z := by
      rw [List.getD_eq_getElem?_getD, List.getElem?_append_right (by omega)]
      simp
    have e3 : (A ++ z :: (B1 ++ [z])).set (A.length + (B1.length + 1)) x
        = A ++ z :: (B1 ++ [x]) := by
      rw [List.set_append_right _ _ (by omega)]
      simp
    have e4 : (A ++ z :: (B1 ++ [x])).take (A.length + (B1.length + 1)) = A ++ z :: B1 := by
      rw [List.take_append]
      simp
    rw [e1, e2]
    have e5 : (A ++ x :: (B1 ++ [z])).set A.length z = A ++ z :: (B1 ++ [z]) := by simp
    rw [e5, e3, e4]
    refine ⟨by simp, ?_⟩
    rw [List.drop_left]
    have : List.drop (A.length + 1) (A ++ a :: (B1 ++ [z])) = B1 ++ [z] := by
      rw [List.drop_append]
      rfl
    rw [this]
    exact (List.perm_append_singleton z B1).symm

theorem survivors_cons {P : Type} (c : MixerCall P) (cs : List (MixerCall P)) :
    survivors (c :: cs) = if c.ok then c.after :: survivors cs else survivors cs := by
  by_cases h : c.ok = true <;> simp [survivors, h]

theorem take_succ_set {α : Type _} (l : List α) (i : Nat) (h : i < l.length) (x : α) :
    (l.set i x).take (i + 1) = l.take i ++ [x] := by
  obtain ⟨A, a, B, rfl, hA⟩ : ∃ A a B, l = A ++ a :: B ∧ A.length = i :=
    ⟨l.take i, l.get ⟨i, h⟩, l.drop (i + 1), by simp, by simp; omega⟩
  subst hA
  simp [List.take_append]

theorem Mixer.round_log {S P : Type} [Point S P] (ct toStream : Nat) (fuel : Nat) :
    ∀ (streamers : List (Streamer P)) (si : Nat) (samples tmp : List P)
      (calls : List (MixerCall P))
      (res : List (Streamer P) × List P × List P × List (MixerCall P)),
      Mixer.round ct toStream fuel streamers si samples tmp calls = some res →
      ∃ new : List (MixerCall P), res.2.2.2 = calls ++ new ∧
        (new.map (fun c => c.before)).Perm (streamers.drop si) ∧
        res.1.Perm (streamers.take si ++ survivors new) := by
  induction fuel with
  | zero =>
    intro streamers si samples tmp calls res h
    unfold Mixer.round at h
    by_cases hsi : si < streamers.length
    · rw [dif_pos hsi] at h
      simp at h
    · rw [dif_neg hsi] at h
      simp only [Option.some.injEq] at h
      subst h
      refine ⟨[], by simp, ?_, ?_⟩
      · rw [List.drop_eq_nil_of_le (by omega)]; exact List.Perm.refl _
      · rw [List.take_of_length_le (by omega)]; simp [survivors]
  | succ fuel ih =>
    intro streamers si samples tmp calls res h
    unfold Mixer.round at h
    by_cases hsi : si < streamers.length
    · rw [dif_pos hsi] at h
      simp only at h
      set c := (streamers.get ⟨si, hsi⟩).Stream (tmp.take toStream) with hcdef
      split at h
      · split at h
        · simp at h
        · rename_i samples1 _
          have hdrop : streamers.drop si = streamers.get ⟨si, hsi⟩ :: streamers.drop (si + 1) := by
            simp
          split at h
          · -- drained: swap with the last streamer and cut it off
            rename_i hok
            obtain ⟨new, h1, h2, h3⟩ := ih _ _ _ _ _ _ h
            obtain ⟨e1, e2⟩ := swap_remove_perm streamers si hsi c.2
            refine ⟨{ before := streamers.get ⟨si, hsi⟩, after := c.2, ok := c.1.ok } :: new,
              ?_, ?_, ?_⟩
            · rw [h1]; simp
            · rw [hdrop]
              simp only [List.map_cons]
              exact List.Perm.cons _ (h2.trans e2)
            · rw [survivors_cons]
              have hok2 : c.1.ok = false := by simpa using hok
              rw [e1] at h3
              simpa [hok2] using h3
          · rename_i hok
            obtain ⟨new, h1, h2, h3⟩ := ih _ _ _ _ _ _ h
            refine ⟨{ before := streamers.get ⟨si, hsi⟩, after := c.2, ok := c.1.ok } :: new,
              ?_, ?_, ?_⟩
            · rw [h1]; simp
            · rw [hdrop]
              simp only [List.map_cons]
              rw [List.drop_set_of_lt _ _ (by omega)] at h2
              exact List.Perm.cons _ h2
            · rw [survivors_cons]
              have hok2 : c.1.ok = true := by simpa using hok
              simp only [hok2, if_true]
              rw [take_succ_set _ _ hsi] at h3
              simpa using h3
      · simp at h
    · rw [dif_neg hsi] at h
      simp only [Option.some.injEq] at h
      subst h
      refine ⟨[], by simp, ?_, ?_⟩
      · rw [List.drop_eq_nil_of_le (by omega)]; exact List.Perm.refl _
      · rw [List.take_of_length_le (by omega)]; simp [survivors]

theorem MixerRounds.perm {P : Type} {held held2 : List (Streamer P)}
    (log : List (List (MixerCall P))) {held1 : List (Streamer P)} (hp : held.Perm held2)
    (h : MixerRounds held log held1) : MixerRounds held2 log held1 := by
  cases log with
  | nil => exact List.Perm.trans h hp
  | cons calls log => exact ⟨h.1.trans hp, h.2⟩

theorem MixerRounds.append {P : Type} (log log2 : List (List (MixerCall P))) :
    ∀ {a b c : List (Streamer P)}, MixerRounds a log b → MixerRounds b log2 c →
      MixerRounds a (log ++ log2) c := by
  induction log with
  | nil =>
    intro a b c h1 h2
    exact MixerRounds.perm log2 h1 h2
  | cons calls log ih =>
    intro a b c h1 h2
    exact ⟨h1.1, ih h1.2 h2⟩

theorem drainedCount_append {P : Type} (log log2 : List (List (MixerCall P))) :
    drainedCount (log ++ log2) = drainedCount log + drainedCount log2 := by
  simp [drainedCount]

theorem length_survivors {P : Type} (calls : List (MixerCall P)) :
    (survivors calls).length + (calls.filter (fun c => !c.ok)).length = calls.length := by
  induction calls with
  | nil => rfl
  | cons c cs ih =>
    rw [survivors_cons]
    by_cases h : c.ok = true
    · simp [h]; omega
    · simp [h]; omega

theorem Mixer.rounds_log {S P : Type} [Point S P] (ct : Nat) (fuel : Nat) :
    ∀ (m : Mixer P) (filled samples tmp : List P) (n : Int) (log : List (List (MixerCall P)))
      (res : Pulled P × Mixer P × List (List (MixerCall P))),
      Mixer.rounds ct fuel m filled samples tmp n log = some res →
      ∃ new : List (List (MixerCall P)), res.2.2 = log ++ new ∧
        MixerRounds m.streamers new res.2.1.streamers ∧
        res.2.1.streamers.length + drainedCount new = m.streamers.length := by
  induction fuel with
  | zero =>
    intro m filled samples tmp n log res h
    unfold Mixer.rounds at h
    split at h
    · simp at h
    · simp only [Option.some.injEq] at h
      subst h
      exact ⟨[], by simp, List.Perm.refl _, by simp [drainedCount]⟩
  | succ fuel ih =>
    intro m filled samples tmp n log res h
    unfold Mixer.rounds at h
    split at h
    · simp only at h
      split at h
      · simp at h
      · rename_i streamers samples1 tmp1 calls hr
        obtain ⟨new, h1, h2, h3⟩ := ih _ _ _ _ _ _ _ h
        obtain ⟨new0, e1, e2, e3⟩ := Mixer.round_log _ _ _ _ _ _ _ _ _ hr
        simp only [List.nil_append, List.drop_zero, List.take_zero] at e1 e2 e3
        subst e1
        refine ⟨calls :: new, ?_, ⟨e2, MixerRounds.perm new e3 h2⟩, ?_⟩
        · rw [h1]; simp
        · have hl1 := e2.length_eq
          have hl2 := e3.length_eq
          have hl3 := length_survivors calls
          simp only [List.length_map] at hl1
          simp only [drainedCount, List.map_cons, List.sum_cons] at h3 ⊢
          omega
    · simp only [Option.some.injEq] at h
      subst h
      exact ⟨[], by simp, List.Perm.refl _, by simp [drainedCount]⟩

theorem Mixer.StreamLog_log {S P : Type} [Point S P] (m : Mixer P) (samples : List P)
    (res : Pulled P × Mixer P × List (List (MixerCall P)))
    (h : Mixer.StreamLog m samples = some res) :
    MixerRounds m.streamers res.2.2 res.2.1.streamers ∧
      res.2.1.streamers.length + drainedCount res.2.2 = m.streamers.length := by
  obtain ⟨new, h1, h2, h3⟩ := Mixer.rounds_log _ _ _ _ _ _ _ _ _ h
  simp only [List.nil_append] at h1
  rw [h1]
  exact ⟨h2, h3⟩

theorem Mixer.pullsLog_log {S P : Type} [Point S P] (bufs : List (List P)) :
    ∀ (m m1 : Mixer P) (log : List (List (MixerCall P))),
      Mixer.pullsLog m bufs = some (m1, log) →
      MixerRounds m.streamers log m1.streamers ∧
        m1.streamers.length + drainedCount log = m.streamers.length := by
  induction bufs with
  | nil =>
    intro m m1 log h
    simp only [Mixer.pullsLog, Option.some.injEq, Prod.mk.injEq] at h
    obtain ⟨rfl, rfl⟩ := h
    exact ⟨List.Perm.refl _, by simp [drainedCount]⟩
  | cons b bs ih =>
    intro m m1 log h
    simp only [Mixer.pullsLog] at h
    split at h
    · simp at h
    · rename_i r m2 log2 hs
      split at h
      · simp at h
      · rename_i m3 log3 hp
        simp only [Option.some.injEq, Prod.mk.injEq] at h
        obtain ⟨rfl, rfl⟩ := h
        obtain ⟨e1, e2⟩ := Mixer.StreamLog_log m b _ hs
        obtain ⟨e3, e4⟩ := ih _ _ _ hp
        simp only at e1 e2
        refine ⟨MixerRounds.append _ _ e1 e3, ?_⟩
        rw [drainedCount_append]
        omega

theorem Mixer.pullsLog_total {S P : Type} [Point S P] [LawfulPoint S P] (bufs : List (List P)) :
    ∀ m : Mixer P, (∀ s ∈ m.streamers, s.InRange) →
      ∃ (m1 : Mixer P) (log : List (List (MixerCall P))), Mixer.pullsLog m bufs = some (m1, log) := by
  induction bufs with
  | nil => intro m _; exact ⟨m, [], rfl⟩
  | cons b bs ih =>
    intro m hin
    obtain ⟨m1, log, h1, h2⟩ := Mixer.StreamLog_total m hin b
    obtain ⟨m2, log2, h3⟩ := ih m1 h2
    exact ⟨m2, log ++ log2, by simp only [Mixer.pullsLog, h1, h3]⟩

/-- C8. For every Mixer and every sequence of pulls that returns: every round calls, once
each, exactly the streams held when it starts; the streams held after a round, and so in
all later rounds and pulls, are exactly those whose call returned `ok` (a stream that
returned `ok = false` is not among them, every other one is); and `Len()` drops by the
number of calls that returned `ok = false`. The pulls do return when the held streams
return counts within the slice they get. -/
theorem mixer_removes_drained {S P : Type} [Point S P] [LawfulPoint S P] (m : Mixer P)
    (bufs : List (List P)) :
    (∀ (m1 : Mixer P) (log : List (List (MixerCall P))),
      Mixer.pullsLog m bufs = some (m1, log) →
      MixerRounds m.streamers log m1.streamers ∧ m1.Len = m.Len - drainedCount log) ∧
    ((∀ s ∈ m.streamers, s.InRange) →
      ∃ (m1 : Mixer P) (log : List (List (MixerCall P))),
        Mixer.pullsLog m bufs = some (m1, log)) := by
  refine ⟨?_, Mixer.pullsLog_total bufs m⟩
  intro m1 log h
  obtain ⟨h1, h2⟩ := Mixer.pullsLog_log bufs m m1 log h
  refine ⟨h1, ?_⟩
  simp only [Mixer.Len]
  omega

theorem mixer_removes_drained_witness :
    (∀ s ∈ [(dataStreamer [(⟨1, 1⟩ : Stereo Int)] 0).toStreamer], s.InRange) ∧
    ∃ (m1 : Mixer (Stereo Int)) (log : List (List (MixerCall (Stereo Int)))),
      Mixer.pullsLog { streamers := [(dataStreamer [(⟨1, 1⟩ : Stereo Int)] 0).toStreamer] }
        [[⟨0, 0⟩], [⟨0, 0⟩]] = some (m1, log) :=
  ⟨by simpa using dataStreamer_inRange _ 0,
    (mixer_removes_drained
      { streamers := [(dataStreamer [(⟨1, 1⟩ : Stereo Int)] 0).toStreamer] }
      [[⟨0, 0⟩], [⟨0, 0⟩]]).2 (by simpa using dataStreamer_inRange _ 0)⟩

/-! ### The sample codec -/

theorem precision_consts (precision : Int) (h1 : 1 ≤ precision) (h6 : precision ≤ 6) :
    ∃ K : Nat, 128 ≤ K ∧ 2 * K ≤ 2 ^ 48 ∧ exp2 (precision * 8 - 1) = (K : ℚ) ∧
      exp2 (precision * 8) = 2 * (K : ℚ) ∧ shl1 (precision * 8 - 1) = K ∧
      shl1 (precision * 8) = 2 * K ∧ 256 ^ precision.toNat = 2 * K := by
  obtain ⟨n, rfl⟩ : ∃ n : Nat, precision = n := ⟨precision.toNat, by omega⟩
  have hn1 : 1 ≤ n := by omega
  have hn6 : n ≤ 6 := by omega
  refine ⟨2 ^ (8 * n - 1), ?_, ?_, ?_, ?_, ?_, ?_, ?_⟩ <;>
    interval_cases n <;> simp [exp2, shl1] <;> norm_num

theorem epsilon_eq (precision : Int) : epsilon precision = 1 / (exp2 (precision * 8 - 1) - 1) := by
  rw [epsilon, exp2, mul_comm]

theorem floor_bound {q : ℚ} {K : Nat} (h0 : 0 ≤ q) (h1 : q ≤ (K : ℚ) - 1) :
    ⌊q⌋₊ + 1 ≤ K ∧ (⌊q⌋₊ : ℚ) ≤ q ∧ q < (⌊q⌋₊ : ℚ) + 1 := by
  refine ⟨?_, Nat.floor_le h0, Nat.lt_floor_add_one q⟩
  have h2 : (⌊q⌋₊ : ℚ) ≤ (K : ℚ) - 1 := le_trans (Nat.floor_le h0) h1
  have h3 : ((⌊q⌋₊ + 1 : Nat) : ℚ) ≤ (K : ℚ) := by push_cast; linarith
  exact_mod_cast h3


theorem roundHalfEven_le_int (t : ℚ) (k : Int) (h : t ≤ (k : ℚ)) : roundHalfEven t ≤ k := by
  have hf : ⌊t⌋ ≤ k := (Int.floor_le_floor h).trans (le_of_eq (Int.floor_intCast k))
  unfold roundHalfEven
  have hstep : 0 < t - (⌊t⌋ : ℚ) → ⌊t⌋ + 1 ≤ k := by
    intro hpos
    have h1 : (⌊t⌋ : ℚ) < (k : ℚ) := by linarith
    have h2 : ⌊t⌋ < k := by exact_mod_cast h1
    omega
  split
  · exact hf
  · split
    · rename_i h2
      exact hstep (by linarith)
    · split
      · exact hf
      · rename_i h1 h2 h3
        exact hstep (by linarith)

theorem int_le_roundHalfEven (t : ℚ) (k : Int) (h : (k : ℚ) ≤ t) : k ≤ roundHalfEven t := by
  have hf : k ≤ ⌊t⌋ := Int.le_floor.2 h
  unfold roundHalfEven
  split
  · exact hf
  · split
    · omega
    · split
      · exact hf
      · omega

theorem roundHalfEven_error (t : ℚ) : |(roundHalfEven t : ℚ) - t| ≤ 1 / 2 := by
  have h1 := Int.floor_le t
  have h2 := Int.lt_floor_add_one t
  unfold roundHalfEven
  rw [abs_le]
  split
  · constructor <;> linarith
  · split
    · push_cast
      constructor <;> linarith
    · split
      · constructor <;> linarith
      · push_cast
        constructor <;> linarith

theorem roundHalfEven_intCast (k : Int) : roundHalfEven (k : ℚ) = k :=
  le_antisymm (roundHalfEven_le_int _ k (le_refl _)) (int_le_roundHalfEven _ k (le_refl _))

theorem Size.prec_pos (S : Size) : 24 ≤ S.prec := by
  cases S <;> decide

theorem Size.emin_neg (S : Size) : S.emin ≤ -126 := by
  cases S <;> decide

theorem Size.round_zero (S : Size) : S.round 0 = 0 := by
  simp [Size.round]

/-- The exponent of the grid on which `Size.round` rounds a number below `2^prec`: not
positive. -/
theorem Size.grid_exp (S : Size) (x : ℚ) (hx0 : x ≠ 0) (hx : |x| < (2 : ℚ) ^ S.prec) :
    max (Int.log 2 |x|) S.emin - ((S.prec : Int) - 1) ≤ 0 := by
  have hpos : 0 < |x| := abs_pos.2 hx0
  have hlog : Int.log 2 |x| < (S.prec : Int) := by
    rw [← Int.lt_zpow_iff_log_lt (by norm_num) hpos]
    exact_mod_cast hx
  have h1 := S.prec_pos
  have h2 := S.emin_neg
  omega

theorem zpow_grid_int (j : Int) (hj : j ≤ 0) (k : Int) :
    (k : ℚ) / (2 : ℚ) ^ j = ((k * 2 ^ (-j).toNat : Int) : ℚ) := by
  obtain ⟨n, rfl⟩ : ∃ n : Nat, j = -(n : Int) := ⟨(-j).toNat, by omega⟩
  rw [zpow_neg, zpow_natCast]
  simp only [neg_neg, Int.toNat_ofNat]
  push_cast
  field_simp

theorem Size.round_le_int (S : Size) (x : ℚ) (k : Int) (hx : |x| < (2 : ℚ) ^ S.prec)
    (h : x ≤ (k : ℚ)) : S.round x ≤ (k : ℚ) := by
  unfold Size.round
  split
  · rename_i h0
    rw [h0] at h
    exact h
  · rename_i h0
    have hj := S.grid_exp x h0 hx
    have hpow : (0 : ℚ) < (2 : ℚ) ^ (max (Int.log 2 |x|) S.emin - ((S.prec : Int) - 1)) :=
      zpow_pos (by norm_num) _
    have hk := zpow_grid_int _ hj k
    have hle : x / (2 : ℚ) ^ (max (Int.log 2 |x|) S.emin - ((S.prec : Int) - 1)) ≤
        ((k * 2 ^ (-(max (Int.log 2 |x|) S.emin - ((S.prec : Int) - 1))).toNat : Int) : ℚ) := by
      rw [← hk]
      exact div_le_div_of_nonneg_right h hpow.le
    have hr := roundHalfEven_le_int _ _ hle
    have hr2 : ((roundHalfEven (x / (2 : ℚ) ^
        (max (Int.log 2 |x|) S.emin - ((S.prec : Int) - 1))) : Int) : ℚ) ≤
        (k : ℚ) / (2 : ℚ) ^ (max (Int.log 2 |x|) S.emin - ((S.prec : Int) - 1)) := by
      rw [hk]
      exact_mod_cast hr
    rw [le_div_iff₀ hpow] at hr2
    exact hr2

theorem Size.int_le_round (S : Size) (x : ℚ) (k : Int) (hx : |x| < (2 : ℚ) ^ S.prec)
    (h : (k : ℚ) ≤ x) : (k : ℚ) ≤ S.round x := by
  unfold Size.round
  split
  · rename_i h0
    rw [h0] at h
    exact h
  · rename_i h0
    have hj := S.grid_exp x h0 hx
    have hpow : (0 : ℚ) < (2 : ℚ) ^ (max (Int.log 2 |x|) S.emin - ((S.prec : Int) - 1)) :=
      zpow_pos (by norm_num) _
    have hk := zpow_grid_int _ hj k
    have hle : ((k * 2 ^ (-(max (Int.log 2 |x|) S.emin - ((S.prec : Int) - 1))).toNat : Int) : ℚ)
        ≤ x / (2 : ℚ) ^ (max (Int.log 2 |x|) S.emin - ((S.prec : Int) - 1)) := by
      rw [← hk]
      exact div_le_div_of_nonneg_right h hpow.le
    have hr := int_le_roundHalfEven _ _ hle
    have hr2 : (k : ℚ) / (2 : ℚ) ^ (max (Int.log 2 |x|) S.emin - ((S.prec : Int) - 1)) ≤
        ((roundHalfEven (x / (2 : ℚ) ^
          (max (Int.log 2 |x|) S.emin - ((S.prec : Int) - 1))) : Int) : ℚ) := by
      rw [hk]
      exact_mod_cast hr
    rw [div_le_iff₀ hpow] at hr2
    exact hr2

theorem Size.round_int (S : Size) (k : Int) (hk : |(k : ℚ)| < (2 : ℚ) ^ S.prec) :
    S.round (k : ℚ) = (k : ℚ) :=
  le_antisymm (S.round_le_int _ k hk (le_refl _)) (S.int_le_round _ k hk (le_refl _))

theorem roundHalfEven_of_near (t : ℚ) (z : Int) (h : |t - (z : ℚ)| < 1 / 2) :
    roundHalfEven t = z := by
  rw [abs_lt] at h
  have h1 := Int.floor_le t
  have h2 := Int.lt_floor_add_one t
  by_cases hz : (z : ℚ) ≤ t
  · have hf : ⌊t⌋ = z := Int.floor_eq_iff.2 ⟨hz, by linarith⟩
    unfold roundHalfEven
    rw [hf, if_pos (by linarith)]
  · have hf : ⌊t⌋ = z - 1 := Int.floor_eq_iff.2 ⟨by push_cast; linarith, by push_cast; linarith⟩
    unfold roundHalfEven
    rw [hf, if_neg (by push_cast; linarith), if_pos (by push_cast; linarith)]
    omega

theorem roundHalfEven_tie (t : ℚ) (f : Int) (h : t = (f : ℚ) + 1 / 2) :
    roundHalfEven t = if f % 2 = 0 then f else f + 1 := by
  have hf : ⌊t⌋ = f := Int.floor_eq_iff.2 ⟨by linarith, by linarith⟩
  unfold roundHalfEven
  rw [hf, if_neg (by linarith), if_neg (by linarith)]

theorem Size.round_exp (S : Size) (x : ℚ) (e : Int) (hlo : (2 : ℚ) ^ e ≤ |x|)
    (hhi : |x| < (2 : ℚ) ^ (e + 1)) (hemin : S.emin ≤ e) :
    x ≠ 0 ∧ max (Int.log 2 |x|) S.emin = e := by
  have hpos : 0 < |x| := lt_of_lt_of_le (zpow_pos (by norm_num) e) hlo
  have h1 : e ≤ Int.log 2 |x| := (Int.zpow_le_iff_le_log (by norm_num) hpos).1 (by exact_mod_cast hlo)
  have h2 : Int.log 2 |x| < e + 1 :=
    (Int.lt_zpow_iff_log_lt (by norm_num) hpos).1 (by exact_mod_cast hhi)
  exact ⟨abs_pos.1 hpos, by omega⟩

theorem Size.round_near (S : Size) (x : ℚ) (e z : Int) (hlo : (2 : ℚ) ^ e ≤ |x|)
    (hhi : |x| < (2 : ℚ) ^ (e + 1)) (hemin : S.emin ≤ e)
    (hz : |x / (2 : ℚ) ^ (e - ((S.prec : Int) - 1)) - (z : ℚ)| < 1 / 2) :
    S.round x = (z : ℚ) * (2 : ℚ) ^ (e - ((S.prec : Int) - 1)) := by
  obtain ⟨h0, he⟩ := S.round_exp x e hlo hhi hemin
  unfold Size.round
  rw [if_neg h0, he, roundHalfEven_of_near _ z hz]

theorem Size.round_tie (S : Size) (x : ℚ) (e f : Int) (hlo : (2 : ℚ) ^ e ≤ |x|)
    (hhi : |x| < (2 : ℚ) ^ (e + 1)) (hemin : S.emin ≤ e)
    (hf : x / (2 : ℚ) ^ (e - ((S.prec : Int) - 1)) = (f : ℚ) + 1 / 2) :
    S.round x = ((if f % 2 = 0 then f else f + 1 : Int) : ℚ) *
      (2 : ℚ) ^ (e - ((S.prec : Int) - 1)) := by
  obtain ⟨h0, he⟩ := S.round_exp x e hlo hhi hemin
  unfold Size.round
  rw [if_neg h0, he, roundHalfEven_tie _ f hf]

theorem Size.round_error (S : Size) (x : ℚ) :
    |S.round x - x| ≤ max |x| ((2 : ℚ) ^ S.emin) / (2 : ℚ) ^ S.prec := by
  have hden : (0 : ℚ) < (2 : ℚ) ^ S.prec := pow_pos (by norm_num) _
  by_cases h0 : x = 0
  · rw [h0, S.round_zero, sub_zero, abs_zero]
    exact div_nonneg (le_max_of_le_left (le_refl _)) hden.le
  · have hpos : 0 < |x| := abs_pos.2 h0
    obtain ⟨E, hE⟩ : ∃ E : Int, E = max (Int.log 2 |x|) S.emin := ⟨_, rfl⟩
    have hpow : (0 : ℚ) < (2 : ℚ) ^ (E - ((S.prec : Int) - 1)) := zpow_pos (by norm_num) _
    have hr : S.round x = (roundHalfEven (x / (2 : ℚ) ^ (E - ((S.prec : Int) - 1))) : ℚ) *
        (2 : ℚ) ^ (E - ((S.prec : Int) - 1)) := by
      unfold Size.round
      rw [if_neg h0, ← hE]
    have herr := roundHalfEven_error (x / (2 : ℚ) ^ (E - ((S.prec : Int) - 1)))
    have hx : x = x / (2 : ℚ) ^ (E - ((S.prec : Int) - 1)) *
        (2 : ℚ) ^ (E - ((S.prec : Int) - 1)) := by
      field_simp
    have hdiff : S.round x - x =
        ((roundHalfEven (x / (2 : ℚ) ^ (E - ((S.prec : Int) - 1))) : ℚ) -
          x / (2 : ℚ) ^ (E - ((S.prec : Int) - 1))) * (2 : ℚ) ^ (E - ((S.prec : Int) - 1)) := by
      rw [hr, sub_mul, ← hx]
    rw [hdiff, abs_mul, abs_of_pos hpow]
    have hE2 : (2 : ℚ) ^ E ≤ max |x| ((2 : ℚ) ^ S.emin) := by
      rcases le_total (Int.log 2 |x|) S.emin with hle | hle
      · rw [hE, max_eq_right hle]
        exact le_max_right _ _
      · rw [hE, max_eq_left hle]
        exact le_trans (by exact_mod_cast Int.zpow_log_le_self (by norm_num) hpos)
          (le_max_left _ _)
    have hsplit : (2 : ℚ) ^ (E - ((S.prec : Int) - 1)) = 2 * (2 : ℚ) ^ E / (2 : ℚ) ^ S.prec := by
      rw [zpow_sub₀ (by norm_num), zpow_sub₀ (by norm_num), zpow_natCast, zpow_one]
      field_simp
      ring
    obtain ⟨a, ha⟩ : ∃ a : ℚ, a = |(roundHalfEven (x / (2 : ℚ) ^ (E - ((S.prec : Int) - 1))) : ℚ) -
        x / (2 : ℚ) ^ (E - ((S.prec : Int) - 1))| := ⟨_, rfl⟩
    rw [← ha] at herr ⊢
    have ha0 : 0 ≤ a := by rw [ha]; exact abs_nonneg _
    obtain ⟨w, hw⟩ : ∃ w : ℚ, w = (2 : ℚ) ^ (E - ((S.prec : Int) - 1)) := ⟨_, rfl⟩
    rw [← hw] at hsplit ⊢
    rw [hsplit, le_div_iff₀ hden]
    have hE0 : (0 : ℚ) < (2 : ℚ) ^ E := zpow_pos (by norm_num) _
    have h3 : a * (2 * (2 : ℚ) ^ E / (2 : ℚ) ^ S.prec) * (2 : ℚ) ^ S.prec = a * (2 * (2 : ℚ) ^ E) := by
      field_simp
    rw [h3]
    nlinarith

theorem Size.round_error_le (S : Size) (x C : ℚ) (hx : |x| ≤ C)
    (hC : (1 : ℚ) / 2 ^ 126 ≤ C) : |S.round x - x| ≤ C / (2 : ℚ) ^ S.prec := by
  have hden : (0 : ℚ) < (2 : ℚ) ^ S.prec := pow_pos (by norm_num) _
  refine le_trans (S.round_error x) (div_le_div_of_nonneg_right (max_le hx ?_) hden.le)
  refine le_trans ?_ hC
  have h1 : (2 : ℚ) ^ S.emin ≤ (2 : ℚ) ^ (-126 : Int) :=
    zpow_le_zpow_right₀ (by norm_num) S.emin_neg
  refine le_trans h1 (le_of_eq ?_)
  rw [zpow_neg]
  norm_num

theorem Size.pow_prec_ge (S : Size) (k : Nat) (hk : k ≤ S.prec) :
    (2 : ℚ) ^ k ≤ (2 : ℚ) ^ S.prec :=
  pow_le_pow_right₀ (by norm_num) hk

theorem Size.round_natCast (S : Size) (n k : Nat) (hk : k ≤ S.prec) (hn : n < 2 ^ k) :
    S.round (n : ℚ) = (n : ℚ) := by
  have h := S.round_int (n : Int) (by
    rw [Int.cast_natCast, abs_of_nonneg (Nat.cast_nonneg n)]
    have h1 : (n : ℚ) < (2 : ℚ) ^ k := by exact_mod_cast hn
    exact lt_of_lt_of_le h1 (S.pow_prec_ge k hk))
  simpa using h

/-- The scale constants as the code computes them, for a precision whose codes fit the
sample type. -/
theorem scale_consts (S : Size) (precision : Int) (h1 : 1 ≤ precision)
    (hfit : 8 * precision ≤ (S.prec : Int)) :
    ∃ K : Nat, 128 ≤ K ∧ (2 * K : ℚ) ≤ (2 : ℚ) ^ S.prec ∧ 2 * K ≤ 2 ^ 53 ∧
      2 * K = 256 ^ precision.toNat ∧
      shl1 (precision * 8 - 1) = K ∧ shl1 (precision * 8) = 2 * K ∧
      epsilon precision = 1 / ((K : ℚ) - 1) ∧
      Size.float64.round (exp2 (precision * 8 - 1) - 1) = (K : ℚ) - 1 ∧
      Size.float64.round (exp2 (precision * 8) - 1) = 2 * (K : ℚ) - 1 ∧
      S.round ((K : ℚ) - 1) = (K : ℚ) - 1 ∧ S.round (2 * (K : ℚ) - 1) = 2 * (K : ℚ) - 1 := by
  have hp := S.prec_pos
  have hp53 : S.prec ≤ 53 := by cases S <;> decide
  obtain ⟨n, rfl⟩ : ∃ n : Nat, precision = n := ⟨precision.toNat, by omega⟩
  have hn1 : 1 ≤ n := by omega
  have hn8 : 8 * n ≤ S.prec := by omega
  have hK : (2 : Nat) ^ (8 * n - 1) * 2 = 2 ^ (8 * n) := by
    rw [← pow_succ]
    congr 1
    omega
  have hle : (2 : Nat) ^ (8 * n) ≤ 2 ^ S.prec := Nat.pow_le_pow_right (by norm_num) hn8
  have hle53 : (2 : Nat) ^ S.prec ≤ 2 ^ 53 := Nat.pow_le_pow_right (by norm_num) hp53
  have h128 : 128 ≤ 2 ^ (8 * n - 1) := by
    have : (2 : Nat) ^ 7 ≤ 2 ^ (8 * n - 1) := Nat.pow_le_pow_right (by norm_num) (by omega)
    simpa using this
  have hE1 : exp2 ((n : Int) * 8 - 1) = ((2 ^ (8 * n - 1) : Nat) : ℚ) := by
    rw [exp2, show ((n : Int) * 8 - 1) = ((8 * n - 1 : Nat) : Int) by omega, zpow_natCast]
    push_cast
    rfl
  have hKq : (2 : ℚ) ^ (8 * n) = 2 * ((2 ^ (8 * n - 1) : Nat) : ℚ) := by
    have : ((2 ^ (8 * n) : Nat) : ℚ) = ((2 ^ (8 * n - 1) * 2 : Nat) : ℚ) := by rw [hK]
    push_cast at this ⊢
    rw [this]
    ring
  have hE2 : exp2 ((n : Int) * 8) = 2 * ((2 ^ (8 * n - 1) : Nat) : ℚ) := by
    rw [exp2, show ((n : Int) * 8) = ((8 * n : Nat) : Int) by omega, zpow_natCast, hKq]
  have hsub1 : ((2 ^ (8 * n - 1) : Nat) : ℚ) - 1 = ((2 ^ (8 * n - 1) - 1 : Nat) : ℚ) := by
    rw [Nat.cast_sub (by omega)]
    simp
  have hsub2 : 2 * ((2 ^ (8 * n - 1) : Nat) : ℚ) - 1 = ((2 * 2 ^ (8 * n - 1) - 1 : Nat) : ℚ) := by
    rw [Nat.cast_sub (by omega)]
    push_cast
    ring
  refine ⟨2 ^ (8 * n - 1), h128, ?_, by omega, ?_, ?_, ?_, ?_, ?_, ?_, ?_, ?_⟩
  · rw [← hKq]
    exact pow_le_pow_right₀ (by norm_num) hn8
  · rw [Int.toNat_ofNat, show (256 : Nat) = 2 ^ 8 by norm_num, ← pow_mul]
    omega
  · unfold shl1
    rw [if_pos (by omega)]
    congr 1
    omega
  · unfold shl1
    rw [if_pos (by omega), show ((n : Int) * 8).toNat = 8 * n by omega, ← hK]
    ring
  · rw [epsilon, show (8 * (n : Int) - 1) = ((8 * n - 1 : Nat) : Int) by omega, zpow_natCast]
    push_cast
    rfl
  · rw [hE1, hsub1]
    exact Size.float64.round_natCast _ 53 (le_refl _) (by omega)
  · rw [hE2, hsub2]
    exact Size.float64.round_natCast _ 53 (le_refl _) (by omega)
  · rw [hsub1]
    exact S.round_natCast _ S.prec (le_refl _) (by omega)
  · rw [hsub2]
    exact S.round_natCast _ S.prec (le_refl _) (by omega)

theorem trunc_product (K : Nat) (hK1 : 128 ≤ K) (hK53 : 2 * K ≤ 2 ^ 53) (y : ℚ)
    (hy0 : 0 ≤ y) (hy1 : y ≤ 1) :
    ∃ n : Nat, uint64OfRat (Size.float64.round (y * ((K : ℚ) - 1))) = n ∧ n + 1 ≤ K ∧
      (n : ℚ) - 1 < y * ((K : ℚ) - 1) ∧ y * ((K : ℚ) - 1) < (n : ℚ) + 1 ∧
      n = ⌊Size.float64.round (y * ((K : ℚ) - 1))⌋₊ := by
  have hKq : (128 : ℚ) ≤ (K : ℚ) := by exact_mod_cast hK1
  have hK53q : 2 * (K : ℚ) ≤ (2 : ℚ) ^ 53 := by exact_mod_cast hK53
  have hM : (0 : ℚ) < (K : ℚ) - 1 := by linarith
  have hq0 : 0 ≤ y * ((K : ℚ) - 1) := mul_nonneg hy0 hM.le
  have hq1 : y * ((K : ℚ) - 1) ≤ (K : ℚ) - 1 := by nlinarith
  have habs : |y * ((K : ℚ) - 1)| < (2 : ℚ) ^ Size.float64.prec := by
    rw [abs_of_nonneg hq0]
    have : (2 : ℚ) ^ Size.float64.prec = (2 : ℚ) ^ 53 := rfl
    rw [this]
    linarith
  have hP0 : (0 : ℚ) ≤ Size.float64.round (y * ((K : ℚ) - 1)) := by
    have := Size.float64.int_le_round _ 0 habs (by simpa using hq0)
    simpa using this
  have hP1 : Size.float64.round (y * ((K : ℚ) - 1)) ≤ (K : ℚ) - 1 := by
    have := Size.float64.round_le_int _ ((K : Int) - 1) habs (by push_cast; exact hq1)
    push_cast at this
    exact this
  obtain ⟨n, hn⟩ : ∃ n : Nat, n = ⌊Size.float64.round (y * ((K : ℚ) - 1))⌋₊ := ⟨_, rfl⟩
  have hn1 : (n : ℚ) ≤ Size.float64.round (y * ((K : ℚ) - 1)) := by
    rw [hn]; exact Nat.floor_le hP0
  have hn2 : Size.float64.round (y * ((K : ℚ) - 1)) < (n : ℚ) + 1 := by
    rw [hn]; exact Nat.lt_floor_add_one _
  have hnK : n + 1 ≤ K := by
    have : ((n + 1 : Nat) : ℚ) ≤ (K : ℚ) := by push_cast; linarith
    exact_mod_cast this
  refine ⟨n, ?_, hnK, ?_, ?_, hn⟩
  · rw [uint64OfRat, ← hn]
    exact Nat.mod_eq_of_lt (by omega)
  · by_contra hcon
    have hle : y * ((K : ℚ) - 1) ≤ (((n : Int) - 1 : Int) : ℚ) := by
      push_cast; linarith
    have := Size.float64.round_le_int _ _ habs hle
    push_cast at this
    linarith
  · by_contra hcon
    have hle : (((n : Int) + 1 : Int) : ℚ) ≤ y * ((K : ℚ) - 1) := by
      push_cast; linarith
    have := Size.float64.int_le_round _ _ habs hle
    push_cast at this
    linarith

theorem Size.unit_pos (S : Size) : (0 : ℚ) < 1 / (2 : ℚ) ^ S.prec :=
  div_pos one_pos (pow_pos (by norm_num) _)

theorem Size.round_unit (S : Size) (x : ℚ) (hx : |x| ≤ 1) :
    |S.round x - x| ≤ 1 / (2 : ℚ) ^ S.prec :=
  S.round_error_le x 1 hx (by norm_num)

theorem signed_readBack (S : Size) (precision : Int) (h1 : 1 ≤ precision)
    (hfit : 8 * precision ≤ (S.prec : Int)) (x : ℚ) (hx1 : -1 ≤ x) (hx2 : x ≤ 1) :
    |x - signedToFloat S precision (floatToSigned precision x % 256 ^ precision.toNat)| <
      epsilon precision + 1 / (2 : ℚ) ^ S.prec := by
  obtain ⟨K, hK1, hKS, hK53, hK256, e3, e4, heps, c1, c2, c3, c4⟩ :=
    scale_consts S precision h1 hfit
  have hKq : (128 : ℚ) ≤ (K : ℚ) := by exact_mod_cast hK1
  have hM : (0 : ℚ) < (K : ℚ) - 1 := by linarith
  have hK64 : 2 * K ≤ 2 ^ 53 := hK53
  rw [heps, ← hK256]
  by_cases hx : x < 0
  · obtain ⟨n, hn, hnK, hlo, hhi, -⟩ := trunc_product K hK1 hK53 (-x) (by linarith) (by linarith)
    have hc : floatToSigned precision x = 2 * K - n := by
      simp only [floatToSigned, hx, if_true, c1, e4, hn]
      rw [show 2 * K + 2 ^ 64 - n = (2 * K - n) + 2 ^ 64 by omega, Nat.add_mod_right]
      exact Nat.mod_eq_of_lt (by omega)
    rw [hc]
    have hround : S.round ((n : ℚ)) = (n : ℚ) :=
      S.round_natCast n S.prec (le_refl _) (by
        have : ((n : Nat) : ℚ) < (2 : ℚ) ^ S.prec := by
          have : ((n + 1 : Nat) : ℚ) ≤ (K : ℚ) := by exact_mod_cast hnK
          push_cast at this
          linarith
        exact_mod_cast this)
    have hfrac : |(-(n : ℚ)) / ((K : ℚ) - 1)| ≤ 1 := by
      rw [abs_div, abs_neg, abs_of_nonneg (Nat.cast_nonneg n), abs_of_pos hM, div_le_one hM]
      have : ((n + 1 : Nat) : ℚ) ≤ (K : ℚ) := by exact_mod_cast hnK
      push_cast at this
      linarith
    by_cases hn0 : n = 0
    · have hmod : (2 * K - n) % (2 * K) = 0 := by rw [hn0]; simp
      have hy : signedToFloat S precision 0 = 0 := by
        simp only [signedToFloat, e3, c1]
        rw [if_neg (by omega)]
        simp [int64OfUint64, Size.round_zero]
      rw [hmod, hy, sub_zero, abs_of_neg hx]
      rw [hn0] at hhi
      simp only [Nat.cast_zero, zero_add] at hhi
      have h2 : -x < 1 / ((K : ℚ) - 1) := by
        rw [lt_div_iff₀ hM]; exact hhi
      have := S.unit_pos
      linarith
    · have hmod : (2 * K - n) % (2 * K) = 2 * K - n := Nat.mod_eq_of_lt (by omega)
      have hy : signedToFloat S precision (2 * K - n) =
          S.round (-(n : ℚ) / ((K : ℚ) - 1)) := by
        simp only [signedToFloat, e3, c1, e4]
        rw [if_pos (by omega)]
        have : (2 * K + 2 ^ 64 - (2 * K - n)) % 2 ^ 64 = n := by
          rw [show 2 * K + 2 ^ 64 - (2 * K - n) = n + 2 ^ 64 by omega, Nat.add_mod_right]
          exact Nat.mod_eq_of_lt (by omega)
        simp only [this, int64OfUint64]
        rw [if_pos (by omega)]
        simp only [Int.cast_natCast]
        rw [hround, c3]
      rw [hmod, hy]
      have herr := S.round_unit _ hfrac
      have hexact : |x - -(n : ℚ) / ((K : ℚ) - 1)| < 1 / ((K : ℚ) - 1) := by
        have : x - -(n : ℚ) / ((K : ℚ) - 1) = -((-x * ((K : ℚ) - 1) - n) / ((K : ℚ) - 1)) := by
          field_simp
          ring
        rw [this, abs_neg, abs_div, abs_of_pos hM, div_lt_div_iff_of_pos_right hM, abs_lt]
        constructor <;> linarith
      have htri : |x - S.round (-(n : ℚ) / ((K : ℚ) - 1))| ≤
          |x - -(n : ℚ) / ((K : ℚ) - 1)| +
            |S.round (-(n : ℚ) / ((K : ℚ) - 1)) - -(n : ℚ) / ((K : ℚ) - 1)| := by
        have := abs_sub_le x (-(n : ℚ) / ((K : ℚ) - 1)) (S.round (-(n : ℚ) / ((K : ℚ) - 1)))
        rw [abs_sub_comm (-(n : ℚ) / ((K : ℚ) - 1)) _] at this
        exact this
      linarith
  · have hx0 : 0 ≤ x := not_lt.1 hx
    obtain ⟨n, hn, hnK, hlo, hhi, -⟩ := trunc_product K hK1 hK53 x hx0 hx2
    have hc : floatToSigned precision x = n := by
      simp only [floatToSigned, hx, if_false, c1, hn]
    have hmod : n % (2 * K) = n := Nat.mod_eq_of_lt (by omega)
    have hround : S.round ((n : ℚ)) = (n : ℚ) :=
      S.round_natCast n S.prec (le_refl _) (by
        have : ((n : Nat) : ℚ) < (2 : ℚ) ^ S.prec := by
          have : ((n + 1 : Nat) : ℚ) ≤ (K : ℚ) := by exact_mod_cast hnK
          push_cast at this
          linarith
        exact_mod_cast this)
    have hfrac : |(n : ℚ) / ((K : ℚ) - 1)| ≤ 1 := by
      rw [abs_div, abs_of_nonneg (Nat.cast_nonneg n), abs_of_pos hM, div_le_one hM]
      have : ((n + 1 : Nat) : ℚ) ≤ (K : ℚ) := by exact_mod_cast hnK
      push_cast at this
      linarith
    have hy : signedToFloat S precision n = S.round ((n : ℚ) / ((K : ℚ) - 1)) := by
      simp only [signedToFloat, e3, c1]
      rw [if_neg (by omega)]
      simp only [int64OfUint64]
      rw [if_pos (by omega)]
      simp only [Int.cast_natCast]
      rw [hround, c3]
    rw [hc, hmod, hy]
    have herr := S.round_unit _ hfrac
    have hexact : |x - (n : ℚ) / ((K : ℚ) - 1)| < 1 / ((K : ℚ) - 1) := by
      have : x - (n : ℚ) / ((K : ℚ) - 1) = (x * ((K : ℚ) - 1) - n) / ((K : ℚ) - 1) := by
        field_simp
      rw [this, abs_div, abs_of_pos hM, div_lt_div_iff_of_pos_right hM, abs_lt]
      constructor <;> linarith
    have htri : |x - S.round ((n : ℚ) / ((K : ℚ) - 1))| ≤
        |x - (n : ℚ) / ((K : ℚ) - 1)| +
          |S.round ((n : ℚ) / ((K : ℚ) - 1)) - (n : ℚ) / ((K : ℚ) - 1)| := by
      have := abs_sub_le x ((n : ℚ) / ((K : ℚ) - 1)) (S.round ((n : ℚ) / ((K : ℚ) - 1)))
      rw [abs_sub_comm ((n : ℚ) / ((K : ℚ) - 1)) _] at this
      exact this
    linarith

theorem Size.unit_ge (S : Size) : 1 / (2 : ℚ) ^ 53 ≤ 1 / (2 : ℚ) ^ S.prec := by
  have hp53 : S.prec ≤ 53 := by cases S <;> decide
  exact one_div_le_one_div_of_le (pow_pos (by norm_num) _)
    (pow_le_pow_right₀ (by norm_num) hp53)

theorem Size.round_between (S : Size) (x : ℚ) (a b : Int) (hx : |x| < (2 : ℚ) ^ S.prec)
    (ha : (a : ℚ) ≤ x) (hb : x ≤ (b : ℚ)) : (a : ℚ) ≤ S.round x ∧ S.round x ≤ (b : ℚ) :=
  ⟨S.int_le_round x a hx ha, S.round_le_int x b hx hb⟩

theorem small_lt_pow_prec (S : Size) (x : ℚ) (hx : |x| ≤ 2) : |x| < (2 : ℚ) ^ S.prec := by
  have h1 : (2 : ℚ) ^ 24 ≤ (2 : ℚ) ^ S.prec := pow_le_pow_right₀ (by norm_num) S.prec_pos
  have h2 : (2 : ℚ) < (2 : ℚ) ^ 24 := by norm_num
  linarith

theorem two_div_lt (k : ℚ) (hk : 128 ≤ k) : 2 * (1 / (2 * k - 1)) < 1 / (k - 1) := by
  have hM : (0 : ℚ) < k - 1 := by linarith
  have hU : (0 : ℚ) < 2 * k - 1 := by linarith
  rw [← mul_div_assoc, mul_one, div_lt_div_iff₀ hU hM]
  linarith

theorem unsigned_error_sum (x y A F d g u uS W V : ℚ) (hx : x = 2 * A + (2 * F - 1))
    (hy : -uS ≤ y - (g - 1) ∧ y - (g - 1) ≤ uS) (hg : -(2 * uS) ≤ g - d * 2 ∧ g - d * 2 ≤ 2 * uS)
    (hd : -uS ≤ d - F ∧ d - F ≤ uS) (hA1 : -(3 * u) ≤ A) (hA2 : A < W + 3 * u)
    (hW0 : 0 < W) (hW : 2 * W < V) (hu0 : 0 < u) (hu : u ≤ uS) : |x - y| < V + 16 * uS := by
  rw [abs_lt]
  obtain ⟨hy1, hy2⟩ := hy
  obtain ⟨hg1, hg2⟩ := hg
  obtain ⟨hd1, hd2⟩ := hd
  constructor <;> linarith

theorem unsigned_readBack (S : Size) (precision : Int) (h1 : 1 ≤ precision)
    (hfit : 8 * precision ≤ (S.prec : Int)) (x : ℚ) (hx1 : -1 ≤ x) (hx2 : x ≤ 1) :
    |x - unsignedToFloat S precision (floatToUnsigned precision x % 256 ^ precision.toNat)| <
      epsilon precision + 16 / (2 : ℚ) ^ S.prec := by
  obtain ⟨K, hK1, hKS, hK53, hK256, e3, e4, heps, c1, c2, c3, c4⟩ :=
    scale_consts S precision h1 hfit
  have hKq : (128 : ℚ) ≤ (K : ℚ) := by exact_mod_cast hK1
  have hK53q : 2 * (K : ℚ) ≤ (2 : ℚ) ^ 53 := by exact_mod_cast hK53
  have hM : (0 : ℚ) < (K : ℚ) - 1 := by linarith
  have hU : (0 : ℚ) < 2 * (K : ℚ) - 1 := by linarith
  rw [heps, ← hK256]
  -- the units of rounding
  obtain ⟨u, hu⟩ : ∃ u : ℚ, u = 1 / (2 : ℚ) ^ Size.float64.prec := ⟨_, rfl⟩
  obtain ⟨uS, huS⟩ : ∃ uS : ℚ, uS = 1 / (2 : ℚ) ^ S.prec := ⟨_, rfl⟩
  have hu0 : 0 < u := by rw [hu]; exact Size.float64.unit_pos
  have huuS : u ≤ uS := by rw [hu, huS]; exact S.unit_ge
  have h16 : 16 / (2 : ℚ) ^ S.prec = 16 * uS := by rw [huS]; ring
  rw [h16]
  -- encoding, in float64
  obtain ⟨t, ht⟩ : ∃ t : ℚ, t = Size.float64.round (x + 1) := ⟨_, rfl⟩
  have hx2abs : |x + 1| ≤ 2 := by rw [abs_le]; constructor <;> linarith
  have ht1 : |t - (x + 1)| ≤ 2 * u := by
    rw [ht, hu]
    have := Size.float64.round_error_le (x + 1) 2 hx2abs (by norm_num)
    rw [mul_one_div]
    exact this
  have ht2 : 0 ≤ t ∧ t ≤ 2 := by
    have := Size.float64.round_between (x + 1) 0 2 (small_lt_pow_prec _ _ hx2abs)
      (by push_cast; linarith) (by push_cast; linarith)
    rw [← ht] at this
    simpa using this
  obtain ⟨h, hh⟩ : ∃ h : ℚ, h = Size.float64.round (t / 2) := ⟨_, rfl⟩
  have ht2abs : |t / 2| ≤ 1 := by rw [abs_le]; constructor <;> linarith [ht2.1, ht2.2]
  have hh1 : |h - t / 2| ≤ u := by
    rw [hh, hu]
    exact Size.float64.round_unit _ ht2abs
  have hh2 : 0 ≤ h ∧ h ≤ 1 := by
    have := Size.float64.round_between (t / 2) 0 1
      (small_lt_pow_prec _ _ (le_trans ht2abs (by norm_num)))
      (by push_cast; linarith [ht2.1]) (by push_cast; linarith [ht2.2])
    rw [← hh] at this
    simpa using this
  have hq0 : 0 ≤ h * (2 * (K : ℚ) - 1) := mul_nonneg hh2.1 hU.le
  have hq1 : h * (2 * (K : ℚ) - 1) ≤ 2 * (K : ℚ) - 1 := by nlinarith [hh2.2]
  have hqabs : |h * (2 * (K : ℚ) - 1)| < (2 : ℚ) ^ Size.float64.prec := by
    rw [abs_of_nonneg hq0]
    have : (2 : ℚ) ^ Size.float64.prec = (2 : ℚ) ^ 53 := rfl
    rw [this]
    linarith
  obtain ⟨P, hP⟩ : ∃ P : ℚ, P = Size.float64.round (h * (2 * (K : ℚ) - 1)) := ⟨_, rfl⟩
  have hP1 : |P - h * (2 * (K : ℚ) - 1)| ≤ (2 * (K : ℚ) - 1) * u := by
    rw [hP, hu, mul_one_div]
    exact Size.float64.round_error_le _ _ (by rw [abs_of_nonneg hq0]; exact hq1)
      (by have : (1 : ℚ) / 2 ^ 126 ≤ 1 := by norm_num
          linarith)
  have hP2 : 0 ≤ P ∧ P ≤ 2 * (K : ℚ) - 1 := by
    have := Size.float64.round_between _ 0 (2 * (K : Int) - 1) hqabs
      (by push_cast; exact hq0) (by push_cast; exact hq1)
    rw [← hP] at this
    push_cast at this
    exact this
  obtain ⟨n, hn⟩ : ∃ n : Nat, n = ⌊P⌋₊ := ⟨_, rfl⟩
  have hn1 : (n : ℚ) ≤ P := by rw [hn]; exact Nat.floor_le hP2.1
  have hn2 : P < (n : ℚ) + 1 := by rw [hn]; exact Nat.lt_floor_add_one _
  have hnK : n + 1 ≤ 2 * K := by
    have : ((n + 1 : Nat) : ℚ) ≤ ((2 * K : Nat) : ℚ) := by push_cast; linarith [hP2.2]
    exact_mod_cast this
  have hc : floatToUnsigned precision x = n := by
    simp only [floatToUnsigned, c2, ← ht, ← hh, ← hP, uint64OfRat, ← hn]
    exact Nat.mod_eq_of_lt (by omega)
  have hmod : n % (2 * K) = n := Nat.mod_eq_of_lt (by omega)
  rw [hc, hmod]
  -- decoding, in the sample type
  have hnq : (n : ℚ) ≤ 2 * (K : ℚ) - 1 := by linarith [hP2.2]
  have hround : S.round ((n : ℚ)) = (n : ℚ) :=
    S.round_natCast n S.prec (le_refl _) (by
      have : ((n : Nat) : ℚ) < (2 : ℚ) ^ S.prec := by linarith
      exact_mod_cast this)
  have hfrac0 : 0 ≤ (n : ℚ) / (2 * (K : ℚ) - 1) := div_nonneg (Nat.cast_nonneg n) hU.le
  have hfrac1 : (n : ℚ) / (2 * (K : ℚ) - 1) ≤ 1 := by rw [div_le_one hU]; exact hnq
  obtain ⟨d, hd⟩ : ∃ d : ℚ, d = S.round ((n : ℚ) / (2 * (K : ℚ) - 1)) := ⟨_, rfl⟩
  have hd1 : |d - (n : ℚ) / (2 * (K : ℚ) - 1)| ≤ uS := by
    rw [hd, huS]
    exact S.round_unit _ (by rw [abs_le]; constructor <;> linarith)
  have hd2 : 0 ≤ d ∧ d ≤ 1 := by
    have := S.round_between ((n : ℚ) / (2 * (K : ℚ) - 1)) 0 1
      (small_lt_pow_prec _ _ (by rw [abs_le]; constructor <;> linarith))
      (by push_cast; exact hfrac0) (by push_cast; exact hfrac1)
    rw [← hd] at this
    simpa using this
  obtain ⟨g, hg⟩ : ∃ g : ℚ, g = S.round (d * 2) := ⟨_, rfl⟩
  have hd2abs : |d * 2| ≤ 2 := by rw [abs_le]; constructor <;> linarith [hd2.1, hd2.2]
  have hg1 : |g - d * 2| ≤ 2 * uS := by
    rw [hg, huS, mul_one_div]
    exact S.round_error_le _ 2 hd2abs (by norm_num)
  have hg2 : 0 ≤ g ∧ g ≤ 2 := by
    have := S.round_between (d * 2) 0 2 (small_lt_pow_prec _ _ hd2abs)
      (by push_cast; linarith [hd2.1]) (by push_cast; linarith [hd2.2])
    rw [← hg] at this
    simpa using this
  have hg1abs : |g - 1| ≤ 1 := by rw [abs_le]; constructor <;> linarith [hg2.1, hg2.2]
  have hy1 : |S.round (g - 1) - (g - 1)| ≤ uS := by
    rw [huS]
    exact S.round_unit _ hg1abs
  have hy : unsignedToFloat S precision n = S.round (g - 1) := by
    simp only [unsignedToFloat, c2, hround, c4, ← hd, ← hg]
  rw [hy]
  -- the two errors
  rw [abs_le] at ht1 hh1 hP1 hd1 hg1 hy1
  obtain ⟨A, hA⟩ : ∃ A : ℚ, A = ((x + 1) / 2 * (2 * (K : ℚ) - 1) - n) / (2 * (K : ℚ) - 1) :=
    ⟨_, rfl⟩
  have hAmul : A * (2 * (K : ℚ) - 1) = (x + 1) / 2 * (2 * (K : ℚ) - 1) - n := by
    rw [hA]; field_simp
    ring
  have hxA : x = 2 * A + (2 * ((n : ℚ) / (2 * (K : ℚ) - 1)) - 1) := by
    rw [hA]; field_simp; ring
  have hTq1 : ((x + 1) / 2 - h) * (2 * (K : ℚ) - 1) ≤ 2 * u * (2 * (K : ℚ) - 1) :=
    mul_le_mul_of_nonneg_right (by linarith [ht1.1, hh1.1]) hU.le
  have hTq2 : -(2 * u) * (2 * (K : ℚ) - 1) ≤ ((x + 1) / 2 - h) * (2 * (K : ℚ) - 1) :=
    mul_le_mul_of_nonneg_right (by linarith [ht1.2, hh1.2]) hU.le
  have hA1 : A * (2 * (K : ℚ) - 1) < (1 / (2 * (K : ℚ) - 1) + 3 * u) * (2 * (K : ℚ) - 1) := by
    have : (1 / (2 * (K : ℚ) - 1) + 3 * u) * (2 * (K : ℚ) - 1) =
        1 + 3 * u * (2 * (K : ℚ) - 1) := by field_simp
    rw [this, hAmul]
    linarith [hP1.1, hP1.2]
  have hA2 : (-(3 * u)) * (2 * (K : ℚ) - 1) ≤ A * (2 * (K : ℚ) - 1) := by
    rw [hAmul]
    linarith [hP1.1, hP1.2]
  have hA3 : A < 1 / (2 * (K : ℚ) - 1) + 3 * u := lt_of_mul_lt_mul_right hA1 hU.le
  have hA4 : -(3 * u) ≤ A := le_of_mul_le_mul_right hA2 hU
  exact unsigned_error_sum x (S.round (g - 1)) A ((n : ℚ) / (2 * (K : ℚ) - 1)) d g u uS
    (1 / (2 * (K : ℚ) - 1)) (1 / ((K : ℚ) - 1)) hxA hy1 hg1 hd1 hA4 hA3
    (div_pos one_pos hU) (two_div_lt _ hKq) hu0 huuS

theorem round64_near (x : ℚ) (e z : Int) (hlo : (2 : ℚ) ^ e ≤ |x|)
    (hhi : |x| < (2 : ℚ) ^ (e + 1)) (hemin : -1022 ≤ e)
    (hz : |x / (2 : ℚ) ^ (e - 52) - (z : ℚ)| < 1 / 2) :
    Size.float64.round x = (z : ℚ) * (2 : ℚ) ^ (e - 52) :=
  Size.float64.round_near x e z hlo hhi hemin hz

theorem round32_near (x : ℚ) (e z : Int) (hlo : (2 : ℚ) ^ e ≤ |x|)
    (hhi : |x| < (2 : ℚ) ^ (e + 1)) (hemin : -126 ≤ e)
    (hz : |x / (2 : ℚ) ^ (e - 23) - (z : ℚ)| < 1 / 2) :
    Size.float32.round x = (z : ℚ) * (2 : ℚ) ^ (e - 23) :=
  Size.float32.round_near x e z hlo hhi hemin hz

theorem round32_tie (x : ℚ) (e f : Int) (hlo : (2 : ℚ) ^ e ≤ |x|)
    (hhi : |x| < (2 : ℚ) ^ (e + 1)) (hemin : -126 ≤ e)
    (hf : x / (2 : ℚ) ^ (e - 23) = (f : ℚ) + 1 / 2) :
    Size.float32.round x = ((if f % 2 = 0 then f else f + 1 : Int) : ℚ) * (2 : ℚ) ^ (e - 23) :=
  Size.float32.round_tie x e f hlo hhi hemin hf

theorem round64_scale31 : Size.float64.round (exp2 (4 * 8 - 1) - 1) = 2147483647 := by
  have h := Size.float64.round_int 2147483647 (by
    rw [abs_of_pos (by norm_num)]
    have : (2 : ℚ) ^ Size.float64.prec = (2 : ℚ) ^ 53 := rfl
    rw [this]
    norm_num)
  have e : exp2 (4 * 8 - 1) - 1 = ((2147483647 : Int) : ℚ) := by
    rw [exp2]
    norm_num
  rw [e, h]
  norm_num

theorem signed32_code : floatToSigned 4 (27039162 / 2 ^ 31) = 27039161 := by
  have hx : ¬ ((27039162 : ℚ) / 2 ^ 31 < 0) := by norm_num
  have hP : Size.float64.round ((27039162 : ℚ) / 2 ^ 31 * 2147483647) =
      7258269777947977 / 268435456 := by
    rw [round64_near _ 24 7258269777947977 (by rw [abs_of_pos (by norm_num)]; norm_num)
      (by rw [abs_of_pos (by norm_num)]; norm_num) (by norm_num)
      (by rw [abs_lt]; constructor <;> norm_num)]
    norm_num
  unfold floatToSigned
  rw [if_neg hx, round64_scale31, hP, uint64OfRat]
  have hfl : ⌊(7258269777947977 : ℚ) / 268435456⌋₊ = 27039161 := by
    rw [Nat.floor_eq_iff (by norm_num)]
    constructor <;> norm_num
  rw [hfl]
  norm_num

theorem signed32_amplitude :
    signedToFloat Size.float32 4 27039161 = 27039160 / 2 ^ 31 := by
  have ha : Size.float32.round (27039161 : ℚ) = 27039160 := by
    rw [round32_tie _ 24 13519580 (by rw [abs_of_pos (by norm_num)]; norm_num)
      (by rw [abs_of_pos (by norm_num)]; norm_num) (by norm_num) (by norm_num)]
    norm_num
  have hb : Size.float32.round (2147483647 : ℚ) = 2147483648 := by
    rw [round32_near _ 30 16777216 (by rw [abs_of_pos (by norm_num)]; norm_num)
      (by rw [abs_of_pos (by norm_num)]; norm_num) (by norm_num)
      (by rw [abs_lt]; constructor <;> norm_num)]
    norm_num
  have hy : Size.float32.round ((27039160 : ℚ) / 2147483648) = 27039160 / 2 ^ 31 := by
    rw [round32_near _ (-7) 13519580 (by rw [abs_of_pos (by norm_num)]; norm_num)
      (by rw [abs_of_pos (by norm_num)]; norm_num) (by norm_num)
      (by rw [abs_lt]; constructor <;> norm_num)]
    norm_num
  unfold signedToFloat
  have hs : shl1 (4 * 8 - 1) = 2147483648 := by
    unfold shl1
    rw [if_pos (by norm_num), show ((4 : Int) * 8 - 1).toNat = 31 by decide]
    norm_num
  rw [hs, if_neg (by norm_num), round64_scale31]
  have hi : ((int64OfUint64 27039161 : Int) : ℚ) = 27039161 := by
    unfold int64OfUint64
    norm_num
  rw [hi, ha, hb, hy]

theorem length_bytesLE (c n : Nat) : (bytesLE c n).length = n := by
  induction n generalizing c with
  | zero => rfl
  | succ n ih => simp [bytesLE, ih]

theorem uintLE_bytesLE (n : Nat) (hn : n ≤ 8) : ∀ c : Nat, uintLE (bytesLE c n) = c % 256 ^ n := by
  induction n with
  | zero => intro c; simp [bytesLE, uintLE, Nat.mod_one]
  | succ n ih =>
    intro c
    have h1 := ih (by omega) (c / 256)
    have h2 : (256 : Nat) ^ n ≤ 256 ^ 7 := Nat.pow_le_pow_right (by norm_num) (by omega)
    have h3 : c / 256 % 256 ^ n < 256 ^ n := Nat.mod_lt _ (by positivity)
    have h4 : c % 256 < 256 := Nat.mod_lt _ (by norm_num)
    simp only [bytesLE, uintLE, h1, Fin.ofNat, Nat.mod_mod]
    have h5 : c % 256 ^ (n + 1) = c / 256 % 256 ^ n * 256 + c % 256 := by
      rw [pow_succ', Nat.mod_mul, Nat.add_comm, Nat.mul_comm]
    rw [h5]
    have h6 : c / 256 % 256 ^ n * 256 + c % 256 < 2 ^ 64 := by
      have : (256 : Nat) ^ 7 * 256 = 2 ^ 64 := by norm_num
      nlinarith
    have h7 : c / 256 % 256 ^ n * 256 < 2 ^ 64 := by omega
    rw [Nat.mod_eq_of_lt h7, Nat.mod_eq_of_lt h6]

theorem encodeFloat_eq (signed : Bool) (precision : Int) (p : List Byte) (x : ℚ)
    (hp : precision.toNat ≤ p.length) :
    encodeFloat signed precision p x =
      some (bytesLE (if signed then floatToSigned precision x else floatToUnsigned precision x)
        precision.toNat ++ p.drop precision.toNat, precision) := by
  simp [encodeFloat, hp]

theorem decodeFloat_bytesLE (S : Size) (signed : Bool) (precision : Int) (h1 : 1 ≤ precision)
    (h6 : precision ≤ 6) (x : ℚ) (rest : List Byte) :
    decodeFloat S signed precision
      (bytesLE (if signed then floatToSigned precision x else floatToUnsigned precision x)
        precision.toNat ++ rest) = some (readBack S signed precision x, precision) := by
  have hn : precision.toNat ≤ 8 := by omega
  have hl := length_bytesLE (if signed then floatToSigned precision x
    else floatToUnsigned precision x) precision.toNat
  have htake : (bytesLE (if signed then floatToSigned precision x
      else floatToUnsigned precision x) precision.toNat ++ rest).take precision.toNat
      = bytesLE (if signed then floatToSigned precision x else floatToUnsigned precision x)
        precision.toNat := by
    rw [List.take_append_of_le_length (by omega), List.take_of_length_le (by omega)]
  simp only [decodeFloat, List.length_append, hl, Nat.le_add_right, if_true, htake,
    uintLE_bytesLE _ hn, readBack]
  cases signed <;> simp

theorem sliceFrom_toNat {α : Type} (l : List α) {k : Int} (h0 : 0 ≤ k)
    (h : k.toNat ≤ l.length) : sliceFrom l k = some (l.drop k.toNat) := by
  have : k ≤ (l.length : Int) := by omega
  simp [sliceFrom, h0, this]

theorem encodeAll_eq (signed : Bool) (precision : Int) (h0 : 0 ≤ precision) (xs : List ℚ) :
    ∀ (filled p : List Byte), xs.length * precision.toNat ≤ p.length →
      encodeAll signed precision xs filled p =
        some (filled ++ (xs.map (fun x => bytesLE (codeOf signed precision x)
          precision.toNat)).flatten, p.drop (xs.length * precision.toNat)) := by
  induction xs with
  | nil => intro filled p _; simp [encodeAll]
  | cons x xs ih =>
    intro filled p hp
    have hp1 : precision.toNat ≤ p.length := by
      simp only [List.length_cons, Nat.add_mul, Nat.one_mul] at hp; omega
    have hl := length_bytesLE (codeOf signed precision x) precision.toNat
    have hs : sliceFrom (bytesLE (codeOf signed precision x) precision.toNat
        ++ p.drop precision.toNat) precision = some (p.drop precision.toNat) := by
      rw [sliceFrom_toNat _ h0 (by rw [List.length_append, hl]; omega),
        List.drop_append_of_le_length (by omega), List.drop_eq_nil_of_le (by omega)]
      rfl
    have ht : (bytesLE (codeOf signed precision x) precision.toNat
        ++ p.drop precision.toNat).take precision.toNat
        = bytesLE (codeOf signed precision x) precision.toNat := by
      rw [List.take_append_of_le_length (by omega), List.take_of_length_le (by omega)]
    have he := encodeFloat_eq signed precision p x hp1
    rw [← codeOf] at he
    simp only [encodeAll, he, hs, ht]
    rw [ih _ _ (by
      simp only [List.length_cons, Nat.add_mul, Nat.one_mul] at hp
      simp only [List.length_drop]; omega)]
    simp only [List.map_cons, List.flatten_cons, List.append_assoc, List.drop_drop,
      List.length_cons, Nat.add_mul, Nat.one_mul]
    rw [Nat.add_comm]

theorem skipChannels_some (S : Size) (signed : Bool) (precision : Int) (h0 : 0 ≤ precision) (k : Nat) :
    ∀ p : List Byte, k * precision.toNat ≤ p.length →
      ∃ r, skipChannels S signed precision k p = some r := by
  induction k with
  | zero => intro p _; exact ⟨p, rfl⟩
  | succ k ih =>
    intro p hp
    have hp1 : precision.toNat ≤ p.length := by
      simp only [Nat.add_mul, Nat.one_mul] at hp; omega
    have hs : sliceFrom p precision = some (p.drop precision.toNat) :=
      sliceFrom_toNat _ h0 hp1
    obtain ⟨r, hr⟩ := ih (p.drop precision.toNat) (by
      simp only [Nat.add_mul, Nat.one_mul] at hp
      simp only [List.length_drop]; omega)
    refine ⟨r, ?_⟩
    cases signed <;> simp [skipChannels, decodeFloat, hp1, hs, hr]

theorem norm_of_mem {x : ℚ} (h1 : -1 ≤ x) (h2 : x ≤ 1) : norm x = x := by
  simp only [norm]
  rw [if_neg (by linarith), if_neg (by linarith)]

theorem norm_mem (x : ℚ) : -1 ≤ norm x ∧ norm x ≤ 1 := by
  simp only [norm]
  split
  · norm_num
  · split
    · norm_num
    · constructor <;> linarith

theorem mono_frame_roundtrip (f : Format) (signed : Bool) (h1 : 1 ≤ f.Precision)
    (h6 : f.Precision ≤ 6) (hnc : 1 ≤ f.NumChannels) (p : List Byte)
    (hlen : f.Width ≤ p.length) (x : ℚ) (hx1 : -1 ≤ x) (hx2 : x ≤ 1) :
    ∃ p1 : List Byte, f.encode signed p (⟨x⟩ : Mono ℚ) = some (p1, f.Width) ∧
      p1.length = p.length ∧
      f.decode signed p1 = some ((⟨readBack f.S signed f.Precision x⟩ : Mono ℚ), f.Width) := by
  obtain ⟨nc, hncE⟩ : ∃ nc : Nat, f.NumChannels = nc := ⟨f.NumChannels.toNat, by omega⟩
  obtain ⟨n, hnE⟩ : ∃ n : Nat, f.Precision = n := ⟨f.Precision.toNat, by omega⟩
  have hn : f.Precision.toNat = n := by omega
  have h0 : 0 ≤ f.Precision := by omega
  have hw : nc * n ≤ p.length := by
    have : ((nc * n : Nat) : Int) ≤ p.length := by
      rw [Format.Width, hncE, hnE] at hlen
      exact_mod_cast hlen
    exact_mod_cast this
  have hnc1 : 1 ≤ nc := by omega
  have hnp : n ≤ p.length := le_trans (by nlinarith) hw
  by_cases hone : f.NumChannels = 1
  · have he := encodeAll_eq signed f.Precision h0 [x] [] p (by simpa [hn] using hnp)
    refine ⟨bytesLE (codeOf signed f.Precision x) f.Precision.toNat
      ++ p.drop f.Precision.toNat, ?_, ?_, ?_⟩
    · simp only [Format.encode, hone, if_true, Point.Count, Point.Get, he]
      simp
    · rw [List.length_append, length_bytesLE, List.length_drop, hn]; omega
    · simp only [Format.decode, hone, if_true, codeOf,
        decodeFloat_bytesLE f.S signed f.Precision h1 h6 x, Point.Slice, Point.zero,
        List.length_singleton, setAll, Point.Set]
  · have hnc2 : 2 ≤ nc := by omega
    have hge : f.NumChannels ≥ 2 := by omega
    have hcnt : (f.NumChannels - ((1 : Nat) : Int)).toNat = nc - 1 := by omega
    have hxs : ([norm x] ++ List.replicate (nc - 1) (0 : ℚ)).length = nc := by
      simp; omega
    have he := encodeAll_eq signed f.Precision h0 ([norm x] ++ List.replicate (nc - 1) 0) [] p
      (by rw [hxs, hn]; exact hw)
    rw [hxs, hn] at he
    simp only [List.nil_append, List.map_append, List.map_cons, List.map_nil,
      List.flatten_append, List.flatten_cons, List.flatten_nil, List.append_nil,
      norm_of_mem hx1 hx2] at he
    set Z := (List.map (fun x => bytesLE (codeOf signed f.Precision x) n)
      (List.replicate (nc - 1) (0 : ℚ))).flatten with hZ
    have hZlen : Z.length = (nc - 1) * n := by
      rw [hZ, List.length_flatten]
      simp [List.map_replicate, length_bytesLE]
    have hl := length_bytesLE (codeOf signed f.Precision x) n
    refine ⟨bytesLE (codeOf signed f.Precision x) n ++ Z ++ p.drop (nc * n), ?_, ?_, ?_⟩
    · simp only [Format.encode, hone, if_false, hge, if_true, Point.Count, Point.Slice,
        List.map_cons, List.map_nil, hcnt, norm_of_mem hx1 hx2]
      have he2 : encodeAll signed f.Precision (x :: (List.replicate (nc - 1) (0 : ℚ))) [] p
          = some (bytesLE (codeOf signed f.Precision x) n ++ Z, p.drop (nc * n)) := he
      simp only [List.singleton_append, he2]
    · simp only [List.length_append, hl, hZlen, List.length_drop]
      have : (nc - 1) * n + n = nc * n := by
        have : nc = (nc - 1) + 1 := by omega
        nlinarith
      omega
    · have hd := decodeFloat_bytesLE f.S signed f.Precision h1 h6 x (Z ++ p.drop (nc * n))
      rw [← codeOf, hn] at hd
      have hs : sliceFrom (bytesLE (codeOf signed f.Precision x) n ++ (Z ++ p.drop (nc * n)))
          f.Precision = some (Z ++ p.drop (nc * n)) := by
        rw [sliceFrom_toNat _ h0 (by rw [List.length_append, hl, hn]; omega), hn,
          List.drop_append_of_le_length (by omega), List.drop_eq_nil_of_le (by omega)]
        rfl
      obtain ⟨r, hr⟩ := skipChannels_some f.S signed f.Precision h0 (nc - 1) (Z ++ p.drop (nc * n))
        (by rw [List.length_append, hZlen, hn]; omega)
      simp only [Format.decode, hone, if_false, hge, if_true, Point.Slice, Point.zero,
        List.length_singleton, decodeChannels, List.append_assoc, hd, Point.Set, hs,
        Point.Count, hcnt, hr]

theorem stereo_frame_roundtrip (f : Format) (signed : Bool) (h1 : 1 ≤ f.Precision)
    (h6 : f.Precision ≤ 6) (hnc : 2 ≤ f.NumChannels) (p : List Byte)
    (hlen : f.Width ≤ p.length) (x0 x1 : ℚ) (hx0 : -1 ≤ x0 ∧ x0 ≤ 1) (hx1 : -1 ≤ x1 ∧ x1 ≤ 1) :
    ∃ p1 : List Byte, f.encode signed p (⟨x0, x1⟩ : Stereo ℚ) = some (p1, f.Width) ∧
      p1.length = p.length ∧
      f.decode signed p1 = some ((⟨readBack f.S signed f.Precision x0,
        readBack f.S signed f.Precision x1⟩ : Stereo ℚ), f.Width) := by
  obtain ⟨nc, hncE⟩ : ∃ nc : Nat, f.NumChannels = nc := ⟨f.NumChannels.toNat, by omega⟩
  obtain ⟨n, hnE⟩ : ∃ n : Nat, f.Precision = n := ⟨f.Precision.toNat, by omega⟩
  have hn : f.Precision.toNat = n := by omega
  have h0 : 0 ≤ f.Precision := by omega
  have hw : nc * n ≤ p.length := by
    have : ((nc * n : Nat) : Int) ≤ p.length := by
      rw [Format.Width, hncE, hnE] at hlen
      exact_mod_cast hlen
    exact_mod_cast this
  have hnc2 : 2 ≤ nc := by omega
  have hone : ¬ f.NumChannels = 1 := by omega
  have hge : f.NumChannels ≥ 2 := by omega
  have hcnt : (f.NumChannels - ((2 : Nat) : Int)).toNat = nc - 2 := by omega
  have hxs : ([norm x0, norm x1] ++ List.replicate (nc - 2) (0 : ℚ)).length = nc := by
    simp; omega
  have he := encodeAll_eq signed f.Precision h0
    ([norm x0, norm x1] ++ List.replicate (nc - 2) 0) [] p (by rw [hxs, hn]; exact hw)
  rw [hxs, hn] at he
  simp only [List.nil_append, List.map_append, List.map_cons, List.map_nil,
    List.flatten_append, List.flatten_cons, List.flatten_nil, List.append_nil,
    norm_of_mem hx0.1 hx0.2, norm_of_mem hx1.1 hx1.2] at he
  set Z := (List.map (fun x => bytesLE (codeOf signed f.Precision x) n)
    (List.replicate (nc - 2) (0 : ℚ))).flatten with hZ
  have hZlen : Z.length = (nc - 2) * n := by
    rw [hZ, List.length_flatten]
    simp [List.map_replicate, length_bytesLE]
  have hl0 := length_bytesLE (codeOf signed f.Precision x0) n
  have hl1 := length_bytesLE (codeOf signed f.Precision x1) n
  have hmul : (nc - 2) * n + n + n = nc * n := by
    have : nc = (nc - 2) + 2 := by omega
    nlinarith
  refine ⟨bytesLE (codeOf signed f.Precision x0) n ++
    (bytesLE (codeOf signed f.Precision x1) n ++ Z) ++ p.drop (nc * n), ?_, ?_, ?_⟩
  · simp only [Format.encode, hone, if_false, hge, if_true, Point.Count, Point.Slice,
      List.map_cons, List.map_nil, hcnt, norm_of_mem hx0.1 hx0.2, norm_of_mem hx1.1 hx1.2]
    have he2 : encodeAll signed f.Precision (x0 :: x1 :: (List.replicate (nc - 2) (0 : ℚ))) [] p
        = some (bytesLE (codeOf signed f.Precision x0) n ++
          (bytesLE (codeOf signed f.Precision x1) n ++ Z), p.drop (nc * n)) := by
      rw [← List.append_assoc]; exact he
    simp only [List.cons_append, List.nil_append, he2]
  · simp only [List.length_append, hl0, hl1, hZlen, List.length_drop]
    omega
  · have hd0 := decodeFloat_bytesLE f.S signed f.Precision h1 h6 x0
      (bytesLE (codeOf signed f.Precision x1) n ++ (Z ++ p.drop (nc * n)))
    rw [← codeOf, hn] at hd0
    have hd1 := decodeFloat_bytesLE f.S signed f.Precision h1 h6 x1 (Z ++ p.drop (nc * n))
    rw [← codeOf, hn] at hd1
    have hs0 : sliceFrom (bytesLE (codeOf signed f.Precision x0) n ++
        (bytesLE (codeOf signed f.Precision x1) n ++ (Z ++ p.drop (nc * n))))
        f.Precision = some (bytesLE (codeOf signed f.Precision x1) n ++ (Z ++ p.drop (nc * n))) := by
      rw [sliceFrom_toNat _ h0 (by rw [List.length_append, hl0, hn]; omega), hn,
        List.drop_append_of_le_length (by omega), List.drop_eq_nil_of_le (by omega)]
      rfl
    have hs1 : sliceFrom (bytesLE (codeOf signed f.Precision x1) n ++ (Z ++ p.drop (nc * n)))
        f.Precision = some (Z ++ p.drop (nc * n)) := by
      rw [sliceFrom_toNat _ h0 (by rw [List.length_append, hl1, hn]; omega), hn,
        List.drop_append_of_le_length (by omega), List.drop_eq_nil_of_le (by omega)]
      rfl
    obtain ⟨r, hr⟩ := skipChannels_some f.S signed f.Precision h0 (nc - 2) (Z ++ p.drop (nc * n))
      (by rw [List.length_append, hZlen, hn]; omega)
    simp only [Format.decode, hone, if_false, hge, if_true, Point.Slice, Point.zero,
      List.length_cons, List.length_nil, decodeChannels, List.append_assoc, hd0, hd1,
      Point.Set, hs0, hs1, Point.Count, hcnt]
    simp [hr]

theorem stereo_frame_downmix (f : Format) (signed : Bool) (h1 : 1 ≤ f.Precision)
    (h6 : f.Precision ≤ 6) (hnc : f.NumChannels = 1) (p : List Byte)
    (hlen : f.Width ≤ p.length) (x0 x1 : ℚ) :
    ∃ p1 : List Byte, f.encode signed p (⟨x0, x1⟩ : Stereo ℚ) = some (p1, f.Width) ∧
      p1.length = p.length ∧
      f.decode signed p1 = some
        ((⟨readBack f.S signed f.Precision (norm (Format.mean f.S [x0, x1] 2)),
          readBack f.S signed f.Precision (norm (Format.mean f.S [x0, x1] 2))⟩ : Stereo ℚ),
          f.Width) := by
  obtain ⟨n, hnE⟩ : ∃ n : Nat, f.Precision = n := ⟨f.Precision.toNat, by omega⟩
  have hn : f.Precision.toNat = n := by omega
  have h0 : 0 ≤ f.Precision := by omega
  have hnp : n ≤ p.length := by
    have : ((n : Nat) : Int) ≤ p.length := by
      rw [Format.Width, hnc, hnE, one_mul] at hlen
      exact hlen
    exact_mod_cast this
  have he := encodeAll_eq signed f.Precision h0 [norm (Format.mean f.S [x0, x1] 2)] [] p
    (by simpa [hn] using hnp)
  refine ⟨bytesLE (codeOf signed f.Precision (norm (Format.mean f.S [x0, x1] 2)))
    f.Precision.toNat ++ p.drop f.Precision.toNat, ?_, ?_, ?_⟩
  · simp only [Format.encode, hnc, if_true, Point.Count, Point.Slice]
    rw [if_neg (by norm_num)]
    simp only [he]
    simp
  · rw [List.length_append, length_bytesLE, List.length_drop, hn]; omega
  · simp only [Format.decode, hnc, if_true, codeOf,
      decodeFloat_bytesLE f.S signed f.Precision h1 h6 _, Point.Slice, Point.zero,
      List.length_cons, List.length_nil, setAll, Point.Set]
    simp

theorem readBack_signed (S : Size) (precision : Int) (x : ℚ) :
    readBack S true precision x =
      signedToFloat S precision (floatToSigned precision x % 256 ^ precision.toNat) := rfl

theorem readBack_unsigned (S : Size) (precision : Int) (x : ℚ) :
    readBack S false precision x =
      unsignedToFloat S precision (floatToUnsigned precision x % 256 ^ precision.toNat) := rfl

theorem readBack_close (S : Size) (signed : Bool) (precision : Int) (h1 : 1 ≤ precision)
    (hfit : 8 * precision ≤ (S.prec : Int)) (x : ℚ) (hx1 : -1 ≤ x) (hx2 : x ≤ 1) :
    |x - readBack S signed precision x| < epsilon precision + 16 / (2 : ℚ) ^ S.prec := by
  cases signed with
  | true =>
    have h := signed_readBack S precision h1 hfit x hx1 hx2
    have hu := S.unit_pos
    rw [readBack_signed]
    have e : (16 : ℚ) / (2 : ℚ) ^ S.prec = 16 * (1 / (2 : ℚ) ^ S.prec) := by ring
    rw [e]
    linarith
  | false =>
    rw [readBack_unsigned]
    exact unsigned_readBack S precision h1 hfit x hx1 hx2

theorem abs_norm_sub_le (c m : ℚ) (hm1 : -1 ≤ m) (hm2 : m ≤ 1) : |norm c - m| ≤ |c - m| := by
  unfold norm
  split
  · rw [abs_of_nonpos (by linarith), abs_of_nonpos (by linarith)]
    linarith
  · split
    · rw [abs_of_nonneg (by linarith), abs_of_nonneg (by linarith)]
      linarith
    · exact le_refl _

theorem mean_error_sum (x0 x1 a b c u : ℚ) (ha : |a - x0| ≤ u) (hb : |b - (a + x1)| ≤ 2 * u)
    (hc : |c - b / 2| ≤ u) : |c - (x0 + x1) / 2| ≤ 4 * u := by
  rw [abs_le] at ha hb hc ⊢
  constructor <;> linarith [ha.1, ha.2, hb.1, hb.2, hc.1, hc.2]

/-- The mean that `Format.encode` computes in `S` for two channels in `[-1, 1]` is within
four units of the last place of 1 of their exact mean, also after `norm`. -/
theorem mean_close (S : Size) (x0 x1 : ℚ) (h01 : -1 ≤ x0) (h02 : x0 ≤ 1) (h11 : -1 ≤ x1)
    (h12 : x1 ≤ 1) :
    |norm (Format.mean S [x0, x1] 2) - (x0 + x1) / 2| ≤ 4 / (2 : ℚ) ^ S.prec := by
  have hu := S.unit_pos
  have hx0 : |x0| ≤ 1 := abs_le.2 ⟨h01, h02⟩
  have ha := S.round_unit x0 hx0
  obtain ⟨ha1, ha2⟩ := S.round_between x0 (-1) 1
    (small_lt_pow_prec S _ (by linarith)) (by push_cast; linarith) (by push_cast; linarith)
  push_cast at ha1 ha2
  have hs : |S.round x0 + x1| ≤ 2 := by rw [abs_le]; constructor <;> linarith
  have hb := S.round_error_le (S.round x0 + x1) 2 hs (by norm_num)
  obtain ⟨hb1, hb2⟩ := S.round_between (S.round x0 + x1) (-2) 2
    (small_lt_pow_prec S _ hs) (by push_cast; rw [abs_le] at hs; linarith [hs.1])
    (by push_cast; rw [abs_le] at hs; linarith [hs.2])
  push_cast at hb1 hb2
  have h2 : S.round ((2 : Nat) : ℚ) = ((2 : Nat) : ℚ) :=
    S.round_natCast 2 2 (le_trans (by decide) S.prec_pos) (by decide)
  have hq : |S.round (S.round x0 + x1) / 2| ≤ 1 := by
    rw [abs_le]; constructor <;> linarith
  have hc := S.round_unit (S.round (S.round x0 + x1) / 2) hq
  have hmean : Format.mean S [x0, x1] 2 = S.round (S.round (S.round x0 + x1) / 2) := by
    simp only [Format.mean, List.foldl_cons, List.foldl_nil]
    rw [h2, zero_add]
    norm_num
  rw [hmean]
  refine le_trans (abs_norm_sub_le _ _ (by linarith) (by linarith)) ?_
  have e : (4 : ℚ) / (2 : ℚ) ^ S.prec = 4 * (1 / (2 : ℚ) ^ S.prec) := by ring
  have e2 : (2 : ℚ) / (2 : ℚ) ^ S.prec = 2 * (1 / (2 : ℚ) ^ S.prec) := by ring
  rw [e]
  rw [e2] at hb
  exact mean_error_sum x0 x1 (S.round x0) (S.round (S.round x0 + x1))
    (S.round (S.round (S.round x0 + x1) / 2)) (1 / (2 : ℚ) ^ S.prec) ha hb hc

theorem epsilon_one : epsilon 1 = 1 / 127 := by
  norm_num [epsilon]

theorem epsilon_two : epsilon 2 = 1 / 32767 := by
  norm_num [epsilon]

theorem epsilon_four : epsilon 4 = 1 / 2147483647 := by
  norm_num [epsilon]

theorem round64_scale32 : Size.float64.round (exp2 (4 * 8) - 1) = 4294967295 := by
  have h := Size.float64.round_int 4294967295 (by
    rw [abs_of_pos (by norm_num)]
    have : (2 : ℚ) ^ Size.float64.prec = (2 : ℚ) ^ 53 := rfl
    rw [this]
    norm_num)
  have e : exp2 (4 * 8) - 1 = ((4294967295 : Int) : ℚ) := by
    rw [exp2]
    norm_num
  rw [e, h]
  norm_num

theorem unsigned64_code : floatToUnsigned 4 (5028891442929087 / 2 ^ 59) = 2166217727 := by
  have h1 : Size.float64.round ((5028891442929087 : ℚ) / 2 ^ 59 + 1) =
      4542887841768379 / 4503599627370496 := by
    rw [round64_near _ 0 4542887841768379 (by rw [abs_of_pos (by norm_num)]; norm_num)
      (by rw [abs_of_pos (by norm_num)]; norm_num) (by norm_num)
      (by rw [abs_lt]; constructor <;> norm_num)]
    norm_num
  have h2 : Size.float64.round ((4542887841768379 : ℚ) / 4503599627370496 / 2) =
      4542887841768379 / 9007199254740992 := by
    rw [round64_near _ (-1) 4542887841768379 (by rw [abs_of_pos (by norm_num)]; norm_num)
      (by rw [abs_of_pos (by norm_num)]; norm_num) (by norm_num)
      (by rw [abs_lt]; constructor <;> norm_num)]
    norm_num
  have h3 : Size.float64.round ((4542887841768379 : ℚ) / 9007199254740992 * 4294967295) =
      4542887840710655 / 2097152 := by
    rw [round64_near _ 31 4542887840710655 (by rw [abs_of_pos (by norm_num)]; norm_num)
      (by rw [abs_of_pos (by norm_num)]; norm_num) (by norm_num)
      (by rw [abs_lt]; constructor <;> norm_num)]
    norm_num
  unfold floatToUnsigned
  rw [h1, h2, round64_scale32, h3, uint64OfRat]
  have hfl : ⌊(4542887840710655 : ℚ) / 2097152⌋₊ = 2166217727 := by
    rw [Nat.floor_eq_iff (by norm_num)]
    constructor <;> norm_num
  rw [hfl]
  norm_num

theorem unsigned64_amplitude :
    unsignedToFloat Size.float64 4 2166217727 = 39288212300731 / 2 ^ 52 := by
  have ha : Size.float64.round ((2166217727 : Nat) : ℚ) = ((2166217727 : Nat) : ℚ) :=
    Size.float64.round_natCast 2166217727 32 (by decide) (by norm_num)
  have hb : Size.float64.round (4294967295 : ℚ) = 4294967295 := by
    have h := Size.float64.round_natCast 4294967295 32 (by decide) (by norm_num)
    exact_mod_cast h
  have hd : Size.float64.round ((2166217727 : ℚ) / 4294967295) =
      4542887839671227 / 9007199254740992 := by
    rw [round64_near _ (-1) 4542887839671227 (by rw [abs_of_pos (by norm_num)]; norm_num)
      (by rw [abs_of_pos (by norm_num)]; norm_num) (by norm_num)
      (by rw [abs_lt]; constructor <;> norm_num)]
    norm_num
  have hg : Size.float64.round ((4542887839671227 : ℚ) / 9007199254740992 * 2) =
      4542887839671227 / 4503599627370496 := by
    rw [round64_near _ 0 4542887839671227 (by rw [abs_of_pos (by norm_num)]; norm_num)
      (by rw [abs_of_pos (by norm_num)]; norm_num) (by norm_num)
      (by rw [abs_lt]; constructor <;> norm_num)]
    norm_num
  have hy : Size.float64.round ((4542887839671227 : ℚ) / 4503599627370496 - 1) =
      39288212300731 / 2 ^ 52 := by
    rw [round64_near _ (-7) 5028891174493568 (by rw [abs_of_pos (by norm_num)]; norm_num)
      (by rw [abs_of_pos (by norm_num)]; norm_num) (by norm_num)
      (by rw [abs_lt]; constructor <;> norm_num)]
    norm_num
  unfold unsignedToFloat
  rw [round64_scale32, ha, hb]
  have hc : (((2166217727 : Nat) : ℚ)) = 2166217727 := by norm_num
  rw [hc, hd, hg, hy]

/-- C10 fails on the code for the sample type `float32`: with `Precision = 4`,
`EncodeSigned` writes the Mono sample `27039162 / 2^31` as the code 27039161, and
`DecodeSigned`, which converts the code and the scale `2^31 - 1` to `float32` before it
divides, reads it back as `27039160 / 2^31`; the distance `2^-30` is not below
`1 / (2^31 - 1)`. -/
theorem signed_roundtrip_float32 :
    ∃ p1 : List Byte,
      Format.EncodeSigned ⟨44100, 1, 4, Size.float32⟩ [0, 0, 0, 0]
          (⟨27039162 / 2 ^ 31⟩ : Mono ℚ)
        = some (p1, Format.Width ⟨44100, 1, 4, Size.float32⟩) ∧
      Format.DecodeSigned ⟨44100, 1, 4, Size.float32⟩ p1
        = some ((⟨27039160 / 2 ^ 31⟩ : Mono ℚ), Format.Width ⟨44100, 1, 4, Size.float32⟩) ∧
      |(27039162 : ℚ) / 2 ^ 31 - 27039160 / 2 ^ 31| = 1 / 2 ^ 30 ∧
      ¬ |(27039162 : ℚ) / 2 ^ 31 - 27039160 / 2 ^ 31| < epsilon 4 := by
  obtain ⟨p1, e1, -, e2⟩ := mono_frame_roundtrip ⟨44100, 1, 4, Size.float32⟩ true (by decide)
    (by decide) (by decide) [0, 0, 0, 0] (by decide) (27039162 / 2 ^ 31) (by norm_num)
    (by norm_num)
  have hy : readBack Size.float32 true (4 : Int) (27039162 / 2 ^ 31) = 27039160 / 2 ^ 31 := by
    rw [readBack_signed, signed32_code]
    have : (27039161 : Nat) % 256 ^ (4 : Int).toNat = 27039161 := by
      rw [show (4 : Int).toNat = 4 by decide]
      norm_num
    rw [this, signed32_amplitude]
  simp only at hy e2
  rw [hy] at e2
  refine ⟨p1, e1, e2, ?_, ?_⟩
  · rw [abs_of_pos (by norm_num)]
    norm_num
  · rw [epsilon_four, abs_of_pos (by norm_num)]
    norm_num

/-- C9 (amended). For every Format with `NumChannels ≥ 1` and `1 ≤ Precision ≤ 6` whose
codes fit the significand of the sample type (`8·Precision ≤ 53` for `float64`,
`8·Precision ≤ 24` for `float32`), for the signed and the unsigned encoding, every slice
of at least `Width()` bytes and every sample with channels in `[-1, 1]`: decoding the
frame produced by encoding a Mono sample, or a Stereo sample when `NumChannels ≥ 2`,
returns a sample that differs from the original by less than
`1 / (2^(8·Precision - 1) - 1) + 20 / 2^prec` in every channel, where `prec` is the
number of bits of the significand; for a Stereo sample and `NumChannels = 1` both decoded
channels are equal and within that bound of the mean of the two original channels. -/
theorem roundtrip_within_epsilon (f : Format) (signed : Bool) (h1 : 1 ≤ f.Precision)
    (h6 : f.Precision ≤ 6) (hfit : 8 * f.Precision ≤ (f.S.prec : Int)) (p : List Byte)
    (hlen : f.Width ≤ p.length) :
    (1 ≤ f.NumChannels → ∀ x : ℚ, -1 ≤ x → x ≤ 1 →
      ∃ (p1 : List Byte) (y : ℚ),
        f.encode signed p (⟨x⟩ : Mono ℚ) = some (p1, f.Width) ∧
        f.decode signed p1 = some ((⟨y⟩ : Mono ℚ), f.Width) ∧
        |x - y| < roundTripBound f.S f.Precision) ∧
    (2 ≤ f.NumChannels → ∀ x0 x1 : ℚ, -1 ≤ x0 → x0 ≤ 1 → -1 ≤ x1 → x1 ≤ 1 →
      ∃ (p1 : List Byte) (y0 y1 : ℚ),
        f.encode signed p (⟨x0, x1⟩ : Stereo ℚ) = some (p1, f.Width) ∧
        f.decode signed p1 = some ((⟨y0, y1⟩ : Stereo ℚ), f.Width) ∧
        |x0 - y0| < roundTripBound f.S f.Precision ∧
        |x1 - y1| < roundTripBound f.S f.Precision) ∧
    (f.NumChannels = 1 → ∀ x0 x1 : ℚ, -1 ≤ x0 → x0 ≤ 1 → -1 ≤ x1 → x1 ≤ 1 →
      ∃ (p1 : List Byte) (y : ℚ),
        f.encode signed p (⟨x0, x1⟩ : Stereo ℚ) = some (p1, f.Width) ∧
        f.decode signed p1 = some ((⟨y, y⟩ : Stereo ℚ), f.Width) ∧
        |(x0 + x1) / 2 - y| < roundTripBound f.S f.Precision) := by
  have hu := f.S.unit_pos
  have e16 : (16 : ℚ) / (2 : ℚ) ^ f.S.prec = 16 * (1 / (2 : ℚ) ^ f.S.prec) := by ring
  have e20 : (20 : ℚ) / (2 : ℚ) ^ f.S.prec = 20 * (1 / (2 : ℚ) ^ f.S.prec) := by ring
  have e4 : (4 : ℚ) / (2 : ℚ) ^ f.S.prec = 4 * (1 / (2 : ℚ) ^ f.S.prec) := by ring
  have hclose : ∀ x : ℚ, -1 ≤ x → x ≤ 1 →
      |x - readBack f.S signed f.Precision x| < roundTripBound f.S f.Precision := by
    intro x hx1 hx2
    have h := readBack_close f.S signed f.Precision h1 hfit x hx1 hx2
    rw [roundTripBound, e20]
    rw [e16] at h
    linarith
  refine ⟨?_, ?_, ?_⟩
  · intro hnc x hx1 hx2
    obtain ⟨p1, e1, -, e2⟩ := mono_frame_roundtrip f signed h1 h6 hnc p hlen x hx1 hx2
    exact ⟨p1, _, e1, e2, hclose x hx1 hx2⟩
  · intro hnc x0 x1 hx01 hx02 hx11 hx12
    obtain ⟨p1, e1, -, e2⟩ :=
      stereo_frame_roundtrip f signed h1 h6 hnc p hlen x0 x1 ⟨hx01, hx02⟩ ⟨hx11, hx12⟩
    exact ⟨p1, _, _, e1, e2, hclose x0 hx01 hx02, hclose x1 hx11 hx12⟩
  · intro hnc x0 x1 hx01 hx02 hx11 hx12
    obtain ⟨p1, e1, -, e2⟩ := stereo_frame_downmix f signed h1 h6 hnc p hlen x0 x1
    refine ⟨p1, _, e1, e2, ?_⟩
    have hm := mean_close f.S x0 x1 hx01 hx02 hx11 hx12
    have hn1 : -1 ≤ norm (Format.mean f.S [x0, x1] 2) := (norm_mem _).1
    have hn2 : norm (Format.mean f.S [x0, x1] 2) ≤ 1 := (norm_mem _).2
    have h := readBack_close f.S signed f.Precision h1 hfit _ hn1 hn2
    rw [roundTripBound, e20]
    rw [e16] at h
    rw [e4] at hm
    rw [abs_lt] at h ⊢
    rw [abs_le] at hm
    constructor <;> linarith [h.1, h.2, hm.1, hm.2]

theorem roundtrip_within_epsilon_witness :
    ∃ (p1 : List Byte) (y : ℚ),
      Format.encode ⟨44100, 1, 2, Size.float64⟩ false [0, 0] (⟨1 / 3⟩ : Mono ℚ)
        = some (p1, Format.Width ⟨44100, 1, 2, Size.float64⟩) ∧
      Format.decode ⟨44100, 1, 2, Size.float64⟩ false p1
        = some ((⟨y⟩ : Mono ℚ), Format.Width ⟨44100, 1, 2, Size.float64⟩) ∧
      |1 / 3 - y| < roundTripBound Size.float64 2 :=
  (roundtrip_within_epsilon ⟨44100, 1, 2, Size.float64⟩ false (by decide) (by decide)
    (by decide) [0, 0] (by decide)).1 (by decide) (1 / 3) (by norm_num) (by norm_num)

/-- C9 as stated fails in two ways. For a Stereo sample in a one-channel Format: with
`NumChannels = 1`, `Precision = 1`, the sample `(1, -1)` is encoded as its mean 0 and
decoded as `(0, 0)`, which differs from the original by 1 in the first channel. And for
the rounding of `float64`: with `Precision = 4` the unsigned encoding writes the Mono
sample `5028891442929087 / 2^59` as the code 2166217727 and reads it back as
`39288212300731 / 2^52`, which differs from the original by more than
`1 / (2^31 - 1)`. -/
theorem roundtrip_downmix_counterexample :
    (∃ (p1 : List Byte) (y0 y1 : ℚ),
      Format.EncodeSigned ⟨44100, 1, 1, Size.float64⟩ [0] (⟨1, -1⟩ : Stereo ℚ)
        = some (p1, Format.Width ⟨44100, 1, 1, Size.float64⟩) ∧
      Format.DecodeSigned ⟨44100, 1, 1, Size.float64⟩ p1
        = some ((⟨y0, y1⟩ : Stereo ℚ), Format.Width ⟨44100, 1, 1, Size.float64⟩) ∧
      ¬ |1 - y0| ≤ epsilon 1) ∧
    (∃ (p1 : List Byte) (y : ℚ),
      Format.EncodeUnsigned ⟨44100, 1, 4, Size.float64⟩ [0, 0, 0, 0]
          (⟨5028891442929087 / 2 ^ 59⟩ : Mono ℚ)
        = some (p1, Format.Width ⟨44100, 1, 4, Size.float64⟩) ∧
      Format.DecodeUnsigned ⟨44100, 1, 4, Size.float64⟩ p1
        = some ((⟨y⟩ : Mono ℚ), Format.Width ⟨44100, 1, 4, Size.float64⟩) ∧
      ¬ |5028891442929087 / 2 ^ 59 - y| ≤ epsilon 4) := by
  constructor
  · obtain ⟨p1, e1, -, e2⟩ := stereo_frame_downmix ⟨44100, 1, 1, Size.float64⟩ true
      (by decide) (by decide) rfl [0] (by decide) 1 (-1)
    refine ⟨p1, _, _, e1, e2, ?_⟩
    have h127 : Size.float64.round (127 : ℚ) = 127 := by
      have h := Size.float64.round_natCast 127 7 (by decide) (by norm_num)
      exact_mod_cast h
    have h1r : Size.float64.round (1 : ℚ) = 1 := by
      have h := Size.float64.round_natCast 1 1 (by decide) (by norm_num)
      exact_mod_cast h
    have h2r : Size.float64.round (2 : ℚ) = 2 := by
      have h := Size.float64.round_natCast 2 2 (by decide) (by norm_num)
      exact_mod_cast h
    have hmean : norm (Format.mean Size.float64 [1, -1] 2) = 0 := by
      simp only [Format.mean, List.foldl_cons, List.foldl_nil]
      rw [zero_add, h1r]
      norm_num [Size.round_zero, norm]
    have hy : readBack Size.float64 true (1 : Int) (norm (Format.mean Size.float64 [1, -1] 2))
        = 0 := by
      rw [hmean, readBack_signed]
      have hc : floatToSigned 1 0 = 0 := by
        unfold floatToSigned
        rw [if_neg (by norm_num), zero_mul, Size.round_zero, uint64OfRat]
        norm_num
      rw [hc]
      unfold signedToFloat
      have hs : shl1 (1 * 8 - 1) = 128 := by
        unfold shl1
        rw [if_pos (by norm_num), show ((1 : Int) * 8 - 1).toNat = 7 by decide]
        norm_num
      rw [show (0 : Nat) % 256 ^ (1 : Int).toNat = 0 by rfl, hs, if_neg (by norm_num)]
      have hi : ((int64OfUint64 0 : Int) : ℚ) = 0 := by
        unfold int64OfUint64
        norm_num
      rw [hi, Size.round_zero, zero_div, Size.round_zero]
    simp only at hy ⊢
    rw [hy, epsilon_one]
    norm_num
  · obtain ⟨p1, e1, -, e2⟩ := mono_frame_roundtrip ⟨44100, 1, 4, Size.float64⟩ false
      (by decide) (by decide) (by decide) [0, 0, 0, 0] (by decide)
      (5028891442929087 / 2 ^ 59) (by norm_num) (by norm_num)
    refine ⟨p1, _, e1, e2, ?_⟩
    have hy : readBack Size.float64 false (4 : Int) (5028891442929087 / 2 ^ 59)
        = 39288212300731 / 2 ^ 52 := by
      rw [readBack_unsigned, unsigned64_code]
      have : (2166217727 : Nat) % 256 ^ (4 : Int).toNat = 2166217727 := by
        rw [show (4 : Int).toNat = 4 by decide]
        norm_num
      rw [this, unsigned64_amplitude]
    simp only at hy ⊢
    rw [hy, epsilon_four, abs_of_pos (by norm_num)]
    norm_num

/-! ### Mix -/

/-- C4 fails on the code for Mono points: `Mix` over one Mono stream with the single
sample `(1)`, asked for one slot, faults at `samples[0][1]` and returns nothing. -/
theorem mix_mono_faults :
    (MixState.Stream (Mix [(dataStreamer [(⟨1⟩ : Mono Int)] 0).toStreamer]) [⟨0⟩]).isNone
      = true := by
  decide

/-! ### Mix of Stereo streams -/

theorem MixState.addPoint_stereo {S : Type} [Add S] [Zero S] (a t : Stereo S) :
    MixState.addPoint a t = some (a + t) := rfl

theorem addInto_nil {P : Type} [Add P] (acc : List P) : addInto acc [] = acc := by
  cases acc <;> rfl

theorem length_addInto {P : Type} [Add P] (acc l : List P) (h : l.length ≤ acc.length) :
    (addInto acc l).length = acc.length := by
  induction acc generalizing l with
  | nil => cases l <;> rfl
  | cons a as ih =>
    cases l with
    | nil => rfl
    | cons x xs =>
      simp only [addInto, List.length_cons]
      rw [ih xs (by simpa using h)]

theorem MixState.mixAddSamples_eq {S : Type} [Add S] [Zero S] (tmp : List (Stereo S))
    (fuel : Nat) : ∀ (i : Nat) (samples : List (Stereo S)), i + fuel ≤ samples.length →
      i + fuel ≤ tmp.length →
      MixState.addSamples tmp fuel i samples =
        some (samples.take i ++ addInto (samples.drop i) ((tmp.drop i).take fuel)) := by
  induction fuel with
  | zero =>
    intro i samples _ _
    simp [MixState.addSamples, addInto_nil]
  | succ fuel ih =>
    intro i samples h1 h2
    have hi1 : i < samples.length := by omega
    have hi2 : i < tmp.length := by omega
    have e1 : samples.get? i = some (samples.get ⟨i, hi1⟩) := List.get?_eq_get _
    have e2 : tmp.get? i = some (tmp.get ⟨i, hi2⟩) := List.get?_eq_get _
    simp only [MixState.addSamples, e1, e2, MixState.addPoint_stereo]
    rw [ih (i + 1) _ (by rw [List.length_set]; omega) (by omega)]
    have d1 : samples.drop i = samples.get ⟨i, hi1⟩ :: samples.drop (i + 1) := by simp
    have d2 : tmp.drop i = tmp.get ⟨i, hi2⟩ :: tmp.drop (i + 1) := by simp
    rw [d1, d2, List.take_succ_cons, addInto, take_succ_set _ _ hi1,
      List.drop_set_of_lt _ _ (by omega)]
    simp

theorem foldl_max_length {P : Type} (ds : List (List P)) :
    ∀ a : Nat, ds.foldl (fun m d => max m d.length) a = max a (maxLen ds) := by
  induction ds with
  | nil => intro a; simp [maxLen]
  | cons d ds ih =>
    intro a
    simp only [maxLen, List.foldl_cons]
    rw [ih, ih (max 0 d.length)]
    simp only [Nat.zero_max]
    rw [max_assoc]

theorem maxLen_cons {P : Type} (d : List P) (ds : List (List P)) :
    maxLen (d :: ds) = max d.length (maxLen ds) := by
  simp only [maxLen, List.foldl_cons, Nat.zero_max]
  exact foldl_max_length ds _

theorem MixState.round_spec {S : Type} [Add S] [Zero S] (t : Nat) (ht : 0 < t)
    (ht2 : t ≤ 512) (todo : List (Streamer (Stereo S))) :
    ∀ (ds : List (List (Stereo S))), List.Forall₂ Streamer.HasContent todo ds →
      ∀ (called : List (Streamer (Stereo S))) (samples tmp : List (Stereo S)) (snMax : Nat)
        (ok : Bool), tmp.length = 512 → t ≤ samples.length →
      ∃ (todo1 : List (Streamer (Stereo S))) (tmp1 : List (Stereo S)),
        MixState.round t todo called samples tmp (snMax : Int) ok =
          some (called ++ todo1, ds.foldl (fun acc d => addInto acc (d.take t)) samples, tmp1,
            ((max snMax (min t (maxLen ds)) : Nat) : Int),
            ok || ds.any (fun d => !d.isEmpty)) ∧
        List.Forall₂ Streamer.HasContent todo1 (ds.map (List.drop t)) ∧ tmp1.length = 512 := by
  induction todo with
  | nil =>
    intro ds hds called samples tmp snMax ok htmp hs
    cases hds
    exact ⟨[], tmp, by simp [MixState.round, maxLen], List.Forall₂.nil, htmp⟩
  | cons st todo ih =>
    intro ds hds called samples tmp snMax ok htmp hs
    cases hds with
    | cons hd htl =>
      rename_i d ds
      have hlen : (tmp.take t).length = t := by
        rw [List.length_take, htmp]; omega
      have hne : tmp.take t ≠ [] := by
        intro h0
        rw [h0] at hlen
        simp at hlen
        omega
      obtain ⟨h1, h2⟩ := hd.step hne
      obtain ⟨m, hm⟩ : ∃ m, m = min t d.length := ⟨_, rfl⟩
      have hm1 : m ≤ t := hm ▸ Nat.min_le_left _ _
      have hm2 : m ≤ d.length := hm ▸ Nat.min_le_right _ _
      have hn1 : (st.Stream (tmp.take t)).1.n = (m : Int) := by
        rw [h1, hm]; simp only [refPull, hlen]
      have hok : (st.Stream (tmp.take t)).1.ok = !d.isEmpty := by rw [h1]; rfl
      have hslen : (st.Stream (tmp.take t)).1.samples.length = t := by
        rw [h1]; simp only [refPull, List.length_append, List.length_take, List.length_drop,
          hlen]
        omega
      have htk : ((st.Stream (tmp.take t)).1.samples ++ tmp.drop t).take m = d.take t := by
        rw [List.take_append_of_le_length (by omega), h1]
        have := refPull_samples_take d (tmp.take t)
        rw [hlen, ← hm] at this
        rw [this]
        rcases Nat.le_total t d.length with h | h
        · rw [hm, min_eq_left h]
        · rw [hm, min_eq_right h, List.take_of_length_le h, List.take_of_length_le (le_refl _)]
      have hrest : (refPull d (tmp.take t)).2 = d.drop t := by
        simp only [refPull, hlen]
      rw [hrest] at h2
      have htmp1 : ((st.Stream (tmp.take t)).1.samples ++ tmp.drop t).length = 512 := by
        rw [List.length_append, hslen, List.length_drop, htmp]; omega
      have hadd := MixState.mixAddSamples_eq
        ((st.Stream (tmp.take t)).1.samples ++ tmp.drop t) m 0 samples (by omega) (by omega)
      simp only [List.take_zero, List.nil_append, List.drop_zero, htk] at hadd
      have hsl : t ≤ (addInto samples (d.take t)).length := by
        rw [length_addInto _ _ (by rw [List.length_take]; omega)]; exact hs
      obtain ⟨todo1, tmp1, e1, e2, e3⟩ := ih ds htl (called ++ [(st.Stream (tmp.take t)).2])
        (addInto samples (d.take t)) ((st.Stream (tmp.take t)).1.samples ++ tmp.drop t)
        (max snMax m) (ok || !d.isEmpty) htmp1 hsl
      refine ⟨(st.Stream (tmp.take t)).2 :: todo1, tmp1, ?_, List.Forall₂.cons h2 e2, e3⟩
      simp only [MixState.round]
      rw [hn1, if_pos ⟨by omega, by omega⟩, Int.toNat_ofNat, hadd]
      simp only [hok]
      have hmax : (if (m : Int) > (snMax : Int) then (m : Int) else (snMax : Int))
          = ((max snMax m : Nat) : Int) := by
        split <;> omega
      rw [hmax, e1]
      simp only [List.append_assoc, List.singleton_append, List.foldl_cons, List.any_cons,
        maxLen_cons, Bool.or_assoc]
      congr 5
      omega

theorem getElem?_addInto {P : Type} [Add P] (acc : List P) :
    ∀ (l : List P) (j : Nat), l.length ≤ acc.length →
      (addInto acc l)[j]? = match l[j]? with
        | some v => acc[j]?.map (fun a => a + v)
        | none => acc[j]? := by
  induction acc with
  | nil =>
    intro l j h
    have : l = [] := List.length_eq_zero.1 (by simpa using h)
    subst this
    simp [addInto]
  | cons a as ih =>
    intro l j h
    cases l with
    | nil => simp [addInto]
    | cons x xs =>
      cases j with
      | zero => simp [addInto]
      | succ j =>
        simp only [addInto, List.getElem?_cons_succ]
        exact ih xs j (by simpa using h)

theorem addInto_append {P : Type} [Add P] (acc rest : List P) :
    ∀ l : List P, l.length ≤ acc.length → addInto (acc ++ rest) l = addInto acc l ++ rest := by
  induction acc with
  | nil =>
    intro l h
    have : l = [] := List.length_eq_zero.1 (by simpa using h)
    subst this
    simp [addInto_nil]
  | cons a as ih =>
    intro l h
    cases l with
    | nil => simp [addInto]
    | cons x xs =>
      simp only [List.cons_append, addInto, List.cons.injEq, true_and]
      exact ih xs (by simpa using h)

theorem foldl_addInto_append {P : Type} [Add P] (t : Nat) (ds : List (List P)) :
    ∀ (acc rest : List P), t ≤ acc.length →
      ds.foldl (fun acc d => addInto acc (d.take t)) (acc ++ rest) =
        ds.foldl (fun acc d => addInto acc (d.take t)) acc ++ rest := by
  induction ds with
  | nil => intro acc rest _; rfl
  | cons d ds ih =>
    intro acc rest h
    have hl : (d.take t).length ≤ acc.length := by
      rw [List.length_take]; omega
    simp only [List.foldl_cons]
    rw [addInto_append _ _ _ hl, ih _ _ (by rw [length_addInto _ _ hl]; exact h)]

theorem length_foldl_addInto {P : Type} [Add P] (t : Nat) (ds : List (List P)) :
    ∀ (acc : List P), t ≤ acc.length →
      (ds.foldl (fun acc d => addInto acc (d.take t)) acc).length = acc.length := by
  induction ds with
  | nil => intro acc _; rfl
  | cons d ds ih =>
    intro acc h
    have hl : (d.take t).length ≤ acc.length := by
      rw [List.length_take]; omega
    simp only [List.foldl_cons]
    rw [ih _ (by rw [length_addInto _ _ hl]; exact h), length_addInto _ _ hl]

theorem getElem?_foldl_addInto {S : Type} [Add S] [Zero S] (t : Nat)
    (ds : List (List (Stereo S))) :
    ∀ (acc : List (Stereo S)) (j : Nat), t ≤ acc.length → j < t →
      (ds.foldl (fun acc d => addInto acc (d.take t)) acc)[j]? =
        acc[j]?.map (fun a => ds.foldl (fun acc d => match d.get? j with
          | some v => acc + v
          | none => acc) a) := by
  induction ds with
  | nil => intro acc j _ _; simp
  | cons d ds ih =>
    intro acc j h hj
    have hl : (d.take t).length ≤ acc.length := by
      rw [List.length_take]; omega
    simp only [List.foldl_cons]
    rw [ih _ j (by rw [length_addInto _ _ hl]; exact h) hj, getElem?_addInto _ _ _ hl,
      List.getElem?_take_of_lt hj]
    have hacc : acc[j]? = some (acc.get ⟨j, by omega⟩) := by
      rw [List.getElem?_eq_getElem (by omega)]; rfl
    rw [hacc]
    cases hd : d[j]? with
    | none => simp [hd]
    | some v => simp [hd]

theorem length_mixContent {S : Type} [Add S] [Zero S] (ds : List (List (Stereo S))) :
    (mixContent ds).length = maxLen ds := by
  simp [mixContent]

theorem foldl_addInto_replicate {S : Type} [Add S] [Zero S] (t : Nat)
    (ds : List (List (Stereo S))) :
    ds.foldl (fun acc d => addInto acc (d.take t)) (List.replicate t (⟨0, 0⟩ : Stereo S)) =
      (List.range t).map (mixAt ds) := by
  apply List.ext_getElem?
  intro j
  by_cases hj : j < t
  · rw [getElem?_foldl_addInto t ds _ j (by simp) hj]
    simp [hj, mixAt, List.getElem?_replicate]
  · rw [List.getElem?_eq_none (by rw [length_foldl_addInto _ _ _ (by simp)]; simp; omega),
      List.getElem?_eq_none (by simp; omega)]

theorem round_take {S : Type} [Add S] [Zero S] (t : Nat) (ds : List (List (Stereo S)))
    (rest : List (Stereo S)) :
    ds.foldl (fun acc d => addInto acc (d.take t))
        (List.replicate t (⟨0, 0⟩ : Stereo S) ++ rest) = (List.range t).map (mixAt ds) ++ rest ∧
    ((List.range t).map (mixAt ds)).take (min t (maxLen ds)) = (mixContent ds).take t := by
  constructor
  · rw [foldl_addInto_append t ds _ rest (by simp), foldl_addInto_replicate]
  · rw [mixContent, ← List.map_take, ← List.map_take, List.take_range, List.take_range]
    congr 2
    omega

theorem maxLen_map_drop {P : Type} (k : Nat) (ds : List (List P)) :
    maxLen (ds.map (List.drop k)) = maxLen ds - k := by
  induction ds with
  | nil => simp [maxLen]
  | cons d ds ih =>
    rw [List.map_cons, maxLen_cons, maxLen_cons, ih, List.length_drop]
    omega

theorem mixAt_map_drop {S : Type} [Add S] [Zero S] (k j : Nat) (ds : List (List (Stereo S))) :
    mixAt (ds.map (List.drop k)) j = mixAt ds (k + j) := by
  simp only [mixAt, List.foldl_map, List.get?_eq_getElem?, List.getElem?_drop]

theorem mixContent_map_drop {S : Type} [Add S] [Zero S] (k : Nat)
    (ds : List (List (Stereo S))) :
    mixContent (ds.map (List.drop k)) = (mixContent ds).drop k := by
  apply List.ext_getElem?
  intro j
  simp only [mixContent, maxLen_map_drop, List.getElem?_map, List.getElem?_drop,
    List.getElem?_range]
  by_cases hj : j < maxLen ds - k
  · rw [List.getElem?_range hj, List.getElem?_range (by omega)]
    simp [mixAt_map_drop]
  · rw [List.getElem?_eq_none (by simp; omega), List.getElem?_eq_none (by simp; omega)]
    rfl

theorem length_le_maxLen {P : Type} (ds : List (List P)) : ∀ d ∈ ds, d.length ≤ maxLen ds := by
  induction ds with
  | nil => intro d hd; simp at hd
  | cons x xs ih =>
    intro d hd
    rw [maxLen_cons]
    rcases List.mem_cons.1 hd with rfl | h
    · exact le_max_left _ _
    · exact le_trans (ih d h) (le_max_right _ _)

theorem any_nonempty_eq {P : Type} (ds : List (List P)) :
    ds.any (fun d => !d.isEmpty) = decide (0 < maxLen ds) := by
  induction ds with
  | nil => simp [maxLen]
  | cons d ds ih =>
    rw [List.any_cons, ih, maxLen_cons]
    cases d with
    | nil => simp
    | cons x xs => simp

theorem MixState.rounds_spec {S : Type} [Add S] [Zero S] (fuel : Nat) :
    ∀ (s : List (Streamer (Stereo S))) (ds : List (List (Stereo S)))
      (filled samples tmp : List (Stereo S)) (n : Int) (ok : Bool),
      List.Forall₂ Streamer.HasContent s ds → tmp.length = 512 → samples.length ≤ fuel →
      ∃ (X : List (Stereo S)) (q : MixState (Stereo S)),
        MixState.rounds fuel s filled samples tmp n ok =
          some (⟨filled ++ X, n + (min samples.length (maxLen ds) : Nat),
            ok || (decide (0 < maxLen ds) && !samples.isEmpty)⟩, q) ∧
        X.length = samples.length ∧
        X.take (min samples.length (maxLen ds)) = (mixContent ds).take samples.length ∧
        List.Forall₂ Streamer.HasContent q.s (ds.map (List.drop samples.length)) := by
  induction fuel with
  | zero =>
    intro s ds filled samples tmp n ok hds _ hfuel
    have hs : samples = [] := List.length_eq_zero.1 (by omega)
    subst hs
    refine ⟨[], { s := s }, ?_, rfl, by simp, by simpa using hds⟩
    unfold MixState.rounds
    simp
  | succ fuel ih =>
    intro s ds filled samples tmp n ok hds htmp hfuel
    by_cases hc : 0 < samples.length
    · obtain ⟨t, ht, ht1, ht2, ht3, ht4⟩ : ∃ t : Nat,
          (if 512 > samples.length then samples.length else 512) = t ∧ t ≤ samples.length ∧
          t ≤ 512 ∧ 0 < t ∧ (t = samples.length ∨ (t = 512 ∧ 512 < samples.length)) := by
        by_cases h : 512 > samples.length
        · exact ⟨samples.length, by rw [if_pos h], le_refl _, by omega, hc, Or.inl rfl⟩
        · by_cases h2 : samples.length = 512
          · exact ⟨512, by rw [if_neg h], by omega, le_refl _, by omega, Or.inl h2.symm⟩
          · exact ⟨512, by rw [if_neg h], by omega, le_refl _, by omega, Or.inr ⟨rfl, by omega⟩⟩
      have hcl : t ≤ (List.replicate t (⟨0, 0⟩ : Stereo S) ++ samples.drop t).length := by
        simp
      obtain ⟨todo1, tmp1, hr, hds1, htmp1⟩ := MixState.round_spec t ht3 ht2 s ds hds []
        (List.replicate t (⟨0, 0⟩ : Stereo S) ++ samples.drop t) tmp 0 ok htmp hcl
      obtain ⟨hF, hT⟩ := round_take t ds (samples.drop t)
      rw [hF] at hr
      simp only [Nat.cast_zero, List.nil_append, Nat.zero_max] at hr
      have hne : samples.isEmpty = false := by
        cases samples with
        | nil => simp at hc
        | cons x xs => rfl
      have hRlen : ((List.range t).map (mixAt ds)).length = t := by simp
      unfold MixState.rounds
      rw [if_pos hc]
      simp only [ht]
      have hz : (Point.zero : Stereo S) = ⟨0, 0⟩ := rfl
      rw [hz, hr]
      simp only
      by_cases hbrk : ((min t (maxLen ds) : Nat) : Int) < 512
      · -- fewer than 512 samples came: `break`
        rw [if_pos hbrk]
        have hmin : min t (maxLen ds) = min samples.length (maxLen ds) := by
          rcases ht4 with h | ⟨h, h2⟩
          · rw [h]
          · omega
        refine ⟨(List.range t).map (mixAt ds) ++ samples.drop t, { s := todo1 }, ?_, ?_, ?_, ?_⟩
        · rw [hmin, any_nonempty_eq, hne]
          simp
        · rw [List.length_append, hRlen, List.length_drop]; omega
        · rw [← hmin, List.take_append_of_le_length (by rw [hRlen]; omega), hT]
          rcases ht4 with h | ⟨h, h2⟩
          · rw [h]
          · have hL : maxLen ds < 512 := by omega
            rw [List.take_of_length_le (by rw [length_mixContent]; omega),
              List.take_of_length_le (by rw [length_mixContent]; omega)]
        · have : ds.map (List.drop t) = ds.map (List.drop samples.length) := by
            rcases ht4 with h | ⟨h, h2⟩
            · rw [h]
            · have hL : maxLen ds < 512 := by omega
              apply List.map_congr_left
              intro d hd
              have := length_le_maxLen ds d hd
              rw [List.drop_eq_nil_of_le (by omega), List.drop_eq_nil_of_le (by omega)]
          rw [← this]
          exact hds1
      · -- a full round: go on with `samples[snMax:]`
        rw [if_neg hbrk]
        have ht512 : t = 512 := by omega
        have hL : 512 ≤ maxLen ds := by omega
        have hmin : min t (maxLen ds) = 512 := by omega
        rw [hmin]
        have hsl : sliceFrom ((List.range t).map (mixAt ds) ++ samples.drop t) ((512 : Nat) : Int)
            = some (samples.drop t) := by
          rw [sliceFrom_ofNat _ (by rw [List.length_append, hRlen, List.length_drop]; omega),
            ← ht512, List.drop_append_of_le_length (by rw [hRlen]),
            List.drop_eq_nil_of_le (by rw [hRlen])]
          rfl
        rw [hsl]
        simp only [Int.toNat_ofNat]
        obtain ⟨X, q, e1, e2, e3, e4⟩ := ih todo1 (ds.map (List.drop t))
          (filled ++ ((List.range t).map (mixAt ds) ++ samples.drop t).take 512)
          (samples.drop t) tmp1 (n + (512 : Nat)) (ok || ds.any (fun d => !d.isEmpty)) hds1 htmp1
          (by rw [List.length_drop]; omega)
        have htk : ((List.range t).map (mixAt ds) ++ samples.drop t).take 512
            = (mixContent ds).take 512 := by
          rw [List.take_append_of_le_length (by rw [hRlen]; omega)]
          have h5 := hT
          rw [hmin] at h5
          rw [h5, ht512]
        rw [htk] at e1
        rw [maxLen_map_drop, List.length_drop, ht512] at e1
        rw [maxLen_map_drop, mixContent_map_drop, List.length_drop, ht512] at e3
        rw [List.length_drop, ht512] at e2 e4
        refine ⟨(mixContent ds).take 512 ++ X, q, ?_, ?_, ?_, ?_⟩
        · rw [htk, ht512, e1]
          have h1 : filled ++ (mixContent ds).take 512 ++ X
              = filled ++ ((mixContent ds).take 512 ++ X) := List.append_assoc _ _ _
          have h2 : n + ((512 : Nat) : Int)
                + ((min (samples.length - 512) (maxLen ds - 512) : Nat) : Int)
              = n + ((min samples.length (maxLen ds) : Nat) : Int) := by omega
          have h3 : decide (0 < maxLen ds) = true := decide_eq_true (by omega)
          rw [h1, h2, any_nonempty_eq, hne, h3]
          simp
        · rw [List.length_append, List.length_take, length_mixContent, e2]; omega
        · have hl : ((mixContent ds).take 512).length = 512 := by
            rw [List.length_take, length_mixContent]; omega
          have hmm : min samples.length (maxLen ds)
              = 512 + min (samples.length - 512) (maxLen ds - 512) := by omega
          rw [hmm, List.take_append_eq_append_take, hl, List.take_of_length_le (by omega)]
          simp only [Nat.add_sub_cancel_left]
          rw [e3]
          exact take_append_take_drop _ (by omega)
        · rw [List.map_map] at e4
          have : (List.drop (samples.length - 512) ∘ List.drop 512)
              = (List.drop samples.length : List (Stereo S) → List (Stereo S)) := by
            funext d
            have h : ∀ a b : Nat, a = b → List.drop a d = List.drop b d :=
              fun a b e => by rw [e]
            simp only [Function.comp, List.drop_drop]
            exact h _ _ (by omega)
          rw [this] at e4
          exact e4
    · have hs : samples = [] := List.length_eq_zero.1 (by omega)
      subst hs
      refine ⟨[], { s := s }, ?_, rfl, by simp, by simpa using hds⟩
      unfold MixState.rounds
      simp

theorem length_refPull {P : Type} (d b : List P) :
    (refPull d b).1.samples.length = b.length := by
  by_cases h : b.length ≤ d.length
  · rw [refPull_of_ge h]
    simp only [List.length_take]
    omega
  · have h2 : d.length ≤ b.length := by omega
    rw [refPull_of_le h2]
    simp only [List.length_append, List.length_drop]
    omega

theorem MixState.mixStream_spec {S : Type} [Add S] [Zero S] (q : MixState (Stereo S))
    (ds : List (List (Stereo S))) (h : List.Forall₂ Streamer.HasContent q.s ds)
    (samples : List (Stereo S)) (hne : samples ≠ []) :
    ∃ (X : List (Stereo S)) (q1 : MixState (Stereo S)),
      MixState.Stream q samples =
        some (⟨X, (refPull (mixContent ds) samples).1.n, (refPull (mixContent ds) samples).1.ok⟩,
          q1) ∧
      X.length = samples.length ∧
      X.take (min samples.length (mixContent ds).length) = (mixContent ds).take samples.length ∧
      List.Forall₂ Streamer.HasContent q1.s (ds.map (List.drop samples.length)) := by
  obtain ⟨X, q1, e1, e2, e3, e4⟩ := MixState.rounds_spec samples.length q.s ds [] samples
    (List.replicate 512 (⟨0, 0⟩ : Stereo S)) 0 false h (List.length_replicate _ _) (le_refl _)
  refine ⟨X, q1, ?_, e2, by rw [length_mixContent]; exact e3, e4⟩
  have hz : (Point.zero : Stereo S) = ⟨0, 0⟩ := rfl
  have hemp : samples.isEmpty = false := by
    cases samples with
    | nil => exact absurd rfl hne
    | cons x xs => rfl
  have hok : (!(mixContent ds).isEmpty) = decide (0 < maxLen ds) := by
    rw [← length_mixContent ds]
    cases mixContent ds with
    | nil => rfl
    | cons x xs => simp
  unfold MixState.Stream
  rw [hz, e1]
  simp only [refPull, length_mixContent, hok, hemp, List.nil_append, zero_add, Bool.false_or,
    Bool.not_false, Bool.and_true]

theorem collected_sameDelivery {P : Type} (rs rs1 : List (Pulled P))
    (h : List.Forall₂ SameDelivery rs rs1) : collected rs = collected rs1 := by
  induction h with
  | nil => rfl
  | cons hr _ ih => rw [collected_cons, collected_cons, ih, hr.2.2.2]

theorem MixState.mixTrace_spec {S : Type} [Add S] [Zero S] (bufs : List (List (Stereo S))) :
    ∀ (q : MixState (Stereo S)) (ds : List (List (Stereo S))),
      List.Forall₂ Streamer.HasContent q.s ds → (∀ b ∈ bufs, b ≠ []) →
      ∃ rs : List (Pulled (Stereo S)), traceO MixState.Stream q bufs = some rs ∧
        List.Forall₂ SameDelivery rs (refTrace (mixContent ds) bufs) := by
  induction bufs with
  | nil => intro q ds _ _; exact ⟨[], rfl, List.Forall₂.nil⟩
  | cons b bs ih =>
    intro q ds h hne
    obtain ⟨X, q1, e1, e2, e3, e4⟩ :=
      MixState.mixStream_spec q ds h b (hne b (List.mem_cons_self _ _))
    obtain ⟨rs, f1, f2⟩ := ih q1 _ e4 (fun x hx => hne x (List.mem_cons_of_mem _ hx))
    refine ⟨⟨X, (refPull (mixContent ds) b).1.n, (refPull (mixContent ds) b).1.ok⟩ :: rs,
      by simp only [traceO, e1, f1], ?_⟩
    rw [refTrace]
    refine List.Forall₂.cons ⟨rfl, rfl, ?_, ?_⟩ ?_
    · show X.length = _
      rw [e2, length_refPull]
    · show X.take ((min b.length (mixContent ds).length : Nat) : Int).toNat
        = (refPull (mixContent ds) b).1.samples.take
            ((min b.length (mixContent ds).length : Nat) : Int).toNat
      rw [Int.toNat_ofNat, refPull_samples_take, e3]
      by_cases hle : b.length ≤ (mixContent ds).length
      · rw [min_eq_left hle]
      · have h2 : (mixContent ds).length ≤ b.length := by omega
        rw [min_eq_right h2, List.take_of_length_le h2, List.take_of_length_le (le_refl _)]
    · have : (refPull (mixContent ds) b).2 = mixContent (ds.map (List.drop b.length)) := by
        rw [mixContent_map_drop]; rfl
      rw [this]
      exact f2

theorem getElem?_mixContent {S : Type} [Add S] [Zero S] (ds : List (List (Stereo S)))
    (j : Nat) (hj : j < maxLen ds) : (mixContent ds)[j]? = some (mixAt ds j) := by
  simp [mixContent, List.getElem?_range hj]

/-- For Stereo points `Mix` mixes: over contract-obeying finite streams with contents `ds`
every sequence of non-empty pulls returns, count by count and flag by flag, what a
contract-obeying stream with the content `mixContent ds` returns, and the samples collected
are that content cut at the number of slots requested. The content is as long as the
longest of `ds` and its sample `j` is the sum of the samples `j` of the streams that have
one. -/
theorem mix_stereo_delivers {S : Type} [Add S] [Zero S] (s : List (Streamer (Stereo S)))
    (ds : List (List (Stereo S))) (h : List.Forall₂ Streamer.HasContent s ds)
    (bufs : List (List (Stereo S))) (hne : ∀ b ∈ bufs, b ≠ []) :
    ∃ rs : List (Pulled (Stereo S)), traceO MixState.Stream (Mix s) bufs = some rs ∧
      List.Forall₂ SameDelivery rs (refTrace (mixContent ds) bufs) ∧
      collected rs = (mixContent ds).take (totalSlots bufs) ∧
      (mixContent ds).length = maxLen ds ∧
      ∀ j, j < maxLen ds → (mixContent ds)[j]? = some (mixAt ds j) := by
  obtain ⟨rs, h1, h2⟩ := MixState.mixTrace_spec bufs (Mix s) ds h hne
  refine ⟨rs, h1, h2, ?_, length_mixContent ds, fun j hj => getElem?_mixContent ds j hj⟩
  rw [collected_sameDelivery rs _ h2, collected_refTrace]

/-! ### Integer codes -/

theorem float64_scale (precision : Int) (h1 : 1 ≤ precision) (h6 : precision ≤ 6) :
    ∃ K : Nat, 128 ≤ K ∧ 2 * K ≤ 2 ^ 48 ∧ (2 : ℚ) ^ (8 * precision - 1) = (K : ℚ) ∧
      Size.float64.round (exp2 (precision * 8 - 1) - 1) = (K : ℚ) - 1 ∧
      2 ^ (8 * precision).toNat = 2 * K ∧ shl1 (precision * 8) = 2 * K := by
  obtain ⟨K, hK1, hK2, e1, e2, e3, e4, e5⟩ := precision_consts precision h1 h6
  have hz : (2 : ℚ) ^ (8 * precision - 1) = (K : ℚ) := by rw [mul_comm, ← e1, exp2]
  have hp : 2 ^ (8 * precision).toNat = 2 * K := by
    rw [← e4, mul_comm, shl1, if_pos (by omega)]
  refine ⟨K, hK1, hK2, hz, ?_, hp, e4⟩
  have h := Size.float64.round_natCast (K - 1) 48 (by decide) (by omega)
  rw [Nat.cast_sub (by omega), Nat.cast_one] at h
  rw [e1, h]

theorem floatToSigned_nonneg (precision : Int) (h1 : 1 ≤ precision) (h6 : precision ≤ 6)
    (x : ℚ) (hx0 : 0 ≤ x) (hx2 : x ≤ 1) :
    floatToSigned precision x =
        ⌊Size.float64.round (x * ((2 : ℚ) ^ (8 * precision - 1) - 1))⌋₊ ∧
      (floatToSigned precision x : ℚ) - 1 < x * ((2 : ℚ) ^ (8 * precision - 1) - 1) ∧
      x * ((2 : ℚ) ^ (8 * precision - 1) - 1) < (floatToSigned precision x : ℚ) + 1 := by
  obtain ⟨K, hK1, hK2, hz, hc, -, -⟩ := float64_scale precision h1 h6
  obtain ⟨n, hn, -, hlo, hhi, hfl⟩ := trunc_product K hK1 (by omega) x hx0 hx2
  have hcode : floatToSigned precision x = n := by
    simp only [floatToSigned, not_lt.2 hx0, if_false, hc]
    exact hn
  rw [hcode, hz]
  exact ⟨hfl, hlo, hhi⟩

theorem floatToSigned_neg (precision : Int) (h1 : 1 ≤ precision) (h6 : precision ≤ 6)
    (x : ℚ) (hx1 : -1 ≤ x) (hx : x < 0) :
    ∃ n : Nat, n = ⌊Size.float64.round (-x * ((2 : ℚ) ^ (8 * precision - 1) - 1))⌋₊ ∧
      floatToSigned precision x = 2 ^ (8 * precision).toNat - n ∧
      n < 2 ^ (8 * precision).toNat ∧
      (n : ℚ) - 1 < -x * ((2 : ℚ) ^ (8 * precision - 1) - 1) ∧
      -x * ((2 : ℚ) ^ (8 * precision - 1) - 1) < (n : ℚ) + 1 := by
  obtain ⟨K, hK1, hK2, hz, hc, hp, e4⟩ := float64_scale precision h1 h6
  obtain ⟨n, hn, hnK, hlo, hhi, hfl⟩ :=
    trunc_product K hK1 (by omega) (-x) (by linarith) (by linarith)
  rw [hz, hp]
  refine ⟨n, hfl, ?_, by omega, hlo, hhi⟩
  simp only [floatToSigned, hx, if_true, hc, e4, hn]
  rw [show 2 * K + 2 ^ 64 - n = (2 * K - n) + 2 ^ 64 by omega, Nat.add_mod_right]
  exact Nat.mod_eq_of_lt (by omega)

theorem floor_le_of_lt_succ (q : ℚ) (n : Nat) (h : q < (n : ℚ) + 1) : ⌊q⌋ ≤ (n : Int) := by
  have h1 : ⌊q⌋ < (n : Int) + 1 := by
    rw [Int.floor_lt]
    push_cast
    exact h
  omega

theorem le_ceil_of_pred_lt (q : ℚ) (n : Nat) (h : (n : ℚ) - 1 < q) : (n : Int) ≤ ⌈q⌉ := by
  have h1 : (n : Int) - 1 < ⌈q⌉ := by
    rw [Int.lt_ceil]
    push_cast
    exact h
  omega

theorem round64_nonneg (q : ℚ) (h : 0 ≤ q) : 0 ≤ Size.float64.round q := by
  unfold Size.round
  split
  · exact le_refl _
  · refine mul_nonneg ?_ (zpow_nonneg (by norm_num) _)
    have h0 := int_le_roundHalfEven
      (q / (2 : ℚ) ^ (max (Int.log 2 |q|) Size.float64.emin - ((Size.float64.prec : Int) - 1))) 0
      (by push_cast; exact div_nonneg h (zpow_nonneg (by norm_num) _))
    exact_mod_cast h0

/-- C11 (amended). For every precision `p` in 1..6 and every `x` in `[-1, 1]` the code
computed by `floatToSigned(p, x)` is `trunc(fl(x · (2^(8p-1) - 1)))` when `x ≥ 0` and
`2^(8p) - trunc(fl(-x · (2^(8p-1) - 1)))` when `x < 0`, where `fl` is the product as
`float64` holds it and `trunc` cuts to the integer below (the conversion `uint64(...)`),
not to the nearest integer; the integer cut to is the one below the exact product, or the
one above it when `fl` rounds the product up to that integer. -/
theorem signed_code_truncates (precision : Int) (h1 : 1 ≤ precision) (h6 : precision ≤ 6)
    (x : ℚ) (hx1 : -1 ≤ x) (hx2 : x ≤ 1) :
    (floatToSigned precision x : Int) = truncatedSignedCode precision x ∧
      (0 ≤ x → ⌊x * ((2 : ℚ) ^ (8 * precision - 1) - 1)⌋ ≤ (floatToSigned precision x : Int) ∧
        (floatToSigned precision x : Int) ≤ ⌈x * ((2 : ℚ) ^ (8 * precision - 1) - 1)⌉) ∧
      (x < 0 →
        2 ^ (8 * precision).toNat - ⌈-x * ((2 : ℚ) ^ (8 * precision - 1) - 1)⌉
          ≤ (floatToSigned precision x : Int) ∧
        (floatToSigned precision x : Int)
          ≤ 2 ^ (8 * precision).toNat - ⌊-x * ((2 : ℚ) ^ (8 * precision - 1) - 1)⌋) := by
  obtain ⟨K, hK1, hK2, hz, -, -, -⟩ := float64_scale precision h1 h6
  have hKq : (128 : ℚ) ≤ (K : ℚ) := by exact_mod_cast hK1
  by_cases hx : x < 0
  · obtain ⟨n, hfl, e, hlt, hlo, hhi⟩ := floatToSigned_neg precision h1 h6 x hx1 hx
    have hq0 : 0 ≤ -x * ((2 : ℚ) ^ (8 * precision - 1) - 1) := by
      rw [hz]
      exact mul_nonneg (by linarith) (by linarith)
    have hcast : ((floatToSigned precision x : Nat) : Int) = 2 ^ (8 * precision).toNat - (n : Int) := by
      rw [e, Nat.cast_sub hlt.le]
      push_cast
      rfl
    have h1f := floor_le_of_lt_succ _ n hhi
    have h2f := le_ceil_of_pred_lt _ n hlo
    refine ⟨?_, fun h0 => absurd hx (not_lt.2 h0), fun _ => ?_⟩
    · unfold truncatedSignedCode
      rw [if_pos hx, hcast, hfl, Int.natCast_floor_eq_floor (round64_nonneg _ hq0)]
    · rw [hcast]
      constructor <;> omega
  · have hx0 : 0 ≤ x := not_lt.1 hx
    obtain ⟨e, hlo, hhi⟩ := floatToSigned_nonneg precision h1 h6 x hx0 hx2
    have hq0 : 0 ≤ x * ((2 : ℚ) ^ (8 * precision - 1) - 1) := by
      rw [hz]
      exact mul_nonneg hx0 (by linarith)
    refine ⟨?_, fun _ => ⟨floor_le_of_lt_succ _ _ hhi, le_ceil_of_pred_lt _ _ hlo⟩,
      fun h0 => absurd h0 hx⟩
    unfold truncatedSignedCode
    rw [if_neg hx]
    conv_lhs => rw [e]
    exact Int.natCast_floor_eq_floor (round64_nonneg _ hq0)

theorem signed_code_truncates_witness :
    (floatToSigned 2 (-1 / 3) : Int) = truncatedSignedCode 2 (-1 / 3) ∧
      (0 ≤ (-1 / 3 : ℚ) → ⌊(-1 / 3 : ℚ) * ((2 : ℚ) ^ (8 * (2 : Int) - 1) - 1)⌋
          ≤ (floatToSigned 2 (-1 / 3) : Int) ∧
        (floatToSigned 2 (-1 / 3) : Int) ≤ ⌈(-1 / 3 : ℚ) * ((2 : ℚ) ^ (8 * (2 : Int) - 1) - 1)⌉) ∧
      ((-1 / 3 : ℚ) < 0 →
        2 ^ (8 * (2 : Int)).toNat - ⌈-(-1 / 3 : ℚ) * ((2 : ℚ) ^ (8 * (2 : Int) - 1) - 1)⌉
          ≤ (floatToSigned 2 (-1 / 3) : Int) ∧
        (floatToSigned 2 (-1 / 3) : Int)
          ≤ 2 ^ (8 * (2 : Int)).toNat - ⌊-(-1 / 3 : ℚ) * ((2 : ℚ) ^ (8 * (2 : Int) - 1) - 1)⌋) :=
  signed_code_truncates 2 (by decide) (by decide) (-1 / 3) (by norm_num) (by norm_num)

theorem round64_scale7 : Size.float64.round (exp2 (1 * 8 - 1) - 1) = 127 := by
  have h := Size.float64.round_natCast 127 7 (by decide) (by norm_num)
  have e : exp2 (1 * 8 - 1) - 1 = ((127 : Nat) : ℚ) := by
    rw [exp2]
    norm_num
  rw [e, h]
  norm_num

/-- C11 as stated fails: for precision 1 and `x = 1/4` the product `x · 127` is `31.75`,
which `float64` holds exactly and `floatToSigned` cuts to 31, while rounding to the
nearest integer gives 32. -/
theorem signed_code_round_counterexample :
    floatToSigned 1 (1 / 4) = 31 ∧ roundedSignedCode 1 (1 / 4) = 32 ∧
      (floatToSigned 1 (1 / 4) : Int) ≠ roundedSignedCode 1 (1 / 4) := by
  have h1 : floatToSigned 1 (1 / 4) = 31 := by
    have hP : Size.float64.round ((1 : ℚ) / 4 * 127) = 127 / 4 := by
      rw [round64_near _ 4 8936830510563328 (by rw [abs_of_pos (by norm_num)]; norm_num)
        (by rw [abs_of_pos (by norm_num)]; norm_num) (by norm_num)
        (by rw [abs_lt]; constructor <;> norm_num)]
      norm_num
    unfold floatToSigned
    rw [if_neg (by norm_num), round64_scale7, hP, uint64OfRat]
    have hfl : ⌊(127 : ℚ) / 4⌋₊ = 31 := by
      rw [Nat.floor_eq_iff (by norm_num)]
      constructor <;> norm_num
    rw [hfl]
    norm_num
  have h2 : roundedSignedCode 1 (1 / 4) = 32 := by
    unfold roundedSignedCode
    rw [if_neg (by norm_num), round_eq, Int.floor_eq_iff]
    norm_num
  refine ⟨h1, h2, ?_⟩
  rw [h1, h2]
  decide

/-- The product in `floatToSigned` is a `float64`: for precision 1 and
`x = 576247983817091 / 2^50`, the `float64` nearest to `65 / 127`, the exact product
`x · 127` lies below 65 and rounds to 65, and the code is 65, not the integer 64 below the
exact product. -/
theorem signed_code_above :
    floatToSigned 1 (576247983817091 / 2 ^ 50) = 65 ∧
      ⌊(576247983817091 : ℚ) / 2 ^ 50 * 127⌋ = 64 := by
  constructor
  · have hP : Size.float64.round ((576247983817091 : ℚ) / 2 ^ 50 * 127) = 65 := by
      rw [round64_near _ 6 4573968371548160 (by rw [abs_of_pos (by norm_num)]; norm_num)
        (by rw [abs_of_pos (by norm_num)]; norm_num) (by norm_num)
        (by rw [abs_lt]; constructor <;> norm_num)]
      norm_num
    unfold floatToSigned
    rw [if_neg (by norm_num), round64_scale7, hP, uint64OfRat]
    have hfl : ⌊(65 : ℚ)⌋₊ = 65 := by
      rw [Nat.floor_eq_iff (by norm_num)]
      constructor <;> norm_num
    rw [hfl]
    norm_num
  · rw [Int.floor_eq_iff]
    constructor <;> norm_num

theorem uintLE_lt (b : List Byte) (h : b.length ≤ 8) : uintLE b < 256 ^ b.length := by
  induction b with
  | nil => simp [uintLE]
  | cons x bs ih =>
    have h1 := ih (by simp only [List.length_cons] at h; omega)
    have h2 : (256 : Nat) ^ bs.length ≤ 256 ^ 7 :=
      Nat.pow_le_pow_right (by norm_num) (by simp only [List.length_cons] at h; omega)
    have h3 : (256 : Nat) ^ 7 * 256 = 2 ^ 64 := by norm_num
    have hx : x.val < 256 := x.isLt
    show (uintLE bs * 256 % 2 ^ 64 + x.val) % 2 ^ 64 < 256 ^ (bs.length + 1)
    rw [Nat.mod_eq_of_lt (show uintLE bs * 256 < 2 ^ 64 by omega),
      Nat.mod_eq_of_lt (show uintLE bs * 256 + x.val < 2 ^ 64 by omega), pow_succ]
    omega

theorem uintLE_cons (x : Byte) (bs : List Byte) (h : (x :: bs).length ≤ 8) :
    uintLE (x :: bs) = uintLE bs * 256 + x.val := by
  have h1 := uintLE_lt bs (by simp only [List.length_cons] at h; omega)
  have h2 : (256 : Nat) ^ bs.length ≤ 256 ^ 7 :=
    Nat.pow_le_pow_right (by norm_num) (by simp only [List.length_cons] at h; omega)
  have h3 : (256 : Nat) ^ 7 * 256 = 2 ^ 64 := by norm_num
  have hx : x.val < 256 := x.isLt
  simp only [uintLE]
  rw [Nat.mod_eq_of_lt (show uintLE bs * 256 < 2 ^ 64 by omega),
    Nat.mod_eq_of_lt (show uintLE bs * 256 + x.val < 2 ^ 64 by omega)]

theorem bytesLE_uintLE (b : List Byte) (h : b.length ≤ 8) : bytesLE (uintLE b) b.length = b := by
  induction b with
  | nil => rfl
  | cons x bs ih =>
    have hx : x.val < 256 := x.isLt
    rw [uintLE_cons x bs h, List.length_cons, bytesLE]
    have e1 : (uintLE bs * 256 + x.val) % 256 = x.val := by omega
    have e2 : (uintLE bs * 256 + x.val) / 256 = uintLE bs := by omega
    rw [e1, e2, ih (by simp only [List.length_cons] at h; omega)]
    congr 1
    apply Fin.ext
    simp [Fin.ofNat, Nat.mod_eq_of_lt hx]

theorem uintLE_digit (b : List Byte) (h : b.length ≤ 8) :
    ∀ (i : Nat) (hi : i < b.length), (b.get ⟨i, hi⟩).val = uintLE b / 256 ^ i % 256 := by
  induction b with
  | nil => intro i hi; simp at hi
  | cons x bs ih =>
    intro i hi
    have hx : x.val < 256 := x.isLt
    rw [uintLE_cons x bs h]
    cases i with
    | zero =>
      show x.val = (uintLE bs * 256 + x.val) / 256 ^ 0 % 256
      rw [pow_zero, Nat.div_one]
      omega
    | succ i =>
      have e2 : (uintLE bs * 256 + x.val) / 256 = uintLE bs := by omega
      show (bs.get ⟨i, Nat.lt_of_succ_lt_succ hi⟩).val
        = (uintLE bs * 256 + x.val) / 256 ^ (i + 1) % 256
      rw [pow_succ', ← Nat.div_div_eq_div_mul, e2]
      exact ih (by simp only [List.length_cons] at h; omega) i _

theorem round64_scale8 : Size.float64.round (exp2 (1 * 8) - 1) = 255 := by
  have h := Size.float64.round_natCast 255 8 (by decide) (by norm_num)
  have e : exp2 (1 * 8) - 1 = ((255 : Nat) : ℚ) := by
    rw [exp2]
    norm_num
  rw [e, h]
  norm_num

theorem unsigned8_amplitude :
    unsignedToFloat Size.float64 1 1 = -139633664917247 / 2 ^ 47 := by
  have ha : Size.float64.round ((1 : Nat) : ℚ) = ((1 : Nat) : ℚ) :=
    Size.float64.round_natCast 1 1 (by decide) (by norm_num)
  have hb : Size.float64.round (255 : ℚ) = 255 := by
    have h := Size.float64.round_natCast 255 8 (by decide) (by norm_num)
    exact_mod_cast h
  have hd : Size.float64.round ((1 : ℚ) / 255) = 282578800148737 / 72057594037927936 := by
    rw [round64_near _ (-8) 4521260802379792 (by rw [abs_of_pos (by norm_num)]; norm_num)
      (by rw [abs_of_pos (by norm_num)]; norm_num) (by norm_num)
      (by rw [abs_lt]; constructor <;> norm_num)]
    norm_num
  have hg : Size.float64.round ((282578800148737 : ℚ) / 72057594037927936 * 2) =
      282578800148737 / 36028797018963968 := by
    rw [round64_near _ (-7) 4521260802379792 (by rw [abs_of_pos (by norm_num)]; norm_num)
      (by rw [abs_of_pos (by norm_num)]; norm_num) (by norm_num)
      (by rw [abs_lt]; constructor <;> norm_num)]
    norm_num
  have hy : Size.float64.round ((282578800148737 : ℚ) / 36028797018963968 - 1) =
      -139633664917247 / 2 ^ 47 := by
    rw [round64_near _ (-1) (-8936554554703808) (by rw [abs_of_neg (by norm_num)]; norm_num)
      (by rw [abs_of_neg (by norm_num)]; norm_num) (by norm_num)
      (by rw [abs_lt]; constructor <;> norm_num)]
    norm_num
  unfold unsignedToFloat
  rw [round64_scale8, ha, hb]
  have hc : (((1 : Nat) : ℚ)) = 1 := by norm_num
  rw [hc, hd, hg, hy]

theorem unsigned8_code : floatToUnsigned 1 (-139633664917247 / 2 ^ 47) = 0 := by
  have h1 : Size.float64.round ((-139633664917247 : ℚ) / 2 ^ 47 + 1) =
      1103823438081 / 140737488355328 := by
    rw [round64_near _ (-7) 4521260802379776 (by rw [abs_of_pos (by norm_num)]; norm_num)
      (by rw [abs_of_pos (by norm_num)]; norm_num) (by norm_num)
      (by rw [abs_lt]; constructor <;> norm_num)]
    norm_num
  have h2 : Size.float64.round ((1103823438081 : ℚ) / 140737488355328 / 2) =
      1103823438081 / 281474976710656 := by
    rw [round64_near _ (-8) 4521260802379776 (by rw [abs_of_pos (by norm_num)]; norm_num)
      (by rw [abs_of_pos (by norm_num)]; norm_num) (by norm_num)
      (by rw [abs_lt]; constructor <;> norm_num)]
    norm_num
  have h3 : Size.float64.round ((1103823438081 : ℚ) / 281474976710656 * 255) =
      281474976710655 / 281474976710656 := by
    rw [round64_near _ (-1) 9007199254740960 (by rw [abs_of_pos (by norm_num)]; norm_num)
      (by rw [abs_of_pos (by norm_num)]; norm_num) (by norm_num)
      (by rw [abs_lt]; constructor <;> norm_num)]
    norm_num
  unfold floatToUnsigned
  rw [h1, h2, round64_scale8, h3, uint64OfRat]
  have hfl : ⌊(281474976710655 : ℚ) / 281474976710656⌋₊ = 0 := by
    rw [Nat.floor_eq_iff (by norm_num)]
    constructor <;> norm_num
  rw [hfl]
  norm_num

theorem signed8_restores : floatToSigned 1 (signedToFloat Size.float64 1 1) = 1 := by
  have ha : Size.float64.round (1 : ℚ) = 1 := by
    have h := Size.float64.round_natCast 1 1 (by decide) (by norm_num)
    exact_mod_cast h
  have hb : Size.float64.round (127 : ℚ) = 127 := by
    have h := Size.float64.round_natCast 127 7 (by decide) (by norm_num)
    exact_mod_cast h
  have hd : Size.float64.round ((1 : ℚ) / 127) = 567382630219905 / 72057594037927936 := by
    rw [round64_near _ (-7) 4539061041759240 (by rw [abs_of_pos (by norm_num)]; norm_num)
      (by rw [abs_of_pos (by norm_num)]; norm_num) (by norm_num)
      (by rw [abs_lt]; constructor <;> norm_num)]
    norm_num
  have hP : Size.float64.round ((567382630219905 : ℚ) / 72057594037927936 * 127) = 1 := by
    rw [round64_near _ (-1) 9007199254740992 (by rw [abs_of_pos (by norm_num)]; norm_num)
      (by rw [abs_of_pos (by norm_num)]; norm_num) (by norm_num)
      (by rw [abs_lt]; constructor <;> norm_num)]
    norm_num
  have hs : shl1 (1 * 8 - 1) = 128 := by
    unfold shl1
    rw [if_pos (by norm_num), show ((1 : Int) * 8 - 1).toNat = 7 by decide]
    norm_num
  have hi : ((int64OfUint64 1 : Int) : ℚ) = 1 := by
    unfold int64OfUint64
    norm_num
  have hy : signedToFloat Size.float64 1 1 = 567382630219905 / 72057594037927936 := by
    unfold signedToFloat
    rw [hs, if_neg (by norm_num), round64_scale7, hi, ha, hb, hd]
  rw [hy]
  unfold floatToSigned
  rw [if_neg (by norm_num), round64_scale7, hP, uint64OfRat]
  have hfl : ⌊(1 : ℚ)⌋₊ = 1 := Nat.floor_one
  rw [hfl]
  norm_num

/-- C12 fails on the code in unsigned mode: at precision 1 and for `float64`,
`decodeFloat` reads the byte `0x01` as the amplitude `-139633664917247 / 2^47`, which is
`1 / 255 · 2 - 1` rounded at each operation, and `encodeFloat` writes that amplitude back
as the byte `0x00`, because `(x + 1) / 2 · 255` comes to `1 - 2^-48` in `float64` and the
conversion `uint64(...)` cuts it to 0. In signed mode the code of the amplitude decoded
from the same byte is 1 again. -/
theorem decode_encode_unsigned :
    decodeFloat Size.float64 false 1 [1] = some (-139633664917247 / 2 ^ 47, 1) ∧
      encodeFloat false 1 [1] (-139633664917247 / 2 ^ 47) = some ([0], 1) ∧
      floatToUnsigned 1 (unsignedToFloat Size.float64 1 1) = 0 ∧
      floatToSigned 1 (signedToFloat Size.float64 1 1) = 1 := by
  refine ⟨?_, ?_, ?_, signed8_restores⟩
  · unfold decodeFloat
    rw [if_pos (by decide)]
    have hu : uintLE (List.take (1 : Int).toNat ([1] : List Byte)) = 1 := by decide
    simp only [hu, Bool.false_eq_true, if_false, unsigned8_amplitude]
  · rw [encodeFloat_eq false 1 [1] _ (by decide)]
    simp only [Bool.false_eq_true, if_false, unsigned8_code]
    rfl
  · rw [unsigned8_amplitude, unsigned8_code]

/-! ### Frames -/

theorem getElem?_bytesLE (n : Nat) : ∀ (v i : Nat), i < n →
    (bytesLE v n)[i]? = some (Fin.ofNat (v / 256 ^ i % 256)) := by
  induction n with
  | zero => intro v i hi; omega
  | succ n ih =>
    intro v i hi
    cases i with
    | zero => simp [bytesLE]
    | succ i =>
      rw [bytesLE, List.getElem?_cons_succ, ih (v / 256) i (by omega), pow_succ',
        Nat.div_div_eq_div_mul]

theorem flatten_block {α : Type} (n : Nat) (blocks : List (List α))
    (hb : ∀ b ∈ blocks, b.length = n) :
    ∀ c : Nat, c < blocks.length →
      (blocks.flatten.drop (c * n)).take n = blocks.getD c [] := by
  induction blocks with
  | nil => intro c hc; simp at hc
  | cons b bs ih =>
    intro c hc
    have hbl : b.length = n := hb b (List.mem_cons_self _ _)
    cases c with
    | zero =>
      rw [Nat.zero_mul, List.drop_zero, List.flatten_cons,
        List.take_append_of_le_length (by omega), List.take_of_length_le (by omega)]
      rfl
    | succ c =>
      rw [List.flatten_cons, show (c + 1) * n = b.length + c * n by rw [hbl]; ring,
        ← List.drop_drop, List.drop_left]
      rw [ih (fun x hx => hb x (List.mem_cons_of_mem _ hx)) c
        (by simp only [List.length_cons] at hc; omega)]
      rfl

theorem length_flatten_blocks {α : Type} (n : Nat) (blocks : List (List α))
    (hb : ∀ b ∈ blocks, b.length = n) : blocks.flatten.length = blocks.length * n := by
  induction blocks with
  | nil => simp
  | cons b bs ih =>
    rw [List.flatten_cons, List.length_append, hb b (List.mem_cons_self _ _),
      ih (fun x hx => hb x (List.mem_cons_of_mem _ hx)), List.length_cons]
    ring

theorem channelValues_eq {P : Type} [Point ℚ P] [ArrayPoint P] (sample : P) (nc : Nat)
    (hc : Point.Count sample ≤ nc) :
    (Point.Slice sample).map norm ++ List.replicate (nc - Point.Count sample) (0 : ℚ)
      = (List.range nc).map (channelValue sample) := by
  have hl := ArrayPoint.length_slice sample
  apply List.ext_getElem?
  intro i
  by_cases h1 : i < Point.Count sample
  · rw [List.getElem?_append_left (by rw [List.length_map, hl]; exact h1), List.getElem?_map,
      List.getElem?_map, List.getElem?_range (by omega)]
    have h2 : i < (Point.Slice sample).length := by omega
    simp only [channelValue, h1, if_true, List.getElem?_eq_getElem h2, Option.map_some',
      List.getD_eq_getElem?_getD, Option.getD_some]
  · by_cases h2 : i < nc
    · rw [List.getElem?_append_right (by rw [List.length_map, hl]; omega), List.getElem?_map,
        List.getElem?_range h2, List.length_map, hl]
      simp only [channelValue, h1, if_false, Option.map_some']
      rw [List.getElem?_replicate, if_pos (by omega)]
    · rw [List.getElem?_eq_none (by
          rw [List.length_append, List.length_map, hl, List.length_replicate]; omega),
        List.getElem?_eq_none (by rw [List.length_map, List.length_range]; omega)]

theorem width_toNat (f : Format) (h1 : 0 ≤ f.NumChannels) (h2 : 0 ≤ f.Precision) :
    f.Width.toNat = f.NumChannels.toNat * f.Precision.toNat ∧ 0 ≤ f.Width := by
  obtain ⟨a, ha⟩ : ∃ a : Nat, f.NumChannels = a := ⟨f.NumChannels.toNat, by omega⟩
  obtain ⟨b, hb⟩ : ∃ b : Nat, f.Precision = b := ⟨f.Precision.toNat, by omega⟩
  rw [Format.Width, ha, hb]
  constructor
  · rw [← Nat.cast_mul, Int.toNat_ofNat, Int.toNat_ofNat, Int.toNat_ofNat]
  · positivity

/-- The frame `Format.encode` writes for a format of two or more channels, as a whole. -/
theorem encode_channels {P : Type} [Point ℚ P] [ArrayPoint P] (f : Format) (signed : Bool)
    (hnc : 2 ≤ f.NumChannels) (hp : 0 ≤ f.Precision) (buf : List Byte)
    (hlen : f.Width ≤ buf.length) (sample : P) :
    f.encode signed buf sample =
      some (((List.range f.NumChannels.toNat).map (fun c =>
        bytesLE (codeOf signed f.Precision (channelValue sample c)) f.Precision.toNat)).flatten
          ++ buf.drop f.Width.toNat, f.Width) := by
  obtain ⟨hw, hw0⟩ := width_toNat f (by omega) hp
  have hC : Point.Count sample ≤ f.NumChannels.toNat := by
    have := ArrayPoint.count_le (P := P)
    rw [← ArrayPoint.count_zero sample] at this
    omega
  have hcnt : (f.NumChannels - (Point.Count sample : Int)).toNat
      = f.NumChannels.toNat - Point.Count sample := by omega
  have hxs := channelValues_eq sample f.NumChannels.toNat hC
  have hlenN : f.NumChannels.toNat * f.Precision.toNat ≤ buf.length := by
    rw [← hw]; omega
  have he := encodeAll_eq signed f.Precision hp
    ((List.range f.NumChannels.toNat).map (channelValue sample)) [] buf
    (by rw [List.length_map, List.length_range]; exact hlenN)
  rw [List.length_map, List.length_range, List.map_map, List.nil_append, ← hw] at he
  unfold Format.encode
  rw [if_neg (by omega), if_pos (by omega), hcnt, hxs, he]
  rfl

/-- The frame `Format.encode` writes for a format of one channel: the code of the sample's
only channel as it is, or of the clamped mean of its channels when it has several. -/
theorem encode_one_channel {P : Type} [Point ℚ P] [ArrayPoint P] (f : Format) (signed : Bool)
    (hnc : f.NumChannels = 1) (hp : 0 ≤ f.Precision) (buf : List Byte)
    (hlen : f.Width ≤ buf.length) (sample : P) :
    f.encode signed buf sample =
      some (bytesLE (codeOf signed f.Precision
        (if Point.Count sample = 1 then (Point.Slice sample).getD 0 0
          else norm (Format.mean f.S (Point.Slice sample) (Point.Count sample))))
          f.Precision.toNat
          ++ buf.drop f.Width.toNat, f.Width) := by
  have hw : f.Width.toNat = f.Precision.toNat := by rw [Format.Width, hnc, one_mul]
  have hlenN : f.Precision.toNat ≤ buf.length := by
    rw [Format.Width, hnc, one_mul] at hlen
    omega
  have hget : Point.Count sample = 1 →
      Point.Get sample 0 = some ((Point.Slice sample).getD 0 0) := by
    intro h1
    have hl := ArrayPoint.length_slice sample
    rw [ArrayPoint.get_eq, List.getD_eq_getElem?_getD,
      List.get?_eq_getElem?, List.getElem?_eq_getElem (by omega)]
    rfl
  have he : ∀ x : ℚ, encodeAll signed f.Precision [x] [] buf
      = some (bytesLE (codeOf signed f.Precision x) f.Precision.toNat,
          buf.drop f.Precision.toNat) := by
    intro x
    have := encodeAll_eq signed f.Precision hp [x] [] buf (by simpa using hlenN)
    simpa using this
  unfold Format.encode
  rw [if_pos hnc]
  by_cases h1 : Point.Count sample = 1
  · simp only [h1, if_true, hget h1, he, hw]
  · simp only [h1, if_false, he, hw]

theorem floatToSigned_one_two : floatToSigned 1 2 = 254 ∧ floatToSigned 1 1 = 127 := by
  have h254 : Size.float64.round ((2 : ℚ) * 127) = ((254 : Nat) : ℚ) := by
    rw [show (2 : ℚ) * 127 = ((254 : Nat) : ℚ) by norm_num]
    exact Size.float64.round_natCast 254 8 (by decide) (by norm_num)
  have h127 : Size.float64.round ((1 : ℚ) * 127) = ((127 : Nat) : ℚ) := by
    rw [show (1 : ℚ) * 127 = ((127 : Nat) : ℚ) by norm_num]
    exact Size.float64.round_natCast 127 7 (by decide) (by norm_num)
  constructor
  · unfold floatToSigned
    rw [if_neg (by norm_num), round64_scale7, h254, uint64OfRat, Nat.floor_natCast]
    norm_num
  · unfold floatToSigned
    rw [if_neg (by norm_num), round64_scale7, h127, uint64OfRat, Nat.floor_natCast]
    norm_num

theorem mean_two_two : norm (Format.mean Size.float64 [2, 2] 2) = 1 := by
  have h2 : Size.float64.round (2 : ℚ) = 2 := by
    have h := Size.float64.round_natCast 2 2 (by decide) (by norm_num)
    exact_mod_cast h
  have h4 : Size.float64.round ((2 : ℚ) + 2) = 4 := by
    have h := Size.float64.round_natCast 4 3 (by decide) (by norm_num)
    rw [show (2 : ℚ) + 2 = ((4 : Nat) : ℚ) by norm_num, h]
    norm_num
  have h42 : Size.float64.round ((4 : ℚ) / 2) = 2 := by
    rw [show (4 : ℚ) / 2 = 2 by norm_num, h2]
  simp only [Format.mean, List.foldl_cons, List.foldl_nil]
  rw [zero_add, h2, h4, show ((2 : Nat) : ℚ) = 2 by norm_num, h2, h42]
  norm_num [norm]

/-- C13. With `NumChannels = 1` a Mono sample is encoded without being clamped: the Mono
sample 2 in signed precision 1 is written as the byte 254 (the code of `2 · 127`), while the
single-value encoding of `clamp(2, -1, 1) = 1` is the byte 127, which is also what the
code writes for the Stereo sample `(2, 2)`, whose mean it does clamp. -/
theorem encode_mono_not_clamped :
    Format.EncodeSigned ⟨44100, 1, 1, Size.float64⟩ [0] (⟨2⟩ : Mono ℚ) = some ([254], 1) ∧
    encodeFloat true 1 [0] (norm ((0 + 2) / 1)) = some ([127], 1) ∧
    Format.EncodeSigned ⟨44100, 1, 1, Size.float64⟩ [0] (⟨2, 2⟩ : Stereo ℚ) = some ([127], 1) := by
  have hn : norm 2 = 1 := by norm_num [norm]
  refine ⟨?_, ?_, ?_⟩
  · rw [Format.EncodeSigned, encode_one_channel ⟨44100, 1, 1, Size.float64⟩ true rfl (by decide) [0]
      (by decide) (⟨2⟩ : Mono ℚ)]
    simp only [Point.Count, Point.Slice, if_true, List.getD_cons_zero, codeOf,
      floatToSigned_one_two.1]
    rfl
  · rw [show ((0 : ℚ) + 2) / 1 = 2 by norm_num, hn, encodeFloat_eq true 1 [0] 1 (by decide)]
    simp only [if_true, floatToSigned_one_two.2]
    rfl
  · rw [Format.EncodeSigned, encode_one_channel ⟨44100, 1, 1, Size.float64⟩ true rfl (by decide) [0]
      (by decide) (⟨2, 2⟩ : Stereo ℚ)]
    simp only [Point.Count, Point.Slice, codeOf, if_true]
    rw [if_neg (by decide), mean_two_two, floatToSigned_one_two.2]
    rfl

/-- C14. For every Format with `NumChannels ≥ 2` and precision `p ≥ 0`, in signed and in
unsigned mode, and every Mono or Stereo sample, `encode` writes a frame of `Width()` bytes
into the front of a slice of at least that many bytes: bytes `[c·p, (c+1)·p)` of the frame
are the `p` low bytes, least-significant first, of the integer code of
`channelValue sample c`, which is `clamp(sample[c], -1, 1)` for `c` below the sample's
channel count and 0 for the remaining channels `c < NumChannels`. -/
theorem encode_layout {P : Type} [Point ℚ P] [ArrayPoint P] (f : Format) (signed : Bool)
    (hnc : 2 ≤ f.NumChannels) (hp : 0 ≤ f.Precision) (buf : List Byte)
    (hlen : f.Width ≤ buf.length) (sample : P) :
    ∃ frame : List Byte,
      f.encode signed buf sample = some (frame ++ buf.drop f.Width.toNat, f.Width) ∧
      frame.length = f.Width.toNat ∧
      (∀ c : Nat, c < f.NumChannels.toNat →
        (frame.drop (c * f.Precision.toNat)).take f.Precision.toNat
          = bytesLE (codeOf signed f.Precision (channelValue sample c)) f.Precision.toNat) ∧
      (∀ v i : Nat, i < f.Precision.toNat →
        (bytesLE v f.Precision.toNat)[i]? = some (Fin.ofNat (v / 256 ^ i % 256))) := by
  have hb : ∀ b ∈ (List.range f.NumChannels.toNat).map (fun c =>
      bytesLE (codeOf signed f.Precision (channelValue sample c)) f.Precision.toNat),
      b.length = f.Precision.toNat := by
    intro b hb
    obtain ⟨c, -, rfl⟩ := List.mem_map.1 hb
    exact length_bytesLE _ _
  refine ⟨_, encode_channels f signed hnc hp buf hlen sample, ?_, ?_,
    getElem?_bytesLE f.Precision.toNat⟩
  · rw [length_flatten_blocks _ _ hb, List.length_map, List.length_range,
      (width_toNat f (by omega) hp).1]
  · intro c hc
    rw [flatten_block _ _ hb c (by rw [List.length_map, List.length_range]; exact hc),
      List.getD_eq_getElem?_getD, List.getElem?_map, List.getElem?_range hc]
    rfl

theorem encode_layout_witness :
    ∃ frame : List Byte,
      Format.encode ⟨44100, 3, 2, Size.float64⟩ false [0, 0, 0, 0, 0, 0, 7] (⟨1 / 2, -2⟩ : Stereo ℚ)
        = some (frame ++ ([0, 0, 0, 0, 0, 0, 7] : List Byte).drop
            (Format.Width ⟨44100, 3, 2, Size.float64⟩).toNat, Format.Width ⟨44100, 3, 2, Size.float64⟩) ∧
      frame.length = (Format.Width ⟨44100, 3, 2, Size.float64⟩).toNat ∧
      (∀ c : Nat, c < (3 : Int).toNat →
        (frame.drop (c * (2 : Int).toNat)).take (2 : Int).toNat
          = bytesLE (codeOf false 2 (channelValue (⟨1 / 2, -2⟩ : Stereo ℚ) c))
              (2 : Int).toNat) ∧
      (∀ v i : Nat, i < (2 : Int).toNat →
        (bytesLE v (2 : Int).toNat)[i]? = some (Fin.ofNat (v / 256 ^ i % 256))) :=
  encode_layout ⟨44100, 3, 2, Size.float64⟩ false (by decide) (by decide) [0, 0, 0, 0, 0, 0, 7] (by decide)
    (⟨1 / 2, -2⟩ : Stereo ℚ)

/-! ### Buffer -/

theorem ByteSlice.length_bytes {h : Heap} {s : ByteSlice} (hv : s.Valid h) :
    (s.bytes h).length = s.len := by
  obtain ⟨h1, h2⟩ := hv
  simp only [ByteSlice.bytes, List.length_take, List.length_drop]
  omega

theorem drop_take_drop {α : Type} (l : List α) (o n lo k : Nat) (hk : lo + k ≤ n) :
    (((l.drop o).take n).drop lo).take k = (l.drop (o + lo)).take k := by
  rw [List.drop_take, List.take_take, List.drop_drop, Nat.min_eq_left (by omega)]

theorem ByteSlice.slice_bytes (h : Heap) (s r : ByteSlice) (lo hi : Int)
    (hr : s.slice lo hi = some r) (hhi : hi ≤ s.len) :
    r.bytes h = ((s.bytes h).drop lo.toNat).take (hi - lo).toNat := by
  unfold ByteSlice.slice at hr
  split at hr
  · rename_i hc
    injection hr with hr
    subst hr
    simp only [ByteSlice.bytes]
    rw [drop_take_drop _ _ _ _ _ (by omega)]
  · exact absurd hr (by simp)

theorem Heap.array_set (h : Heap) (a b : Nat) (x : List Byte) :
    Heap.array (h.set a x) b = if b = a ∧ a < h.length then x else Heap.array h b := by
  unfold Heap.array
  by_cases hb : b = a
  · subst hb
    by_cases hl : b < h.length
    · rw [if_pos ⟨rfl, hl⟩, List.getD_eq_getElem?_getD, List.getElem?_set_self hl]
      rfl
    · rw [if_neg (by tauto), List.set_eq_of_length_le (by omega)]
  · rw [if_neg (by tauto), List.getD_eq_getElem?_getD, List.getD_eq_getElem?_getD,
      List.getElem?_set_ne (Ne.symm hb)]

theorem Heap.array_append_left (h : Heap) (x : List Byte) (a : Nat) (ha : a < h.length) :
    Heap.array (h ++ [x]) a = Heap.array h a := by
  unfold Heap.array
  rw [List.getD_eq_getElem?_getD, List.getD_eq_getElem?_getD, List.getElem?_append_left ha]

theorem Heap.array_append_new (h : Heap) (x : List Byte) :
    Heap.array (h ++ [x]) h.length = x := by
  unfold Heap.array
  rw [List.getD_eq_getElem?_getD, List.getElem?_append_right (le_refl _)]
  simp

theorem writeAt_length (l : List Byte) (i : Nat) (bs : List Byte) (hi : i + bs.length ≤ l.length) :
    (writeAt l i bs).length = l.length := by
  simp only [writeAt, List.length_append, List.length_take, List.length_drop]
  omega

theorem writeAt_below (l : List Byte) (i : Nat) (bs : List Byte) (o n : Nat)
    (hi : i ≤ l.length) (hon : o + n ≤ i) :
    ((writeAt l i bs).drop o).take n = (l.drop o).take n := by
  have h1 : writeAt l i bs = l.take i ++ (bs ++ l.drop (i + bs.length)) := by
    simp [writeAt]
  have h3 : (l.take i).length = i := by rw [List.length_take]; omega
  rw [h1, List.drop_append_of_le_length (by omega), List.take_append_of_le_length (by
    rw [List.length_drop]; omega)]
  conv_rhs => rw [← List.take_append_drop i l]
  rw [List.drop_append_of_le_length (by omega), List.take_append_of_le_length (by
    rw [List.length_drop]; omega)]

theorem writeAt_window (l : List Byte) (i : Nat) (bs : List Byte)
    (hi : i + bs.length ≤ l.length) (o : Nat) (ho : o ≤ i) :
    ((writeAt l i bs).drop o).take (i - o + bs.length)
      = (l.drop o).take (i - o) ++ bs := by
  have h1 : writeAt l i bs = l.take i ++ (bs ++ l.drop (i + bs.length)) := by
    simp [writeAt]
  have h3 : (l.take i).length = i := by rw [List.length_take]; omega
  have h4 : ((l.take i).drop o).length = i - o := by rw [List.length_drop, h3]
  rw [h1, List.drop_append_of_le_length (by omega), List.take_append_eq_append_take, h4,
    List.take_of_length_le (by omega), show i - o + bs.length - (i - o) = bs.length by omega,
    List.take_append_of_le_length (le_refl _), List.take_of_length_le (le_refl _)]
  congr 1
  rw [List.drop_take]

theorem ByteSlice.frozen_nil_bytes (h : Heap) (v : ByteSlice) (hz : v.len = 0) :
    v.bytes h = [] := by
  simp [ByteSlice.bytes, hz]

theorem goAppend_spec (grow : Nat → Nat → Nat) (h : Heap) (s : ByteSlice) (bs : List Byte)
    (hv : s.Valid h) :
    ∃ (h1 : Heap) (s1 : ByteSlice), goAppend grow h s bs = (h1, s1) ∧
      s1.Valid h1 ∧ s1.bytes h1 = s.bytes h ++ bs ∧ s1.len = s.len + bs.length ∧
      ∀ v : ByteSlice, ByteSlice.Frozen h s v →
        v.bytes h1 = v.bytes h ∧ ByteSlice.Frozen h1 s1 v := by
  obtain ⟨hv1, hv2⟩ := hv
  by_cases hc : s.len + bs.length ≤ s.cap
  · -- the bytes fit: they are written behind the slice
    refine ⟨_, _, by rw [goAppend, if_pos hc], ?_, ?_, rfl, ?_⟩
    · refine ⟨hc, ?_⟩
      show s.off + s.cap ≤ (Heap.array (h.set s.arr _) s.arr).length
      rw [Heap.array_set]
      split
      · rw [writeAt_length _ _ _ (by omega)]
        exact hv2
      · exact hv2
    · show ((Heap.array (h.set s.arr _) s.arr).drop s.off).take (s.len + bs.length) = _
      rw [Heap.array_set]
      split
      · have := writeAt_window (Heap.array h s.arr) (s.off + s.len) bs (by omega) s.off
          (by omega)
        rw [show s.off + s.len - s.off = s.len by omega] at this
        rw [this]
        rfl
      · rename_i hn
        by_cases hl : s.arr < h.length
        · exact absurd ⟨rfl, hl⟩ hn
        · have hA : Heap.array h s.arr = [] := by
            unfold Heap.array
            rw [List.getD_eq_getElem?_getD, List.getElem?_eq_none (by omega)]
            rfl
          rw [hA] at hv2
          have hb : bs = [] := List.length_eq_zero.1 (by
            simp only [List.length_nil] at hv2; omega)
          simp [ByteSlice.bytes, hA, hb]
    · intro v hf
      rcases hf with hz | ⟨hl, hle⟩
      · exact ⟨by rw [ByteSlice.frozen_nil_bytes _ v hz, ByteSlice.frozen_nil_bytes _ v hz],
          Or.inl hz⟩
      · refine ⟨?_, Or.inr ⟨by rw [List.length_set]; exact hl, fun e => ?_⟩⟩
        · show ((Heap.array (h.set s.arr _) v.arr).drop v.off).take v.len = _
          rw [Heap.array_set]
          split
          · rename_i hc2
            have := hle hc2.1
            rw [writeAt_below _ _ _ _ _ (by omega) this, ← hc2.1]
            rfl
          · rfl
        · have := hle e
          show v.off + v.len ≤ s.off + (s.len + bs.length)
          omega
  · -- a new backing array is allocated
    have hlen := ByteSlice.length_bytes (⟨hv1, hv2⟩ : s.Valid h)
    refine ⟨_, _, by rw [goAppend, if_neg hc], ?_, ?_, rfl, ?_⟩
    · refine ⟨le_max_right _ _, ?_⟩
      show 0 + _ ≤ (Heap.array (h ++ [_]) h.length).length
      rw [Heap.array_append_new]
      simp only [List.length_append, List.length_replicate, hlen]
      omega
    · show ((Heap.array (h ++ [_]) h.length).drop 0).take (s.len + bs.length) = _
      rw [Heap.array_append_new, List.drop_zero, List.take_append_of_le_length (by
        rw [List.length_append, hlen]), List.take_of_length_le (by
        rw [List.length_append, hlen])]
    · intro v hf
      rcases hf with hz | ⟨hl, hle⟩
      · exact ⟨by rw [ByteSlice.frozen_nil_bytes _ v hz, ByteSlice.frozen_nil_bytes _ v hz],
          Or.inl hz⟩
      · refine ⟨?_, Or.inr ⟨by rw [List.length_append]; omega, fun e => ?_⟩⟩
        · show ((Heap.array (h ++ [_]) v.arr).drop v.off).take v.len = _
          rw [Heap.array_append_left _ _ _ hl]
          rfl
        · have e2 : v.arr = h.length := e
          omega

theorem encode_frame {P : Type} [Point ℚ P] [ArrayPoint P] (f : Format) (signed : Bool)
    (hnc : 1 ≤ f.NumChannels) (hp : 0 ≤ f.Precision) (x : P) :
    ∃ frame : List Byte, frame.length = f.Width.toNat ∧
      ∀ buf : List Byte, f.Width ≤ buf.length →
        f.encode signed buf x = some (frame ++ buf.drop f.Width.toNat, f.Width) := by
  by_cases h1 : f.NumChannels = 1
  · refine ⟨_, ?_, fun buf hb => encode_one_channel f signed h1 hp buf hb x⟩
    rw [length_bytesLE, Format.Width, h1, one_mul]
  · refine ⟨_, ?_, fun buf hb => encode_channels f signed (by omega) hp buf hb x⟩
    rw [length_flatten_blocks f.Precision.toNat _ (by
        intro b hb
        obtain ⟨c, -, rfl⟩ := List.mem_map.1 hb
        exact length_bytesLE _ _),
      List.length_map, List.length_range, (width_toNat f (by omega) hp).1]

theorem decodeFloat_append (S : Size) (signed : Bool) (precision : Int) (a r : List Byte)
    (h : precision.toNat ≤ a.length) :
    decodeFloat S signed precision (a ++ r) = decodeFloat S signed precision a := by
  unfold decodeFloat
  rw [if_pos h, if_pos (by rw [List.length_append]; omega), List.take_append_of_le_length h]

theorem decodeFloat_some (S : Size) (signed : Bool) (precision : Int) (a : List Byte)
    (h : precision.toNat ≤ a.length) :
    ∃ x : ℚ, decodeFloat S signed precision a = some (x, precision) := by
  unfold decodeFloat
  rw [if_pos h]
  cases signed
  · exact ⟨_, rfl⟩
  · exact ⟨_, rfl⟩

theorem setAll_some {P : Type} [Point ℚ P] [ArrayPoint P] (x : ℚ) :
    ∀ (k i : Nat) (xx : P), i + k ≤ Point.Count (Point.zero : P) →
      ∃ y : P, setAll x k i xx = some y := by
  intro k
  induction k with
  | zero => intro i xx _; exact ⟨xx, rfl⟩
  | succ k ih =>
    intro i xx hk
    obtain ⟨q, hq, -⟩ := ArrayPoint.set_eq xx i x (by rw [ArrayPoint.count_zero xx]; omega)
    obtain ⟨y, hy⟩ := ih (i + 1) q (by omega)
    exact ⟨y, by rw [setAll, hq]; exact hy⟩

theorem decodeChannels_append {P : Type} [Point ℚ P] [ArrayPoint P] (S : Size) (signed : Bool)
    (precision : Int) (h0 : 0 ≤ precision) :
    ∀ (k c : Nat) (s : P) (a r : List Byte), c + k ≤ Point.Count (Point.zero : P) →
      k * precision.toNat ≤ a.length →
      ∃ s1 : P, decodeChannels S signed precision k c s a
          = some (s1, a.drop (k * precision.toNat)) ∧
        decodeChannels S signed precision k c s (a ++ r)
          = some (s1, a.drop (k * precision.toNat) ++ r) := by
  intro k
  induction k with
  | zero =>
    intro c s a r _ _
    exact ⟨s, by simp [decodeChannels], by simp [decodeChannels]⟩
  | succ k ih =>
    intro c s a r hk hlen
    have hn : precision.toNat ≤ a.length := by
      have : (k + 1) * precision.toNat = k * precision.toNat + precision.toNat := by ring
      omega
    obtain ⟨x, hx⟩ := decodeFloat_some S signed precision a hn
    obtain ⟨q, hq, -⟩ := ArrayPoint.set_eq s c x (by rw [ArrayPoint.count_zero s]; omega)
    have hs1 : sliceFrom a precision = some (a.drop precision.toNat) :=
      sliceFrom_toNat a h0 hn
    have hs2 : sliceFrom (a ++ r) precision = some (a.drop precision.toNat ++ r) := by
      rw [sliceFrom_toNat (a ++ r) h0 (by rw [List.length_append]; omega),
        List.drop_append_of_le_length hn]
    obtain ⟨s1, e1, e2⟩ := ih (c + 1) q (a.drop precision.toNat) r (by omega) (by
      rw [List.length_drop]
      have : (k + 1) * precision.toNat = k * precision.toNat + precision.toNat := by ring
      omega)
    have hd : (a.drop precision.toNat).drop (k * precision.toNat)
        = a.drop ((k + 1) * precision.toNat) := by
      rw [List.drop_drop]
      congr 1
      ring
    rw [hd] at e1 e2
    refine ⟨s1, ?_, ?_⟩
    · rw [decodeChannels, hx]
      simp only [hq, hs1]
      exact e1
    · rw [decodeChannels, decodeFloat_append S signed precision a r hn, hx]
      simp only [hq, hs2]
      exact e2

theorem decode_frame {P : Type} [Point ℚ P] [ArrayPoint P] (f : Format) (signed : Bool)
    (hnc : 1 ≤ f.NumChannels) (hp : 0 ≤ f.Precision) (a : List Byte)
    (ha : f.Width ≤ a.length) :
    ∃ y : P, f.decode signed a = some (y, f.Width) ∧
      ∀ r : List Byte, f.decode signed (a ++ r) = some (y, f.Width) := by
  obtain ⟨hw, -⟩ := width_toNat f (by omega) hp
  have haN : f.NumChannels.toNat * f.Precision.toNat ≤ a.length := by rw [← hw]; omega
  have hcl := ArrayPoint.length_slice (Point.zero : P)
  by_cases h1 : f.NumChannels = 1
  · have hn : f.Precision.toNat ≤ a.length := by
      rw [h1] at haN
      simpa using haN
    obtain ⟨x, hx⟩ := decodeFloat_some f.S signed f.Precision a hn
    obtain ⟨y, hy⟩ := setAll_some (P := P) x (Point.Slice (Point.zero : P)).length 0
      Point.zero (by rw [hcl]; omega)
    refine ⟨y, ?_, fun r => ?_⟩
    · unfold Format.decode
      rw [if_pos h1, hx]
      simp only [hy]
    · unfold Format.decode
      rw [if_pos h1, decodeFloat_append f.S signed f.Precision a r hn, hx]
      simp only [hy]
  · have hge : f.NumChannels ≥ 2 := by omega
    have hC2 := ArrayPoint.count_le (P := P)
    have hCn : Point.Count (Point.zero : P) * f.Precision.toNat ≤ a.length := by
      have : Point.Count (Point.zero : P) ≤ f.NumChannels.toNat := by omega
      exact le_trans (Nat.mul_le_mul_right _ this) haN
    obtain ⟨s1, e1, e2⟩ := decodeChannels_append (P := P) f.S signed f.Precision hp
      (Point.Count (Point.zero : P)) 0 Point.zero a [] (by omega) hCn
    have hcs : Point.Count s1 = Point.Count (Point.zero : P) := ArrayPoint.count_zero s1
    have hk : (f.NumChannels - (Point.Count s1 : Int)).toNat
        = f.NumChannels.toNat - Point.Count (Point.zero : P) := by omega
    have hrest : (f.NumChannels.toNat - Point.Count (Point.zero : P)) * f.Precision.toNat
        ≤ (a.drop (Point.Count (Point.zero : P) * f.Precision.toNat)).length := by
      rw [List.length_drop, Nat.sub_mul]
      omega
    refine ⟨s1, ?_, fun r => ?_⟩
    · obtain ⟨r1, hr1⟩ := skipChannels_some f.S signed f.Precision hp _ _ hrest
      unfold Format.decode
      rw [if_neg h1, if_pos hge, hcl, e1]
      simp only [hk, hr1]
    · obtain ⟨s2, e3, e4⟩ := decodeChannels_append (P := P) f.S signed f.Precision hp
        (Point.Count (Point.zero : P)) 0 Point.zero a r (by omega) hCn
      have hs : s2 = s1 := by
        rw [e1] at e3
        injection e3 with e3
        injection e3 with e3
        exact e3.symm
      rw [hs] at e4
      obtain ⟨r1, hr1⟩ := skipChannels_some f.S signed f.Precision hp
        (f.NumChannels.toNat - Point.Count (Point.zero : P))
        (a.drop (Point.Count (Point.zero : P) * f.Precision.toNat) ++ r) (by
          rw [List.length_append]; omega)
      unfold Format.decode
      rw [if_neg h1, if_pos hge, hcl, e4]
      simp only [hk, hr1]

theorem width_pos (f : Format) (hnc : 1 ≤ f.NumChannels) (hp : 1 ≤ f.Precision) :
    1 ≤ f.Width.toNat ∧ f.Width = (f.Width.toNat : Int) := by
  obtain ⟨hw, hw0⟩ := width_toNat f (by omega) (by omega)
  have h1 : 1 ≤ f.NumChannels.toNat := by omega
  have h2 : 1 ≤ f.Precision.toNat := by omega
  refine ⟨?_, by omega⟩
  rw [hw]
  exact Nat.mul_pos h1 h2

theorem bufferStreamer.length_content {P : Type} [Point ℚ P] (h : Heap) (bs : bufferStreamer)
    (L q : Nat) (hat : bs.At h L q) (hw : 1 ≤ bs.f.Width.toNat) :
    (bufferStreamer.content (P := P) h bs).length = L := by
  obtain ⟨-, hl, -, -⟩ := hat
  rw [bufferStreamer.content, List.length_map, List.length_range, hl,
    Nat.mul_div_cancel _ (by omega)]

theorem bufferStreamer.frame_decodes {P : Type} [Point ℚ P] [ArrayPoint P] (h : Heap)
    (bs : bufferStreamer) (L q : Nat) (hat : bs.At h L q) (hnc : 1 ≤ bs.f.NumChannels)
    (hp : 1 ≤ bs.f.Precision) (i : Nat) (hi : i < L) :
    ∃ (rest : ByteSlice) (y : P), bs.data.sliceFrom ((i : Int) * bs.f.Width) = some rest ∧
      bs.f.DecodeSigned (rest.bytes h) = some (y, bs.f.Width) ∧
      (bufferStreamer.content h bs)[i]? = some y := by
  obtain ⟨hw1, hW⟩ := width_pos bs.f hnc hp
  obtain ⟨⟨hv1, hv2⟩, hl, -, -⟩ := hat
  have hmul : i * bs.f.Width.toNat + bs.f.Width.toNat ≤ L * bs.f.Width.toNat := by
    have : (i + 1) * bs.f.Width.toNat ≤ L * bs.f.Width.toNat :=
      Nat.mul_le_mul_right _ (by omega)
    rw [Nat.add_mul, Nat.one_mul] at this
    exact this
  have hlo : (i : Int) * bs.f.Width = ((i * bs.f.Width.toNat : Nat) : Int) := by
    rw [Nat.cast_mul, ← hW]
  have hs : bs.data.sliceFrom ((i : Int) * bs.f.Width)
      = some ⟨bs.data.arr, bs.data.off + i * bs.f.Width.toNat,
          bs.data.len - i * bs.f.Width.toNat, bs.data.cap - i * bs.f.Width.toNat⟩ := by
    rw [hlo, ByteSlice.sliceFrom, ByteSlice.slice, if_pos (by omega)]
    simp only [Int.toNat_ofNat, ← Nat.cast_sub (show i * bs.f.Width.toNat ≤ bs.data.len by omega)]
  have hvr : ByteSlice.Valid h ⟨bs.data.arr, bs.data.off + i * bs.f.Width.toNat,
      bs.data.len - i * bs.f.Width.toNat, bs.data.cap - i * bs.f.Width.toNat⟩ :=
    ⟨by show bs.data.len - _ ≤ bs.data.cap - _; omega,
      by
        show bs.data.off + i * bs.f.Width.toNat + (bs.data.cap - i * bs.f.Width.toNat)
          ≤ (Heap.array h bs.data.arr).length
        omega⟩
  have hbl := ByteSlice.length_bytes hvr
  obtain ⟨y, hy, -⟩ := decode_frame (P := P) bs.f true (by omega) (by omega)
    (ByteSlice.bytes h ⟨bs.data.arr, bs.data.off + i * bs.f.Width.toNat,
      bs.data.len - i * bs.f.Width.toNat, bs.data.cap - i * bs.f.Width.toNat⟩) (by
      rw [hbl, hW]
      show ((bs.f.Width.toNat : Nat) : Int) ≤ ((bs.data.len - i * bs.f.Width.toNat : Nat) : Int)
      exact_mod_cast (show bs.f.Width.toNat ≤ bs.data.len - i * bs.f.Width.toNat by omega))
  refine ⟨_, y, hs, hy, ?_⟩
  rw [bufferStreamer.content, List.getElem?_map, hl, Nat.mul_div_cancel _ (by omega),
    List.getElem?_range hi]
  simp only [Option.map_some', bufferStreamer.sampleAt, hs]
  rw [show bs.f.DecodeSigned (ByteSlice.bytes h ⟨bs.data.arr, bs.data.off + i * bs.f.Width.toNat,
      bs.data.len - i * bs.f.Width.toNat, bs.data.cap - i * bs.f.Width.toNat⟩)
      = some (y, bs.f.Width) from hy]
  rfl

theorem drop_cons_of_getElem? {α : Type} (l : List α) (q : Nat) (y : α) (h : l[q]? = some y) :
    l.drop q = y :: l.drop (q + 1) := by
  obtain ⟨hq, e⟩ := List.getElem?_eq_some_iff.1 h
  rw [List.drop_eq_getElem_cons hq, e]

theorem bufferStreamer.viewLoop_spec {P : Type} [Point ℚ P] [ArrayPoint P] (h : Heap) (f : Format)
    (data : ByteSlice) (L : Nat) (hnc : 1 ≤ f.NumChannels) (hp : 1 ≤ f.Precision) :
    ∀ (k i q : Nat) (samples : List P) (n : Int),
      bufferStreamer.At h ⟨f, data, (q : Int) * f.Width⟩ L q → i + k ≤ samples.length →
      bufferStreamer.loop h k i ⟨f, data, (q : Int) * f.Width⟩ samples n =
        some (samples.take i
            ++ ((bufferStreamer.content h ⟨f, data, 0⟩).drop q).take (min k (L - q))
            ++ samples.drop (i + min k (L - q)),
          n + ((min k (L - q) : Nat) : Int),
          ⟨f, data, ((q + min k (L - q) : Nat) : Int) * f.Width⟩) := by
  obtain ⟨hw1, hW⟩ := width_pos f hnc hp
  intro k
  induction k with
  | zero =>
    intro i q samples n _ _
    rw [bufferStreamer.loop]
    simp
  | succ k ih =>
    intro i q samples n hat hik
    obtain ⟨hv, hl, -, hqL⟩ := hat
    have hl2 : data.len = L * f.Width.toNat := hl
    rw [bufferStreamer.loop]
    by_cases hq : q = L
    · have hge : (q : Int) * f.Width ≥ (data.len : Int) := by
        rw [hl2, hq, hW]
        push_cast
        simp
      have hm : min (k + 1) (L - q) = 0 := by omega
      simp only [if_pos hge, hm]
      simp
    · have hqlt : q < L := by omega
      have hlt : ¬ ((q : Int) * f.Width ≥ (data.len : Int)) := by
        rw [hl2, hW, not_le]
        have : q * f.Width.toNat < L * f.Width.toNat := Nat.mul_lt_mul_of_pos_right hqlt hw1
        exact_mod_cast this
      obtain ⟨rest, y, hs, hd, hc⟩ := bufferStreamer.frame_decodes (P := P) h
        ⟨f, data, (q : Int) * f.Width⟩ L q ⟨hv, hl, rfl, hqL⟩ hnc hp q hqlt
      have hs2 : data.sliceFrom ((q : Int) * f.Width) = some rest := hs
      have hd2 : f.DecodeSigned (rest.bytes h) = some (y, f.Width) := hd
      have hc2 : (bufferStreamer.content (P := P) h ⟨f, data, 0⟩)[q]? = some y := hc
      have hpos : (q : Int) * f.Width + f.Width = ((q + 1 : Nat) : Int) * f.Width := by
        push_cast
        ring
      have hm : min (k + 1) (L - q) = min k (L - (q + 1)) + 1 := by omega
      simp only [if_neg hlt, hs2, hd2, hpos]
      rw [ih (i + 1) (q + 1) (samples.set i y) (n + 1) ⟨hv, hl, rfl, hqlt⟩
        (by rw [List.length_set]; omega), hm, take_succ_set samples i (by omega) y,
        List.drop_set_of_lt y samples (by omega), drop_cons_of_getElem? _ q y hc2,
        List.take_succ_cons]
      have e1 : i + 1 + min k (L - (q + 1)) = i + (min k (L - (q + 1)) + 1) := by omega
      have e2 : n + 1 + ((min k (L - (q + 1)) : Nat) : Int)
          = n + ((min k (L - (q + 1)) + 1 : Nat) : Int) := by
        push_cast
        ring
      have e3 : q + 1 + min k (L - (q + 1)) = q + (min k (L - (q + 1)) + 1) := by omega
      rw [e1, e2, e3]
      simp only [List.append_assoc, List.singleton_append, List.cons_append, List.nil_append]

theorem bufferStreamer.viewStream_spec {P : Type} [Point ℚ P] [ArrayPoint P] (h : Heap)
    (f : Format) (data : ByteSlice) (L q : Nat) (hnc : 1 ≤ f.NumChannels)
    (hp : 1 ≤ f.Precision) (hat : bufferStreamer.At h ⟨f, data, (q : Int) * f.Width⟩ L q)
    (samples : List P) :
    bufferStreamer.Stream h ⟨f, data, (q : Int) * f.Width⟩ samples =
      some ((refPull ((bufferStreamer.content h ⟨f, data, 0⟩).drop q) samples).1,
        ⟨f, data, ((q + min samples.length (L - q) : Nat) : Int) * f.Width⟩) := by
  obtain ⟨hw1, hW⟩ := width_pos f hnc hp
  have hCl : (bufferStreamer.content (P := P) h ⟨f, data, 0⟩).length = L :=
    bufferStreamer.length_content h ⟨f, data, (q : Int) * f.Width⟩ L q hat hw1
  obtain ⟨hv, hl, -, hqL⟩ := hat
  have hl2 : data.len = L * f.Width.toNat := hl
  rw [bufferStreamer.Stream]
  by_cases hq : q = L
  · have hge : (q : Int) * f.Width ≥ (data.len : Int) := by
      rw [hl2, hq, hW]
      push_cast
      simp
    have hm : min samples.length (L - q) = 0 := by omega
    have hd : (bufferStreamer.content (P := P) h ⟨f, data, 0⟩).drop q = [] :=
      List.drop_eq_nil_of_le (by omega)
    simp only [if_pos hge, hm, hd, refPull_nil, Nat.add_zero]
  · have hqlt : q < L := by omega
    have hlt : ¬ ((q : Int) * f.Width ≥ (data.len : Int)) := by
      rw [hl2, hW, not_le]
      have : q * f.Width.toNat < L * f.Width.toNat := Nat.mul_lt_mul_of_pos_right hqlt hw1
      exact_mod_cast this
    have hdl : ((bufferStreamer.content (P := P) h ⟨f, data, 0⟩).drop q).length = L - q := by
      rw [List.length_drop, hCl]
    have hne : ((bufferStreamer.content (P := P) h ⟨f, data, 0⟩).drop q).isEmpty = false := by
      cases hc : (bufferStreamer.content (P := P) h ⟨f, data, 0⟩).drop q with
      | nil => rw [hc] at hdl; simp at hdl; omega
      | cons x xs => rfl
    simp only [if_neg hlt]
    rw [bufferStreamer.viewLoop_spec h f data L hnc hp samples.length 0 q samples 0
      ⟨hv, hl, rfl, hqL⟩ (by omega)]
    simp only [List.take_zero, List.nil_append, Nat.zero_add, Int.zero_add, refPull, hdl, hne,
      Bool.not_false, Option.some.injEq, Prod.mk.injEq, and_true, Pulled.mk.injEq]
    by_cases hN : samples.length ≤ L - q
    · rw [Nat.min_eq_left hN, List.drop_eq_nil_of_le (le_refl _), List.drop_eq_nil_of_le hN]
    · have hN2 : L - q ≤ samples.length := by omega
      rw [Nat.min_eq_right hN2, List.take_of_length_le (by rw [hdl]),
        List.take_of_length_le (by rw [hdl]; exact hN2)]

theorem bufferStreamer.viewTrace_spec {P : Type} [Point ℚ P] [ArrayPoint P] (h : Heap)
    (f : Format) (data : ByteSlice) (L : Nat) (hnc : 1 ≤ f.NumChannels)
    (hp : 1 ≤ f.Precision) (bufs : List (List P)) :
    ∀ q : Nat, bufferStreamer.At h ⟨f, data, (q : Int) * f.Width⟩ L q →
      traceO (bufferStreamer.Stream h) ⟨f, data, (q : Int) * f.Width⟩ bufs =
        some (refTrace ((bufferStreamer.content h ⟨f, data, 0⟩).drop q) bufs) := by
  induction bufs with
  | nil => intro q _; rfl
  | cons b bs ih =>
    intro q hat
    have hCl : (bufferStreamer.content (P := P) h ⟨f, data, 0⟩).length = L :=
      bufferStreamer.length_content h ⟨f, data, (q : Int) * f.Width⟩ L q hat
        (width_pos f hnc hp).1
    have hnext : bufferStreamer.At h
        ⟨f, data, ((q + min b.length (L - q) : Nat) : Int) * f.Width⟩ L
        (q + min b.length (L - q)) := ⟨hat.1, hat.2.1, rfl, by have := hat.2.2.2; omega⟩
    have hd : (refPull ((bufferStreamer.content (P := P) h ⟨f, data, 0⟩).drop q) b).2
        = (bufferStreamer.content (P := P) h ⟨f, data, 0⟩).drop (q + min b.length (L - q)) := by
      simp only [refPull, List.drop_drop]
      by_cases hN : b.length ≤ L - q
      · rw [Nat.min_eq_left hN, Nat.add_comm]
      · rw [List.drop_eq_nil_of_le (by omega), List.drop_eq_nil_of_le (by omega)]
    rw [traceO, bufferStreamer.viewStream_spec h f data L q hnc hp hat b]
    simp only [ih _ hnext, refTrace, hd]

theorem frameOf_spec {P : Type} [Point ℚ P] [ArrayPoint P] (f : Format)
    (hnc : 1 ≤ f.NumChannels) (hp : 0 ≤ f.Precision) (x : P) :
    (f.frameOf x).length = f.Width.toNat ∧
      ∀ buf : List Byte, f.Width ≤ buf.length →
        f.EncodeSigned buf x = some (f.frameOf x ++ buf.drop f.Width.toNat, f.Width) := by
  obtain ⟨hw, hw0⟩ := width_toNat f (by omega) hp
  obtain ⟨frame, hfl, hf⟩ := encode_frame (P := P) f true hnc hp x
  have h0 := hf (List.replicate f.Width.toNat 0) (by rw [List.length_replicate]; omega)
  have hfo : f.frameOf x = frame := by
    unfold Format.frameOf Format.EncodeSigned
    rw [h0]
    simp only
    rw [List.drop_eq_nil_of_le (by rw [List.length_replicate]), List.append_nil]
  rw [hfo]
  exact ⟨hfl, fun buf hb => hf buf hb⟩

theorem recode_spec {P : Type} [Point ℚ P] [ArrayPoint P] (f : Format)
    (hnc : 1 ≤ f.NumChannels) (hp : 0 ≤ f.Precision) (x : P) :
    (∀ r : List Byte, f.DecodeSigned (f.frameOf x ++ r) = some (f.recode x, f.Width)) ∧
      ∀ tmp : List Byte, tmp.length = f.Width.toNat →
        ∃ p1 : List Byte, f.EncodeSigned tmp x = some (p1, f.Width) ∧
          f.DecodeSigned p1 = some (f.recode x, f.Width) := by
  obtain ⟨hw, hw0⟩ := width_toNat f (by omega) hp
  obtain ⟨hfl, hf⟩ := frameOf_spec f hnc hp x
  obtain ⟨y, hy, hyr⟩ := decode_frame (P := P) f true hnc hp (f.frameOf x) (by omega)
  have hrec : f.recode x = y := by
    unfold Format.recode Format.DecodeSigned
    rw [hy]
  rw [hrec]
  refine ⟨fun r => hyr r, fun tmp ht => ⟨f.frameOf x, ?_, hy⟩⟩
  rw [hf tmp (by omega), List.drop_eq_nil_of_le (by omega), List.append_nil]

theorem appendSamples_spec {P : Type} [Point ℚ P] [ArrayPoint P]
    (grow : Nat → Nat → Nat) (f : Format) (hnc : 1 ≤ f.NumChannels) (hp : 0 ≤ f.Precision)
    (part : List P) :
    ∀ (h : Heap) (data : ByteSlice) (tmp : List Byte), Buffer.WF h ⟨f, data, tmp⟩ →
      ∃ (h1 : Heap) (data1 : ByteSlice) (tmp1 : List Byte),
        Buffer.appendSamples grow h ⟨f, data, tmp⟩ part = some (h1, ⟨f, data1, tmp1⟩) ∧
        Buffer.WF h1 ⟨f, data1, tmp1⟩ ∧
        data1.bytes h1 = data.bytes h ++ (part.map f.frameOf).flatten ∧
        data1.len = data.len + part.length * f.Width.toNat ∧
        ∀ v : ByteSlice, ByteSlice.Frozen h data v →
          v.bytes h1 = v.bytes h ∧ ByteSlice.Frozen h1 data1 v := by
  obtain ⟨hw, hw0⟩ := width_toNat f (by omega) hp
  induction part with
  | nil =>
    intro h data tmp hwf
    exact ⟨h, data, tmp, rfl, hwf, by simp, by simp, fun v hv => ⟨rfl, hv⟩⟩
  | cons x xs ih =>
    intro h data tmp hwf
    obtain ⟨hv, ht, L, hL⟩ := hwf
    have ht2 : tmp.length = f.Width.toNat := ht
    obtain ⟨hfl, hf⟩ := frameOf_spec f hnc hp x
    have he : f.EncodeSigned tmp x = some (f.frameOf x, f.Width) := by
      rw [hf tmp (by omega), List.drop_eq_nil_of_le (by omega), List.append_nil]
    obtain ⟨h1, s1, hg, hv1, hb1, hl1, hfz1⟩ := goAppend_spec grow h data (f.frameOf x) hv
    have hwf1 : Buffer.WF h1 ⟨f, s1, f.frameOf x⟩ :=
      ⟨hv1, hfl, L + 1, by
        show s1.len = (L + 1) * f.Width.toNat
        rw [hl1, hfl, show data.len = L * f.Width.toNat from hL]
        ring⟩
    obtain ⟨h2, data2, tmp2, e2, hwf2, hb2, hl2, hfz2⟩ := ih h1 s1 (f.frameOf x) hwf1
    refine ⟨h2, data2, tmp2, ?_, hwf2, ?_, ?_, ?_⟩
    · rw [Buffer.appendSamples]
      simp only [he, hg]
      exact e2
    · rw [hb2, hb1, List.map_cons, List.flatten_cons, List.append_assoc]
    · rw [hl2, hl1, hfl, List.length_cons]
      ring
    · intro v hfv
      obtain ⟨a1, a2⟩ := hfz1 v hfv
      obtain ⟨b1, b2⟩ := hfz2 v a2
      exact ⟨by rw [b1, a1], b2⟩

theorem appendLoop_spec {P : Type} [Point ℚ P] [ArrayPoint P] (grow : Nat → Nat → Nat)
    (f : Format) (hnc : 1 ≤ f.NumChannels) (hp : 0 ≤ f.Precision) :
    ∀ (fuel : Nat) (d : List P) (s : Streamer P) (h : Heap) (data : ByteSlice)
      (tmp : List Byte) (samples : List P), samples.length = 512 → s.HasContent d →
      Buffer.WF h ⟨f, data, tmp⟩ → d.length + 1 ≤ fuel →
      ∃ (h1 : Heap) (data1 : ByteSlice) (tmp1 : List Byte) (s1 : Streamer P),
        Buffer.appendLoop grow fuel h ⟨f, data, tmp⟩ s samples
          = some (h1, ⟨f, data1, tmp1⟩, s1) ∧
        s1.HasContent [] ∧ Buffer.WF h1 ⟨f, data1, tmp1⟩ ∧
        data1.bytes h1 = data.bytes h ++ (d.map f.frameOf).flatten ∧
        data1.len = data.len + d.length * f.Width.toNat ∧
        ∀ v : ByteSlice, ByteSlice.Frozen h data v →
          v.bytes h1 = v.bytes h ∧ ByteSlice.Frozen h1 data1 v := by
  intro fuel
  induction fuel with
  | zero => intro d s h data tmp samples _ _ _ hfuel; omega
  | succ fuel ih =>
    intro d s h data tmp samples hs hc hwf hfuel
    have hne : samples ≠ [] := by
      intro e
      rw [e] at hs
      simp at hs
    obtain ⟨e1, e2⟩ := hc.step hne
    rw [Buffer.appendLoop]
    by_cases hd : d = []
    · subst hd
      have hok : (s.Stream samples).1.ok = false := by rw [e1, refPull_nil]
      refine ⟨h, data, tmp, (s.Stream samples).2, ?_, ?_, hwf, by simp, by simp,
        fun v hv => ⟨rfl, hv⟩⟩
      · simp only [hok, if_true]
      · rw [refPull_nil] at e2
        exact e2
    · have hdl : 1 ≤ d.length := by
        cases d with
        | nil => exact absurd rfl hd
        | cons x xs => simp
      have hdne : d.isEmpty = false := by
        cases d with
        | nil => exact absurd rfl hd
        | cons x xs => rfl
      have hok : ¬ ((s.Stream samples).1.ok = false) := by
        rw [e1]
        simp [refPull, hdne]
      have hn : (s.Stream samples).1.n = ((min 512 d.length : Nat) : Int) := by
        rw [e1]
        simp only [refPull, hs]
      have hlen : (s.Stream samples).1.samples.length = 512 := by
        rw [e1, length_refPull, hs]
      have htake : (s.Stream samples).1.samples.take (min 512 d.length) = d.take 512 := by
        have := refPull_samples_take d samples
        rw [hs] at this
        rw [e1, this]
        by_cases h5 : 512 ≤ d.length
        · rw [Nat.min_eq_left h5]
        · rw [Nat.min_eq_right (by omega), List.take_of_length_le (by omega),
            List.take_of_length_le (by omega)]
      have hslice : sliceTo (s.Stream samples).1.samples (s.Stream samples).1.n
          = some (d.take 512) := by
        rw [hn, sliceTo_ofNat _ (by rw [hlen]; omega), htake]
      obtain ⟨h1, data1, tmp1, a1, a2, a3, a4, a5⟩ :=
        appendSamples_spec grow f hnc hp (d.take 512) h data tmp hwf
      have hrest : (refPull d samples).2 = d.drop 512 := by simp only [refPull, hs]
      rw [hrest] at e2
      obtain ⟨h2, data2, tmp2, s2, b1, b2, b3, b4, b5, b6⟩ := ih (d.drop 512)
        (s.Stream samples).2 h1 data1 tmp1 (s.Stream samples).1.samples hlen e2 a2 (by
          rw [List.length_drop]
          omega)
      refine ⟨h2, data2, tmp2, s2, ?_, b2, b3, ?_, ?_, ?_⟩
      · simp only [hok, if_false, hslice, a1]
        exact b1
      · rw [b4, a3, List.append_assoc, ← List.flatten_append, ← List.map_append,
          List.take_append_drop]
      · have hsum : min 512 d.length + (d.length - 512) = d.length := by omega
        rw [b5, a4, List.length_take, List.length_drop, Nat.add_assoc, ← Nat.add_mul, hsum]
      · intro v hv
        obtain ⟨c1, c2⟩ := a5 v hv
        obtain ⟨c3, c4⟩ := b6 v c2
        exact ⟨by rw [c3, c1], c4⟩

theorem appendLoop_inv {P : Type} [Point ℚ P] [ArrayPoint P] (grow : Nat → Nat → Nat)
    (f : Format) (hnc : 1 ≤ f.NumChannels) (hp : 0 ≤ f.Precision) :
    ∀ (fuel : Nat) (s : Streamer P) (h : Heap) (data : ByteSlice) (tmp : List Byte)
      (samples : List P) (h1 : Heap) (b1 : Buffer) (s1 : Streamer P),
      Buffer.WF h ⟨f, data, tmp⟩ →
      Buffer.appendLoop grow fuel h ⟨f, data, tmp⟩ s samples = some (h1, b1, s1) →
      b1.f = f ∧ Buffer.WF h1 b1 ∧
        ∀ v : ByteSlice, ByteSlice.Frozen h data v →
          v.bytes h1 = v.bytes h ∧ ByteSlice.Frozen h1 b1.data v := by
  intro fuel
  induction fuel with
  | zero =>
    intro s h data tmp samples h1 b1 s1 _ he
    rw [Buffer.appendLoop] at he
    exact absurd he (by simp)
  | succ fuel ih =>
    intro s h data tmp samples h1 b1 s1 hwf he
    rw [Buffer.appendLoop] at he
    by_cases hok : (s.Stream samples).1.ok = false
    · simp only [hok, if_true, Option.some.injEq, Prod.mk.injEq] at he
      obtain ⟨rfl, rfl, -⟩ := he
      exact ⟨rfl, hwf, fun v hv => ⟨rfl, hv⟩⟩
    · simp only [hok, if_false] at he
      cases hsl : sliceTo (s.Stream samples).1.samples (s.Stream samples).1.n with
      | none => rw [hsl] at he; exact absurd he (by simp)
      | some part =>
        obtain ⟨h2, data2, tmp2, a1, a2, -, -, a5⟩ :=
          appendSamples_spec grow f hnc hp part h data tmp hwf
        rw [hsl] at he
        simp only [a1] at he
        obtain ⟨c1, c2, c3⟩ := ih _ _ _ _ _ _ _ _ a2 he
        refine ⟨c1, c2, fun v hv => ?_⟩
        obtain ⟨d1, d2⟩ := a5 v hv
        obtain ⟨d3, d4⟩ := c3 v d2
        exact ⟨by rw [d3, d1], d4⟩

theorem tdiv_frames (L w : Nat) (W : Int) (hW : W = (w : Int)) (hw : 1 ≤ w) :
    Int.tdiv ((L * w : Nat) : Int) W = (L : Int) := by
  rw [hW, Nat.cast_mul]
  exact Int.mul_tdiv_cancel _ (by omega)

theorem Buffer.len_eq (b : Buffer) (hnc : 1 ≤ b.f.NumChannels) (hp : 1 ≤ b.f.Precision)
    (L : Nat) (hL : b.data.len = L * b.f.Width.toNat) : b.Len = some (L : Int) := by
  obtain ⟨hw1, hW⟩ := width_pos b.f hnc hp
  rw [Buffer.Len, if_neg (by omega), hL, tdiv_frames L _ _ hW hw1]

theorem bufferStreamer.len_pos_eq (h : Heap) (bs : bufferStreamer) (L q : Nat)
    (hat : bs.At h L q) (hnc : 1 ≤ bs.f.NumChannels) (hp : 1 ≤ bs.f.Precision) :
    bs.Len = some (L : Int) ∧ bs.Position = some (q : Int) := by
  obtain ⟨hw1, hW⟩ := width_pos bs.f hnc hp
  obtain ⟨-, hl, hpos, -⟩ := hat
  constructor
  · rw [bufferStreamer.Len, if_neg (by omega), hl, tdiv_frames L _ _ hW hw1]
  · rw [bufferStreamer.Position, if_neg (by omega), hpos]
    exact congrArg some (Int.mul_tdiv_cancel _ (by omega))

theorem ByteSlice.arr_lt (h : Heap) (s : ByteSlice) (hv : s.Valid h) (hc : 0 < s.cap) :
    s.arr < h.length := by
  by_contra hn
  have hA : Heap.array h s.arr = [] := by
    unfold Heap.array
    rw [List.getD_eq_getElem?_getD, List.getElem?_eq_none (by omega)]
    rfl
  have := hv.2
  rw [hA] at this
  simp only [List.length_nil] at this
  omega

/-- The views `Buffer.Streamer` hands out: it succeeds exactly when
`0 ≤ from ≤ to` and `to` frames fit in the capacity of `data`. -/
theorem Buffer.streamer_eq (b : Buffer) (hnc : 1 ≤ b.f.NumChannels) (hp : 1 ≤ b.f.Precision)
    (a c : Nat) (hac : a ≤ c) (hc : c * b.f.Width.toNat ≤ b.data.cap) :
    b.Streamer (a : Int) (c : Int) =
      some ⟨b.f, ⟨b.data.arr, b.data.off + a * b.f.Width.toNat, (c - a) * b.f.Width.toNat,
        b.data.cap - a * b.f.Width.toNat⟩, 0⟩ := by
  obtain ⟨hw1, hW⟩ := width_pos b.f hnc hp
  have hle : a * b.f.Width.toNat ≤ c * b.f.Width.toNat := Nat.mul_le_mul_right _ hac
  have e1 : (a : Int) * b.f.Width = ((a * b.f.Width.toNat : Nat) : Int) := by
    rw [Nat.cast_mul, ← hW]
  have e2 : (c : Int) * b.f.Width = ((c * b.f.Width.toNat : Nat) : Int) := by
    rw [Nat.cast_mul, ← hW]
  rw [Buffer.Streamer, e1, e2, ByteSlice.slice, if_pos (by omega)]
  simp only [Int.toNat_ofNat, ← Nat.cast_sub hle, Nat.sub_mul]

theorem Buffer.streamer_none_iff (b : Buffer) (hnc : 1 ≤ b.f.NumChannels)
    (hp : 1 ≤ b.f.Precision) (from_ to_ : Int) :
    b.Streamer from_ to_ = none ↔
      from_ < 0 ∨ to_ < from_ ∨ (b.data.cap : Int) < to_ * b.f.Width := by
  obtain ⟨hw1, hW⟩ := width_pos b.f hnc hp
  have hWpos : 0 < b.f.Width := by omega
  rw [Buffer.Streamer, ByteSlice.slice]
  have h1 : 0 ≤ from_ * b.f.Width ↔ 0 ≤ from_ := by
    constructor
    · intro hh
      by_contra hneg
      have : from_ * b.f.Width < 0 := Int.mul_neg_of_neg_of_pos (by omega) hWpos
      omega
    · intro hh
      exact Int.mul_nonneg hh hWpos.le
  have h2 : from_ * b.f.Width ≤ to_ * b.f.Width ↔ from_ ≤ to_ := by
    constructor
    · intro hh
      exact le_of_mul_le_mul_right hh hWpos
    · intro hh
      exact Int.mul_le_mul_of_nonneg_right hh hWpos.le
  by_cases hcnd : 0 ≤ from_ * b.f.Width ∧ from_ * b.f.Width ≤ to_ * b.f.Width
      ∧ to_ * b.f.Width ≤ (b.data.cap : Int)
  · rw [if_pos hcnd]
    simp only [false_iff, reduceCtorEq]
    obtain ⟨c1, c2, c3⟩ := hcnd
    have := h1.1 c1
    have := h2.1 c2
    omega
  · rw [if_neg hcnd]
    simp only [true_iff]
    by_contra hn
    apply hcnd
    refine ⟨h1.2 (by omega), h2.2 (by omega), by omega⟩

theorem ByteSlice.sliceFrom_bytes_congr (h h2 : Heap) (s r : ByteSlice) (lo : Int)
    (hr : s.sliceFrom lo = some r) (hb : s.bytes h2 = s.bytes h) : r.bytes h2 = r.bytes h := by
  rw [ByteSlice.slice_bytes h2 s r lo s.len hr (le_refl _),
    ByteSlice.slice_bytes h s r lo s.len hr (le_refl _), hb]

theorem bufferStreamer.loop_congr {P : Type} [Point ℚ P] (h h2 : Heap) (f : Format)
    (data : ByteSlice) (hb : data.bytes h2 = data.bytes h) :
    ∀ (k i : Nat) (pos : Int) (samples : List P) (n : Int),
      bufferStreamer.loop h2 k i ⟨f, data, pos⟩ samples n
        = bufferStreamer.loop h k i ⟨f, data, pos⟩ samples n := by
  intro k
  induction k with
  | zero => intro i pos samples n; rfl
  | succ k ih =>
    intro i pos samples n
    rw [bufferStreamer.loop, bufferStreamer.loop]
    by_cases hge : pos ≥ (data.len : Int)
    · simp only [if_pos hge]
    · simp only [if_neg hge]
      cases hs : data.sliceFrom pos with
      | none => rfl
      | some rest =>
        simp only [ByteSlice.sliceFrom_bytes_congr h h2 data rest pos hs hb]
        cases hd : (f.DecodeSigned (rest.bytes h) : Option (P × Int)) with
        | none => rfl
        | some r => exact ih _ _ _ _

theorem bufferStreamer.stream_congr {P : Type} [Point ℚ P] (h h2 : Heap) (bs : bufferStreamer)
    (hb : bs.data.bytes h2 = bs.data.bytes h) (samples : List P) :
    bufferStreamer.Stream h2 bs samples = bufferStreamer.Stream h bs samples := by
  rw [bufferStreamer.Stream, bufferStreamer.Stream,
    bufferStreamer.loop_congr h h2 bs.f bs.data hb]

theorem bufferStreamer.content_congr {P : Type} [Point ℚ P] (h h2 : Heap) (f : Format)
    (data data2 : ByteSlice) (hv : data.Valid h) (hv2 : data2.Valid h2)
    (hl : data2.len = data.len) (hb : data2.bytes h2 = data.bytes h) (p p2 : Int) :
    bufferStreamer.content (P := P) h2 ⟨f, data2, p2⟩
      = bufferStreamer.content (P := P) h ⟨f, data, p⟩ := by
  unfold bufferStreamer.content
  simp only [hl]
  apply List.map_congr_left
  intro i _
  congr 1
  unfold bufferStreamer.sampleAt
  simp only
  by_cases hc : 0 ≤ (i : Int) * f.Width ∧ (i : Int) * f.Width ≤ (data.len : Int)
  · have e1 : data.sliceFrom ((i : Int) * f.Width) = some ⟨data.arr,
        data.off + ((i : Int) * f.Width).toNat, ((data.len : Int) - (i : Int) * f.Width).toNat,
        data.cap - ((i : Int) * f.Width).toNat⟩ := by
      rw [ByteSlice.sliceFrom, ByteSlice.slice, if_pos ⟨hc.1, hc.2, by have := hv.1; omega⟩]
    have e2 : data2.sliceFrom ((i : Int) * f.Width) = some ⟨data2.arr,
        data2.off + ((i : Int) * f.Width).toNat,
        ((data2.len : Int) - (i : Int) * f.Width).toNat,
        data2.cap - ((i : Int) * f.Width).toNat⟩ := by
      rw [ByteSlice.sliceFrom, ByteSlice.slice,
        if_pos ⟨hc.1, by rw [hl]; exact hc.2, by have := hv2.1; omega⟩]
    have b1 := ByteSlice.slice_bytes h data _ _ _ e1 (le_refl _)
    have b2 := ByteSlice.slice_bytes h2 data2 _ _ _ e2 (le_refl _)
    rw [e1, e2]
    simp only
    rw [b1, b2, hb, hl]
  · have e1 : data.sliceFrom ((i : Int) * f.Width) = none := by
      rw [ByteSlice.sliceFrom, ByteSlice.slice, if_neg (by tauto)]
    have e2 : data2.sliceFrom ((i : Int) * f.Width) = none := by
      rw [ByteSlice.sliceFrom, ByteSlice.slice, if_neg (by rw [hl]; tauto)]
    rw [e1, e2]

theorem Buffer.view_at (h : Heap) (b : Buffer) (hwf : b.WF h) (a c : Nat) (hac : a ≤ c)
    (hc : c * b.f.Width.toNat ≤ b.data.cap) :
    bufferStreamer.At h ⟨b.f, ⟨b.data.arr, b.data.off + a * b.f.Width.toNat,
      (c - a) * b.f.Width.toNat, b.data.cap - a * b.f.Width.toNat⟩, 0⟩ (c - a) 0 := by
  obtain ⟨⟨hv1, hv2⟩, -, -⟩ := hwf
  have hle : a * b.f.Width.toNat ≤ c * b.f.Width.toNat := Nat.mul_le_mul_right _ hac
  refine ⟨⟨?_, ?_⟩, rfl, by simp, Nat.zero_le _⟩
  · show (c - a) * b.f.Width.toNat ≤ b.data.cap - a * b.f.Width.toNat
    rw [Nat.sub_mul]
    omega
  · show b.data.off + a * b.f.Width.toNat + (b.data.cap - a * b.f.Width.toNat)
      ≤ (Heap.array h b.data.arr).length
    omega

theorem Buffer.view_frozen (h : Heap) (b : Buffer) (hwf : b.WF h) (a c : Nat) (hac : a ≤ c)
    (hc : c * b.f.Width.toNat ≤ b.data.len) :
    ByteSlice.Frozen h b.data ⟨b.data.arr, b.data.off + a * b.f.Width.toNat,
        (c - a) * b.f.Width.toNat, b.data.cap - a * b.f.Width.toNat⟩ ∧
      ByteSlice.bytes h ⟨b.data.arr, b.data.off + a * b.f.Width.toNat,
        (c - a) * b.f.Width.toNat, b.data.cap - a * b.f.Width.toNat⟩
        = ((b.data.bytes h).drop (a * b.f.Width.toNat)).take ((c - a) * b.f.Width.toNat) := by
  obtain ⟨hv, -, -⟩ := hwf
  have hle : a * b.f.Width.toNat ≤ c * b.f.Width.toNat := Nat.mul_le_mul_right _ hac
  have hsub : (c - a) * b.f.Width.toNat = c * b.f.Width.toNat - a * b.f.Width.toNat :=
    Nat.sub_mul _ _ _
  constructor
  · by_cases hz : (c - a) * b.f.Width.toNat = 0
    · exact Or.inl hz
    · refine Or.inr ⟨ByteSlice.arr_lt h b.data hv (by have := hv.1; omega), fun _ => ?_⟩
      show b.data.off + a * b.f.Width.toNat + (c - a) * b.f.Width.toNat
        ≤ b.data.off + b.data.len
      omega
  · simp only [ByteSlice.bytes]
    rw [drop_take_drop _ _ _ _ _ (by omega)]

theorem refPull_eq_min {P : Type} (d samples : List P) :
    (refPull d samples).1 = ⟨d.take (min samples.length d.length)
      ++ samples.drop (min samples.length d.length),
      ((min samples.length d.length : Nat) : Int), !d.isEmpty⟩ := by
  by_cases hN : samples.length ≤ d.length
  · rw [refPull_of_ge hN, Nat.min_eq_left hN, List.drop_eq_nil_of_le (le_refl _),
      List.append_nil]
  · have h2 : d.length ≤ samples.length := by omega
    rw [refPull_of_le h2, Nat.min_eq_right h2, List.take_of_length_le (le_refl _)]

theorem bufferStreamer.sampleAt_eq {P : Type} [Point ℚ P] [ArrayPoint P] (h : Heap)
    (bs : bufferStreamer) (L q : Nat) (hat : bs.At h L q) (hnc : 1 ≤ bs.f.NumChannels)
    (hp : 1 ≤ bs.f.Precision) (i : Nat) (hi : i < L) :
    ∃ y : P, bufferStreamer.sampleAt h bs i = some y ∧
      (bufferStreamer.content h bs)[i]? = some y := by
  obtain ⟨rest, y, hs, hd, hc⟩ := bufferStreamer.frame_decodes (P := P) h bs L q hat hnc hp i hi
  refine ⟨y, ?_, hc⟩
  unfold bufferStreamer.sampleAt
  rw [hs]
  simp only [hd, Option.map_some']

theorem bufferStreamer.seek_spec (h : Heap) (v : bufferStreamer) (L q : Nat)
    (hnc : 1 ≤ v.f.NumChannels) (hp : 1 ≤ v.f.Precision) (hat : v.At h L q) (p : Int) :
    (p < 0 ∨ (L : Int) < p → v.Seek p = some (true, v)) ∧
    (0 ≤ p → p ≤ (L : Int) → v.Seek p = some (false, ⟨v.f, v.data, p * v.f.Width⟩) ∧
      bufferStreamer.At h ⟨v.f, v.data, p * v.f.Width⟩ L p.toNat) := by
  obtain ⟨hL, -⟩ := bufferStreamer.len_pos_eq h v L q hat hnc hp
  constructor
  · intro hc
    rw [bufferStreamer.Seek]
    by_cases h0 : p < 0
    · rw [if_pos h0]
    · rw [if_neg h0, hL]
      simp only
      rw [if_pos (by omega)]
  · intro h0 h1
    refine ⟨?_, hat.1, hat.2.1, ?_, by omega⟩
    · rw [bufferStreamer.Seek, if_neg (by omega), hL]
      simp only
      rw [if_neg (by omega)]
    · show p * v.f.Width = ((p.toNat : Nat) : Int) * v.f.Width
      rw [Int.toNat_of_nonneg h0]

/-- C20. For every view `v` of `L` frames at position `q` (`0 ≤ q ≤ L`, format with
`NumChannels ≥ 1` and `Precision ≥ 1`, sample type Mono or Stereo) and every slice `samples`
of `N` slots, `v.Stream(samples)` returns `(n, q < L)` with `n = min(N, L - q)`, writes the
decoded samples `q .. q+n-1` of the view (`content`, whose entry `i` is what `DecodeSigned`
reads from frame `i`) into `samples[0..n)`, leaves the rest of `samples` alone and leaves
the view at position `q + n`; `Len()` is `L` and `Position()` is `q` before and `q + n ≤ L`
after, and after any `Seek` the position is again within `[0, Len()]`. -/
theorem view_stream {P : Type} [Point ℚ P] [ArrayPoint P] (h : Heap) (v : bufferStreamer)
    (L q : Nat) (hnc : 1 ≤ v.f.NumChannels) (hp : 1 ≤ v.f.Precision) (hat : v.At h L q)
    (samples : List P) :
    bufferStreamer.Stream h v samples =
        some (⟨((bufferStreamer.content h v).drop q).take (min samples.length (L - q))
            ++ samples.drop (min samples.length (L - q)),
          ((min samples.length (L - q) : Nat) : Int), decide (q < L)⟩,
          ⟨v.f, v.data, ((q + min samples.length (L - q) : Nat) : Int) * v.f.Width⟩) ∧
      (∀ i : Nat, i < L → ∃ y : P, bufferStreamer.sampleAt h v i = some y ∧
        (bufferStreamer.content h v)[i]? = some y) ∧
      v.Len = some (L : Int) ∧ v.Position = some (q : Int) ∧
      bufferStreamer.At h
        ⟨v.f, v.data, ((q + min samples.length (L - q) : Nat) : Int) * v.f.Width⟩ L
        (q + min samples.length (L - q)) ∧
      bufferStreamer.Len
        ⟨v.f, v.data, ((q + min samples.length (L - q) : Nat) : Int) * v.f.Width⟩
        = some (L : Int) ∧
      bufferStreamer.Position
        ⟨v.f, v.data, ((q + min samples.length (L - q) : Nat) : Int) * v.f.Width⟩
        = some ((q + min samples.length (L - q) : Nat) : Int) ∧
      q + min samples.length (L - q) ≤ L ∧
      ∀ p : Int, ∃ (e : Bool) (v2 : bufferStreamer) (q2 : Nat), v.Seek p = some (e, v2) ∧
        v2.At h L q2 ∧ v2.Len = some (L : Int) ∧ v2.Position = some (q2 : Int) ∧ q2 ≤ L := by
  obtain ⟨f, data, pos⟩ := v
  have hpos : pos = (q : Int) * f.Width := hat.2.2.1
  subst hpos
  have hqL : q ≤ L := hat.2.2.2
  have hCl : (bufferStreamer.content (P := P) h ⟨f, data, 0⟩).length = L :=
    bufferStreamer.length_content h ⟨f, data, (q : Int) * f.Width⟩ L q hat (width_pos f hnc hp).1
  have hnext : bufferStreamer.At h
      ⟨f, data, ((q + min samples.length (L - q) : Nat) : Int) * f.Width⟩ L
      (q + min samples.length (L - q)) := ⟨hat.1, hat.2.1, rfl, by omega⟩
  obtain ⟨l1, p1⟩ := bufferStreamer.len_pos_eq h _ L q hat hnc hp
  obtain ⟨l2, p2⟩ := bufferStreamer.len_pos_eq h _ L _ hnext hnc hp
  refine ⟨?_, fun i hi => bufferStreamer.sampleAt_eq h _ L q hat hnc hp i hi, l1, p1, hnext,
    l2, p2, by omega, fun p => ?_⟩
  · rw [bufferStreamer.viewStream_spec h f data L q hnc hp hat samples, refPull_eq_min,
      List.length_drop, hCl]
    have hemp : (!((bufferStreamer.content (P := P) h ⟨f, data, 0⟩).drop q).isEmpty)
        = decide (q < L) := by
      cases hc : (bufferStreamer.content (P := P) h ⟨f, data, 0⟩).drop q with
      | nil =>
        have := congrArg List.length hc
        rw [List.length_drop, hCl, List.length_nil] at this
        simp only [List.isEmpty_nil, Bool.not_true]
        exact (decide_eq_false (by omega)).symm
      | cons x xs =>
        have := congrArg List.length hc
        rw [List.length_drop, hCl, List.length_cons] at this
        simp only [List.isEmpty_cons, Bool.not_false]
        exact (decide_eq_true (by omega)).symm
    rw [hemp]
    rfl
  · obtain ⟨s1, s2⟩ := bufferStreamer.seek_spec h ⟨f, data, (q : Int) * f.Width⟩ L q hnc hp hat p
    by_cases hc : p < 0 ∨ (L : Int) < p
    · exact ⟨true, _, q, s1 hc, hat, l1, p1, hqL⟩
    · obtain ⟨e1, e2⟩ := s2 (by omega) (by omega)
      obtain ⟨l3, p3⟩ := bufferStreamer.len_pos_eq h _ L _ e2 hnc hp
      exact ⟨false, _, p.toNat, e1, e2, l3, p3, e2.2.2.2⟩

theorem view_stream_witness :
    bufferStreamer.Stream [[127, 193, 31]] ⟨⟨44100, 1, 1, Size.float64⟩, ⟨0, 0, 3, 3⟩, ((1 : Nat) : Int) * 1⟩
        ([⟨9⟩, ⟨9⟩, ⟨9⟩] : List (Mono ℚ)) =
        some (⟨((bufferStreamer.content [[127, 193, 31]]
              ⟨⟨44100, 1, 1, Size.float64⟩, ⟨0, 0, 3, 3⟩, ((1 : Nat) : Int) * 1⟩).drop 1).take
                (min ([⟨9⟩, ⟨9⟩, ⟨9⟩] : List (Mono ℚ)).length (3 - 1))
            ++ ([⟨9⟩, ⟨9⟩, ⟨9⟩] : List (Mono ℚ)).drop
                (min ([⟨9⟩, ⟨9⟩, ⟨9⟩] : List (Mono ℚ)).length (3 - 1)),
          ((min ([⟨9⟩, ⟨9⟩, ⟨9⟩] : List (Mono ℚ)).length (3 - 1) : Nat) : Int),
          decide (1 < 3)⟩,
          ⟨⟨44100, 1, 1, Size.float64⟩, ⟨0, 0, 3, 3⟩,
            ((1 + min ([⟨9⟩, ⟨9⟩, ⟨9⟩] : List (Mono ℚ)).length (3 - 1) : Nat) : Int)
              * Format.Width ⟨44100, 1, 1, Size.float64⟩⟩) :=
  (view_stream (P := Mono ℚ) [[127, 193, 31]]
    ⟨⟨44100, 1, 1, Size.float64⟩, ⟨0, 0, 3, 3⟩, ((1 : Nat) : Int) * 1⟩ 3 1 (by decide) (by decide)
    ⟨⟨by decide, by decide⟩, by decide, by decide, by decide⟩ [⟨9⟩, ⟨9⟩, ⟨9⟩]).1

/-- C19. For every view `v` of `L` frames at position `q` (format with `NumChannels ≥ 1`
and `Precision ≥ 1`, sample type Mono or Stereo) and every integer `p`, `v.Seek(p)`
returns an error exactly when `p < 0` or `p > v.Len()`. When it fails the view is left as
it was, so `Position()` and everything streamed afterwards are as if `Seek` had not been
called, and `Err()` stays nil; when it succeeds `Position()` is `p` and the next pulls
stream the samples of the view from index `p` on, as a contract-obeying stream does. -/
theorem view_seek {P : Type} [Point ℚ P] [ArrayPoint P] (h : Heap) (v : bufferStreamer)
    (L q : Nat) (hnc : 1 ≤ v.f.NumChannels) (hp : 1 ≤ v.f.Precision) (hat : v.At h L q)
    (p : Int) :
    v.Len = some (L : Int) ∧ v.Err = false ∧
    ∃ (e : Bool) (v1 : bufferStreamer), v.Seek p = some (e, v1) ∧
      (e = true ↔ (p < 0 ∨ (L : Int) < p)) ∧
      (e = true → v1 = v) ∧
      v1.Err = false ∧
      (e = false → v1.Position = some p ∧ v1.Len = some (L : Int) ∧
        ∀ bufs : List (List P), traceO (bufferStreamer.Stream h) v1 bufs
          = some (refTrace ((bufferStreamer.content h v).drop p.toNat) bufs)) := by
  obtain ⟨l1, -⟩ := bufferStreamer.len_pos_eq h v L q hat hnc hp
  obtain ⟨s1, s2⟩ := bufferStreamer.seek_spec h v L q hnc hp hat p
  refine ⟨l1, rfl, ?_⟩
  by_cases hc : p < 0 ∨ (L : Int) < p
  · exact ⟨true, v, s1 hc, by simp [hc], fun _ => rfl, rfl, fun hf => absurd hf (by simp)⟩
  · obtain ⟨e1, e2⟩ := s2 (by omega) (by omega)
    obtain ⟨l3, p3⟩ := bufferStreamer.len_pos_eq h _ L _ e2 hnc hp
    refine ⟨false, _, e1, by simp [hc], fun hf => absurd hf (by simp), rfl, fun _ =>
      ⟨?_, l3, fun bufs => ?_⟩⟩
    · rw [p3, Int.toNat_of_nonneg (by omega)]
    · have e3 : p * v.f.Width = ((p.toNat : Nat) : Int) * v.f.Width := by
        rw [Int.toNat_of_nonneg (by omega)]
      have e4 := bufferStreamer.viewTrace_spec (P := P) h v.f v.data L hnc hp bufs p.toNat
        (by rw [← e3]; exact e2)
      rw [← e3] at e4
      exact e4

theorem view_seek_witness :
    bufferStreamer.Len ⟨⟨44100, 1, 1, Size.float64⟩, ⟨0, 0, 3, 3⟩, ((1 : Nat) : Int) * 1⟩
        = some ((3 : Nat) : Int) ∧
    bufferStreamer.Err ⟨⟨44100, 1, 1, Size.float64⟩, ⟨0, 0, 3, 3⟩, ((1 : Nat) : Int) * 1⟩ = false ∧
    ∃ (e : Bool) (v1 : bufferStreamer),
      bufferStreamer.Seek ⟨⟨44100, 1, 1, Size.float64⟩, ⟨0, 0, 3, 3⟩, ((1 : Nat) : Int) * 1⟩ 2
        = some (e, v1) ∧
      (e = true ↔ ((2 : Int) < 0 ∨ ((3 : Nat) : Int) < 2)) ∧
      (e = true → v1 = ⟨⟨44100, 1, 1, Size.float64⟩, ⟨0, 0, 3, 3⟩, ((1 : Nat) : Int) * 1⟩) ∧
      v1.Err = false ∧
      (e = false → v1.Position = some 2 ∧ v1.Len = some ((3 : Nat) : Int) ∧
        ∀ bufs : List (List (Mono ℚ)), traceO (bufferStreamer.Stream [[127, 193, 31]]) v1 bufs
          = some (refTrace ((bufferStreamer.content [[127, 193, 31]]
              ⟨⟨44100, 1, 1, Size.float64⟩, ⟨0, 0, 3, 3⟩, ((1 : Nat) : Int) * 1⟩).drop (2 : Int).toNat)
                bufs)) :=
  view_seek (P := Mono ℚ) [[127, 193, 31]]
    ⟨⟨44100, 1, 1, Size.float64⟩, ⟨0, 0, 3, 3⟩, ((1 : Nat) : Int) * 1⟩ 3 1 (by decide) (by decide)
    ⟨⟨by decide, by decide⟩, by decide, by decide, by decide⟩ 2

theorem Buffer.pop_inv (b b1 : Buffer) (hnc : 1 ≤ b.f.NumChannels)
    (hp : 1 ≤ b.f.Precision) (n : Int) (he : b.Pop n = some b1) :
    ∃ k : Nat, n = (k : Int) ∧ k * b.f.Width.toNat ≤ b.data.len ∧
      b1 = ⟨b.f, ⟨b.data.arr, b.data.off + k * b.f.Width.toNat,
        b.data.len - k * b.f.Width.toNat, b.data.cap - k * b.f.Width.toNat⟩, b.tmp⟩ := by
  obtain ⟨hw1, hW⟩ := width_pos b.f hnc hp
  have hWpos : 0 < b.f.Width := by omega
  rw [Buffer.Pop, ByteSlice.sliceFrom, ByteSlice.slice] at he
  by_cases hc : 0 ≤ n * b.f.Width ∧ n * b.f.Width ≤ (b.data.len : Int)
      ∧ (b.data.len : Int) ≤ (b.data.cap : Int)
  · rw [if_pos hc] at he
    have hn0 : 0 ≤ n := by
      by_contra hneg
      have : n * b.f.Width < 0 := Int.mul_neg_of_neg_of_pos (by omega) hWpos
      omega
    obtain ⟨k, rfl⟩ : ∃ k : Nat, n = (k : Int) := ⟨n.toNat, by omega⟩
    have e1 : (k : Int) * b.f.Width = ((k * b.f.Width.toNat : Nat) : Int) := by
      rw [Nat.cast_mul, ← hW]
    have hk : k * b.f.Width.toNat ≤ b.data.len := by
      have := hc.2.1
      rw [e1] at this
      exact_mod_cast this
    refine ⟨k, rfl, hk, ?_⟩
    simp only [Option.some.injEq] at he
    rw [← he, e1]
    simp only [Int.toNat_ofNat, ← Nat.cast_sub hk]
  · rw [if_neg hc] at he
    exact absurd he (by simp)

theorem Buffer.pop_eq (h : Heap) (b : Buffer) (hwf : b.WF h) (hnc : 1 ≤ b.f.NumChannels)
    (hp : 1 ≤ b.f.Precision) (k : Nat) (hk : k * b.f.Width.toNat ≤ b.data.len) :
    b.Pop (k : Int) = some ⟨b.f, ⟨b.data.arr, b.data.off + k * b.f.Width.toNat,
        b.data.len - k * b.f.Width.toNat, b.data.cap - k * b.f.Width.toNat⟩, b.tmp⟩ := by
  obtain ⟨hw1, hW⟩ := width_pos b.f hnc hp
  have e1 : (k : Int) * b.f.Width = ((k * b.f.Width.toNat : Nat) : Int) := by
    rw [Nat.cast_mul, ← hW]
  have := hwf.1.1
  rw [Buffer.Pop, ByteSlice.sliceFrom, ByteSlice.slice, e1, if_pos (by omega)]
  simp only [Int.toNat_ofNat, ← Nat.cast_sub hk]

theorem Buffer.pop_wf (h : Heap) (b : Buffer) (hwf : b.WF h) (k : Nat)
    (hk : k * b.f.Width.toNat ≤ b.data.len) :
    Buffer.WF h ⟨b.f, ⟨b.data.arr, b.data.off + k * b.f.Width.toNat,
        b.data.len - k * b.f.Width.toNat, b.data.cap - k * b.f.Width.toNat⟩, b.tmp⟩ ∧
      ∀ v : ByteSlice, ByteSlice.Frozen h b.data v →
        ByteSlice.Frozen h ⟨b.data.arr, b.data.off + k * b.f.Width.toNat,
          b.data.len - k * b.f.Width.toNat, b.data.cap - k * b.f.Width.toNat⟩ v := by
  obtain ⟨⟨hv1, hv2⟩, ht, L, hL⟩ := hwf
  refine ⟨⟨⟨?_, ?_⟩, ht, L - k, ?_⟩, fun v hv => ?_⟩
  · show b.data.len - _ ≤ b.data.cap - _
    omega
  · show b.data.off + k * b.f.Width.toNat + (b.data.cap - k * b.f.Width.toNat)
      ≤ (Heap.array h b.data.arr).length
    omega
  · show b.data.len - k * b.f.Width.toNat = (L - k) * b.f.Width.toNat
    rw [hL, Nat.sub_mul]
  · rcases hv with hz | ⟨hl, hle⟩
    · exact Or.inl hz
    · refine Or.inr ⟨hl, fun e => ?_⟩
      have := hle e
      show v.off + v.len ≤ b.data.off + k * b.f.Width.toNat + (b.data.len - k * b.f.Width.toNat)
      omega

theorem Buffer.step_inv {P : Type} [Point ℚ P] [ArrayPoint P] (grow : Nat → Nat → Nat)
    (x y : Heap × Buffer) (hs : Buffer.Step P grow x y) (hwf : x.2.WF x.1)
    (hnc : 1 ≤ x.2.f.NumChannels) (hp : 1 ≤ x.2.f.Precision) :
    y.2.f = x.2.f ∧ y.2.WF y.1 ∧
      ∀ v : ByteSlice, ByteSlice.Frozen x.1 x.2.data v →
        v.bytes y.1 = v.bytes x.1 ∧ ByteSlice.Frozen y.1 y.2.data v := by
  cases hs with
  | pop h b b1 n he =>
    obtain ⟨k, -, hk, rfl⟩ := Buffer.pop_inv b b1 hnc hp n he
    obtain ⟨w1, w2⟩ := Buffer.pop_wf h b hwf k hk
    exact ⟨rfl, w1, fun v hv => ⟨rfl, w2 v hv⟩⟩
  | append h h1 b b1 fuel s s1 he =>
    obtain ⟨f, data, tmp⟩ := b
    have hp2 : 1 ≤ f.Precision := hp
    exact appendLoop_inv grow f hnc (by omega) fuel s h data tmp _ h1 b1 s1 hwf he

theorem Buffer.steps_inv {P : Type} [Point ℚ P] [ArrayPoint P] (grow : Nat → Nat → Nat)
    (x y : Heap × Buffer) (hs : Relation.ReflTransGen (Buffer.Step P grow) x y)
    (hwf : x.2.WF x.1) (hnc : 1 ≤ x.2.f.NumChannels) (hp : 1 ≤ x.2.f.Precision) :
    y.2.f = x.2.f ∧ y.2.WF y.1 ∧
      ∀ v : ByteSlice, ByteSlice.Frozen x.1 x.2.data v →
        v.bytes y.1 = v.bytes x.1 ∧ ByteSlice.Frozen y.1 y.2.data v := by
  induction hs with
  | refl => exact ⟨rfl, hwf, fun v hv => ⟨rfl, hv⟩⟩
  | tail _ hstep ih =>
    obtain ⟨i1, i2, i3⟩ := ih
    obtain ⟨j1, j2, j3⟩ := Buffer.step_inv grow _ _ hstep i2 (by rw [i1]; exact hnc)
      (by rw [i1]; exact hp)
    refine ⟨by rw [j1, i1], j2, fun v hv => ?_⟩
    obtain ⟨a1, a2⟩ := i3 v hv
    obtain ⟨b1, b2⟩ := j3 v a2
    exact ⟨by rw [b1, a1], b2⟩

theorem Buffer.len_inv (h : Heap) (b : Buffer) (hwf : b.WF h) (hnc : 1 ≤ b.f.NumChannels)
    (hp : 1 ≤ b.f.Precision) (L : Nat) (hL : b.Len = some (L : Int)) :
    b.data.len = L * b.f.Width.toNat := by
  obtain ⟨-, -, L1, hL1⟩ := hwf
  have := Buffer.len_eq b hnc hp L1 hL1
  rw [hL] at this
  have e : (L : Int) = (L1 : Int) := by
    injection this
  have : L = L1 := by exact_mod_cast e
  rw [this]
  exact hL1

/-- C17. For every Buffer `b` with length `L` (format with `NumChannels ≥ 1` and
`Precision ≥ 1`) and every `n` with `0 ≤ n ≤ L`: `b.Pop(n)` succeeds and leaves the heap as
it is, afterwards `b.Len()` is `L - n`, and `b.Streamer(0, L - n)` is the very view that
`b.Streamer(n, L)` was before the Pop, so it streams the same samples. Every view
`b.Streamer(from, to)` with `0 ≤ from ≤ to ≤ L` taken before keeps its bytes through every
later sequence of Pops and Appends, so `Stream` returns from every position what it
returned before; `Len`, `Position` and `Seek` of a view do not read the heap at all. -/
theorem pop_views {P : Type} [Point ℚ P] [ArrayPoint P] (grow : Nat → Nat → Nat) (h : Heap)
    (b : Buffer) (hwf : b.WF h) (hnc : 1 ≤ b.f.NumChannels) (hp : 1 ≤ b.f.Precision)
    (L n : Nat) (hL : b.Len = some (L : Int)) (hn : n ≤ L) :
    ∃ b1 : Buffer, b.Pop (n : Int) = some b1 ∧ b1.Len = some ((L - n : Nat) : Int) ∧
      b1.WF h ∧
      (∃ v : bufferStreamer, b.Streamer (n : Int) (L : Int) = some v ∧
        b1.Streamer 0 ((L - n : Nat) : Int) = some v ∧ v.At h (L - n) 0) ∧
      ∀ (a c : Nat) (v : bufferStreamer), a ≤ c → c ≤ L →
        b.Streamer (a : Int) (c : Int) = some v →
        ∀ (h2 : Heap) (b2 : Buffer),
          Relation.ReflTransGen (Buffer.Step P grow) (h, b) (h2, b2) →
          v.data.bytes h2 = v.data.bytes h ∧
          ∀ (pos : Int) (samples : List P),
            bufferStreamer.Stream h2 ⟨v.f, v.data, pos⟩ samples
              = bufferStreamer.Stream h ⟨v.f, v.data, pos⟩ samples := by
  obtain ⟨hw1, hW⟩ := width_pos b.f hnc hp
  have hlen := Buffer.len_inv h b hwf hnc hp L hL
  have hk : n * b.f.Width.toNat ≤ b.data.len := by
    rw [hlen]
    exact Nat.mul_le_mul_right _ hn
  have hcap := hwf.1.1
  obtain ⟨w1, -⟩ := Buffer.pop_wf h b hwf n hk
  refine ⟨_, Buffer.pop_eq h b hwf hnc hp n hk, ?_, w1, ?_, ?_⟩
  · exact Buffer.len_eq ⟨b.f, ⟨b.data.arr, b.data.off + n * b.f.Width.toNat,
        b.data.len - n * b.f.Width.toNat, b.data.cap - n * b.f.Width.toNat⟩, b.tmp⟩
      hnc hp (L - n) (by
        show b.data.len - n * b.f.Width.toNat = (L - n) * b.f.Width.toNat
        rw [hlen, Nat.sub_mul])
  · refine ⟨_, Buffer.streamer_eq b hnc hp n L hn (by rw [← hlen]; exact hcap), ?_,
      Buffer.view_at h b hwf n L hn (by rw [← hlen]; exact hcap)⟩
    have := Buffer.streamer_eq ⟨b.f, ⟨b.data.arr, b.data.off + n * b.f.Width.toNat,
        b.data.len - n * b.f.Width.toNat, b.data.cap - n * b.f.Width.toNat⟩, b.tmp⟩ hnc hp
      0 (L - n) (Nat.zero_le _) (by
        show (L - n) * b.f.Width.toNat ≤ b.data.cap - n * b.f.Width.toNat
        rw [Nat.sub_mul, ← hlen]
        omega)
    rw [Nat.cast_zero] at this
    rw [this]
    simp only [Nat.zero_mul, Nat.add_zero, Nat.sub_zero]
  · intro a c v hac hcL hv h2 b2 hsteps
    have hcl : c * b.f.Width.toNat ≤ b.data.len := by
      rw [hlen]
      exact Nat.mul_le_mul_right _ hcL
    rw [Buffer.streamer_eq b hnc hp a c hac (by omega)] at hv
    injection hv with hv
    subst hv
    obtain ⟨hfz, -⟩ := Buffer.view_frozen h b hwf a c hac hcl
    obtain ⟨-, -, i3⟩ := Buffer.steps_inv grow (h, b) (h2, b2) hsteps hwf hnc hp
    obtain ⟨e1, -⟩ := i3 _ hfz
    exact ⟨e1, fun pos samples => bufferStreamer.stream_congr h h2 _ e1 samples⟩

theorem pop_views_witness :
    ∃ b1 : Buffer, Buffer.Pop ⟨⟨44100, 1, 1, Size.float64⟩, ⟨0, 0, 3, 8⟩, [31]⟩ ((1 : Nat) : Int) = some b1 ∧
      b1.Len = some ((3 - 1 : Nat) : Int) ∧
      b1.WF [[127, 193, 31, 0, 0, 0, 0, 0]] ∧
      (∃ v : bufferStreamer,
        Buffer.Streamer ⟨⟨44100, 1, 1, Size.float64⟩, ⟨0, 0, 3, 8⟩, [31]⟩ ((1 : Nat) : Int) ((3 : Nat) : Int)
          = some v ∧
        b1.Streamer 0 ((3 - 1 : Nat) : Int) = some v ∧
        v.At [[127, 193, 31, 0, 0, 0, 0, 0]] (3 - 1) 0) ∧
      ∀ (a c : Nat) (v : bufferStreamer), a ≤ c → c ≤ 3 →
        Buffer.Streamer ⟨⟨44100, 1, 1, Size.float64⟩, ⟨0, 0, 3, 8⟩, [31]⟩ (a : Int) (c : Int) = some v →
        ∀ (h2 : Heap) (b2 : Buffer),
          Relation.ReflTransGen (Buffer.Step (Mono ℚ) (fun _ need => (need + 7) / 8 * 8))
            ([[127, 193, 31, 0, 0, 0, 0, 0]], ⟨⟨44100, 1, 1, Size.float64⟩, ⟨0, 0, 3, 8⟩, [31]⟩) (h2, b2) →
          v.data.bytes h2 = v.data.bytes [[127, 193, 31, 0, 0, 0, 0, 0]] ∧
          ∀ (pos : Int) (samples : List (Mono ℚ)),
            bufferStreamer.Stream h2 ⟨v.f, v.data, pos⟩ samples
              = bufferStreamer.Stream [[127, 193, 31, 0, 0, 0, 0, 0]] ⟨v.f, v.data, pos⟩
                  samples :=
  pop_views (P := Mono ℚ) (fun _ need => (need + 7) / 8 * 8) [[127, 193, 31, 0, 0, 0, 0, 0]]
    ⟨⟨44100, 1, 1, Size.float64⟩, ⟨0, 0, 3, 8⟩, [31]⟩ ⟨⟨by decide, by decide⟩, by decide, 3, by decide⟩
    (by decide) (by decide) 3 1 (by decide) (by decide)

theorem drop_flatten_blocks {α : Type} (n : Nat) (blocks : List (List α))
    (hb : ∀ b ∈ blocks, b.length = n) :
    ∀ i : Nat, blocks.flatten.drop (i * n) = (blocks.drop i).flatten := by
  induction blocks with
  | nil => intro i; simp
  | cons b bs ih =>
    intro i
    have hbl : b.length = n := hb b (List.mem_cons_self _ _)
    cases i with
    | zero => simp
    | succ i =>
      rw [List.flatten_cons, show (i + 1) * n = b.length + i * n by rw [hbl]; ring,
        ← List.drop_drop, List.drop_left, List.drop_succ_cons]
      exact ih (fun x hx => hb x (List.mem_cons_of_mem _ hx)) i

theorem bufferStreamer.content_of_frames {P : Type} [Point ℚ P] [ArrayPoint P] (h : Heap)
    (bs : bufferStreamer) (q : Nat) (d : List P) (hat : bs.At h d.length q)
    (hnc : 1 ≤ bs.f.NumChannels) (hp : 1 ≤ bs.f.Precision)
    (hb : bs.data.bytes h = (d.map bs.f.frameOf).flatten) :
    bufferStreamer.content h bs = d.map bs.f.recode := by
  obtain ⟨hw1, hW⟩ := width_pos bs.f hnc hp
  have hfr : ∀ b ∈ d.map bs.f.frameOf, b.length = bs.f.Width.toNat := by
    intro b hb
    obtain ⟨x, -, rfl⟩ := List.mem_map.1 hb
    exact (frameOf_spec bs.f hnc (by omega) x).1
  apply List.ext_getElem?
  intro i
  by_cases hi : i < d.length
  · obtain ⟨rest, y, hs, hd, hc⟩ := bufferStreamer.frame_decodes (P := P) h bs d.length q hat
      hnc hp i hi
    have hlo : (i : Int) * bs.f.Width = ((i * bs.f.Width.toNat : Nat) : Int) := by
      rw [Nat.cast_mul, ← hW]
    have hlenb := ByteSlice.length_bytes hat.1
    have hrb := ByteSlice.slice_bytes h bs.data rest _ _ hs (le_refl _)
    rw [hlo, Int.toNat_ofNat, List.take_of_length_le (by
        rw [List.length_drop, hlenb]
        omega), hb, drop_flatten_blocks _ _ hfr i, List.drop_eq_getElem_cons (by
        rw [List.length_map]; exact hi), List.flatten_cons, List.getElem_map] at hrb
    rw [hrb, (recode_spec bs.f hnc (by omega) d[i]).1] at hd
    injection hd with hd
    injection hd with hd
    rw [hc, List.getElem?_map, List.getElem?_eq_getElem hi, Option.map_some', hd]
  · rw [List.getElem?_eq_none (by
        rw [bufferStreamer.length_content h bs d.length q hat hw1]; omega),
      List.getElem?_eq_none (by rw [List.length_map]; omega)]

/-- C16. For every Buffer `b` (format with `NumChannels ≥ 1` and `Precision ≥ 1`, sample
type Mono or Stereo) of length `L` and every finite contract-obeying stream `s` with content
`d`, `b.Append(s)` returns (given fuel for its `len(d) + 1` rounds at most) and afterwards:
`s` is drained; `b.Len()` is `L + len(d)`; the bytes stored before are still the first
bytes of the buffer, so `b.Streamer(0, L)` has the samples it had; and `b.Streamer(L,
L + len(d))` streams, as a contract-obeying stream does, the samples `recode d[i]` in order,
where `recode x` is what `DecodeSigned` reads from the frame `EncodeSigned` writes for `x`. -/
theorem append_drains {P : Type} [Point ℚ P] [ArrayPoint P] (grow : Nat → Nat → Nat)
    (h : Heap) (b : Buffer) (hwf : b.WF h) (hnc : 1 ≤ b.f.NumChannels)
    (hp : 1 ≤ b.f.Precision) (L : Nat) (hL : b.Len = some (L : Int)) (s : Streamer P)
    (d : List P) (hc : s.HasContent d) (fuel : Nat) (hfuel : d.length + 1 ≤ fuel) :
    ∃ (h1 : Heap) (b1 : Buffer) (s1 : Streamer P),
      Buffer.Append grow fuel h b s = some (h1, b1, s1) ∧
      s1.HasContent [] ∧ b1.WF h1 ∧ b1.f = b.f ∧
      b1.Len = some ((L + d.length : Nat) : Int) ∧
      (b1.data.bytes h1).take b.data.len = b.data.bytes h ∧
      (∃ v0 v1 : bufferStreamer, b.Streamer 0 (L : Int) = some v0 ∧
        b1.Streamer 0 (L : Int) = some v1 ∧
        bufferStreamer.content (P := P) h1 v1 = bufferStreamer.content (P := P) h v0) ∧
      (∃ v : bufferStreamer, b1.Streamer (L : Int) ((L + d.length : Nat) : Int) = some v ∧
        bufferStreamer.content h1 v = d.map b.f.recode ∧
        ∀ bufs : List (List P), traceO (bufferStreamer.Stream h1) v bufs
          = some (refTrace (d.map b.f.recode) bufs)) ∧
      ∀ (x : P) (tmp : List Byte), tmp.length = b.f.Width.toNat →
        ∃ p1 : List Byte, b.f.EncodeSigned tmp x = some (p1, b.f.Width) ∧
          b.f.DecodeSigned p1 = some (b.f.recode x, b.f.Width) := by
  have hlen := Buffer.len_inv h b hwf hnc hp L hL
  obtain ⟨f, data, tmp⟩ := b
  have hnc2 : 1 ≤ f.NumChannels := hnc
  have hp2 : 1 ≤ f.Precision := hp
  have hlen2 : data.len = L * f.Width.toNat := hlen
  obtain ⟨hw1, hW⟩ := width_pos f hnc2 hp2
  obtain ⟨h1, data1, tmp1, s1, e1, e2, e3, e4, e5, -⟩ := appendLoop_spec grow f hnc2
    (by omega) fuel d s h data tmp (List.replicate 512 (Point.zero : P))
    (List.length_replicate _ _) hc hwf hfuel
  have hB : (data.bytes h).length = data.len := ByteSlice.length_bytes hwf.1
  have hfr : ∀ x ∈ d.map f.frameOf, x.length = f.Width.toNat := by
    intro x hx
    obtain ⟨y, -, rfl⟩ := List.mem_map.1 hx
    exact (frameOf_spec f hnc2 (by omega) y).1
  have hF : ((d.map f.frameOf).flatten).length = d.length * f.Width.toNat := by
    rw [length_flatten_blocks _ _ hfr, List.length_map]
  have hlen1 : data1.len = (L + d.length) * f.Width.toNat := by
    rw [e5, hlen2, Nat.add_mul]
  have hcap1 : data1.len ≤ data1.cap := e3.1.1
  have hcap : data.len ≤ data.cap := hwf.1.1
  have hLle : L * f.Width.toNat ≤ (L + d.length) * f.Width.toNat :=
    Nat.mul_le_mul_right _ (by omega)
  refine ⟨h1, ⟨f, data1, tmp1⟩, s1, e1, e2, e3, rfl, ?_, ?_, ?_, ?_, ?_⟩
  · exact Buffer.len_eq ⟨f, data1, tmp1⟩ hnc2 hp2 (L + d.length) hlen1
  · show (data1.bytes h1).take data.len = data.bytes h
    rw [e4, List.take_append_of_le_length (by omega), List.take_of_length_le (by omega)]
  · have hv0 := Buffer.streamer_eq ⟨f, data, tmp⟩ hnc2 hp2 0 L (Nat.zero_le _) (by
      show L * f.Width.toNat ≤ data.cap
      omega)
    have hv1 := Buffer.streamer_eq ⟨f, data1, tmp1⟩ hnc2 hp2 0 L (Nat.zero_le _) (by
      show L * f.Width.toNat ≤ data1.cap
      omega)
    rw [Nat.cast_zero] at hv0 hv1
    refine ⟨_, _, hv0, hv1, ?_⟩
    have a0 := Buffer.view_at h ⟨f, data, tmp⟩ hwf 0 L (Nat.zero_le _) (by
      show L * f.Width.toNat ≤ data.cap
      omega)
    have a1 := Buffer.view_at h1 ⟨f, data1, tmp1⟩ e3 0 L (Nat.zero_le _) (by
      show L * f.Width.toNat ≤ data1.cap
      omega)
    obtain ⟨-, c0⟩ := Buffer.view_frozen h ⟨f, data, tmp⟩ hwf 0 L (Nat.zero_le _) (by
      show L * f.Width.toNat ≤ data.len
      omega)
    obtain ⟨-, c1⟩ := Buffer.view_frozen h1 ⟨f, data1, tmp1⟩ e3 0 L (Nat.zero_le _) (by
      show L * f.Width.toNat ≤ data1.len
      omega)
    refine bufferStreamer.content_congr h h1 f _ _ a0.1 a1.1 rfl ?_ 0 0
    rw [c0, c1]
    show ((data1.bytes h1).drop (0 * f.Width.toNat)).take ((L - 0) * f.Width.toNat)
      = ((data.bytes h).drop (0 * f.Width.toNat)).take ((L - 0) * f.Width.toNat)
    rw [e4, Nat.zero_mul, List.drop_zero, List.drop_zero, Nat.sub_zero,
      List.take_append_of_le_length (by omega)]
  · have hv := Buffer.streamer_eq ⟨f, data1, tmp1⟩ hnc2 hp2 L (L + d.length) (by omega) (by
      show (L + d.length) * f.Width.toNat ≤ data1.cap
      omega)
    have hsub : L + d.length - L = d.length := by omega
    have a1 := Buffer.view_at h1 ⟨f, data1, tmp1⟩ e3 L (L + d.length) (by omega) (by
      show (L + d.length) * f.Width.toNat ≤ data1.cap
      omega)
    obtain ⟨-, c1⟩ := Buffer.view_frozen h1 ⟨f, data1, tmp1⟩ e3 L (L + d.length) (by omega) (by
      show (L + d.length) * f.Width.toNat ≤ data1.len
      omega)
    rw [hsub] at hv a1 c1
    have hv2 : Buffer.Streamer ⟨f, data1, tmp1⟩ (L : Int) ((L + d.length : Nat) : Int)
        = some ⟨f, ⟨data1.arr, data1.off + L * f.Width.toNat, d.length * f.Width.toNat,
          data1.cap - L * f.Width.toNat⟩, 0⟩ := hv
    have a2 : bufferStreamer.At h1 ⟨f, ⟨data1.arr, data1.off + L * f.Width.toNat,
        d.length * f.Width.toNat, data1.cap - L * f.Width.toNat⟩, 0⟩ d.length 0 := a1
    have hbytes : ByteSlice.bytes h1 ⟨data1.arr, data1.off + L * f.Width.toNat,
        d.length * f.Width.toNat, data1.cap - L * f.Width.toNat⟩
        = (d.map f.frameOf).flatten := by
      have c2 : ByteSlice.bytes h1 ⟨data1.arr, data1.off + L * f.Width.toNat,
          d.length * f.Width.toNat, data1.cap - L * f.Width.toNat⟩
          = ((data1.bytes h1).drop (L * f.Width.toNat)).take (d.length * f.Width.toNat) := c1
      rw [c2, e4, List.drop_append_of_le_length (by omega), List.drop_eq_nil_of_le (by omega),
        List.nil_append, List.take_of_length_le (by omega)]
    have hcont := bufferStreamer.content_of_frames (P := P) h1
      ⟨f, ⟨data1.arr, data1.off + L * f.Width.toNat, d.length * f.Width.toNat,
        data1.cap - L * f.Width.toNat⟩, 0⟩ 0 d a2 hnc2 hp2 hbytes
    refine ⟨_, hv2, hcont, fun bufs => ?_⟩
    have a3 : bufferStreamer.At h1 ⟨f, ⟨data1.arr, data1.off + L * f.Width.toNat,
        d.length * f.Width.toNat, data1.cap - L * f.Width.toNat⟩,
        ((0 : Nat) : Int) * f.Width⟩ d.length 0 := ⟨a2.1, a2.2.1, rfl, Nat.zero_le _⟩
    have ht := bufferStreamer.viewTrace_spec (P := P) h1 f _ d.length hnc2 hp2 bufs 0 a3
    rw [List.drop_zero, hcont] at ht
    have e0 : ((0 : Nat) : Int) * f.Width = 0 := by simp
    rw [e0] at ht
    exact ht
  · intro x tmp2 ht
    exact (recode_spec f hnc2 (by omega) x).2 tmp2 ht

theorem append_drains_witness :
    ∃ (h1 : Heap) (b1 : Buffer) (s1 : Streamer (Mono ℚ)),
      Buffer.Append (fun _ need => (need + 7) / 8 * 8) 3 [] ⟨⟨44100, 1, 1, Size.float64⟩, ⟨0, 0, 0, 0⟩, [0]⟩
        (dataStreamer [(⟨1 / 2⟩ : Mono ℚ), ⟨-1⟩] 0).toStreamer = some (h1, b1, s1) ∧
      s1.HasContent [] ∧ b1.WF h1 ∧ b1.f = ⟨44100, 1, 1, Size.float64⟩ ∧
      b1.Len = some ((0 + ([(⟨1 / 2⟩ : Mono ℚ), ⟨-1⟩] : List (Mono ℚ)).length : Nat) : Int) ∧
      (b1.data.bytes h1).take 0 = ByteSlice.bytes [] ⟨0, 0, 0, 0⟩ ∧
      (∃ v0 v1 : bufferStreamer,
        Buffer.Streamer ⟨⟨44100, 1, 1, Size.float64⟩, ⟨0, 0, 0, 0⟩, [0]⟩ 0 ((0 : Nat) : Int) = some v0 ∧
        b1.Streamer 0 ((0 : Nat) : Int) = some v1 ∧
        bufferStreamer.content (P := Mono ℚ) h1 v1
          = bufferStreamer.content (P := Mono ℚ) [] v0) ∧
      (∃ v : bufferStreamer, b1.Streamer ((0 : Nat) : Int)
          ((0 + ([(⟨1 / 2⟩ : Mono ℚ), ⟨-1⟩] : List (Mono ℚ)).length : Nat) : Int) = some v ∧
        bufferStreamer.content h1 v
          = ([(⟨1 / 2⟩ : Mono ℚ), ⟨-1⟩] : List (Mono ℚ)).map (Format.recode ⟨44100, 1, 1, Size.float64⟩) ∧
        ∀ bufs : List (List (Mono ℚ)), traceO (bufferStreamer.Stream h1) v bufs
          = some (refTrace (([(⟨1 / 2⟩ : Mono ℚ), ⟨-1⟩] : List (Mono ℚ)).map
              (Format.recode ⟨44100, 1, 1, Size.float64⟩)) bufs)) ∧
      ∀ (x : Mono ℚ) (tmp : List Byte), tmp.length = (Format.Width ⟨44100, 1, 1, Size.float64⟩).toNat →
        ∃ p1 : List Byte, Format.EncodeSigned ⟨44100, 1, 1, Size.float64⟩ tmp x
            = some (p1, Format.Width ⟨44100, 1, 1, Size.float64⟩) ∧
          Format.DecodeSigned ⟨44100, 1, 1, Size.float64⟩ p1
            = some (Format.recode ⟨44100, 1, 1, Size.float64⟩ x, Format.Width ⟨44100, 1, 1, Size.float64⟩) :=
  append_drains (P := Mono ℚ) (fun _ need => (need + 7) / 8 * 8) []
    ⟨⟨44100, 1, 1, Size.float64⟩, ⟨0, 0, 0, 0⟩, [0]⟩ ⟨⟨by decide, by decide⟩, by decide, 0, by decide⟩
    (by decide) (by decide) 0 (by decide) (dataStreamer [(⟨1 / 2⟩ : Mono ℚ), ⟨-1⟩] 0).toStreamer
    [⟨1 / 2⟩, ⟨-1⟩] (dataStreamer_hasContent _) 3 (by decide)

theorem appendLoop_fresh {P : Type} [Point ℚ P] [ArrayPoint P] (grow : Nat → Nat → Nat)
    (f : Format) (hnc : 1 ≤ f.NumChannels) (hp : 1 ≤ f.Precision) (x : P) (s : Streamer P)
    (hc : s.HasContent [x]) (tmp : List Byte) (ht : tmp.length = f.Width.toNat)
    (samples : List P) (hs : samples.length = 512) :
    ∃ (h1 : Heap) (s1 : Streamer P),
      Buffer.appendLoop grow 2 [] ⟨f, ByteSlice.nilSlice, tmp⟩ s samples
        = some (h1, ⟨f, ⟨0, 0, f.Width.toNat, max (grow 0 f.Width.toNat) f.Width.toNat⟩,
            f.frameOf x⟩, s1) := by
  obtain ⟨hw1, hW⟩ := width_pos f hnc hp
  obtain ⟨hfl, hf⟩ := frameOf_spec f hnc (by omega) x
  have hne : samples ≠ [] := by
    intro e
    rw [e] at hs
    simp at hs
  obtain ⟨e1, e2⟩ := hc.step hne
  have hok : ¬ ((s.Stream samples).1.ok = false) := by
    rw [e1]
    simp [refPull]
  have hn : (s.Stream samples).1.n = ((1 : Nat) : Int) := by
    rw [e1]
    simp only [refPull, hs, List.length_singleton]
    rfl
  have hlen : (s.Stream samples).1.samples.length = 512 := by
    rw [e1, length_refPull, hs]
  have htake : (s.Stream samples).1.samples.take 1 = [x] := by
    rw [e1]
    simp only [refPull, hs]
    rfl
  have hslice : sliceTo (s.Stream samples).1.samples (s.Stream samples).1.n = some [x] := by
    rw [hn, sliceTo_ofNat _ (by rw [hlen]; omega), htake]
  have he : f.EncodeSigned tmp x = some (f.frameOf x, f.Width) := by
    rw [hf tmp (by omega), List.drop_eq_nil_of_le (by omega), List.append_nil]
  have hg : goAppend grow [] ByteSlice.nilSlice (f.frameOf x)
      = ([ByteSlice.bytes [] ByteSlice.nilSlice ++ f.frameOf x ++ List.replicate
          (max (grow 0 f.Width.toNat) f.Width.toNat - f.Width.toNat) 0],
        ⟨0, 0, f.Width.toNat, max (grow 0 f.Width.toNat) f.Width.toNat⟩) := by
    rw [goAppend, if_neg (by rw [hfl]; show ¬ (0 + f.Width.toNat ≤ 0); omega)]
    simp only [ByteSlice.nilSlice, hfl, Nat.zero_add, List.length_nil, List.nil_append]
  have hrest : (refPull [x] samples).2 = [] := by
    simp only [refPull, hs]
    rfl
  rw [hrest] at e2
  have hne2 : (s.Stream samples).1.samples ≠ [] := by
    intro e
    rw [e] at hlen
    simp at hlen
  obtain ⟨e3, -⟩ := e2.step hne2
  have hok2 : ((s.Stream samples).2.Stream (s.Stream samples).1.samples).1.ok = false := by
    rw [e3, refPull_nil]
  refine ⟨[ByteSlice.bytes [] ByteSlice.nilSlice ++ f.frameOf x ++ List.replicate
      (max (grow 0 f.Width.toNat) f.Width.toNat - f.Width.toNat) 0],
    ((s.Stream samples).2.Stream (s.Stream samples).1.samples).2, ?_⟩
  rw [Buffer.appendLoop]
  simp only [hok, if_false, hslice, Buffer.appendSamples, he, hg]
  rw [Buffer.appendLoop]
  simp only [hok2, if_true]
  rfl

/-- C18. `b.Streamer(from, to)` does not fail for `to > b.Len()` when the backing array
has room behind the bytes stored: after `NewBuffer` for one channel of one byte and an
`Append` of a stream with the single sample 1, on a run-time system that gives a first
allocation of one byte room for 8, `b.Len()` is 1 and `b.Streamer(0, 2)` returns a view with
`Len() = 2` and `Position() = 0`. -/
theorem streamer_beyond_len :
    ∃ (b0 : Buffer) (h : Heap) (b : Buffer) (s1 : Streamer (Mono ℚ)),
      NewBuffer ⟨44100, 1, 1, Size.float64⟩ = some b0 ∧
      Buffer.Append (fun _ need => (need + 7) / 8 * 8) 2 [] b0
        (dataStreamer [(⟨1⟩ : Mono ℚ)] 0).toStreamer = some (h, b, s1) ∧
      b.Len = some 1 ∧
      ∃ v : bufferStreamer, b.Streamer 0 2 = some v ∧ v.Len = some 2 ∧ v.Position = some 0 := by
  obtain ⟨h1, s1, e⟩ := appendLoop_fresh (P := Mono ℚ) (fun _ need => (need + 7) / 8 * 8)
    ⟨44100, 1, 1, Size.float64⟩ (by decide) (by decide) ⟨1⟩ (dataStreamer [(⟨1⟩ : Mono ℚ)] 0).toStreamer
    (dataStreamer_hasContent _) [0] rfl (List.replicate 512 Point.zero)
    (List.length_replicate _ _)
  exact ⟨⟨⟨44100, 1, 1, Size.float64⟩, ByteSlice.nilSlice, [0]⟩, h1, _, s1, rfl, e, rfl, _, rfl, rfl, rfl⟩

/-- C15 (amended). A Format with `NumChannels ≤ 0` is rejected on each call: every
`encode` and every `decode` faults, and so does `Append` at the first sample it encodes.
`NewBuffer` does not look at the channel count: it fails exactly when `Width()` is negative,
so for `NumChannels = 0` it returns a Buffer, on which `Len` faults (division by zero). -/
theorem channels_rejected_per_call (f : Format) (hnc : f.NumChannels ≤ 0) :
    (∀ (P : Type) [Point ℚ P] (signed : Bool) (p : List Byte) (sample : P),
      f.encode signed p sample = none) ∧
    (∀ (P : Type) [Point ℚ P] (signed : Bool) (p : List Byte),
      (f.decode signed p : Option (P × Int)) = none) ∧
    (∀ (P : Type) [Point ℚ P] (grow : Nat → Nat → Nat) (h : Heap) (b : Buffer) (x : P)
      (rest : List P), b.f = f → Buffer.appendSamples grow h b (x :: rest) = none) ∧
    (NewBuffer f = none ↔ f.Width < 0) ∧
    (f.NumChannels = 0 → ∃ b : Buffer, NewBuffer f = some b ∧ b.f = f ∧ b.Len = none) := by
  have henc : ∀ (P : Type) [Point ℚ P] (signed : Bool) (p : List Byte) (sample : P),
      f.encode signed p sample = none := by
    intro P _ signed p sample
    unfold Format.encode
    rw [if_neg (by omega), if_neg (by omega)]
  refine ⟨henc, ?_, ?_, ?_, ?_⟩
  · intro P _ signed p
    unfold Format.decode
    rw [if_neg (by omega), if_neg (by omega)]
  · intro P _ grow h b x rest hb
    rw [Buffer.appendSamples, Format.EncodeSigned, hb, henc]
  · unfold NewBuffer
    by_cases hw : 0 ≤ f.Width
    · rw [if_pos hw]
      constructor
      · intro hh
        exact absurd hh (by simp)
      · intro hh
        omega
    · rw [if_neg hw]
      constructor
      · intro _
        omega
      · intro _
        rfl
  · intro h0
    have hw : f.Width = 0 := by rw [Format.Width, h0, zero_mul]
    refine ⟨⟨f, ByteSlice.nilSlice, List.replicate f.Width.toNat 0⟩, ?_, rfl, ?_⟩
    · unfold NewBuffer
      rw [if_pos (by omega)]
    · unfold Buffer.Len
      rw [if_pos hw]

theorem channels_rejected_per_call_witness :
    (NewBuffer ⟨44100, 0, 2, Size.float64⟩ = none ↔ Format.Width ⟨44100, 0, 2, Size.float64⟩ < 0) ∧
    ((0 : Int) = 0 → ∃ b : Buffer, NewBuffer ⟨44100, 0, 2, Size.float64⟩ = some b ∧
      b.f = ⟨44100, 0, 2, Size.float64⟩ ∧ b.Len = none) :=
  (channels_rejected_per_call ⟨44100, 0, 2, Size.float64⟩ (by decide)).2.2.2

/-- C15 as stated fails: `NewBuffer` accepts a Format of zero channels. -/
theorem new_buffer_zero_channels_counterexample :
    ∃ b : Buffer, NewBuffer ⟨44100, 0, 2, Size.float64⟩ = some b ∧ b.f.NumChannels ≤ 0 :=
  ⟨⟨⟨44100, 0, 2, Size.float64⟩, ByteSlice.nilSlice, []⟩, rfl, by decide⟩

/-! ### Buffer: construction and views beyond the length -/

theorem NewBuffer_wf (f : Format) (b : Buffer) (h : Heap) (hb : NewBuffer f = some b) :
    b.WF h ∧ b.f = f ∧ b.Len = (if f.Width = 0 then none else some 0) := by
  unfold NewBuffer at hb
  by_cases hw : 0 ≤ f.Width
  · rw [if_pos hw] at hb
    injection hb with hb
    subst hb
    refine ⟨⟨⟨le_refl _, Nat.zero_le _⟩, List.length_replicate _ _, 0, by
      simp [ByteSlice.nilSlice]⟩, rfl, ?_⟩
    unfold Buffer.Len
    by_cases h0 : f.Width = 0
    · rw [if_pos h0, if_pos h0]
    · rw [if_neg h0, if_neg h0]
      show some (Int.tdiv ((0 : Nat) : Int) f.Width) = some 0
      rw [Nat.cast_zero, Int.zero_tdiv]
  · rw [if_neg hw] at hb
    exact absurd hb (by simp)

/-- Every view that `Buffer.Streamer` hands out holds whole frames and is at position 0. -/
theorem Buffer.streamer_at (h : Heap) (b : Buffer) (hwf : b.WF h) (hnc : 1 ≤ b.f.NumChannels)
    (hp : 1 ≤ b.f.Precision) (from_ to_ : Int) (v : bufferStreamer)
    (hv : b.Streamer from_ to_ = some v) :
    v.f = b.f ∧ v.At h (to_ - from_).toNat 0 ∧ 0 ≤ from_ ∧ from_ ≤ to_ := by
  obtain ⟨hw1, hW⟩ := width_pos b.f hnc hp
  have hnn : ¬ (from_ < 0 ∨ to_ < from_ ∨ (b.data.cap : Int) < to_ * b.f.Width) := by
    rw [← Buffer.streamer_none_iff b hnc hp from_ to_, hv]
    simp
  have h0 : 0 ≤ from_ := by omega
  have h1 : from_ ≤ to_ := by omega
  obtain ⟨a, rfl⟩ : ∃ a : Nat, from_ = (a : Int) := ⟨from_.toNat, by omega⟩
  obtain ⟨c, rfl⟩ : ∃ c : Nat, to_ = (c : Int) := ⟨to_.toNat, by omega⟩
  have hac : a ≤ c := by omega
  have hcap : c * b.f.Width.toNat ≤ b.data.cap := by
    have : ¬ ((b.data.cap : Int) < (c : Int) * b.f.Width) := by tauto
    rw [hW, ← Nat.cast_mul] at this
    omega
  rw [Buffer.streamer_eq b hnc hp a c hac hcap] at hv
  injection hv with hv
  subst hv
  have e : ((c : Int) - (a : Int)).toNat = c - a := by omega
  rw [e]
  exact ⟨rfl, Buffer.view_at h b hwf a c hac hcap, h0, h1⟩

theorem floatToSigned_one_neg : floatToSigned 1 (-1) = 129 := by
  have h127 : Size.float64.round (-(-1 : ℚ) * 127) = ((127 : Nat) : ℚ) := by
    rw [show -(-1 : ℚ) * 127 = ((127 : Nat) : ℚ) by norm_num]
    exact Size.float64.round_natCast 127 7 (by decide) (by norm_num)
  have hs : shl1 (1 * 8) = 256 := by
    unfold shl1
    rw [if_pos (by norm_num), show ((1 : Int) * 8).toNat = 8 by decide]
    norm_num
  unfold floatToSigned
  rw [if_pos (by norm_num)]
  simp only [round64_scale7, h127, uint64OfRat, Nat.floor_natCast, hs]
  norm_num

theorem appendLoop_single {P : Type} [Point ℚ P] [ArrayPoint P] (grow : Nat → Nat → Nat)
    (f : Format) (hnc : 1 ≤ f.NumChannels) (hp : 1 ≤ f.Precision) (x : P) (s : Streamer P)
    (hc : s.HasContent [x]) (h : Heap) (data : ByteSlice) (tmp : List Byte)
    (ht : tmp.length = f.Width.toNat) (samples : List P) (hs : samples.length = 512) :
    ∃ s1 : Streamer P,
      Buffer.appendLoop grow 2 h ⟨f, data, tmp⟩ s samples
        = some ((goAppend grow h data (f.frameOf x)).1,
            ⟨f, (goAppend grow h data (f.frameOf x)).2, f.frameOf x⟩, s1) := by
  obtain ⟨hw1, hW⟩ := width_pos f hnc hp
  obtain ⟨hfl, hf⟩ := frameOf_spec f hnc (by omega) x
  have hne : samples ≠ [] := by
    intro e
    rw [e] at hs
    simp at hs
  obtain ⟨e1, e2⟩ := hc.step hne
  have hok : ¬ ((s.Stream samples).1.ok = false) := by
    rw [e1]
    simp [refPull]
  have hn : (s.Stream samples).1.n = ((1 : Nat) : Int) := by
    rw [e1]
    simp only [refPull, hs, List.length_singleton]
    rfl
  have hlen : (s.Stream samples).1.samples.length = 512 := by
    rw [e1, length_refPull, hs]
  have htake : (s.Stream samples).1.samples.take 1 = [x] := by
    rw [e1]
    simp only [refPull, hs]
    rfl
  have hslice : sliceTo (s.Stream samples).1.samples (s.Stream samples).1.n = some [x] := by
    rw [hn, sliceTo_ofNat _ (by rw [hlen]; omega), htake]
  have he : f.EncodeSigned tmp x = some (f.frameOf x, f.Width) := by
    rw [hf tmp (by omega), List.drop_eq_nil_of_le (by omega), List.append_nil]
  have hrest : (refPull [x] samples).2 = [] := by
    simp only [refPull, hs]
    rfl
  rw [hrest] at e2
  have hne2 : (s.Stream samples).1.samples ≠ [] := by
    intro e
    rw [e] at hlen
    simp at hlen
  obtain ⟨e3, -⟩ := e2.step hne2
  have hok2 : ((s.Stream samples).2.Stream (s.Stream samples).1.samples).1.ok = false := by
    rw [e3, refPull_nil]
  refine ⟨((s.Stream samples).2.Stream (s.Stream samples).1.samples).2, ?_⟩
  rw [Buffer.appendLoop]
  simp only [hok, if_false, hslice, Buffer.appendSamples, he]
  rw [Buffer.appendLoop]
  simp only [hok2, if_true]
  rfl

/-- A view handed out beyond `Len()` shows room of the backing array that a later `Append`
writes: on the heap and Buffer left by appending the Mono sample 1 to a new one-byte
Buffer, the view `Streamer(0, 2)` shows the bytes `127, 0`, and after an `Append` of the
sample -1 the same view shows `127, 129`. -/
theorem view_beyond_len_overwritten :
    ∃ (v : bufferStreamer) (h2 : Heap) (b2 : Buffer) (s2 : Streamer (Mono ℚ)),
      Buffer.Streamer ⟨⟨44100, 1, 1, Size.float64⟩, ⟨0, 0, 1, 8⟩, [127]⟩ 0 2 = some v ∧
      v.data.bytes [[127, 0, 0, 0, 0, 0, 0, 0]] = [127, 0] ∧
      Buffer.Append (fun _ need => (need + 7) / 8 * 8) 2 [[127, 0, 0, 0, 0, 0, 0, 0]]
        ⟨⟨44100, 1, 1, Size.float64⟩, ⟨0, 0, 1, 8⟩, [127]⟩ (dataStreamer [(⟨-1⟩ : Mono ℚ)] 0).toStreamer
        = some (h2, b2, s2) ∧
      v.data.bytes h2 = [127, 129] := by
  have he : Format.EncodeSigned ⟨44100, 1, 1, Size.float64⟩ [127] (⟨-1⟩ : Mono ℚ) = some ([129], 1) := by
    rw [Format.EncodeSigned, encode_one_channel ⟨44100, 1, 1, Size.float64⟩ true rfl (by decide) [127]
      (by decide) (⟨-1⟩ : Mono ℚ)]
    simp only [Point.Count, Point.Slice, if_true, List.getD_cons_zero, codeOf,
      floatToSigned_one_neg]
    rfl
  have hfo : Format.frameOf ⟨44100, 1, 1, Size.float64⟩ (⟨-1⟩ : Mono ℚ) = [129] := by
    have h2 := (frameOf_spec (P := Mono ℚ) ⟨44100, 1, 1, Size.float64⟩ (by decide) (by decide) ⟨-1⟩).2 [127]
      (by decide)
    rw [he] at h2
    injection h2 with h2
    injection h2 with h2
    have h3 : Format.frameOf ⟨44100, 1, 1, Size.float64⟩ (⟨-1⟩ : Mono ℚ) ++ [] = [129] := h2.symm
    rw [List.append_nil] at h3
    exact h3
  obtain ⟨s1, e⟩ := appendLoop_single (P := Mono ℚ) (fun _ need => (need + 7) / 8 * 8)
    ⟨44100, 1, 1, Size.float64⟩ (by decide) (by decide) ⟨-1⟩ (dataStreamer [(⟨-1⟩ : Mono ℚ)] 0).toStreamer
    (dataStreamer_hasContent _) [[127, 0, 0, 0, 0, 0, 0, 0]] ⟨0, 0, 1, 8⟩ [127] rfl
    (List.replicate 512 Point.zero) (List.length_replicate _ _)
  rw [hfo] at e
  exact ⟨⟨⟨44100, 1, 1, Size.float64⟩, ⟨0, 0, 2, 8⟩, 0⟩, _, _, s1, rfl, rfl, e, rfl⟩

/-! ### Buffer: whole frames -/

theorem encodeAll_length (signed : Bool) (precision : Int) (xs : List ℚ) :
    ∀ (filled p f1 rest : List Byte),
      encodeAll signed precision xs filled p = some (f1, rest) →
      f1.length + rest.length = filled.length + p.length := by
  induction xs with
  | nil =>
    intro filled p f1 rest he
    rw [encodeAll] at he
    injection he with he
    injection he with e1 e2
    rw [← e1, ← e2]
  | cons x xs ih =>
    intro filled p f1 rest he
    rw [encodeAll] at he
    by_cases hp : precision.toNat ≤ p.length
    · rw [encodeFloat_eq signed precision p x hp] at he
      simp only at he
      generalize (if signed then floatToSigned precision x
          else floatToUnsigned precision x) = c at he
      have hl : (bytesLE c precision.toNat ++ p.drop precision.toNat).length = p.length := by
        rw [List.length_append, length_bytesLE, List.length_drop]
        omega
      cases hs : sliceFrom (bytesLE c precision.toNat ++ p.drop precision.toNat) precision with
      | none => rw [hs] at he; exact absurd he (by simp)
      | some r =>
        rw [hs] at he
        simp only at he
        have := ih _ _ _ _ he
        unfold sliceFrom at hs
        by_cases hc : 0 ≤ precision ∧
            precision ≤ ((bytesLE c precision.toNat ++ p.drop precision.toNat).length : Int)
        · rw [if_pos hc] at hs
          injection hs with hs
          rw [this, ← hs, List.length_append, List.length_take, List.length_drop, hl]
          omega
        · rw [if_neg hc] at hs
          exact absurd hs (by simp)
    · have : encodeFloat signed precision p x = none := by
        unfold encodeFloat
        simp only [hp, if_false]
      rw [this] at he
      exact absurd he (by simp)

theorem encode_length {P : Type} [Point ℚ P] (f : Format) (signed : Bool) (p p1 : List Byte)
    (x : P) (n : Int) (he : f.encode signed p x = some (p1, n)) : p1.length = p.length := by
  unfold Format.encode at he
  split at he
  · simp only at he
    split at he
    · exact absurd he (by simp)
    · rename_i y hy
      split at he
      · exact absurd he (by simp)
      · rename_i f1 rest hx
        injection he with he
        injection he with e1 e2
        have := encodeAll_length _ _ _ _ _ _ _ hx
        rw [← e1, List.length_append, this]
        simp
  · split at he
    · split at he
      · exact absurd he (by simp)
      · rename_i f1 rest hx
        injection he with he
        injection he with e1 e2
        have := encodeAll_length _ _ _ _ _ _ _ hx
        rw [← e1, List.length_append, this]
        simp
    · exact absurd he (by simp)

theorem width_of_pos (f : Format) (hW : 0 < f.Width) :
    1 ≤ f.Width.toNat ∧ f.Width = (f.Width.toNat : Int) := by
  constructor <;> omega

theorem appendSamples_frames {P : Type} [Point ℚ P] (grow : Nat → Nat → Nat) (part : List P) :
    ∀ (h : Heap) (b : Buffer) (h1 : Heap) (b1 : Buffer), b.WF h →
      Buffer.appendSamples grow h b part = some (h1, b1) → b1.f = b.f ∧ b1.WF h1 := by
  induction part with
  | nil =>
    intro h b h1 b1 hwf he
    rw [Buffer.appendSamples] at he
    simp only [Option.some.injEq, Prod.mk.injEq] at he
    obtain ⟨rfl, rfl⟩ := he
    exact ⟨rfl, hwf⟩
  | cons x rest ih =>
    intro h b h1 b1 hwf he
    rw [Buffer.appendSamples] at he
    cases hx : b.f.EncodeSigned b.tmp x with
    | none => rw [hx] at he; exact absurd he (by simp)
    | some r =>
      obtain ⟨tmp1, n⟩ := r
      rw [hx] at he
      simp only at he
      have hl : tmp1.length = b.tmp.length := encode_length b.f true b.tmp tmp1 x n hx
      obtain ⟨hv, ht, L, hL⟩ := hwf
      obtain ⟨h2, data2, a1, a2, -, a4, -⟩ := goAppend_spec grow h b.data tmp1 hv
      rw [a1] at he
      simp only at he
      have hwf2 : Buffer.WF h2 ⟨b.f, data2, tmp1⟩ := by
        refine ⟨a2, ?_, L + 1, ?_⟩
        · show tmp1.length = b.f.Width.toNat
          rw [hl, ht]
        · show data2.len = (L + 1) * b.f.Width.toNat
          rw [a4, hL, hl, ht, Nat.add_mul, Nat.one_mul]
      exact ih h2 ⟨b.f, data2, tmp1⟩ h1 b1 hwf2 he

theorem appendLoop_frames {P : Type} [Point ℚ P] (grow : Nat → Nat → Nat) :
    ∀ (fuel : Nat) (s : Streamer P) (h : Heap) (b : Buffer) (samples : List P) (h1 : Heap)
      (b1 : Buffer) (s1 : Streamer P), b.WF h →
      Buffer.appendLoop grow fuel h b s samples = some (h1, b1, s1) →
      b1.f = b.f ∧ b1.WF h1 := by
  intro fuel
  induction fuel with
  | zero =>
    intro s h b samples h1 b1 s1 _ he
    rw [Buffer.appendLoop] at he
    exact absurd he (by simp)
  | succ fuel ih =>
    intro s h b samples h1 b1 s1 hwf he
    rw [Buffer.appendLoop] at he
    by_cases hok : (s.Stream samples).1.ok = false
    · simp only [hok, if_true, Option.some.injEq, Prod.mk.injEq] at he
      obtain ⟨rfl, rfl, -⟩ := he
      exact ⟨rfl, hwf⟩
    · simp only [hok, if_false] at he
      cases hsl : sliceTo (s.Stream samples).1.samples (s.Stream samples).1.n with
      | none => rw [hsl] at he; exact absurd he (by simp)
      | some part =>
        rw [hsl] at he
        simp only at he
        cases hap : Buffer.appendSamples grow h b part with
        | none => rw [hap] at he; exact absurd he (by simp)
        | some r =>
          obtain ⟨h2, b2⟩ := r
          rw [hap] at he
          simp only at he
          obtain ⟨e1, e2⟩ := appendSamples_frames grow part h b h2 b2 hwf hap
          obtain ⟨c1, c2⟩ := ih _ _ _ _ _ _ _ e2 he
          exact ⟨by rw [c1, e1], c2⟩

theorem len_of_frames (b : Buffer) (hW : 0 < b.f.Width) (L : Nat)
    (hL : b.data.len = L * b.f.Width.toNat) : b.Len = some (L : Int) := by
  obtain ⟨hw1, hWn⟩ := width_of_pos b.f hW
  rw [Buffer.Len, if_neg (by omega), hL, tdiv_frames L _ _ hWn hw1]

theorem pop_frames (h : Heap) (b : Buffer) (hwf : b.WF h) (hW : 0 < b.f.Width) (L : Nat)
    (hL : b.data.len = L * b.f.Width.toNat) (k : Nat) (hk : k ≤ L) :
    ∃ b1 : Buffer, b.Pop (k : Int) = some b1 ∧ b1.f = b.f ∧ b1.WF h ∧
      b1.data.len = (L - k) * b.f.Width.toNat := by
  obtain ⟨hw1, hWn⟩ := width_of_pos b.f hW
  have hkl : k * b.f.Width.toNat ≤ b.data.len := by
    rw [hL]
    exact Nat.mul_le_mul_right _ hk
  have e1 : (k : Int) * b.f.Width = ((k * b.f.Width.toNat : Nat) : Int) := by
    rw [Nat.cast_mul, ← hWn]
  have hcap := hwf.1.1
  refine ⟨⟨b.f, ⟨b.data.arr, b.data.off + k * b.f.Width.toNat,
        b.data.len - k * b.f.Width.toNat, b.data.cap - k * b.f.Width.toNat⟩, b.tmp⟩, ?_, rfl,
      (Buffer.pop_wf h b hwf k hkl).1, ?_⟩
  · rw [Buffer.Pop, ByteSlice.sliceFrom, ByteSlice.slice, e1, if_pos (by omega)]
    simp only [Int.toNat_ofNat, ← Nat.cast_sub hkl]
  · show b.data.len - k * b.f.Width.toNat = (L - k) * b.f.Width.toNat
    rw [hL, Nat.sub_mul]

theorem length_bytes_valid (h : Heap) (s : ByteSlice) (hv : s.Valid h) :
    (s.bytes h).length = s.len := by
  obtain ⟨h1, h2⟩ := hv
  rw [ByteSlice.bytes, List.length_take, List.length_drop]
  omega

/-- C21: for every format with `Width() > 0`, the data of a Buffer is whole frames.
`NewBuffer` returns a buffer that satisfies the invariant `WF` (its data lies within its
backing array and its length is a multiple of `Width()`); for any buffer of that format
that satisfies it, `Len()` is defined and `Len() * Width()` is the number of stored bytes;
every `Append` that returns leaves a buffer that satisfies it, and `Append` of a finite
stream does return when the format has at least one channel; `Pop(n)` for
`0 ≤ n ≤ Len()` returns a buffer that satisfies it, of `Len() - n` frames. -/
theorem frames_whole {P : Type} [Point ℚ P] [ArrayPoint P] (grow : Nat → Nat → Nat)
    (f : Format) (hW : 0 < f.Width) :
    (∃ b0 : Buffer, NewBuffer f = some b0 ∧ b0.f = f ∧ b0.data.len = 0 ∧ ∀ h, b0.WF h) ∧
    ∀ (h : Heap) (b : Buffer), b.f = f → b.WF h →
      (∃ L : Nat, b.Len = some (L : Int) ∧ (L : Int) * f.Width = (b.data.len : Int) ∧
        ((b.data.bytes h).length : Int) = (L : Int) * f.Width) ∧
      (∀ (fuel : Nat) (s : Streamer P) (h1 : Heap) (b1 : Buffer) (s1 : Streamer P),
        Buffer.Append grow fuel h b s = some (h1, b1, s1) → b1.f = f ∧ b1.WF h1) ∧
      (∀ (s : Streamer P) (d : List P), 1 ≤ f.NumChannels → s.HasContent d →
        ∃ (h1 : Heap) (b1 : Buffer) (s1 : Streamer P),
          Buffer.Append grow (d.length + 1) h b s = some (h1, b1, s1)) ∧
      (∀ n L : Int, b.Len = some L → 0 ≤ n → n ≤ L →
        ∃ b1 : Buffer, b.Pop n = some b1 ∧ b1.f = f ∧ b1.WF h ∧ b1.Len = some (L - n)) := by
  obtain ⟨hw1, hWn⟩ := width_of_pos f hW
  constructor
  · refine ⟨⟨f, ByteSlice.nilSlice, List.replicate f.Width.toNat 0⟩, ?_, rfl, rfl, fun h => ?_⟩
    · rw [NewBuffer, if_pos (by omega)]
    · exact (NewBuffer_wf f _ h (by rw [NewBuffer, if_pos (by omega)])).1
  · intro h b hf hwf
    subst hf
    obtain ⟨L, hL⟩ := hwf.2.2
    have hlen := len_of_frames b hW L hL
    have hLW : (L : Int) * b.f.Width = (b.data.len : Int) := by
      rw [hL, Nat.cast_mul, ← hWn]
    refine ⟨⟨L, hlen, hLW, ?_⟩, ?_, ?_, ?_⟩
    · rw [length_bytes_valid h b.data hwf.1, hLW]
    · intro fuel s h1 b1 s1 he
      exact appendLoop_frames grow fuel s h b _ h1 b1 s1 hwf he
    · intro s d hnc hd
      have hp : 0 ≤ b.f.Precision := by
        by_contra hneg
        have : b.f.NumChannels * b.f.Precision ≤ 0 :=
          Int.mul_nonpos_of_nonneg_of_nonpos (by omega) (by omega)
        have hW2 : 0 < b.f.NumChannels * b.f.Precision := hW
        omega
      obtain ⟨h1, data1, tmp1, s1, a1, -⟩ :=
        appendLoop_spec grow b.f hnc hp (d.length + 1) d s h b.data b.tmp
          (List.replicate 512 (Point.zero : P)) (List.length_replicate _ _) hd hwf (le_refl _)
      exact ⟨h1, _, s1, a1⟩
    · intro n L1 hL1 h0 hn
      rw [hlen] at hL1
      injection hL1 with hL1
      subst hL1
      obtain ⟨k, rfl⟩ : ∃ k : Nat, n = (k : Int) := ⟨n.toNat, by omega⟩
      have hk : k ≤ L := by exact_mod_cast hn
      obtain ⟨b1, c1, c2, c3, c4⟩ := pop_frames h b hwf hW L hL k hk
      refine ⟨b1, c1, c2, c3, ?_⟩
      have hW1 : 0 < b1.f.Width := by rw [c2]; exact hW
      have := len_of_frames b1 hW1 (L - k) (by rw [c4, c2])
      rw [this, Nat.cast_sub hk]

/-- C21 at the 16-bit stereo format. -/
theorem frames_whole_witness :
    (∃ b0 : Buffer, NewBuffer ⟨44100, 2, 2, Size.float64⟩ = some b0 ∧ b0.f = ⟨44100, 2, 2, Size.float64⟩ ∧
        b0.data.len = 0 ∧ ∀ h, b0.WF h) ∧
    ∀ (h : Heap) (b : Buffer), b.f = ⟨44100, 2, 2, Size.float64⟩ → b.WF h →
      (∃ L : Nat, b.Len = some (L : Int) ∧
        (L : Int) * Format.Width ⟨44100, 2, 2, Size.float64⟩ = (b.data.len : Int) ∧
        ((b.data.bytes h).length : Int) = (L : Int) * Format.Width ⟨44100, 2, 2, Size.float64⟩) ∧
      (∀ (fuel : Nat) (s : Streamer (Stereo ℚ)) (h1 : Heap) (b1 : Buffer)
          (s1 : Streamer (Stereo ℚ)),
        Buffer.Append (fun _ n => n) fuel h b s = some (h1, b1, s1) →
          b1.f = ⟨44100, 2, 2, Size.float64⟩ ∧ b1.WF h1) ∧
      (∀ (s : Streamer (Stereo ℚ)) (d : List (Stereo ℚ)),
        1 ≤ Format.NumChannels ⟨44100, 2, 2, Size.float64⟩ → s.HasContent d →
        ∃ (h1 : Heap) (b1 : Buffer) (s1 : Streamer (Stereo ℚ)),
          Buffer.Append (fun _ n => n) (d.length + 1) h b s = some (h1, b1, s1)) ∧
      (∀ n L : Int, b.Len = some L → 0 ≤ n → n ≤ L →
        ∃ b1 : Buffer, b.Pop n = some b1 ∧ b1.f = ⟨44100, 2, 2, Size.float64⟩ ∧ b1.WF h ∧
          b1.Len = some (L - n)) :=
  frames_whole (fun _ n => n) ⟨44100, 2, 2, Size.float64⟩ (by decide)

/-! ### Ctrl, Silence and the rules of the pull contract -/

/-- C25: the propagation of errors. In every state `Err` of a `take`, of a `loop` and of
either `dup` handle is `Err` of the child, as it is at that moment; `Err` of a `Ctrl` is
`Err` of its child and nil when the child is absent; `Err` of what `Seq` and `Mix` return
and of a `Mixer` is nil in every state, whatever `Err` of the members is. -/
theorem err_policy {P : Type} :
    (∀ t : take P, t.Err = t.s.Err) ∧
    (∀ (k : Int) (s : Streamer P), (Take k s).Err = s.Err) ∧
    (∀ l : loop P, l.Err = l.s.Err) ∧
    (∀ (c : Int) (s : StreamSeeker P), (Loop c s).Err = s.Err) ∧
    (∀ (h : DupHandle) (q : DupState P), dup.Err h q = q.s.Err) ∧
    (∀ (h : DupHandle) (s : Streamer P), dup.Err h (Dup s) = s.Err) ∧
    (∀ (s : Streamer P) (p : Bool), Ctrl.Err ⟨some s, p⟩ = s.Err) ∧
    (∀ p : Bool, Ctrl.Err (⟨none, p⟩ : Ctrl P) = false) ∧
    (∀ q : SeqState P, q.Err = false) ∧
    (∀ q : MixState P, q.Err = false) ∧
    (∀ m : Mixer P, m.Err = false) :=
  ⟨fun _ => rfl, fun _ _ => rfl, fun _ => rfl, fun _ _ => rfl, fun _ _ => rfl,
    fun _ _ => rfl, fun _ _ => rfl, fun _ => rfl, fun _ => rfl, fun _ => rfl, fun _ => rfl⟩

theorem ctrl_paused_after {S P : Type} [Point S P] (s : Streamer P) (bufs : List (List P)) :
    after Ctrl.Stream (⟨some s, true⟩ : Ctrl P) bufs = ⟨some s, true⟩ := by
  induction bufs with
  | nil => rfl
  | cons b bs ih => exact ih

theorem ctrl_running_trace {S P : Type} [Point S P] (bufs : List (List P)) :
    ∀ s : Streamer P, trace Ctrl.Stream (⟨some s, false⟩ : Ctrl P) bufs
      = trace Streamer.Stream s bufs := by
  induction bufs with
  | nil => intro s; rfl
  | cons b bs ih =>
    intro s
    show (s.Stream b).1 :: trace Ctrl.Stream (⟨some (s.Stream b).2, false⟩ : Ctrl P) bs
      = (s.Stream b).1 :: trace Streamer.Stream (s.Stream b).2 bs
    rw [ih]

/-- C27: the three cases of `Ctrl.Stream` on a request `samples` of `N` slots. Without a
child it returns 0 and false and leaves `samples` alone. With a child and `Paused` it
sets all `N` samples to the zero value and returns `N` and true, and the `Ctrl` with its
child is as before, so that after any number of paused calls a `Ctrl` that is un-paused
returns what the child returns from where it was. With a child and not `Paused` it
returns what the child's `Stream` returns on `samples`, and the child is as that call
left it. -/
theorem ctrl_stream {S P : Type} [Point S P] :
    (∀ (p : Bool) (samples : List P),
      Ctrl.Stream (⟨none, p⟩ : Ctrl P) samples = (⟨samples, 0, false⟩, ⟨none, p⟩)) ∧
    (∀ (s : Streamer P) (samples : List P),
      Ctrl.Stream (⟨some s, true⟩ : Ctrl P) samples =
        (⟨List.replicate samples.length (Point.zero : P), (samples.length : Int), true⟩,
          ⟨some s, true⟩)) ∧
    (∀ (s : Streamer P) (paused calls : List (List P)),
      trace Ctrl.Stream
          { Streamer := (after Ctrl.Stream (⟨some s, true⟩ : Ctrl P) paused).Streamer,
            Paused := false } calls
        = trace Streamer.Stream s calls) ∧
    (∀ (s : Streamer P) (samples : List P),
      Ctrl.Stream (⟨some s, false⟩ : Ctrl P) samples =
        ((s.Stream samples).1, ⟨some (s.Stream samples).2, false⟩)) := by
  refine ⟨fun _ _ => rfl, fun s samples => ?_, fun s paused calls => ?_, fun _ _ => rfl⟩
  · show ((⟨samples.map (fun _ => (Point.zero : P)), samples.length, true⟩ : Pulled P),
      (⟨some s, true⟩ : Ctrl P)) = _
    rw [List.map_const']
  · rw [ctrl_paused_after]
    exact ctrl_running_trace calls s

theorem silence_stream_eq {S P : Type} [Point S P] (num : Int) (b : List P) :
    (Silence num : Streamer P).Stream b =
      ((Silence.streamFn num b).1, Silence (Silence.streamFn num b).2) := rfl

theorem silence_pull_nonneg {S P : Type} [Point S P] (num : Int) (h0 : 0 ≤ num) (b : List P)
    (hb : b ≠ []) :
    (Silence.streamFn num b).1 = (refPull (List.replicate num.toNat (Point.zero : P)) b).1 ∧
      0 ≤ (Silence.streamFn num b : Pulled P × Int).2 ∧
      List.replicate (Silence.streamFn num b : Pulled P × Int).2.toNat (Point.zero : P) =
        (refPull (List.replicate num.toNat (Point.zero : P)) b).2 := by
  have hlen : 0 < b.length := List.length_pos.2 hb
  by_cases hz : num = 0
  · subst hz
    simp [Silence.streamFn, refPull]
  · have hpos : 0 < num := by omega
    by_cases hlt : num < (b.length : Int)
    · have hk : num.toNat < b.length := by omega
      have e : Silence.streamFn num b =
          ((⟨List.replicate num.toNat (Point.zero : P) ++ b.drop num.toNat,
            (num.toNat : Int), true⟩ : Pulled P), num - (num.toNat : Int)) := by
        unfold Silence.streamFn
        rw [if_neg hz]
        simp only [hpos, hlt, and_self, if_true]
      rw [e, refPull_eq_min]
      refine ⟨?_, by omega, ?_⟩
      · have hm : min b.length (List.replicate num.toNat (Point.zero : P)).length
            = num.toNat := by
          rw [List.length_replicate]; omega
        rw [hm, List.take_of_length_le (by rw [List.length_replicate])]
        have : (List.replicate num.toNat (Point.zero : P)).isEmpty = false := by
          cases hn : num.toNat with
          | zero => omega
          | succ m => rfl
        rw [this]
        rfl
      · have : (num - (num.toNat : Int)).toNat = 0 := by omega
        simp only [this, refPull, List.replicate_zero]
        rw [List.drop_eq_nil_of_le (by rw [List.length_replicate]; omega)]
    · have hk : b.length ≤ num.toNat := by omega
      have e : Silence.streamFn num b =
          ((⟨List.replicate b.length (Point.zero : P) ++ b.drop b.length,
            (b.length : Int), true⟩ : Pulled P), num - (b.length : Int)) := by
        unfold Silence.streamFn
        rw [if_neg hz]
        simp only [hlt, and_false, if_false]
        rw [if_pos (by omega)]
      rw [e, refPull_eq_min]
      refine ⟨?_, by omega, ?_⟩
      · have hm : min b.length (List.replicate num.toNat (Point.zero : P)).length
            = b.length := by
          rw [List.length_replicate]; omega
        rw [hm, List.take_replicate, Nat.min_eq_left hk]
        have : (List.replicate num.toNat (Point.zero : P)).isEmpty = false := by
          cases hn : num.toNat with
          | zero => omega
          | succ m => rfl
        rw [this]
        rfl
      · have : (num - (b.length : Int)).toNat = num.toNat - b.length := by omega
        simp only [this, refPull, List.drop_replicate]

theorem silence_hasContent {S P : Type} [Point S P] (bufs : List (List P))
    (hne : ∀ b ∈ bufs, b ≠ []) :
    ∀ num : Int, 0 ≤ num → trace Streamer.Stream (Silence num : Streamer P) bufs
      = refTrace (List.replicate num.toNat (Point.zero : P)) bufs := by
  induction bufs with
  | nil => intros; rfl
  | cons b bs ih =>
    intro num h0
    obtain ⟨e1, e2, e3⟩ := silence_pull_nonneg num h0 b (hne b (List.mem_cons_self _ _))
    show (Silence.streamFn num b).1 ::
        trace Streamer.Stream (Silence (Silence.streamFn num b).2 : Streamer P) bs = _
    rw [ih (fun x hx => hne x (List.mem_cons_of_mem _ hx)) _ e2, e1, e3]
    rfl

theorem silence_pull_neg {S P : Type} [Point S P] (num : Int) (h0 : num < 0) (b : List P) :
    (Silence num : Streamer P).Stream b =
      (⟨List.replicate b.length (Point.zero : P), (b.length : Int), true⟩, Silence num) := by
  rw [silence_stream_eq]
  have e : Silence.streamFn num b =
      ((⟨List.replicate b.length (Point.zero : P) ++ b.drop b.length,
        (b.length : Int), true⟩ : Pulled P), num) := by
    unfold Silence.streamFn
    rw [if_neg (by omega)]
    have h1 : ¬ (0 < num ∧ num < (b.length : Int)) := by omega
    simp only [h1, if_false]
    rw [if_neg (by omega)]
  rw [e, List.drop_eq_nil_of_le (le_refl _), List.append_nil]

theorem silence_take_trace {S P : Type} [Point S P] (num : Int) (h0 : num < 0)
    (bufs : List (List P)) (hne : ∀ b ∈ bufs, b ≠ []) :
    ∀ k : Int, trace take.Stream { s := (Silence num : Streamer P), remains := k } bufs
      = refTrace (List.replicate k.toNat (Point.zero : P)) bufs := by
  induction bufs with
  | nil => intros; rfl
  | cons b bs ih =>
    intro k
    have hb : b ≠ [] := hne b (List.mem_cons_self _ _)
    have hbs : ∀ x ∈ bs, x ≠ [] := fun x hx => hne x (List.mem_cons_of_mem _ hx)
    have hlen : 0 < b.length := List.length_pos.2 hb
    by_cases hk : k ≤ 0
    · have hk0 : k.toNat = 0 := by omega
      have e : take.Stream { s := (Silence num : Streamer P), remains := k } b
          = (⟨b, 0, false⟩, { s := Silence num, remains := k }) := by
        unfold take.Stream
        rw [if_pos hk]
      have := ih hbs k
      rw [hk0] at this ⊢
      simp only [trace, refTrace, e, this, List.replicate_zero, refPull_nil]
    · obtain ⟨t, ht⟩ : ∃ t : Nat, (if (b.length : Int) < k then (b.length : Int) else k)
          = (t : Int) ∧ t = min b.length k.toNat ∧ 0 < t := by
        by_cases hlt : (b.length : Int) < k
        · exact ⟨b.length, by rw [if_pos hlt], by omega, hlen⟩
        · exact ⟨k.toNat, by rw [if_neg hlt]; omega, by omega, by omega⟩
      obtain ⟨ht1, ht2, ht3⟩ := ht
      have e : take.Stream { s := (Silence num : Streamer P), remains := k } b
          = (⟨List.replicate t (Point.zero : P) ++ b.drop t, (t : Int), true⟩,
              { s := Silence num, remains := k - (t : Int) }) := by
        unfold take.Stream
        rw [if_neg hk]
        simp only [ht1, Int.toNat_ofNat, silence_pull_neg num h0, List.length_take]
        rw [Nat.min_eq_left (by omega)]
      have hrest := ih hbs (k - (t : Int))
      simp only [trace, refTrace, e, hrest]
      have hp : (refPull (List.replicate k.toNat (Point.zero : P)) b).1 =
          ⟨List.replicate t (Point.zero : P) ++ b.drop t, (t : Int), true⟩ := by
        rw [refPull_eq_min, List.length_replicate, ← ht2, List.take_replicate,
          Nat.min_eq_left (by omega)]
        have : (List.replicate k.toNat (Point.zero : P)).isEmpty = false := by
          cases hn : k.toNat with
          | zero => omega
          | succ m => rfl
        rw [this]
        rfl
      have hr : (refPull (List.replicate k.toNat (Point.zero : P)) b).2 =
          List.replicate (k - (t : Int)).toNat (Point.zero : P) := by
        simp only [refPull, List.drop_replicate]
        congr 1
        omega
      rw [hp, hr]

/-- C30: `Silence`. For `num ≥ 0`, `Silence(num)` is a contract-obeying finite stream
whose content is `num` zero samples: over any sequence of non-empty pulls the samples
collected are `num` zero samples cut at the number of slots requested, and every pull
after they are delivered returns 0 and false. For `num < 0` every pull of `N` slots sets
all `N` samples to the zero value and returns `N` and true, and the streamer is as
before. Hence `Take(5, Silence(-1))` returns what a stream of exactly 5 zero samples
returns: 5 zero samples, then 0 and false on every later pull. -/
theorem silence_zero {S P : Type} [Point S P] (num : Int) :
    (0 ≤ num →
      (Silence num : Streamer P).HasContent (List.replicate num.toNat (Point.zero : P)) ∧
      ∀ bufs : List (List P), (∀ b ∈ bufs, b ≠ []) →
        collected (trace Streamer.Stream (Silence num : Streamer P) bufs) =
          List.replicate (min num.toNat (totalSlots bufs)) (Point.zero : P) ∧
        (num.toNat ≤ totalSlots bufs → ∀ more : List (List P), (∀ b ∈ more, b ≠ []) →
          trace Streamer.Stream (after Streamer.Stream (Silence num : Streamer P) bufs) more
            = more.map (fun b => ⟨b, 0, false⟩))) ∧
    (num < 0 → ∀ samples : List P,
      (Silence num : Streamer P).Stream samples =
        (⟨List.replicate samples.length (Point.zero : P), (samples.length : Int), true⟩,
          Silence num)) ∧
    (∀ bufs : List (List P), (∀ b ∈ bufs, b ≠ []) →
      trace take.Stream (Take 5 (Silence (-1) : Streamer P)) bufs =
        refTrace (List.replicate 5 (Point.zero : P)) bufs ∧
      collected (trace take.Stream (Take 5 (Silence (-1) : Streamer P)) bufs) =
        List.replicate (min 5 (totalSlots bufs)) (Point.zero : P) ∧
      (5 ≤ totalSlots bufs → ∀ more : List (List P), (∀ b ∈ more, b ≠ []) →
        trace take.Stream (after take.Stream (Take 5 (Silence (-1) : Streamer P)) bufs) more
          = more.map (fun b => ⟨b, 0, false⟩))) := by
  refine ⟨fun h0 => ⟨fun bufs hne => silence_hasContent bufs hne num h0, fun bufs hne => ?_⟩,
    fun h0 samples => silence_pull_neg num h0 samples, fun bufs hne => ?_⟩
  · refine ⟨?_, fun hle more hmore => ?_⟩
    · rw [silence_hasContent bufs hne num h0, collected_refTrace, List.take_replicate,
        Nat.min_comm]
    · have hall : ∀ b ∈ bufs ++ more, b ≠ [] := by
        intro b hb
        rcases List.mem_append.1 hb with hb | hb
        · exact hne b hb
        · exact hmore b hb
      have h1 := silence_hasContent (bufs ++ more) hall num h0
      rw [trace_append, refTrace_append, silence_hasContent bufs hne num h0] at h1
      rw [List.append_cancel_left h1,
        List.drop_eq_nil_of_le (by rw [List.length_replicate]; exact hle), refTrace_nil]
  · have ht := silence_take_trace (-1 : Int) (by decide) bufs hne (5 : Int)
    refine ⟨ht, ?_, fun hle more hmore => ?_⟩
    · show collected (trace take.Stream { s := (Silence (-1) : Streamer P), remains := 5 } bufs)
        = _
      rw [ht, collected_refTrace, List.take_replicate, Nat.min_comm]
      rfl
    · have hall : ∀ b ∈ bufs ++ more, b ≠ [] := by
        intro b hb
        rcases List.mem_append.1 hb with hb | hb
        · exact hne b hb
        · exact hmore b hb
      have h1 := silence_take_trace (-1 : Int) (by decide) (bufs ++ more) hall (5 : Int)
      rw [trace_append, refTrace_append, ht] at h1
      show trace take.Stream (after take.Stream
        { s := (Silence (-1) : Streamer P), remains := 5 } bufs) more = _
      rw [List.append_cancel_left h1,
        List.drop_eq_nil_of_le (by rw [List.length_replicate]; exact hle), refTrace_nil]

/-- C25 on a child whose `Err` is non-nil: the wrappers report it, `Seq`, `Mix` and
`Mixer` do not. -/
theorem err_policy_witness :
    (truncatedStreamer ([] : List (Stereo ℚ)) 0).Err = true ∧
    (Take 3 (truncatedStreamer ([] : List (Stereo ℚ)) 0)).Err =
      (truncatedStreamer ([] : List (Stereo ℚ)) 0).Err ∧
    dup.Err DupHandle.u (Dup (truncatedStreamer ([] : List (Stereo ℚ)) 0)) =
      (truncatedStreamer ([] : List (Stereo ℚ)) 0).Err ∧
    Ctrl.Err ⟨some (truncatedStreamer ([] : List (Stereo ℚ)) 0), true⟩ =
      (truncatedStreamer ([] : List (Stereo ℚ)) 0).Err ∧
    (Seq [truncatedStreamer ([] : List (Stereo ℚ)) 0]).Err = false ∧
    (Mix [truncatedStreamer ([] : List (Stereo ℚ)) 0]).Err = false ∧
    Mixer.Err ⟨[truncatedStreamer ([] : List (Stereo ℚ)) 0]⟩ = false :=
  ⟨rfl, err_policy.2.1 3 _, err_policy.2.2.2.2.2.1 DupHandle.u _,
    err_policy.2.2.2.2.2.2.1 _ true, err_policy.2.2.2.2.2.2.2.2.1 _,
    err_policy.2.2.2.2.2.2.2.2.2.1 _, err_policy.2.2.2.2.2.2.2.2.2.2 _⟩

/-- C27 on a paused `Ctrl` over a stream of one sample, asked for two slots. -/
theorem ctrl_stream_witness :
    Ctrl.Stream (⟨some (dataStreamer [(⟨1, 1⟩ : Stereo ℚ)] 0).toStreamer, true⟩ : Ctrl (Stereo ℚ))
        [⟨2, 2⟩, ⟨3, 3⟩] =
      (⟨[⟨0, 0⟩, ⟨0, 0⟩], 2, true⟩, ⟨some (dataStreamer [(⟨1, 1⟩ : Stereo ℚ)] 0).toStreamer, true⟩) ∧
    trace Ctrl.Stream
        { Streamer := (after Ctrl.Stream
            (⟨some (dataStreamer [(⟨1, 1⟩ : Stereo ℚ)] 0).toStreamer, true⟩ : Ctrl (Stereo ℚ))
            [[⟨2, 2⟩, ⟨3, 3⟩]]).Streamer,
          Paused := false } [[⟨2, 2⟩, ⟨3, 3⟩]]
      = trace Streamer.Stream (dataStreamer [(⟨1, 1⟩ : Stereo ℚ)] 0).toStreamer [[⟨2, 2⟩, ⟨3, 3⟩]] :=
  ⟨ctrl_stream.2.1 _ _, ctrl_stream.2.2.1 _ _ _⟩

/-- C30 on `Silence(3)`, `Silence(-1)` and `Take(5, Silence(-1))` asked for 3 and 3
slots. -/
theorem silence_zero_witness :
    (Silence 3 : Streamer (Stereo ℚ)).HasContent
      (List.replicate (3 : Int).toNat (Point.zero : Stereo ℚ)) ∧
    (Silence (-1) : Streamer (Stereo ℚ)).Stream [⟨1, 1⟩, ⟨2, 2⟩] =
      (⟨List.replicate 2 (Point.zero : Stereo ℚ), 2, true⟩, Silence (-1)) ∧
    collected (trace take.Stream (Take 5 (Silence (-1) : Streamer (Stereo ℚ)))
        [[⟨1, 1⟩, ⟨2, 2⟩, ⟨3, 3⟩], [⟨1, 1⟩, ⟨2, 2⟩, ⟨3, 3⟩]]) =
      List.replicate (min 5 (totalSlots [[(⟨1, 1⟩ : Stereo ℚ), ⟨2, 2⟩, ⟨3, 3⟩],
        [⟨1, 1⟩, ⟨2, 2⟩, ⟨3, 3⟩]])) (Point.zero : Stereo ℚ) ∧
    trace take.Stream (after take.Stream (Take 5 (Silence (-1) : Streamer (Stereo ℚ)))
        [[⟨1, 1⟩, ⟨2, 2⟩, ⟨3, 3⟩], [⟨1, 1⟩, ⟨2, 2⟩, ⟨3, 3⟩]]) [[⟨1, 1⟩]] =
      [⟨[⟨1, 1⟩], 0, false⟩] :=
  ⟨((@silence_zero ℚ (Stereo ℚ) _ 3).1 (by decide)).1,
    (@silence_zero ℚ (Stereo ℚ) _ (-1)).2.1 (by decide) [⟨1, 1⟩, ⟨2, 2⟩],
    ((@silence_zero ℚ (Stereo ℚ) _ 0).2.2 _ (by simp)).2.1,
    ((@silence_zero ℚ (Stereo ℚ) _ 0).2.2 _ (by simp)).2.2 (by decide) [[⟨1, 1⟩]] (by simp)⟩

/-! ### Loop without end, and where Loop and Mix break the contract -/

/-- C22 fails on the code: `Loop(1, s)` over a seeker with the two samples `a`, `b`
(error-free, `Seek(0)` always succeeds), asked three times for two slots, returns 2 and
true, then 0 and true, then 0 and false. The second outcome, 0 and true on a request of
two slots, is none of the three return patterns. -/
theorem loop_zero_true {P : Type} (a b x y : P) :
    (dataStreamer [a, b] 0).Replays [a, b] [a, b] ∧
    traceO (loop.Stream 2) (Loop 1 (dataStreamer [a, b] 0)) [[x, y], [x, y], [x, y]] =
      some [⟨[a, b], 2, true⟩, ⟨[x, y], 0, true⟩, ⟨[x, y], 0, false⟩] ∧
    ¬ Legal [(⟨[a, b], 2, true⟩ : Pulled P), ⟨[x, y], 0, true⟩, ⟨[x, y], 0, false⟩] := by
  refine ⟨dataStreamer_replays _, rfl, ?_⟩
  simp [Legal, Pulled.Full, Pulled.Short, Pulled.Drained]

theorem loop_body_spins {P : Type} (x : P) :
    ∀ fuel : Nat, loop.body fuel (dataStreamer ([] : List P) 0) (-1) [] [x] 0 = none
  | 0 => rfl
  | fuel + 1 => loop_body_spins x fuel

theorem loop_empty_spins {P : Type} (x : P) (fuel : Nat) :
    loop.Stream fuel (Loop (-1) (dataStreamer ([] : List P) 0)) [x] = none :=
  loop_body_spins x fuel

/-- C29 fails on the code: a `Loop` over a seeker with the one sample `a` whose `Seek`
fails, asked three times for two slots. The first pull returns the sample and 1 and true.
With the count -1 every later pull returns 0 and true, never 0 and false; with the
count 2 the second pull returns 0 and true and only the third 0 and false. -/
theorem loop_seek_failure {P : Type} (a x y : P) :
    traceO (loop.Stream 2) (Loop (-1) (unseekableStreamer [a] 0)) [[x, y], [x, y], [x, y]] =
      some [⟨[a, y], 1, true⟩, ⟨[x, y], 0, true⟩, ⟨[x, y], 0, true⟩] ∧
    (∀ fuel : Nat, loop.Stream (fuel + 1) { s := unseekableStreamer [a] 1, remains := -1 } [x, y] =
      some (⟨[x, y], 0, true⟩, { s := unseekableStreamer [a] 1, remains := -1 })) ∧
    traceO (loop.Stream 2) (Loop 2 (unseekableStreamer [a] 0)) [[x, y], [x, y], [x, y]] =
      some [⟨[a, y], 1, true⟩, ⟨[x, y], 0, true⟩, ⟨[x, y], 0, false⟩] :=
  ⟨rfl, fun _ => rfl, rfl⟩

set_option maxRecDepth 100000 in
theorem mix_one_sample (a b : ℚ) (x y z : Stereo ℚ) :
    (MixState.Stream (Mix [(dataStreamer [(⟨a, b⟩ : Stereo ℚ)] 0).toStreamer]) [x, y, z]).map
        Prod.fst = some ⟨[⟨0 + a, 0 + b⟩, ⟨0, 0⟩, ⟨0, 0⟩], 1, true⟩ :=
  rfl

/-- C26 fails on the code for `Mix`: over one stream with the single sample (1, 1), asked
for three slots that hold (5, 5), (6, 6), (7, 7), it returns 1 and true and leaves
(1, 1), (0, 0), (0, 0) in the slice: `samples[1:]` is not what it was. The child is a
contract-obeying stream, and its own call leaves the slots behind its count alone. -/
theorem mix_clears_beyond :
    (dataStreamer [(⟨1, 1⟩ : Stereo ℚ)] 0).toStreamer.HasContent [⟨1, 1⟩] ∧
    ((dataStreamer [(⟨1, 1⟩ : Stereo ℚ)] 0).toStreamer.Stream [⟨5, 5⟩, ⟨6, 6⟩, ⟨7, 7⟩]).1 =
      ⟨[⟨1, 1⟩, ⟨6, 6⟩, ⟨7, 7⟩], 1, true⟩ ∧
    (MixState.Stream (Mix [(dataStreamer [(⟨1, 1⟩ : Stereo ℚ)] 0).toStreamer])
        [⟨5, 5⟩, ⟨6, 6⟩, ⟨7, 7⟩]).map Prod.fst =
      some ⟨[⟨1, 1⟩, ⟨0, 0⟩, ⟨0, 0⟩], 1, true⟩ ∧
    List.drop 1 [(⟨1, 1⟩ : Stereo ℚ), ⟨0, 0⟩, ⟨0, 0⟩] ≠ List.drop 1 [⟨5, 5⟩, ⟨6, 6⟩, ⟨7, 7⟩] := by
  refine ⟨dataStreamer_hasContent _, rfl, ?_, ?_⟩
  · rw [mix_one_sample 1 1]
    norm_num
  · intro h
    simp only [List.drop_succ_cons, List.drop_zero, List.cons.injEq, Stereo.mk.injEq] at h
    norm_num at h

theorem loop.body_neg {P : Type} (d : List P) (hd : d ≠ []) (c : Int) (hc : c < 0)
    (fuel : Nat) :
    ∀ (s : StreamSeeker P) (filled samples : List P) (n : Int) (r : List P),
      s.Replays d r → 2 * samples.length + (if r.isEmpty then 1 else 0) ≤ fuel →
      ∃ (X : List P) (s1 : StreamSeeker P) (r1 : List P),
        loop.body fuel s c filled samples n =
          some (⟨filled ++ X, n + (samples.length : Int), true⟩, { s := s1, remains := c }) ∧
        X.length = samples.length ∧ s1.Replays d r1 := by
  induction fuel with
  | zero =>
    intro s filled samples n r hs hfuel
    have hs0 : samples = [] := List.length_eq_zero.1 (by omega)
    subst hs0
    refine ⟨[], s, r, ?_, rfl, hs⟩
    unfold loop.body
    simp
  | succ fuel ih =>
    intro s filled samples n r hs hfuel
    by_cases hlen : 0 < samples.length
    · have hne : samples ≠ [] := List.length_pos.1 hlen
      obtain ⟨h1, h2⟩ := hs.pull hne
      set p := s.Stream samples with hpdef
      have hok : p.1.ok = !r.isEmpty := by rw [h1]; rfl
      unfold loop.body
      rw [if_pos hlen]
      simp only
      rw [← hpdef, hok]
      cases r with
      | nil =>
        have hsm : p.1.samples = samples := by rw [h1]; simp [refPull]
        rw [refPull_nil] at h2
        simp only [List.isEmpty_nil, Bool.not_true, Bool.not_false, if_true, hsm]
        have hc1 : ¬ c > 0 := by omega
        have hc2 : ¬ c = 0 := by omega
        obtain ⟨e1, e2⟩ := h2.seek
        simp only [hc1, hc2, if_false, e1, Bool.false_eq_true]
        have hdne : d.isEmpty = false := by
          cases d with
          | nil => exact absurd rfl hd
          | cons y ys => rfl
        exact ih _ filled samples n d e2 (by
          rw [hdne]
          simp only [List.isEmpty_nil, if_true] at hfuel
          simp only [Bool.false_eq_true, if_false]
          omega)
      | cons x xs =>
        simp only [List.isEmpty_cons, Bool.not_false, Bool.not_true, Bool.false_eq_true, if_false]
        obtain ⟨m, hm⟩ : ∃ m, m = min samples.length (x :: xs).length := ⟨_, rfl⟩
        have hm1 : m ≤ samples.length := hm ▸ Nat.min_le_left _ _
        have hm3 : 0 < m := by
          rw [hm]; exact Nat.lt_min.2 ⟨hlen, by simp⟩
        have hn1 : p.1.n = (m : Int) := by rw [h1, hm]; rfl
        have hplen : p.1.samples.length = samples.length := by
          rw [h1]; exact length_refPull _ _
        have hslice : sliceFrom p.1.samples p.1.n = some (samples.drop m) := by
          rw [hn1, sliceFrom_ofNat _ (by omega), h1, hm, refPull_samples_drop]
        rw [hslice]
        simp only
        rw [hn1]
        obtain ⟨X, s1, r1, a1, a2, a3⟩ := ih p.2 (filled ++ p.1.samples.take (m : Int).toNat)
          (samples.drop m) (n + m) _ h2 (by
            rw [List.length_drop]
            split <;> omega)
        refine ⟨p.1.samples.take (m : Int).toNat ++ X, s1, r1, ?_, ?_, a3⟩
        · rw [a1, List.append_assoc, List.length_drop]
          congr 3
          rw [Nat.cast_sub hm1]
          ring
        · rw [List.length_append, a2, List.length_take, List.length_drop, Int.toNat_ofNat,
            hplen]
          omega
    · have hs0 : samples = [] := List.length_eq_zero.1 (by omega)
      subst hs0
      refine ⟨[], s, r, ?_, rfl, hs⟩
      unfold loop.body
      simp

theorem loop.stream_neg {P : Type} (d : List P) (hd : d ≠ []) (fuel : Nat) (l : loop P)
    (hc : l.remains < 0) (r : List P) (hs : l.s.Replays d r) (samples : List P)
    (hfuel : 2 * samples.length + 1 ≤ fuel) :
    ∃ (X : List P) (l1 : loop P) (r1 : List P),
      loop.Stream fuel l samples = some (⟨X, (samples.length : Int), true⟩, l1) ∧
      X.length = samples.length ∧ l1.remains = l.remains ∧ l1.s.Replays d r1 := by
  obtain ⟨X, s1, r1, a1, a2, a3⟩ := loop.body_neg d hd l.remains hc fuel l.s [] samples 0 r hs
    (by split <;> omega)
  have hne : ¬ (l.remains = 0 ∨ l.s.Err = true) := by
    rw [hs.err]; simp; omega
  refine ⟨X, { s := s1, remains := l.remains }, r1, ?_, a2, rfl, a3⟩
  rw [loop.Stream, if_neg hne, a1]
  simp

theorem loop.trace_neg {P : Type} (d : List P) (hd : d ≠ []) (fuel : Nat)
    (bufs : List (List P)) :
    ∀ (l : loop P) (r : List P), l.remains < 0 → l.s.Replays d r →
      (∀ b ∈ bufs, 2 * b.length + 1 ≤ fuel) →
      ∃ rs : List (Pulled P), traceO (loop.Stream fuel) l bufs = some rs ∧
        List.Forall₂ (fun (b : List P) (x : Pulled P) =>
          x.n = (b.length : Int) ∧ x.ok = true ∧ x.samples.length = b.length) bufs rs := by
  induction bufs with
  | nil => intro l r _ _ _; exact ⟨[], rfl, List.Forall₂.nil⟩
  | cons b bs ih =>
    intro l r hc hs hf
    obtain ⟨X, l1, r1, a1, a2, a3, a4⟩ :=
      loop.stream_neg d hd fuel l hc r hs b (hf b (List.mem_cons_self _ _))
    obtain ⟨rs, b1, b2⟩ := ih l1 r1 (by omega) a4 (fun x hx => hf x (List.mem_cons_of_mem _ hx))
    refine ⟨⟨X, (b.length : Int), true⟩ :: rs, ?_, List.Forall₂.cons ⟨rfl, rfl, a2⟩ b2⟩
    simp only [traceO, a1, b1]

/-- C28: for every negative count and every error-free seekable child with at least one
sample whose `Seek(0)` always succeeds, every pull of `N` slots on `Loop(count, s)`
(given fuel for `2 * N + 1` rounds of its loop) returns `N` and true, in whatever state
the child is: `remains` is afterwards what it was, negative, and the child is such a
seeker again. So on every sequence of pulls each outcome is `N` and true: the loop never
reports drained and never returns a short count. -/
theorem loop_forever {P : Type} (count : Int) (hc : count < 0) (s : StreamSeeker P)
    (d : List P) (hd : 1 ≤ d.length) (r : List P) (hs : s.Replays d r) (fuel : Nat) :
    (∀ samples : List P, 2 * samples.length + 1 ≤ fuel →
      ∃ (X : List P) (l1 : loop P) (r1 : List P),
        loop.Stream fuel { s := s, remains := count } samples =
          some (⟨X, (samples.length : Int), true⟩, l1) ∧
        X.length = samples.length ∧ l1.remains = count ∧ l1.s.Replays d r1) ∧
    (r = d → ∀ bufs : List (List P), (∀ b ∈ bufs, 2 * b.length + 1 ≤ fuel) →
      ∃ rs : List (Pulled P), traceO (loop.Stream fuel) (Loop count s) bufs = some rs ∧
        List.Forall₂ (fun (b : List P) (x : Pulled P) =>
          x.n = (b.length : Int) ∧ x.ok = true ∧ x.samples.length = b.length) bufs rs) := by
  have hd2 : d ≠ [] := by
    intro h
    rw [h] at hd
    exact absurd hd (Nat.not_succ_le_zero 0)
  refine ⟨fun samples hf => ?_, fun hr bufs hf => ?_⟩
  · exact loop.stream_neg d hd2 fuel { s := s, remains := count } hc r hs samples hf
  · exact loop.trace_neg d hd2 fuel bufs (Loop count s) r hc hs hf

/-- C28 on `Loop(-1, s)` over a seeker with the two samples 1, 2, asked for 3 and 3
slots. -/
theorem loop_forever_witness :
    ∃ rs : List (Pulled Nat),
      traceO (loop.Stream 7) (Loop (-1) (dataStreamer [1, 2] 0)) [[0, 0, 0], [0, 0, 0]]
        = some rs ∧
      List.Forall₂ (fun (b : List Nat) (x : Pulled Nat) =>
        x.n = (b.length : Int) ∧ x.ok = true ∧ x.samples.length = b.length)
        [[0, 0, 0], [0, 0, 0]] rs :=
  (loop_forever (-1) (by decide) (dataStreamer [1, 2] 0) [1, 2] (by decide) [1, 2]
    (dataStreamer_replays _) 7).2 rfl [[0, 0, 0], [0, 0, 0]] (by decide)

/-! ### Wrappers around a child that has failed -/

theorem Streamer.Faulted.faulted_step {P : Type} {s : Streamer P} (h : s.Faulted) (b : List P) :
    (s.Stream b).1.Drained ∧ (s.Stream b).2.Faulted :=
  ⟨h [b] _ (List.mem_cons_self _ _),
    fun bufs x hx => h (b :: bufs) x (List.mem_cons_of_mem _ hx)⟩

theorem Streamer.ErrDrains.errDrains_step {P : Type} {s : Streamer P} (h : s.ErrDrains) (b : List P) :
    (s.Stream b).2.ErrDrains :=
  fun pre he => h (b :: pre) he

theorem Streamer.ErrDrains.faulted {P : Type} {s : Streamer P} (h : s.ErrDrains)
    (he : s.Err = true) : s.Faulted :=
  h [] he

theorem truncatedStreamer_stream {P : Type} (data : List P) (pos : Nat) (b : List P) :
    ∃ pos1 : Nat, ((truncatedStreamer data pos).Stream b).2 = truncatedStreamer data pos1 ∧
      (data.length ≤ pos → ((truncatedStreamer data pos).Stream b).1 = ⟨b, 0, false⟩ ∧
        pos1 = pos) := by
  by_cases hp : pos ≥ data.length
  · refine ⟨pos, ?_, fun _ => ⟨?_, rfl⟩⟩
    · show ({ truncatedStreamer data pos with
        st := (dataStreamer.streamFn (data, pos) b).2 } : Streamer P) = _
      simp only [dataStreamer.streamFn, hp, if_true]
      rfl
    · show (dataStreamer.streamFn (data, pos) b).1 = _
      simp only [dataStreamer.streamFn, hp, if_true]
  · refine ⟨pos + (copy b (data.drop pos)).2, ?_, fun h => absurd h hp⟩
    show ({ truncatedStreamer data pos with
      st := (dataStreamer.streamFn (data, pos) b).2 } : Streamer P) = _
    simp only [dataStreamer.streamFn, hp, if_false]
    rfl

theorem truncatedStreamer_faulted {P : Type} (data : List P) (bufs : List (List P)) :
    ∀ pos : Nat, data.length ≤ pos →
      ∀ x ∈ trace Streamer.Stream (truncatedStreamer data pos) bufs, x.Drained := by
  induction bufs with
  | nil => intro pos _ x hx; exact absurd hx (List.not_mem_nil _)
  | cons b bs ih =>
    intro pos hp x hx
    obtain ⟨pos1, e1, e2⟩ := truncatedStreamer_stream data pos b
    obtain ⟨e3, e4⟩ := e2 hp
    simp only [trace, e1, e3, e4, List.mem_cons] at hx
    rcases hx with rfl | hx
    · exact ⟨rfl, rfl⟩
    · exact ih pos hp x hx

theorem truncatedStreamer_errDrains {P : Type} (data : List P) (pos : Nat) :
    (truncatedStreamer data pos).ErrDrains := by
  intro pre
  induction pre generalizing pos with
  | nil =>
    intro he bufs x hx
    have hp : data.length ≤ pos := by
      have : decide (pos ≥ data.length) = true := he
      simpa using this
    exact truncatedStreamer_faulted data bufs pos hp x hx
  | cons b bs ih =>
    obtain ⟨pos1, e1, -⟩ := truncatedStreamer_stream data pos b
    show (after Streamer.Stream ((truncatedStreamer data pos).Stream b).2 bs).Err = true →
      (after Streamer.Stream ((truncatedStreamer data pos).Stream b).2 bs).Faulted
    rw [e1]
    exact ih pos1

theorem take_faulted {P : Type} (bufs : List (List P)) :
    ∀ t : take P, t.s.Faulted → ∀ x ∈ trace take.Stream t bufs, x.Drained := by
  induction bufs with
  | nil => intro t _ x hx; exact absurd hx (List.not_mem_nil _)
  | cons b bs ih =>
    intro t ht x hx
    by_cases hk : t.remains ≤ 0
    · have e : take.Stream t b = (⟨b, 0, false⟩, t) := by
        unfold take.Stream
        rw [if_pos hk]
      simp only [trace, e, List.mem_cons] at hx
      rcases hx with rfl | hx
      · exact ⟨rfl, rfl⟩
      · exact ih t ht x hx
    · obtain ⟨c, hc⟩ : ∃ c : List P, c = b.take (if (b.length : Int) < t.remains
          then (b.length : Int) else t.remains).toNat := ⟨_, rfl⟩
      have e : take.Stream t b =
          (⟨(t.s.Stream c).1.samples ++ b.drop (if (b.length : Int) < t.remains
              then (b.length : Int) else t.remains).toNat,
            (t.s.Stream c).1.n, (t.s.Stream c).1.ok⟩,
            { s := (t.s.Stream c).2, remains := t.remains - (t.s.Stream c).1.n }) := by
        unfold take.Stream
        rw [if_neg hk, hc]
      obtain ⟨d1, d2⟩ := ht.faulted_step c
      simp only [trace, e, List.mem_cons] at hx
      rcases hx with rfl | hx
      · exact d1
      · exact ih _ d2 x hx

theorem loop_faulted {P : Type} (l : loop P) (he : l.Err = true) (fuel : Nat)
    (bufs : List (List P)) :
    traceO (loop.Stream fuel) l bufs = some (bufs.map (fun b => ⟨b, 0, false⟩)) := by
  have e : ∀ b : List P, loop.Stream fuel l b = some (⟨b, 0, false⟩, l) := by
    intro b
    unfold loop.Stream
    rw [if_pos (Or.inr (show l.s.Err = true from he))]
  induction bufs with
  | nil => rfl
  | cons b bs ih => simp only [traceO, e, ih, List.map_cons]

theorem dup_faulted {P : Type} (h : DupHandle) (calls : List (DupHandle × List P)) :
    ∀ q : DupState P, q.s.Faulted → q.myBuf h = [] →
      ∃ rs : List (DupHandle × Pulled P), dupTrace q calls = some rs ∧
        ∀ x ∈ rs, x.1 = h → x.2.Drained := by
  induction calls with
  | nil => intro q _ _; exact ⟨[], rfl, fun x hx => absurd hx (List.not_mem_nil _)⟩
  | cons c cs ih =>
    intro q hq hb
    obtain ⟨g, b⟩ := c
    -- one call of handle `g`: it does not fault, leaves the child faulted and the queue
    -- of `h` empty, and returns 0 and false when `g` is `h`
    have key : ∃ (r : Pulled P) (q2 : DupState P), dup.Stream g q b = some (r, q2) ∧
        q2.s.Faulted ∧ q2.myBuf h = [] ∧ (g = h → r.Drained) := by
      obtain ⟨d1, d2⟩ := hq.faulted_step
        ((copy b (q.myBuf g)).1.drop (copy b (q.myBuf g)).2)
      have hs1 : (q.setMyBuf g ((q.myBuf g).drop (copy b (q.myBuf g)).2)).s = q.s :=
        DupState.s_setMyBuf _ _ _
      by_cases hrest : 0 < ((copy b (q.myBuf g)).1.drop (copy b (q.myBuf g)).2).length
      · have hn : (q.s.Stream ((copy b (q.myBuf g)).1.drop (copy b (q.myBuf g)).2)).1.n = 0 :=
          d1.1
        have hok : (q.s.Stream ((copy b (q.myBuf g)).1.drop (copy b (q.myBuf g)).2)).1.ok
            = false := d1.2
        have e : dup.Stream g q b = some
            (⟨(copy b (q.myBuf g)).1.take (copy b (q.myBuf g)).2 ++
                (q.s.Stream ((copy b (q.myBuf g)).1.drop (copy b (q.myBuf g)).2)).1.samples,
              ((copy b (q.myBuf g)).2 : Int) + 0,
              decide (0 < (q.myBuf g).length) || false⟩,
              ((q.setMyBuf g ((q.myBuf g).drop (copy b (q.myBuf g)).2)).setS
                (q.s.Stream ((copy b (q.myBuf g)).1.drop (copy b (q.myBuf g)).2)).2).setMyBuf
                g.other ((q.setMyBuf g ((q.myBuf g).drop (copy b (q.myBuf g)).2)).myBuf g.other
                  ++ [])) := by
          unfold dup.Stream
          simp only
          rw [if_pos hrest, hs1, hn, hok]
          simp [sliceTo]
        refine ⟨_, _, e, ?_, ?_, ?_⟩
        · rw [DupState.s_setMyBuf, DupState.s_setS]
          exact d2
        · rcases DupHandle.eq_or_other g h with hg | hg
          · subst hg
            rw [DupState.myBuf_setMyBuf_other2, DupState.myBuf_with_s,
              DupState.myBuf_setMyBuf, hb, List.drop_nil]
          · subst hg
            rw [DupState.myBuf_setMyBuf, List.append_nil, DupState.myBuf_setMyBuf_other, hb]
        · intro hg
          subst hg
          rw [hb]
          exact ⟨by simp [copy], by simp⟩
      · have e : dup.Stream g q b = some
            (⟨(copy b (q.myBuf g)).1, ((copy b (q.myBuf g)).2 : Int),
              decide (0 < (q.myBuf g).length)⟩,
              q.setMyBuf g ((q.myBuf g).drop (copy b (q.myBuf g)).2)) := by
          unfold dup.Stream
          simp only
          rw [if_neg hrest]
        refine ⟨_, _, e, ?_, ?_, ?_⟩
        · rw [DupState.s_setMyBuf]
          exact hq
        · rcases DupHandle.eq_or_other g h with hg | hg
          · subst hg
            rw [DupState.myBuf_setMyBuf, hb, List.drop_nil]
          · subst hg
            rw [DupState.myBuf_setMyBuf_other, hb]
        · intro hg
          subst hg
          rw [hb]
          exact ⟨by simp [copy], by simp⟩
    obtain ⟨r, q2, e1, e2, e3, e4⟩ := key
    obtain ⟨rs, f1, f2⟩ := ih q2 e2 e3
    refine ⟨(g, r) :: rs, ?_, ?_⟩
    · simp only [dupTrace, e1, f1]
    · intro x hx hxh
      rcases List.mem_cons.1 hx with rfl | hx
      · exact e4 hxh
      · exact f2 x hx hxh

/-- The wrappers that do follow the rule of `Err`. Around a child that obeys the rule
(whenever its `Err` is non-nil, every call from then on returns 0 and false; the child's
own calls keep that rule), in every state in which the wrapper's `Err` is non-nil: a
`take` and a `loop` return 0 and false on every request, now and on every later call; so
does a `dup` handle whose queue is empty, on each of its calls in any serialized sequence
of calls on the two handles; and so does a `Ctrl` that is not paused, for as long as it is
left un-paused with that child. -/
theorem err_then_drained {S P : Type} [Point S P] :
    (∀ (s : Streamer P) (b : List P), s.ErrDrains → (s.Stream b).2.ErrDrains) ∧
    (∀ t : take P, t.s.ErrDrains → t.Err = true →
      ∀ bufs : List (List P), ∀ x ∈ trace take.Stream t bufs, x.Drained) ∧
    (∀ l : loop P, l.Err = true → ∀ (fuel : Nat) (bufs : List (List P)),
      traceO (loop.Stream fuel) l bufs = some (bufs.map (fun b => ⟨b, 0, false⟩))) ∧
    (∀ (h : DupHandle) (q : DupState P), q.s.ErrDrains → dup.Err h q = true →
      q.myBuf h = [] → ∀ calls : List (DupHandle × List P),
        ∃ rs : List (DupHandle × Pulled P), dupTrace q calls = some rs ∧
          ∀ x ∈ rs, x.1 = h → x.2.Drained) ∧
    (∀ s : Streamer P, s.ErrDrains → Ctrl.Err ⟨some s, false⟩ = true →
      ∀ bufs : List (List P),
        ∀ x ∈ trace Ctrl.Stream (⟨some s, false⟩ : Ctrl P) bufs, x.Drained) := by
  refine ⟨fun s b hs => hs.errDrains_step b, fun t hs he bufs => ?_, fun l he fuel bufs => ?_,
    fun h q hs he hb calls => ?_, fun s hs he bufs => ?_⟩
  · exact take_faulted bufs t (hs.faulted he)
  · exact loop_faulted l he fuel bufs
  · exact dup_faulted h calls q (hs.faulted he) hb
  · rw [ctrl_running_trace]
    exact hs.faulted he bufs

/-- On a child that has failed, `truncatedStreamer` without data: `Take`, a `Dup` handle
(the queues are empty) and an un-paused `Ctrl` over it return 0 and false. -/
theorem err_then_drained_witness :
    (truncatedStreamer ([] : List (Stereo ℚ)) 0).ErrDrains ∧
    (Take 3 (truncatedStreamer ([] : List (Stereo ℚ)) 0)).Err = true ∧
    (∀ x ∈ trace take.Stream (Take 3 (truncatedStreamer ([] : List (Stereo ℚ)) 0))
        [[⟨1, 1⟩], [⟨1, 1⟩]], x.Drained) ∧
    (∃ rs : List (DupHandle × Pulled (Stereo ℚ)),
      dupTrace (Dup (truncatedStreamer ([] : List (Stereo ℚ)) 0))
        [(DupHandle.t, [⟨1, 1⟩]), (DupHandle.u, [⟨1, 1⟩])] = some rs ∧
      ∀ x ∈ rs, x.1 = DupHandle.u → x.2.Drained) ∧
    (∀ x ∈ trace Ctrl.Stream
        (⟨some (truncatedStreamer ([] : List (Stereo ℚ)) 0), false⟩ : Ctrl (Stereo ℚ))
        [[⟨1, 1⟩], [⟨1, 1⟩]], x.Drained) :=
  ⟨truncatedStreamer_errDrains _ _, rfl,
    (@err_then_drained ℚ (Stereo ℚ) _).2.1 (Take 3 (truncatedStreamer [] 0))
      (truncatedStreamer_errDrains _ _) rfl _,
    (@err_then_drained ℚ (Stereo ℚ) _).2.2.2.1 DupHandle.u (Dup (truncatedStreamer [] 0))
      (truncatedStreamer_errDrains _ _) rfl rfl _,
    (@err_then_drained ℚ (Stereo ℚ) _).2.2.2.2 (truncatedStreamer [] 0)
      (truncatedStreamer_errDrains _ _) rfl _⟩

/-- C24 fails on the code in two of the wrappers. A paused `Ctrl` over a child that has
failed has a non-nil `Err` and its `Stream` returns silence, 1 and true. After handle `t`
of a `Dup` has pulled the one sample of a child that fails when its data runs out, `Err`
of handle `u` is non-nil and its next `Stream` returns the sample from its queue, 1 and
true. -/
theorem err_wrapper_not_drained :
    (truncatedStreamer ([] : List (Stereo ℚ)) 0).ErrDrains ∧
    Ctrl.Err ⟨some (truncatedStreamer ([] : List (Stereo ℚ)) 0), true⟩ = true ∧
    (Ctrl.Stream (⟨some (truncatedStreamer ([] : List (Stereo ℚ)) 0), true⟩ : Ctrl (Stereo ℚ))
        [⟨1, 1⟩]).1 = ⟨[⟨0, 0⟩], 1, true⟩ ∧
    (truncatedStreamer [(⟨7, 7⟩ : Stereo ℚ)] 0).ErrDrains ∧
    (dup.Stream DupHandle.t (Dup (truncatedStreamer [(⟨7, 7⟩ : Stereo ℚ)] 0))
        [⟨1, 1⟩, ⟨2, 2⟩]).map (fun r => (r.1, dup.Err DupHandle.u r.2)) =
      some (⟨[⟨7, 7⟩, ⟨2, 2⟩], 1, true⟩, true) ∧
    dupTrace (Dup (truncatedStreamer [(⟨7, 7⟩ : Stereo ℚ)] 0))
        [(DupHandle.t, [⟨1, 1⟩, ⟨2, 2⟩]), (DupHandle.u, [⟨1, 1⟩])] =
      some [(DupHandle.t, ⟨[⟨7, 7⟩, ⟨2, 2⟩], 1, true⟩), (DupHandle.u, ⟨[⟨7, 7⟩], 1, true⟩)] :=
  ⟨truncatedStreamer_errDrains _ _, rfl, rfl, truncatedStreamer_errDrains _ _, rfl, rfl⟩

/-! ### The pull contract kept by Take, Seq, Mix and Dup -/

theorem Streamer.length_stream {P : Type} (s : Streamer P) (b : List P) :
    (s.Stream b).1.samples.length = b.length :=
  s.len_samples _ _

theorem legal_of_drained {P : Type} (rs : List (Pulled P)) (h : ∀ x ∈ rs, x.Drained) :
    Legal rs := by
  cases rs with
  | nil => exact trivial
  | cons r rs =>
    exact Or.inr ⟨Or.inr (h r (List.mem_cons_self _ _)),
      fun x hx => h x (List.mem_cons_of_mem _ hx)⟩

theorem legal_full_cons {P : Type} {r : Pulled P} {rs : List (Pulled P)} (hr : r.Full)
    (h : Legal rs) : Legal (r :: rs) :=
  Or.inl ⟨hr, h⟩

theorem legal_last_cons {P : Type} {r : Pulled P} {rs : List (Pulled P)}
    (hr : r.Short ∨ r.Drained) (h : ∀ x ∈ rs, x.Drained) : Legal (r :: rs) :=
  Or.inr ⟨hr, h⟩

theorem Streamer.Dead.dead_step {P : Type} {s : Streamer P} (h : s.Dead) {b : List P} (hb : b ≠ []) :
    (s.Stream b).1.Drained ∧ (s.Stream b).2.Dead := by
  constructor
  · exact h [b] (by simpa using hb) _ (List.mem_cons_self _ _)
  · intro bufs hbufs x hx
    refine h (b :: bufs) ?_ x (List.mem_cons_of_mem _ hx)
    intro y hy
    rcases List.mem_cons.1 hy with rfl | hy
    · exact hb
    · exact hbufs y hy

theorem Streamer.Dead.dead_obeys {P : Type} {s : Streamer P} (h : s.Dead) : s.Obeys :=
  fun bufs hbufs => legal_of_drained _ (h bufs hbufs)

theorem Streamer.Obeys.obeys_step {P : Type} {s : Streamer P} (h : s.Obeys) {b : List P}
    (hb : b ≠ []) :
    ((s.Stream b).1.Full ∧ (s.Stream b).2.Obeys) ∨
      (((s.Stream b).1.Short ∨ (s.Stream b).1.Drained) ∧ (s.Stream b).2.Dead) := by
  have hlen : 0 < (s.Stream b).1.samples.length := by
    rw [Streamer.length_stream]
    exact List.length_pos.2 hb
  have hall : ∀ bufs : List (List P), (∀ x ∈ bufs, x ≠ []) → ∀ y ∈ b :: bufs, y ≠ [] := by
    intro bufs hbufs y hy
    rcases List.mem_cons.1 hy with rfl | hy
    · exact hb
    · exact hbufs y hy
  by_cases hf : (s.Stream b).1.Full
  · refine Or.inl ⟨hf, fun bufs hbufs => ?_⟩
    rcases h (b :: bufs) (hall bufs hbufs) with ⟨-, h2⟩ | ⟨h1, h2⟩
    · exact h2
    · exact legal_of_drained _ h2
  · have h0 := h [b] (hall [] (fun x hx => absurd hx (List.not_mem_nil _)))
    rcases h0 with ⟨h1, -⟩ | ⟨h1, -⟩
    · exact absurd h1 hf
    · refine Or.inr ⟨h1, fun bufs hbufs => ?_⟩
      rcases h (b :: bufs) (hall bufs hbufs) with ⟨h3, -⟩ | ⟨-, h4⟩
      · exact absurd h3 hf
      · exact h4

theorem refTrace_legal {P : Type} (bufs : List (List P)) (hne : ∀ b ∈ bufs, b ≠ []) :
    ∀ d : List P, Legal (refTrace d bufs) := by
  induction bufs with
  | nil => intro d; exact trivial
  | cons b bs ih =>
    intro d
    have hb : 0 < b.length := List.length_pos.2 (hne b (List.mem_cons_self _ _))
    have hbs : ∀ x ∈ bs, x ≠ [] := fun x hx => hne x (List.mem_cons_of_mem _ hx)
    by_cases hle : b.length ≤ d.length
    · refine legal_full_cons ?_ (ih hbs _)
      have hd : d.isEmpty = false := by
        cases d with
        | nil =>
          have : b.length ≤ 0 := hle
          omega
        | cons x xs => rfl
      rw [refPull_eq_min]
      refine ⟨?_, by rw [hd]; rfl⟩
      show ((min b.length d.length : Nat) : Int) = _
      rw [List.length_append, List.length_take, List.length_drop]
      congr 1
      omega
    · have hrest : (refPull d b).2 = [] := by
        simp only [refPull]
        exact List.drop_eq_nil_of_le (by omega)
      refine legal_last_cons ?_ ?_
      · rw [refPull_eq_min]
        have hsl : (d.take (min b.length d.length)
            ++ b.drop (min b.length d.length)).length = b.length := by
          rw [List.length_append, List.length_take, List.length_drop]
          omega
        cases d with
        | nil => exact Or.inr ⟨by simp, rfl⟩
        | cons x xs =>
          refine Or.inl ⟨?_, ?_, rfl⟩
          · show (0 : Int) < ((min b.length (x :: xs).length : Nat) : Int)
            have : 0 < min b.length (x :: xs).length := Nat.lt_min.2 ⟨hb, by simp⟩
            exact_mod_cast this
          · show ((min b.length (x :: xs).length : Nat) : Int) < _
            rw [hsl]
            have : min b.length (x :: xs).length < b.length := by omega
            exact_mod_cast this
      · show ∀ x ∈ refTrace (refPull d b).2 bs, x.Drained
        rw [hrest, refTrace_nil]
        intro x hx
        obtain ⟨y, -, rfl⟩ := List.mem_map.1 hx
        exact ⟨rfl, rfl⟩

theorem Streamer.HasContent.content_obeys {P : Type} {s : Streamer P} {d : List P}
    (h : s.HasContent d) : s.Obeys := by
  intro bufs hbufs
  rw [h bufs hbufs]
  exact refTrace_legal bufs hbufs d

theorem take_dead {P : Type} (bufs : List (List P)) (hne : ∀ b ∈ bufs, b ≠ []) :
    ∀ t : take P, t.remains ≤ 0 ∨ t.s.Dead → ∀ x ∈ trace take.Stream t bufs, x.Drained := by
  induction bufs with
  | nil => intro t _ x hx; exact absurd hx (List.not_mem_nil _)
  | cons b bs ih =>
    intro t ht x hx
    have hb : 0 < b.length := List.length_pos.2 (hne b (List.mem_cons_self _ _))
    have hbs : ∀ x ∈ bs, x ≠ [] := fun x hx => hne x (List.mem_cons_of_mem _ hx)
    by_cases hk : t.remains ≤ 0
    · have e : take.Stream t b = (⟨b, 0, false⟩, t) := by
        unfold take.Stream
        rw [if_pos hk]
      simp only [trace, e, List.mem_cons] at hx
      rcases hx with rfl | hx
      · exact ⟨rfl, rfl⟩
      · exact ih hbs t ht x hx
    · have hd : t.s.Dead := ht.resolve_left hk
      obtain ⟨c, hc⟩ : ∃ c : List P, c = b.take (if (b.length : Int) < t.remains
          then (b.length : Int) else t.remains).toNat := ⟨_, rfl⟩
      have hcne : c ≠ [] := by
        apply List.length_pos.1
        rw [hc, List.length_take]
        split <;> omega
      have e : take.Stream t b =
          (⟨(t.s.Stream c).1.samples ++ b.drop (if (b.length : Int) < t.remains
              then (b.length : Int) else t.remains).toNat,
            (t.s.Stream c).1.n, (t.s.Stream c).1.ok⟩,
            { s := (t.s.Stream c).2, remains := t.remains - (t.s.Stream c).1.n }) := by
        unfold take.Stream
        rw [if_neg hk, hc]
      obtain ⟨d1, d2⟩ := hd.dead_step hcne
      simp only [trace, e, List.mem_cons] at hx
      rcases hx with rfl | hx
      · exact d1
      · exact ih hbs _ (Or.inr d2) x hx

theorem take_obeys {P : Type} (bufs : List (List P)) (hne : ∀ b ∈ bufs, b ≠ []) :
    ∀ t : take P, t.s.Obeys → Legal (trace take.Stream t bufs) := by
  induction bufs with
  | nil => intro t _; exact trivial
  | cons b bs ih =>
    intro t ht
    have hb : 0 < b.length := List.length_pos.2 (hne b (List.mem_cons_self _ _))
    have hbs : ∀ x ∈ bs, x ≠ [] := fun x hx => hne x (List.mem_cons_of_mem _ hx)
    by_cases hk : t.remains ≤ 0
    · have e : take.Stream t b = (⟨b, 0, false⟩, t) := by
        unfold take.Stream
        rw [if_pos hk]
      simp only [trace, e]
      exact legal_last_cons (Or.inr ⟨rfl, rfl⟩) (take_dead bs hbs t (Or.inl hk))
    · obtain ⟨ts, hts, hts1, hts2⟩ : ∃ ts : Nat, (if (b.length : Int) < t.remains
          then (b.length : Int) else t.remains).toNat = ts ∧ 0 < ts ∧
          (ts = b.length ∨ (ts < b.length ∧ t.remains = (ts : Int))) := by
        by_cases hlt : (b.length : Int) < t.remains
        · exact ⟨b.length, by rw [if_pos hlt]; omega, hb, Or.inl rfl⟩
        · refine ⟨t.remains.toNat, by rw [if_neg hlt], by omega, ?_⟩
          by_cases heq : t.remains.toNat = b.length
          · exact Or.inl heq
          · exact Or.inr ⟨by omega, by omega⟩
      have hcl : (b.take ts).length = ts := by
        rw [List.length_take]
        omega
      have hcne : b.take ts ≠ [] := List.length_pos.1 (by omega)
      have e : take.Stream t b =
          (⟨(t.s.Stream (b.take ts)).1.samples ++ b.drop ts,
            (t.s.Stream (b.take ts)).1.n, (t.s.Stream (b.take ts)).1.ok⟩,
            { s := (t.s.Stream (b.take ts)).2,
              remains := t.remains - (t.s.Stream (b.take ts)).1.n }) := by
        unfold take.Stream
        rw [if_neg hk]
        simp only [hts]
      have hsl : ((t.s.Stream (b.take ts)).1.samples ++ b.drop ts).length = b.length := by
        rw [List.length_append, Streamer.length_stream, hcl, List.length_drop]
        omega
      have hcs : (t.s.Stream (b.take ts)).1.samples.length = ts := by
        rw [Streamer.length_stream, hcl]
      simp only [trace, e]
      rcases ht.obeys_step hcne with ⟨⟨f1, f2⟩, d2⟩ | ⟨d1, d2⟩
      · rw [hcs] at f1
        rcases hts2 with h1 | ⟨h1, h2⟩
        · refine legal_full_cons ⟨?_, f2⟩ (ih hbs _ d2)
          show (t.s.Stream (b.take ts)).1.n = _
          rw [hsl, f1, h1]
        · refine legal_last_cons (Or.inl ⟨?_, ?_, f2⟩) (take_dead bs hbs _ (Or.inl ?_))
          · show 0 < (t.s.Stream (b.take ts)).1.n
            omega
          · show (t.s.Stream (b.take ts)).1.n < _
            rw [hsl, f1]
            omega
          · show t.remains - (t.s.Stream (b.take ts)).1.n ≤ 0
            omega
      · refine legal_last_cons ?_ (take_dead bs hbs _ (Or.inr d2))
        rcases d1 with ⟨g1, g2, g3⟩ | g
        · rw [hcs] at g2
          refine Or.inl ⟨g1, ?_, g3⟩
          show (t.s.Stream (b.take ts)).1.n < _
          rw [hsl]
          rcases hts2 with h1 | ⟨h1, h2⟩ <;> omega
        · exact Or.inr g

theorem outcomesOf_cons_self {P : Type} (h : DupHandle) (r : Pulled P)
    (rs : List (DupHandle × Pulled P)) :
    outcomesOf h ((h, r) :: rs) = r :: outcomesOf h rs := by
  simp [outcomesOf]

theorem outcomesOf_cons_other {P : Type} {g h : DupHandle} (hg : g ≠ h) (r : Pulled P)
    (rs : List (DupHandle × Pulled P)) :
    outcomesOf h ((g, r) :: rs) = outcomesOf h rs := by
  simp [outcomesOf, hg]

theorem DupHandle.other_ne (g : DupHandle) : g.other ≠ g := by
  cases g <;> simp [DupHandle.other]

theorem length_copy {P : Type} (dst src : List P) : (copy dst src).1.length = dst.length := by
  simp only [copy, List.length_append, List.length_take, List.length_drop]
  omega

theorem dup_call {P : Type} (g : DupHandle) (q : DupState P) (b : List P) :
    ((b.length ≤ (q.myBuf g).length →
      ∃ X : List P, dup.Stream g q b =
          some (⟨X, (b.length : Int), decide (0 < (q.myBuf g).length)⟩,
            q.setMyBuf g ((q.myBuf g).drop b.length)) ∧ X.length = b.length)) ∧
    ((q.myBuf g).length < b.length →
      ∃ rest : List P, rest.length = b.length - (q.myBuf g).length ∧
        (0 ≤ (q.s.Stream rest).1.n → (q.s.Stream rest).1.n ≤ (rest.length : Int) →
          ∃ (X : List P) (q2 : DupState P),
            dup.Stream g q b = some (⟨X, ((q.myBuf g).length : Int) + (q.s.Stream rest).1.n,
              decide (0 < (q.myBuf g).length) || (q.s.Stream rest).1.ok⟩, q2) ∧
            X.length = b.length ∧ q2.s = (q.s.Stream rest).2 ∧ q2.myBuf g = [] ∧
            q2.myBuf g.other = q.myBuf g.other ++
              (q.s.Stream rest).1.samples.take (q.s.Stream rest).1.n.toNat)) := by
  have hs1 : ∀ l : List P, (q.setMyBuf g l).s = q.s := fun l => DupState.s_setMyBuf _ _ _
  constructor
  · intro hle
    have hc2 : (copy b (q.myBuf g)).2 = b.length := by
      simp only [copy]
      omega
    have hrest : ¬ 0 < ((copy b (q.myBuf g)).1.drop (copy b (q.myBuf g)).2).length := by
      rw [List.length_drop, length_copy, hc2]
      omega
    refine ⟨(copy b (q.myBuf g)).1, ?_, length_copy _ _⟩
    unfold dup.Stream
    simp only
    rw [if_neg hrest, hc2]
  · intro hlt
    have hc2 : (copy b (q.myBuf g)).2 = (q.myBuf g).length := by
      simp only [copy]
      omega
    have hrl : ((copy b (q.myBuf g)).1.drop (copy b (q.myBuf g)).2).length
        = b.length - (q.myBuf g).length := by
      rw [List.length_drop, length_copy, hc2]
    refine ⟨(copy b (q.myBuf g)).1.drop (copy b (q.myBuf g)).2, hrl, fun h0 h1 => ?_⟩
    obtain ⟨k, hk⟩ : ∃ k : Nat,
        (q.s.Stream ((copy b (q.myBuf g)).1.drop (copy b (q.myBuf g)).2)).1.n = (k : Int) :=
      ⟨_, (Int.toNat_of_nonneg h0).symm⟩
    have hkl : k ≤ (q.s.Stream
        ((copy b (q.myBuf g)).1.drop (copy b (q.myBuf g)).2)).1.samples.length := by
      rw [Streamer.length_stream]
      rw [hk] at h1
      exact_mod_cast h1
    refine ⟨(copy b (q.myBuf g)).1.take (copy b (q.myBuf g)).2 ++
        (q.s.Stream ((copy b (q.myBuf g)).1.drop (copy b (q.myBuf g)).2)).1.samples,
      ((q.setMyBuf g ((q.myBuf g).drop (copy b (q.myBuf g)).2)).setS
        (q.s.Stream ((copy b (q.myBuf g)).1.drop (copy b (q.myBuf g)).2)).2).setMyBuf g.other
        ((q.setMyBuf g ((q.myBuf g).drop (copy b (q.myBuf g)).2)).myBuf g.other ++
          (q.s.Stream ((copy b (q.myBuf g)).1.drop (copy b (q.myBuf g)).2)).1.samples.take k),
      ?_, ?_, ?_, ?_, ?_⟩
    · unfold dup.Stream
      simp only
      rw [if_pos (by rw [hrl]; omega), hs1, hk, sliceTo_ofNat _ hkl, hc2]
    · rw [List.length_append, List.length_take, length_copy, Streamer.length_stream, hrl, hc2]
      omega
    · rw [DupState.s_setMyBuf, DupState.s_setS]
    · rw [DupState.myBuf_setMyBuf_other2, DupState.myBuf_with_s, DupState.myBuf_setMyBuf, hc2,
        List.drop_eq_nil_of_le (le_refl _)]
    · rw [DupState.myBuf_setMyBuf, DupState.myBuf_setMyBuf_other, hk, Int.toNat_ofNat]

theorem dup_call_dead {P : Type} (g : DupHandle) (q : DupState P) (b : List P) (hb : b ≠ [])
    (hq : q.s.Dead) :
    ∃ (r : Pulled P) (q2 : DupState P), dup.Stream g q b = some (r, q2) ∧ q2.s.Dead ∧
      q2.myBuf g.other = q.myBuf g.other ∧
      ((r.Full ∧ q.myBuf g ≠ [] ∧ (q.myBuf g.other = [] → q2.myBuf g.other = [])) ∨
        ((r.Short ∨ r.Drained) ∧ q2.myBuf g = [] ∧ (q.myBuf g = [] → r.Drained))) := by
  have hbl : 0 < b.length := List.length_pos.2 hb
  by_cases hle : b.length ≤ (q.myBuf g).length
  · obtain ⟨X, e1, e2⟩ := (dup_call g q b).1 hle
    have hpos : 0 < (q.myBuf g).length := by omega
    refine ⟨_, _, e1, ?_, DupState.myBuf_setMyBuf_other _ _ _, Or.inl ⟨⟨?_, ?_⟩, ?_, ?_⟩⟩
    · rw [DupState.s_setMyBuf]; exact hq
    · show (b.length : Int) = (X.length : Int)
      rw [e2]
    · show decide (0 < (q.myBuf g).length) = true
      exact decide_eq_true hpos
    · exact List.length_pos.1 hpos
    · intro h
      rw [DupState.myBuf_setMyBuf_other, h]
  · obtain ⟨rest, hrl, hcall⟩ := (dup_call g q b).2 (by omega)
    have hrne : rest ≠ [] := List.length_pos.1 (by omega)
    obtain ⟨⟨d1, d2⟩, d3⟩ := hq.dead_step hrne
    obtain ⟨X, q2, e1, e2, e3, e4, e5⟩ := hcall (by rw [d1]) (by rw [d1]; omega)
    rw [d1, d2] at e1
    rw [d1] at e5
    refine ⟨_, q2, e1, by rw [e3]; exact d3, by simpa using e5, Or.inr ⟨?_, e4, ?_⟩⟩
    · by_cases hpos : 0 < (q.myBuf g).length
      · refine Or.inl ⟨?_, ?_, ?_⟩
        · show (0 : Int) < ((q.myBuf g).length : Int) + 0
          omega
        · show ((q.myBuf g).length : Int) + 0 < (X.length : Int)
          omega
        · show (decide (0 < (q.myBuf g).length) || false) = true
          simp [hpos]
      · refine Or.inr ⟨?_, ?_⟩
        · show ((q.myBuf g).length : Int) + 0 = 0
          omega
        · show (decide (0 < (q.myBuf g).length) || false) = false
          simp [hpos]
    · intro h0
      refine ⟨?_, ?_⟩
      · show ((q.myBuf g).length : Int) + 0 = 0
        rw [h0]; rfl
      · show (decide (0 < (q.myBuf g).length) || false) = false
        rw [h0]; rfl

theorem dup_call_obeys {P : Type} (g : DupHandle) (q : DupState P) (b : List P) (hb : b ≠ [])
    (hq : q.s.Obeys) :
    ∃ (r : Pulled P) (q2 : DupState P), dup.Stream g q b = some (r, q2) ∧
      ((r.Full ∧ q2.s.Obeys) ∨ ((r.Short ∨ r.Drained) ∧ q2.s.Dead ∧ q2.myBuf g = [])) := by
  have hbl : 0 < b.length := List.length_pos.2 hb
  by_cases hle : b.length ≤ (q.myBuf g).length
  · obtain ⟨X, e1, e2⟩ := (dup_call g q b).1 hle
    have hpos : 0 < (q.myBuf g).length := by omega
    refine ⟨_, _, e1, Or.inl ⟨⟨?_, ?_⟩, ?_⟩⟩
    · show (b.length : Int) = (X.length : Int)
      rw [e2]
    · show decide (0 < (q.myBuf g).length) = true
      exact decide_eq_true hpos
    · rw [DupState.s_setMyBuf]; exact hq
  · obtain ⟨rest, hrl, hcall⟩ := (dup_call g q b).2 (by omega)
    have hrne : rest ≠ [] := List.length_pos.1 (by clear hcall; omega)
    have hsl := Streamer.length_stream q.s rest
    have hbuf : ((q.myBuf g).length : Int) + (rest.length : Int) = (b.length : Int) := by
      clear hcall
      omega
    have hrpos : (0 : Int) < (rest.length : Int) := by
      clear hcall
      omega
    have hbpos : (0 : Int) ≤ ((q.myBuf g).length : Int) := Int.ofNat_nonneg _
    rcases hq.obeys_step hrne with ⟨⟨f1, f2⟩, f3⟩ | ⟨d1, d3⟩
    · rw [hsl] at f1
      obtain ⟨X, q2, e1, e2, e3, e4, -⟩ := hcall (by rw [f1]; exact le_of_lt hrpos)
        (by rw [f1])
      have e2i : (X.length : Int) = (b.length : Int) := by rw [e2]
      refine ⟨⟨X, ((q.myBuf g).length : Int) + (q.s.Stream rest).1.n,
        decide (0 < (q.myBuf g).length) || (q.s.Stream rest).1.ok⟩, q2, e1,
        Or.inl ⟨⟨?_, ?_⟩, by rw [e3]; exact f3⟩⟩
      · show ((q.myBuf g).length : Int) + (q.s.Stream rest).1.n = (X.length : Int)
        rw [f1, e2i, hbuf]
      · show (decide (0 < (q.myBuf g).length) || (q.s.Stream rest).1.ok) = true
        rw [f2, Bool.or_true]
    · have hrange : 0 ≤ (q.s.Stream rest).1.n ∧ (q.s.Stream rest).1.n < (rest.length : Int) := by
        rcases d1 with ⟨g1, g2, -⟩ | ⟨g1, -⟩
        · rw [hsl] at g2
          exact ⟨le_of_lt g1, g2⟩
        · rw [g1]
          exact ⟨le_refl _, hrpos⟩
      obtain ⟨X, q2, e1, e2, e3, e4, -⟩ := hcall hrange.1 (le_of_lt hrange.2)
      have e2i : (X.length : Int) = (b.length : Int) := by rw [e2]
      have hlt : ((q.myBuf g).length : Int) + (q.s.Stream rest).1.n < (X.length : Int) := by
        rw [e2i, ← hbuf]
        exact Int.add_lt_add_left hrange.2 _
      refine ⟨⟨X, ((q.myBuf g).length : Int) + (q.s.Stream rest).1.n,
        decide (0 < (q.myBuf g).length) || (q.s.Stream rest).1.ok⟩, q2, e1,
        Or.inr ⟨?_, by rw [e3]; exact d3, e4⟩⟩
      rcases d1 with ⟨g1, g2, g3⟩ | ⟨g1, g2⟩
      · refine Or.inl ⟨?_, hlt, ?_⟩
        · show (0 : Int) < ((q.myBuf g).length : Int) + (q.s.Stream rest).1.n
          exact Int.add_pos_of_nonneg_of_pos hbpos g1
        · show (decide (0 < (q.myBuf g).length) || (q.s.Stream rest).1.ok) = true
          rw [g3, Bool.or_true]
      · by_cases hpos : 0 < (q.myBuf g).length
        · refine Or.inl ⟨?_, hlt, ?_⟩
          · show (0 : Int) < ((q.myBuf g).length : Int) + (q.s.Stream rest).1.n
            rw [g1, Int.add_zero]
            exact_mod_cast hpos
          · show (decide (0 < (q.myBuf g).length) || (q.s.Stream rest).1.ok) = true
            simp [hpos]
        · refine Or.inr ⟨?_, ?_⟩
          · show ((q.myBuf g).length : Int) + (q.s.Stream rest).1.n = 0
            have h0 : (q.myBuf g).length = 0 := by omega
            rw [g1, h0]
            rfl
          · show (decide (0 < (q.myBuf g).length) || (q.s.Stream rest).1.ok) = false
            rw [g2]
            simp [hpos]

theorem dup_dead {P : Type} (calls : List (DupHandle × List P))
    (hne : ∀ c ∈ calls, c.2 ≠ []) :
    ∀ q : DupState P, q.s.Dead →
      ∃ rs : List (DupHandle × Pulled P), dupTrace q calls = some rs ∧
        ∀ h : DupHandle, Legal (outcomesOf h rs) ∧
          (q.myBuf h = [] → ∀ x ∈ outcomesOf h rs, x.Drained) := by
  induction calls with
  | nil =>
    intro q _
    exact ⟨[], rfl, fun h => ⟨trivial, fun _ x hx => absurd hx (List.not_mem_nil _)⟩⟩
  | cons c cs ih =>
    intro q hq
    obtain ⟨g, b⟩ := c
    have hb : b ≠ [] := hne (g, b) (List.mem_cons_self _ _)
    obtain ⟨r, q2, e1, e2, e3, e4⟩ := dup_call_dead g q b hb hq
    obtain ⟨rs, f1, f2⟩ := ih (fun c hc => hne c (List.mem_cons_of_mem _ hc)) q2 e2
    refine ⟨(g, r) :: rs, by simp only [dupTrace, e1, f1], fun h => ?_⟩
    by_cases hgh : g = h
    swap
    · -- the other handle called
      have hg : h = g.other := (DupHandle.eq_or_other g h).resolve_left (fun e => hgh e.symm)
      rw [outcomesOf_cons_other hgh]
      refine ⟨(f2 h).1, fun h0 => (f2 h).2 ?_⟩
      rw [hg, e3, ← hg]
      exact h0
    · subst hgh
      rw [outcomesOf_cons_self]
      rcases e4 with ⟨a1, a2, -⟩ | ⟨a1, a2, a3⟩
      · exact ⟨legal_full_cons a1 (f2 g).1, fun h0 => absurd h0 a2⟩
      · refine ⟨legal_last_cons a1 ((f2 g).2 a2), fun h0 x hx => ?_⟩
        rcases List.mem_cons.1 hx with rfl | hx
        · exact a3 h0
        · exact (f2 g).2 a2 x hx

theorem dup_obeys {P : Type} (calls : List (DupHandle × List P))
    (hne : ∀ c ∈ calls, c.2 ≠ []) :
    ∀ q : DupState P, q.s.Obeys →
      ∃ rs : List (DupHandle × Pulled P), dupTrace q calls = some rs ∧
        ∀ h : DupHandle, Legal (outcomesOf h rs) := by
  induction calls with
  | nil => intro q _; exact ⟨[], rfl, fun h => trivial⟩
  | cons c cs ih =>
    intro q hq
    obtain ⟨g, b⟩ := c
    have hb : b ≠ [] := hne (g, b) (List.mem_cons_self _ _)
    have hcs : ∀ c ∈ cs, c.2 ≠ [] := fun c hc => hne c (List.mem_cons_of_mem _ hc)
    obtain ⟨r, q2, e1, e2⟩ := dup_call_obeys g q b hb hq
    rcases e2 with ⟨a1, a2⟩ | ⟨a1, a2, a3⟩
    · obtain ⟨rs, f1, f2⟩ := ih hcs q2 a2
      refine ⟨(g, r) :: rs, by simp only [dupTrace, e1, f1], fun h => ?_⟩
      by_cases hg : g = h
      · subst hg
        rw [outcomesOf_cons_self]
        exact legal_full_cons a1 (f2 g)
      · rw [outcomesOf_cons_other hg]
        exact f2 h
    · obtain ⟨rs, f1, f2⟩ := dup_dead cs hcs q2 a2
      refine ⟨(g, r) :: rs, by simp only [dupTrace, e1, f1], fun h => ?_⟩
      by_cases hg : g = h
      · subst hg
        rw [outcomesOf_cons_self]
        exact legal_last_cons a1 ((f2 g).2 a3)
      · rw [outcomesOf_cons_other hg]
        exact (f2 h).1

theorem Streamer.Obeys.range {P : Type} {s : Streamer P} (h : s.Obeys) {b : List P}
    (hb : b ≠ []) :
    0 ≤ (s.Stream b).1.n ∧ (s.Stream b).1.n ≤ (b.length : Int) ∧
      ((s.Stream b).1.ok = true ↔ 0 < (s.Stream b).1.n) ∧ (s.Stream b).2.Obeys ∧
      ((s.Stream b).1.n < (b.length : Int) → (s.Stream b).2.Dead) := by
  have hsl := Streamer.length_stream s b
  have hbl : (0 : Int) < (b.length : Int) := by
    have := List.length_pos.2 hb
    exact_mod_cast this
  rcases h.obeys_step hb with ⟨⟨f1, f2⟩, f3⟩ | ⟨⟨g1, g2, g3⟩ | ⟨g1, g2⟩, d⟩
  · rw [hsl] at f1
    refine ⟨by omega, by omega, ?_, f3, fun hlt => by omega⟩
    rw [f2]
    exact ⟨fun _ => by omega, fun _ => rfl⟩
  · rw [hsl] at g2
    refine ⟨by omega, by omega, ?_, d.dead_obeys, fun _ => d⟩
    rw [g3]
    exact ⟨fun _ => g1, fun _ => rfl⟩
  · refine ⟨by omega, by omega, ?_, d.dead_obeys, fun _ => d⟩
    rw [g1, g2]
    exact ⟨fun e => absurd e (by decide), fun e => absurd e (by decide)⟩

theorem seq_loop_shape {P : Type} (fuel : Nat) :
    ∀ (s : List (Streamer P)) (i : Nat) (filled samples : List P) (n : Int) (ok : Bool),
      (∀ c ∈ s, c.Obeys) → samples.length + (s.length - i) ≤ fuel →
      (ok = true ↔ 0 < n) → 0 ≤ n →
      ∃ (r : Pulled P) (q : SeqState P),
        SeqState.loop fuel s i filled samples n ok = some (r, q) ∧
        r.samples.length = filled.length + samples.length ∧
        n ≤ r.n ∧ r.n ≤ n + (samples.length : Int) ∧ (r.ok = true ↔ 0 < r.n) ∧
        (r.n < n + (samples.length : Int) → q.s.length ≤ q.i) ∧
        (∀ c ∈ q.s, c.Obeys) ∧ q.s.length = s.length := by
  induction fuel with
  | zero =>
    intro s i filled samples n ok hs hfuel hok hn
    have hc : ¬ (i < s.length ∧ 0 < samples.length) := by omega
    refine ⟨⟨filled ++ samples, n, ok⟩, { s := s, i := i }, ?_, List.length_append _ _,
      le_refl _, Int.le_add_of_nonneg_right (Int.ofNat_nonneg _), hok, fun hlt => ?_, hs, rfl⟩
    · unfold SeqState.loop
      rw [dif_neg hc]
    · show s.length ≤ i
      have hlt2 : n < n + (samples.length : Int) := hlt
      omega
  | succ fuel ih =>
    intro s i filled samples n ok hs hfuel hok hn
    by_cases hc : i < s.length ∧ 0 < samples.length
    · have hne : samples ≠ [] := List.length_pos.1 hc.2
      have hmem : s.get ⟨i, hc.1⟩ ∈ s := List.get_mem _ _ _
      obtain ⟨r1, r2, r3, r4, -⟩ := (hs _ hmem).range hne
      set c := (s.get ⟨i, hc.1⟩).Stream samples with hcdef
      have hlen : c.1.samples.length = samples.length := Streamer.length_stream _ _
      obtain ⟨m, hm⟩ : ∃ m : Nat, c.1.n = (m : Int) := ⟨_, (Int.toNat_of_nonneg r1).symm⟩
      have hm1 : m ≤ samples.length := by
        rw [hm] at r2
        exact_mod_cast r2
      have hslice : sliceFrom c.1.samples c.1.n = some (c.1.samples.drop m) := by
        rw [hm, sliceFrom_ofNat _ (by omega)]
      have hs2 : ∀ x ∈ s.set i c.2, x.Obeys := by
        intro x hx
        rcases List.mem_or_eq_of_mem_set hx with hx | hx
        · exact hs x hx
        · rw [hx]; exact r4
      have hokm : c.1.ok = true ↔ 0 < m := by
        rw [r3, hm]
        exact Int.ofNat_pos
      have hfuel2 : (c.1.samples.drop m).length +
          ((s.set i c.2).length - (if c.1.ok then i else i + 1)) ≤ fuel := by
        rw [List.length_drop, List.length_set, hlen]
        by_cases hk : c.1.ok = true
        · have := hokm.1 hk
          rw [if_pos hk]
          omega
        · rw [if_neg hk]
          omega
      have hok2 : ((ok || c.1.ok) = true ↔ 0 < n + (m : Int)) := by
        rw [Bool.or_eq_true, hok, hokm]
        constructor
        · rintro (h | h) <;> omega
        · intro h
          by_cases h0 : 0 < n
          · exact Or.inl h0
          · exact Or.inr (by omega)
      obtain ⟨r, q, e1, e2, e3, e4, e5, e6, e7, e8⟩ := ih (s.set i c.2)
        (if c.1.ok then i else i + 1) (filled ++ c.1.samples.take (m : Int).toNat)
        (c.1.samples.drop m) (n + m) (ok || c.1.ok) hs2 hfuel2 hok2 (by omega)
      refine ⟨r, q, ?_, ?_, by omega, ?_, e5, fun hlt => e6 ?_, e7, ?_⟩
      · unfold SeqState.loop
        rw [dif_pos hc]
        simp only
        rw [← hcdef, hslice]
        simp only
        rw [hm, e1]
      · rw [e2, List.length_append, List.length_take, List.length_drop, hlen, Int.toNat_ofNat]
        omega
      · rw [List.length_drop, hlen] at e4
        omega
      · rw [List.length_drop, hlen]
        omega
      · rw [e8, List.length_set]
    · refine ⟨⟨filled ++ samples, n, ok⟩, { s := s, i := i }, ?_, List.length_append _ _,
        le_refl _, Int.le_add_of_nonneg_right (Int.ofNat_nonneg _), hok, fun hlt => ?_, hs,
        rfl⟩
      · unfold SeqState.loop
        rw [dif_neg hc]
      · show s.length ≤ i
        have hlt3 : n < n + (samples.length : Int) := hlt
        by_contra hlt2
        exact hc ⟨by omega, by omega⟩

theorem seq_dead {P : Type} (fuel : Nat) (bufs : List (List P)) (q : SeqState P)
    (hq : q.s.length ≤ q.i) :
    traceO (SeqState.Stream fuel) q bufs = some (bufs.map (fun b => ⟨b, 0, false⟩)) := by
  have e : ∀ b : List P, SeqState.Stream fuel q b = some (⟨b, 0, false⟩, q) := by
    intro b
    unfold SeqState.Stream SeqState.loop
    rw [dif_neg (by omega)]
    rfl
  induction bufs with
  | nil => rfl
  | cons b bs ih => simp only [traceO, e, ih, List.map_cons]

theorem seq_obeys {P : Type} (fuel : Nat) (bufs : List (List P)) :
    ∀ q : SeqState P, (∀ c ∈ q.s, c.Obeys) →
      (∀ b ∈ bufs, b ≠ [] ∧ b.length + q.s.length ≤ fuel) →
      ∃ rs : List (Pulled P), traceO (SeqState.Stream fuel) q bufs = some rs ∧ Legal rs := by
  induction bufs with
  | nil => intro q _ _; exact ⟨[], rfl, trivial⟩
  | cons b bs ih =>
    intro q hq hb
    obtain ⟨hb1, hb2⟩ := hb b (List.mem_cons_self _ _)
    have hbl : 0 < b.length := List.length_pos.2 hb1
    obtain ⟨r, q2, e1, e2, e3, e4, e5, e6, e7, e8⟩ :=
      seq_loop_shape fuel q.s q.i [] b 0 false hq (by omega) (by simp) (le_refl _)
    have e1s : SeqState.Stream fuel q b = some (r, q2) := e1
    have hrl : r.samples.length = b.length := by simpa using e2
    by_cases hfull : r.n = (b.length : Int)
    · obtain ⟨rs, f1, f2⟩ := ih q2 e7 (fun x hx => by
        have := hb x (List.mem_cons_of_mem _ hx)
        rw [e8]
        exact this)
      refine ⟨r :: rs, by simp only [traceO, e1s, f1], legal_full_cons ⟨?_, ?_⟩ f2⟩
      · rw [hrl, hfull]
      · exact e5.2 (by omega)
    · have hdead := e6 (by omega)
      refine ⟨r :: bs.map (fun b => ⟨b, 0, false⟩), ?_, legal_last_cons ?_ ?_⟩
      · simp only [traceO, e1s, seq_dead fuel bs q2 hdead]
      · by_cases h0 : 0 < r.n
        · exact Or.inl ⟨h0, by rw [hrl]; omega, e5.2 h0⟩
        · refine Or.inr ⟨by omega, ?_⟩
          cases hk : r.ok with
          | false => rfl
          | true => exact absurd (e5.1 hk) h0
      · intro x hx
        obtain ⟨y, -, rfl⟩ := List.mem_map.1 hx
        exact ⟨rfl, rfl⟩

theorem mix_addSamples_length {S P : Type} [Point S P] (tmp : List P) (fuel : Nat) :
    ∀ (i : Nat) (samples samples1 : List P),
      MixState.addSamples tmp fuel i samples = some samples1 →
      samples1.length = samples.length := by
  induction fuel with
  | zero =>
    intro i samples samples1 h
    simp only [MixState.addSamples, Option.some.injEq] at h
    rw [← h]
  | succ fuel ih =>
    intro i samples samples1 h
    simp only [MixState.addSamples] at h
    split at h
    · rename_i sample t _ _
      cases hp : MixState.addPoint sample t with
      | none => rw [hp] at h; exact absurd h (by simp)
      | some c =>
        rw [hp] at h
        simp only at h
        rw [ih _ _ _ h, List.length_set]
    · exact absurd h (by simp)

theorem mix_addSamples_total {S P : Type} [Point S P] (hadd : MixState.Adds P) (tmp : List P)
    (fuel : Nat) :
    ∀ (i : Nat) (samples : List P), i + fuel ≤ samples.length → i + fuel ≤ tmp.length →
      ∃ samples1 : List P, MixState.addSamples tmp fuel i samples = some samples1 := by
  induction fuel with
  | zero => intro i samples _ _; exact ⟨samples, rfl⟩
  | succ fuel ih =>
    intro i samples h1 h2
    have hi1 : i < samples.length := by omega
    have hi2 : i < tmp.length := by omega
    have e1 : samples.get? i = some (samples.get ⟨i, hi1⟩) := List.get?_eq_get _
    have e2 : tmp.get? i = some (tmp.get ⟨i, hi2⟩) := List.get?_eq_get _
    obtain ⟨c, hc⟩ := hadd (samples.get ⟨i, hi1⟩) (tmp.get ⟨i, hi2⟩)
    simp only [MixState.addSamples, e1, e2, hc]
    exact ih (i + 1) _ (by rw [List.length_set]; omega) (by omega)

theorem mix_round_shape {S P : Type} [Point S P] (t : Nat) (ht : 0 < t) (ht2 : t ≤ 512)
    (ok0 : Bool) (todo : List (Streamer P)) :
    (∀ c ∈ todo, c.Obeys) →
    ∀ (called : List (Streamer P)) (samples tmp : List P) (snMax : Int) (ok : Bool),
      tmp.length = 512 → t ≤ samples.length → 0 ≤ snMax → snMax ≤ (t : Int) →
      (ok = true ↔ ok0 = true ∨ 0 < snMax) →
      (∃ (todo1 : List (Streamer P)) (samples1 tmp1 : List P) (snMax1 : Int) (ok1 : Bool),
        MixState.round t todo called samples tmp snMax ok =
          some (called ++ todo1, samples1, tmp1, snMax1, ok1) ∧
        samples1.length = samples.length ∧ tmp1.length = 512 ∧
        snMax ≤ snMax1 ∧ snMax1 ≤ (t : Int) ∧ (ok1 = true ↔ ok0 = true ∨ 0 < snMax1) ∧
        (∀ c ∈ todo1, c.Obeys) ∧ (snMax1 < (t : Int) → ∀ c ∈ todo1, c.Dead) ∧
        ((∀ c ∈ todo, c.Dead) → snMax1 = snMax ∧ ∀ c ∈ todo1, c.Dead)) ∨
      (MixState.round t todo called samples tmp snMax ok = none ∧ ¬ MixState.Adds P) := by
  induction todo with
  | nil =>
    intro _ called samples tmp snMax ok htmp hs h0 h1 hok
    refine Or.inl ⟨[], samples, tmp, snMax, ok, by simp [MixState.round], rfl, htmp,
      le_refl _, h1, hok, ?_, ?_, ?_⟩
    · intro c hc; exact absurd hc (List.not_mem_nil _)
    · intro _ c hc; exact absurd hc (List.not_mem_nil _)
    · intro _
      exact ⟨rfl, fun c hc => absurd hc (List.not_mem_nil _)⟩
  | cons st todo ih =>
    intro hobeys called samples tmp snMax ok htmp hs h0 h1 hok
    have hlen : (tmp.take t).length = t := by
      rw [List.length_take, htmp]; omega
    have hne : tmp.take t ≠ [] := List.length_pos.1 (by omega)
    obtain ⟨r1, r2, r3, r4, r5⟩ := (hobeys st (List.mem_cons_self _ _)).range hne
    rw [hlen] at r2 r5
    have hslen : (st.Stream (tmp.take t)).1.samples.length = t := by
      rw [Streamer.length_stream, hlen]
    have htmp1 : ((st.Stream (tmp.take t)).1.samples ++ tmp.drop t).length = 512 := by
      rw [List.length_append, hslen, List.length_drop, htmp]; omega
    obtain ⟨m, hm⟩ : ∃ m : Nat, (st.Stream (tmp.take t)).1.n = (m : Int) :=
      ⟨_, (Int.toNat_of_nonneg r1).symm⟩
    have hmt : m ≤ t := by
      rw [hm] at r2
      exact_mod_cast r2
    have hrange : 0 ≤ (st.Stream (tmp.take t)).1.n ∧ (st.Stream (tmp.take t)).1.n ≤ 512 := by
      constructor <;> omega
    cases hadd : MixState.addSamples ((st.Stream (tmp.take t)).1.samples ++ tmp.drop t) m 0
        samples with
    | none =>
      have hstep : MixState.round t (st :: todo) called samples tmp snMax ok = none := by
        simp only [MixState.round]
        rw [if_pos hrange, hm, Int.toNat_ofNat, hadd]
      refine Or.inr ⟨hstep, fun hA => ?_⟩
      obtain ⟨x, hx⟩ := mix_addSamples_total hA
        ((st.Stream (tmp.take t)).1.samples ++ tmp.drop t) m 0 samples (by omega) (by omega)
      rw [hx] at hadd
      exact absurd hadd (by simp)
    | some samples1 =>
      have hstep : MixState.round t (st :: todo) called samples tmp snMax ok =
          MixState.round t todo (called ++ [(st.Stream (tmp.take t)).2]) samples1
            ((st.Stream (tmp.take t)).1.samples ++ tmp.drop t)
            (if (m : Int) > snMax then (m : Int) else snMax)
            (ok || (st.Stream (tmp.take t)).1.ok) := by
        simp only [MixState.round]
        rw [if_pos hrange, hm, Int.toNat_ofNat, hadd]
      have hl1 : samples1.length = samples.length := mix_addSamples_length _ _ _ _ _ hadd
      obtain ⟨mx, hmx⟩ : ∃ mx : Int, mx = (if (m : Int) > snMax
          then (m : Int) else snMax) := ⟨_, rfl⟩
      have hmx1 : snMax ≤ mx ∧ (st.Stream (tmp.take t)).1.n ≤ mx ∧ mx ≤ (t : Int) ∧
          (mx = snMax ∨ (mx = (st.Stream (tmp.take t)).1.n ∧ snMax < mx)) := by
        rw [hmx, hm]
        split <;> omega
      have hok2 : ((ok || (st.Stream (tmp.take t)).1.ok) = true ↔ ok0 = true ∨ 0 < mx) := by
        rw [Bool.or_eq_true, hok, r3]
        constructor
        · rintro ((h | h) | h)
          · exact Or.inl h
          · exact Or.inr (by omega)
          · exact Or.inr (by omega)
        · rintro (h | h)
          · exact Or.inl (Or.inl h)
          · rcases hmx1.2.2.2 with e | ⟨e, -⟩
            · exact Or.inl (Or.inr (by omega))
            · exact Or.inr (by omega)
      rw [← hmx] at hstep
      rcases ih (fun c hc => hobeys c (List.mem_cons_of_mem _ hc))
          (called ++ [(st.Stream (tmp.take t)).2]) samples1
          ((st.Stream (tmp.take t)).1.samples ++ tmp.drop t) mx
          (ok || (st.Stream (tmp.take t)).1.ok) htmp1 (by omega) (by omega) hmx1.2.2.1 hok2
        with ⟨todo1, samples2, tmp2, snMax2, ok2, e1, e2, e3, e4, e5, e6, e7, e8, e9⟩ | ⟨e1, e2⟩
      · refine Or.inl ⟨(st.Stream (tmp.take t)).2 :: todo1, samples2, tmp2, snMax2, ok2, ?_,
          by rw [e2, hl1], e3, by omega, e5, e6, ?_, ?_, ?_⟩
        · rw [hstep, e1, List.append_assoc]
          rfl
        · intro c hc
          rcases List.mem_cons.1 hc with rfl | hc
          · exact r4
          · exact e7 c hc
        · intro hlt c hc
          rcases List.mem_cons.1 hc with rfl | hc
          · exact r5 (by omega)
          · exact e8 hlt c hc
        · intro hdead
          have hd := (hdead st (List.mem_cons_self _ _)).dead_step hne
          have hn0 : (st.Stream (tmp.take t)).1.n = 0 := hd.1.1
          obtain ⟨f1, f2⟩ := e9 (fun c hc => hdead c (List.mem_cons_of_mem _ hc))
          have hmx0 : mx = snMax := by
            rcases hmx1.2.2.2 with e | ⟨e, e'⟩
            · exact e
            · omega
          refine ⟨by rw [f1, hmx0], fun c hc => ?_⟩
          rcases List.mem_cons.1 hc with rfl | hc
          · exact hd.2
          · exact f2 c hc
      · exact Or.inr ⟨by rw [hstep, e1], e2⟩

theorem mix_rounds_shape {S P : Type} [Point S P] (fuel : Nat) :
    ∀ (s : List (Streamer P)) (filled samples tmp : List P) (n : Int) (ok : Bool),
      (∀ c ∈ s, c.Obeys) → tmp.length = 512 → samples.length ≤ fuel →
      (ok = true ↔ 0 < n) → 0 ≤ n →
      (∃ (r : Pulled P) (q : MixState P),
        MixState.rounds fuel s filled samples tmp n ok = some (r, q) ∧
        r.samples.length = filled.length + samples.length ∧
        n ≤ r.n ∧ r.n ≤ n + (samples.length : Int) ∧ (r.ok = true ↔ 0 < r.n) ∧
        (∀ c ∈ q.s, c.Obeys) ∧ (r.n < n + (samples.length : Int) → ∀ c ∈ q.s, c.Dead) ∧
        ((∀ c ∈ s, c.Dead) → r.n = n ∧ ∀ c ∈ q.s, c.Dead)) ∨
      (MixState.rounds fuel s filled samples tmp n ok = none ∧ ¬ MixState.Adds P) := by
  induction fuel with
  | zero =>
    intro s filled samples tmp n ok hs _ hfuel hok hn
    have hc : ¬ 0 < samples.length := by omega
    refine Or.inl ⟨⟨filled ++ samples, n, ok⟩, { s := s }, ?_, List.length_append _ _,
      le_refl _, Int.le_add_of_nonneg_right (Int.ofNat_nonneg _), hok, hs, fun hlt => ?_,
      fun hd => ⟨rfl, hd⟩⟩
    · unfold MixState.rounds
      rw [if_neg hc]
    · have hlt2 : n < n + (samples.length : Int) := hlt
      omega
  | succ fuel ih =>
    intro s filled samples tmp n ok hs htmp hfuel hok hn
    by_cases hc : 0 < samples.length
    · obtain ⟨t, ht⟩ : ∃ t : Nat, t = if 512 > samples.length then samples.length else 512 :=
        ⟨_, rfl⟩
      have ht1 : 0 < t ∧ t ≤ 512 ∧ t ≤ samples.length ∧ (t = samples.length ∨ t = 512) := by
        rw [ht]
        split <;> omega
      have hcl : (List.replicate t (Point.zero : P) ++ samples.drop t).length
          = samples.length := by
        rw [List.length_append, List.length_replicate, List.length_drop]
        omega
      rcases mix_round_shape t ht1.1 ht1.2.1 ok s hs []
          (List.replicate t (Point.zero : P) ++ samples.drop t) tmp 0 ok htmp (by omega)
          (le_refl _) (by omega) (by simp)
        with ⟨s1, samples1, tmp1, snMax, ok1, e1, e2, e3, e4, e5, e6, e7, e8, e9⟩ | ⟨e1, e2⟩
      · rw [List.nil_append] at e1
        rw [hcl] at e2
        by_cases hbreak : snMax < 512
        · have hstep : MixState.rounds (fuel + 1) s filled samples tmp n ok =
              some (⟨filled ++ samples1, n + snMax, ok1⟩, { s := s1 }) := by
            unfold MixState.rounds
            rw [if_pos hc]
            simp only
            rw [← ht, e1]
            simp only
            rw [if_pos hbreak]
          refine Or.inl ⟨_, _, hstep, ?_, ?_, ?_, ?_, e7, fun hlt => e8 ?_, fun hd => ?_⟩
          · rw [List.length_append, e2]
          · show n ≤ n + snMax
            omega
          · show n + snMax ≤ n + (samples.length : Int)
            omega
          · show ok1 = true ↔ 0 < n + snMax
            rw [e6, hok]
            constructor
            · rintro (h | h) <;> omega
            · intro h
              by_cases h0 : 0 < n
              · exact Or.inl h0
              · exact Or.inr (by omega)
          · have hlt2 : n + snMax < n + (samples.length : Int) := hlt
            rcases ht1.2.2.2 with h | h
            · rw [h]; omega
            · rw [h]; omega
          · obtain ⟨f1, f2⟩ := e9 hd
            refine ⟨?_, f2⟩
            show n + snMax = n
            omega
        · have hsn : snMax = 512 := by omega
          have ht512 : t = 512 := by omega
          have hsl : sliceFrom samples1 snMax = some (samples1.drop 512) := by
            have h512 : 512 ≤ samples1.length := by omega
            have := sliceFrom_ofNat samples1 h512
            rw [hsn]
            exact_mod_cast this
          have hstep : MixState.rounds (fuel + 1) s filled samples tmp n ok =
              MixState.rounds fuel s1 (filled ++ samples1.take snMax.toNat)
                (samples1.drop 512) tmp1 (n + snMax) ok1 := by
            conv_lhs => unfold MixState.rounds
            rw [if_pos hc]
            simp only
            rw [← ht, e1]
            simp only
            rw [if_neg hbreak, hsl]
          have hok1 : ok1 = true ↔ 0 < n + snMax := by
            rw [e6]
            constructor
            · intro _; omega
            · intro _; exact Or.inr (by omega)
          have hdl : (samples1.drop 512).length = samples.length - 512 := by
            rw [List.length_drop, e2]
          rcases ih s1 (filled ++ samples1.take snMax.toNat) (samples1.drop 512) tmp1
              (n + snMax) ok1 e7 e3 (by omega) hok1 (by omega)
            with ⟨r, q, f1, f2, f3, f4, f5, f6, f7, f8⟩ | ⟨f1, f2⟩
          · refine Or.inl ⟨r, q, by rw [hstep, f1], ?_, by omega, ?_, f5, f6, fun hlt => f7 ?_,
              fun hd => ?_⟩
            · rw [f2, List.length_append, List.length_take, hdl, e2, hsn]
              have : (512 : Int).toNat = 512 := rfl
              rw [this]
              omega
            · rw [hdl] at f4
              omega
            · rw [hdl]
              omega
            · have := (e9 hd).1
              omega
          · exact Or.inr ⟨by rw [hstep, f1], f2⟩
      · refine Or.inr ⟨?_, e2⟩
        unfold MixState.rounds
        rw [if_pos hc]
        simp only
        rw [← ht, e1]
    · refine Or.inl ⟨⟨filled ++ samples, n, ok⟩, { s := s }, ?_, List.length_append _ _,
        le_refl _, Int.le_add_of_nonneg_right (Int.ofNat_nonneg _), hok, hs, fun hlt => ?_,
        fun hd => ⟨rfl, hd⟩⟩
      · unfold MixState.rounds
        rw [if_neg hc]
      · have hlt2 : n < n + (samples.length : Int) := hlt
        omega

theorem mix_stream_shape {S P : Type} [Point S P] (q : MixState P) (hq : ∀ c ∈ q.s, c.Obeys)
    (b : List P) :
    (∃ (r : Pulled P) (q2 : MixState P), MixState.Stream q b = some (r, q2) ∧
      r.samples.length = b.length ∧ 0 ≤ r.n ∧ r.n ≤ (b.length : Int) ∧
      (r.ok = true ↔ 0 < r.n) ∧ (∀ c ∈ q2.s, c.Obeys) ∧
      (r.n < (b.length : Int) → ∀ c ∈ q2.s, c.Dead) ∧
      ((∀ c ∈ q.s, c.Dead) → r.n = 0 ∧ ∀ c ∈ q2.s, c.Dead)) ∨
    (MixState.Stream q b = none ∧ ¬ MixState.Adds P) := by
  rcases mix_rounds_shape b.length q.s [] b (List.replicate 512 (Point.zero : P)) 0 false hq
      (List.length_replicate _ _) (le_refl _) (by simp) (le_refl _)
    with ⟨r, q2, f1, f2, f3, f4, f5, f6, f7, f8⟩ | ⟨f1, f2⟩
  · refine Or.inl ⟨r, q2, f1, by simpa using f2, f3, by omega, f5, f6, fun hlt => f7 (by omega),
      f8⟩
  · exact Or.inr ⟨f1, f2⟩

theorem mix_dead {S P : Type} [Point S P] (bufs : List (List P)) :
    ∀ q : MixState P, (∀ c ∈ q.s, c.Dead) →
      (∃ rs : List (Pulled P), traceO MixState.Stream q bufs = some rs ∧
        ∀ x ∈ rs, x.Drained) ∨
      (traceO MixState.Stream q bufs = none ∧ ¬ MixState.Adds P) := by
  induction bufs with
  | nil =>
    intro q _
    exact Or.inl ⟨[], rfl, fun x hx => absurd hx (List.not_mem_nil _)⟩
  | cons b bs ih =>
    intro q hq
    rcases mix_stream_shape q (fun c hc => (hq c hc).dead_obeys) b
      with ⟨r, q2, f1, f2, f3, f4, f5, f6, f7, f8⟩ | ⟨f1, f2⟩
    · obtain ⟨g1, g2⟩ := f8 hq
      have hr : r.Drained := by
        refine ⟨g1, ?_⟩
        cases hk : r.ok with
        | false => rfl
        | true =>
          have := f5.1 hk
          omega
      rcases ih q2 g2 with ⟨rs, h1, h2⟩ | ⟨h1, h2⟩
      · refine Or.inl ⟨r :: rs, by simp only [traceO, f1, h1], fun x hx => ?_⟩
        rcases List.mem_cons.1 hx with rfl | hx
        · exact hr
        · exact h2 x hx
      · exact Or.inr ⟨by simp only [traceO, f1, h1], h2⟩
    · exact Or.inr ⟨by simp only [traceO, f1], f2⟩

theorem mix_obeys {S P : Type} [Point S P] (bufs : List (List P)) (hne : ∀ b ∈ bufs, b ≠ []) :
    ∀ q : MixState P, (∀ c ∈ q.s, c.Obeys) →
      (∃ rs : List (Pulled P), traceO MixState.Stream q bufs = some rs ∧ Legal rs) ∨
      (traceO MixState.Stream q bufs = none ∧ ¬ MixState.Adds P) := by
  induction bufs with
  | nil => intro q _; exact Or.inl ⟨[], rfl, trivial⟩
  | cons b bs ih =>
    intro q hq
    have hbl : 0 < b.length := List.length_pos.2 (hne b (List.mem_cons_self _ _))
    have hbs : ∀ x ∈ bs, x ≠ [] := fun x hx => hne x (List.mem_cons_of_mem _ hx)
    rcases mix_stream_shape q hq b
      with ⟨r, q2, f1, f2, f3, f4, f5, f6, f7, f8⟩ | ⟨f1, f2⟩
    · by_cases hfull : r.n = (b.length : Int)
      · rcases ih hbs q2 f6 with ⟨rs, h1, h2⟩ | ⟨h1, h2⟩
        · refine Or.inl ⟨r :: rs, by simp only [traceO, f1, h1],
            legal_full_cons ⟨by rw [f2, hfull], f5.2 (by omega)⟩ h2⟩
        · exact Or.inr ⟨by simp only [traceO, f1, h1], h2⟩
      · rcases mix_dead bs q2 (f7 (by omega)) with ⟨rs, h1, h2⟩ | ⟨h1, h2⟩
        · refine Or.inl ⟨r :: rs, by simp only [traceO, f1, h1], legal_last_cons ?_ h2⟩
          by_cases h0 : 0 < r.n
          · exact Or.inl ⟨h0, by rw [f2]; omega, f5.2 h0⟩
          · refine Or.inr ⟨by omega, ?_⟩
            cases hk : r.ok with
            | false => rfl
            | true => exact absurd (f5.1 hk) h0
        · exact Or.inr ⟨by simp only [traceO, f1, h1], h2⟩
    · exact Or.inr ⟨by simp only [traceO, f1], f2⟩

theorem stereo_adds {S : Type} [Add S] [Zero S] : MixState.Adds (Stereo S) :=
  fun a t => ⟨a + t, MixState.addPoint_stereo a t⟩

/-- C23: `Take`, `Seq`, `Mix` and `Dup` keep the pull contract. Let the child `s` and the
children `ss` obey it (on calls with non-empty slices their outcomes are legal sequences
of the three return patterns). Then on every sequence of calls with non-empty slices the
outcomes of `Take(k, s)` are a legal sequence; those of `Seq(ss...)` are, every call
returning (given fuel for `len(samples) + len(ss)` rounds of its loop); those of
`Mix(ss...)` are whenever the calls return, and they do return on a point type to which
`Mix` can add, such as `Stereo`; and in every serialized sequence of calls on the two
handles of `Dup(s)` no call faults and the outcomes of each handle are a legal sequence.
A legal sequence holds only the outcomes `len(samples)` and true, a count between 0 and
`len(samples)` and true, and 0 and false, and after either of the last two only 0 and
false. -/
theorem combinators_obey {S P : Type} [Point S P] (s : Streamer P) (hs : s.Obeys)
    (ss : List (Streamer P)) (hss : ∀ c ∈ ss, c.Obeys) :
    (∀ (k : Int) (bufs : List (List P)), (∀ b ∈ bufs, b ≠ []) →
      Legal (trace take.Stream (Take k s) bufs)) ∧
    (∀ (fuel : Nat) (bufs : List (List P)),
      (∀ b ∈ bufs, b ≠ [] ∧ b.length + ss.length ≤ fuel) →
      ∃ rs : List (Pulled P), traceO (SeqState.Stream fuel) (Seq ss) bufs = some rs ∧
        Legal rs) ∧
    (∀ bufs : List (List P), (∀ b ∈ bufs, b ≠ []) →
      (∀ rs : List (Pulled P), traceO MixState.Stream (Mix ss) bufs = some rs → Legal rs) ∧
      (MixState.Adds P →
        ∃ rs : List (Pulled P), traceO MixState.Stream (Mix ss) bufs = some rs ∧ Legal rs)) ∧
    (∀ calls : List (DupHandle × List P), (∀ c ∈ calls, c.2 ≠ []) →
      ∃ rs : List (DupHandle × Pulled P), dupTrace (Dup s) calls = some rs ∧
        ∀ h : DupHandle, Legal (outcomesOf h rs)) := by
  refine ⟨fun k bufs hne => take_obeys bufs hne (Take k s) hs,
    fun fuel bufs hne => seq_obeys fuel bufs (Seq ss) hss hne,
    fun bufs hne => ?_, fun calls hne => dup_obeys calls hne (Dup s) hs⟩
  rcases mix_obeys bufs hne (Mix ss) hss with ⟨rs, h1, h2⟩ | ⟨h1, h2⟩
  · refine ⟨fun rs2 h => ?_, fun _ => ⟨rs, h1, h2⟩⟩
    rw [h1] at h
    injection h with h
    rw [← h]
    exact h2
  · refine ⟨fun rs2 h => ?_, fun hA => absurd hA h2⟩
    rw [h1] at h
    exact absurd h (by simp)

/-- C23 on a Stereo stream with the one sample (1, 1): `Take`, `Seq`, `Mix` and `Dup`
over it, each asked for two slots and then for one. -/
theorem combinators_obey_witness :
    (dataStreamer [(⟨1, 1⟩ : Stereo ℚ)] 0).toStreamer.Obeys ∧
    Legal (trace take.Stream (Take 1 (dataStreamer [(⟨1, 1⟩ : Stereo ℚ)] 0).toStreamer)
      [[⟨0, 0⟩, ⟨0, 0⟩], [⟨0, 0⟩]]) ∧
    (∃ rs : List (Pulled (Stereo ℚ)),
      traceO (SeqState.Stream 3) (Seq [(dataStreamer [(⟨1, 1⟩ : Stereo ℚ)] 0).toStreamer])
        [[⟨0, 0⟩, ⟨0, 0⟩], [⟨0, 0⟩]] = some rs ∧ Legal rs) ∧
    (∃ rs : List (Pulled (Stereo ℚ)),
      traceO MixState.Stream (Mix [(dataStreamer [(⟨1, 1⟩ : Stereo ℚ)] 0).toStreamer])
        [[⟨0, 0⟩, ⟨0, 0⟩], [⟨0, 0⟩]] = some rs ∧ Legal rs) ∧
    (∃ rs : List (DupHandle × Pulled (Stereo ℚ)),
      dupTrace (Dup (dataStreamer [(⟨1, 1⟩ : Stereo ℚ)] 0).toStreamer)
        [(DupHandle.t, [⟨0, 0⟩, ⟨0, 0⟩]), (DupHandle.u, [⟨0, 0⟩])] = some rs ∧
      ∀ h : DupHandle, Legal (outcomesOf h rs)) :=
  ⟨(dataStreamer_hasContent _).content_obeys,
    (@combinators_obey ℚ (Stereo ℚ) _ (dataStreamer [(⟨1, 1⟩ : Stereo ℚ)] 0).toStreamer
      (dataStreamer_hasContent _).content_obeys [] (fun c hc => absurd hc (List.not_mem_nil _))).1 1
      [[⟨0, 0⟩, ⟨0, 0⟩], [⟨0, 0⟩]] (by simp),
    (@combinators_obey ℚ (Stereo ℚ) _ (dataStreamer [(⟨1, 1⟩ : Stereo ℚ)] 0).toStreamer
      (dataStreamer_hasContent _).content_obeys [(dataStreamer [(⟨1, 1⟩ : Stereo ℚ)] 0).toStreamer]
      (fun c hc => by
        rw [List.mem_singleton.1 hc]
        exact (dataStreamer_hasContent _).content_obeys)).2.1 3
      [[⟨0, 0⟩, ⟨0, 0⟩], [⟨0, 0⟩]] (by simp),
    ((@combinators_obey ℚ (Stereo ℚ) _ (dataStreamer [(⟨1, 1⟩ : Stereo ℚ)] 0).toStreamer
      (dataStreamer_hasContent _).content_obeys [(dataStreamer [(⟨1, 1⟩ : Stereo ℚ)] 0).toStreamer]
      (fun c hc => by
        rw [List.mem_singleton.1 hc]
        exact (dataStreamer_hasContent _).content_obeys)).2.2.1
      [[⟨0, 0⟩, ⟨0, 0⟩], [⟨0, 0⟩]] (by simp)).2 stereo_adds,
    (@combinators_obey ℚ (Stereo ℚ) _ (dataStreamer [(⟨1, 1⟩ : Stereo ℚ)] 0).toStreamer
      (dataStreamer_hasContent _).content_obeys [] (fun c hc => absurd hc (List.not_mem_nil _))).2.2.2
      [(DupHandle.t, [⟨0, 0⟩, ⟨0, 0⟩]), (DupHandle.u, [⟨0, 0⟩])] (by simp)⟩

/-! ### Sample rates and durations -/

theorem wrapInt64_of_range (x : Int) (h0 : -(2 ^ 63) ≤ x) (h1 : x < 2 ^ 63) :
    wrapInt64 x = x := by
  unfold wrapInt64
  omega

theorem SampleRate.D_eq (sr n : Int) (hsr : 0 < sr) (hn : 0 ≤ n) (hb : n * 10 ^ 9 < 2 ^ 63) :
    SampleRate.D sr n = some (1000000000 * n / sr) ∧ 0 ≤ 1000000000 * n / sr ∧
      1000000000 * n / sr * sr ≤ 1000000000 * n ∧
      1000000000 * n < (1000000000 * n / sr + 1) * sr := by
  have hq0 : 0 ≤ 1000000000 * n / sr := Int.ediv_nonneg (by omega) (le_of_lt hsr)
  have hle : 1000000000 * n / sr * sr ≤ 1000000000 * n := Int.ediv_mul_le _ (by omega)
  have hlt : 1000000000 * n < (1000000000 * n / sr + 1) * sr := by
    have := Int.lt_ediv_add_one_mul_self (1000000000 * n) hsr
    linarith
  have hqle : 1000000000 * n / sr ≤ 1000000000 * n := by
    have : 1000000000 * n / sr * 1 ≤ 1000000000 * n / sr * sr :=
      Int.mul_le_mul_of_nonneg_left (by omega) hq0
    omega
  refine ⟨?_, hq0, hle, hlt⟩
  have e1 : wrapInt64 (1000000000 * n) = 1000000000 * n :=
    wrapInt64_of_range _ (by omega) (by omega)
  have e2 : wrapInt64 (1000000000 * n / sr) = 1000000000 * n / sr :=
    wrapInt64_of_range _ (by omega) (by omega)
  unfold SampleRate.D Second
  rw [if_neg (by omega), e1, Int.tdiv_eq_ediv (by omega) (le_of_lt hsr), e2]

/-- C40: for every sample rate `0 < sr < 10^9` and every `n ≥ 0` with
`n * 10^9 < 2^63`, `sr.D(n)` is defined and `sr.N(sr.D(n))` is `n - 1` or `n`, and it is
`n` whenever `sr` divides `n * 10^9`. -/
theorem rate_roundtrip (sr n : Int) (hsr : 0 < sr) (hsr2 : sr < 10 ^ 9) (hn : 0 ≤ n)
    (hb : n * 10 ^ 9 < 2 ^ 63) :
    ∃ d : Int, SampleRate.D sr n = some d ∧
      n - 1 ≤ SampleRate.N sr d ∧ SampleRate.N sr d ≤ n ∧
      (sr ∣ n * 10 ^ 9 → SampleRate.N sr d = n) := by
  obtain ⟨h1, h2, h3, h4⟩ := SampleRate.D_eq sr n hsr hn hb
  obtain ⟨d, hd⟩ : ∃ d : Int, d = 1000000000 * n / sr := ⟨_, rfl⟩
  rw [← hd] at h1 h2 h3 h4
  have hds : 0 ≤ d * sr := Int.mul_nonneg h2 (le_of_lt hsr)
  have hN : SampleRate.N sr d = d * sr / 1000000000 := by
    unfold SampleRate.N Second
    have hq0 : 0 ≤ d * sr / 1000000000 := Int.ediv_nonneg hds (by decide)
    have hqle : d * sr / 1000000000 ≤ d * sr := by
      have := Int.ediv_mul_le (d * sr) (show (1000000000 : Int) ≠ 0 by decide)
      omega
    have e1 : wrapInt64 (d * sr) = d * sr := wrapInt64_of_range _ (by omega) (by omega)
    have e2 : wrapInt64 (d * sr / 1000000000) = d * sr / 1000000000 :=
      wrapInt64_of_range _ (by omega) (by omega)
    rw [e1, Int.tdiv_eq_ediv hds (by decide), e2]
  have h5 : 1000000000 * n < d * sr + sr := by
    have : (d + 1) * sr = d * sr + sr := by ring
    rw [this] at h4
    exact h4
  refine ⟨d, h1, ?_, ?_, ?_⟩
  · rw [hN]
    omega
  · rw [hN]
    omega
  · intro hdvd
    rw [hN]
    have hdvd2 : sr ∣ 1000000000 * n := by
      rw [mul_comm]
      exact_mod_cast hdvd
    have : d * sr = 1000000000 * n := by
      rw [hd]
      exact Int.ediv_mul_cancel hdvd2
    rw [this]
    omega

/-- C40 at the rate 44100 and one second of samples. -/
theorem rate_roundtrip_witness :
    ∃ d : Int, SampleRate.D 44100 44100 = some d ∧
      44100 - 1 ≤ SampleRate.N 44100 d ∧ SampleRate.N 44100 d ≤ 44100 ∧
      ((44100 : Int) ∣ 44100 * 10 ^ 9 → SampleRate.N 44100 d = 44100) :=
  rate_roundtrip 44100 44100 (by decide) (by decide) (by decide) (by decide)

/-! ### Frames of the codec, requests of Take, and the end of a Loop call -/

theorem encode_tail {P : Type} [Point ℚ P] [ArrayPoint P] (f : Format) (signed : Bool)
    (hnc : 1 ≤ f.NumChannels) (hp : 0 ≤ f.Precision) (x : P) (p : List Byte)
    (hlen : f.Width ≤ p.length) :
    ∃ p1 : List Byte, f.encode signed p x = some (p1, f.Width) ∧ p1.length = p.length ∧
      p1.drop f.Width.toNat = p.drop f.Width.toNat := by
  obtain ⟨frame, h1, h2⟩ := encode_frame f signed hnc hp x
  refine ⟨frame ++ p.drop f.Width.toNat, h2 p hlen, ?_, ?_⟩
  · rw [List.length_append, h1, List.length_drop]
    omega
  · rw [List.drop_append_of_le_length (by rw [h1]), List.drop_eq_nil_of_le (by rw [h1]),
      List.nil_append]

theorem decode_head {P : Type} [Point ℚ P] [ArrayPoint P] (f : Format) (signed : Bool)
    (hnc : 1 ≤ f.NumChannels) (hp : 0 ≤ f.Precision) (p : List Byte)
    (hlen : f.Width ≤ p.length) :
    ∃ y : P, f.decode signed p = some (y, f.Width) ∧
      ∀ p2 : List Byte, f.Width ≤ p2.length → p2.take f.Width.toNat = p.take f.Width.toNat →
        f.decode signed p2 = some (y, f.Width) := by
  have hw : 0 ≤ f.Width := (width_toNat f (by omega) hp).2
  have hl : ((p.take f.Width.toNat).length : Int) = f.Width := by
    rw [List.length_take]
    omega
  obtain ⟨y, -, h2⟩ := decode_frame (P := P) f signed hnc hp (p.take f.Width.toNat)
    (le_of_eq hl.symm)
  refine ⟨y, ?_, fun p2 _ he => ?_⟩
  · have := h2 (p.drop f.Width.toNat)
    rwa [List.take_append_drop] at this
  · have := h2 (p2.drop f.Width.toNat)
    rwa [← he, List.take_append_drop] at this

/-- C36: for every format with `NumChannels ≥ 1` and `Precision ≥ 1`, every Mono or
Stereo sample and every slice `p` of at least `Width()` bytes: `EncodeSigned` and
`EncodeUnsigned` return `Width()` and leave the length of `p` and the bytes `p[Width():]`
as they were; `DecodeSigned` and `DecodeUnsigned` return `n = Width()`, and they return
the same sample and `n` on every slice of at least `Width()` bytes that agrees with `p`
on the first `Width()` bytes. -/
theorem codec_frame {P : Type} [Point ℚ P] [ArrayPoint P] (f : Format)
    (hnc : 1 ≤ f.NumChannels) (hp : 1 ≤ f.Precision) (p : List Byte)
    (hlen : f.Width ≤ p.length) :
    (∀ x : P, ∃ p1 : List Byte, f.EncodeSigned p x = some (p1, f.Width) ∧
      p1.length = p.length ∧ p1.drop f.Width.toNat = p.drop f.Width.toNat) ∧
    (∀ x : P, ∃ p1 : List Byte, f.EncodeUnsigned p x = some (p1, f.Width) ∧
      p1.length = p.length ∧ p1.drop f.Width.toNat = p.drop f.Width.toNat) ∧
    (∃ y : P, f.DecodeSigned p = some (y, f.Width) ∧
      ∀ p2 : List Byte, f.Width ≤ p2.length → p2.take f.Width.toNat = p.take f.Width.toNat →
        f.DecodeSigned p2 = some (y, f.Width)) ∧
    (∃ y : P, f.DecodeUnsigned p = some (y, f.Width) ∧
      ∀ p2 : List Byte, f.Width ≤ p2.length → p2.take f.Width.toNat = p.take f.Width.toNat →
        f.DecodeUnsigned p2 = some (y, f.Width)) :=
  ⟨fun x => encode_tail f true hnc (by omega) x p hlen,
    fun x => encode_tail f false hnc (by omega) x p hlen,
    decode_head f true hnc (by omega) p hlen, decode_head f false hnc (by omega) p hlen⟩

/-- C36 at the 16-bit stereo format, on a slice of five bytes. -/
theorem codec_frame_witness :
    (∀ x : Stereo ℚ, ∃ p1 : List Byte,
      Format.EncodeSigned ⟨44100, 2, 2, Size.float64⟩ [1, 2, 3, 4, 5] x = some (p1, Format.Width ⟨44100, 2, 2, Size.float64⟩) ∧
      p1.length = [(1 : Byte), 2, 3, 4, 5].length ∧
      p1.drop (Format.Width ⟨44100, 2, 2, Size.float64⟩).toNat
        = [(1 : Byte), 2, 3, 4, 5].drop (Format.Width ⟨44100, 2, 2, Size.float64⟩).toNat) ∧
    (∃ y : Stereo ℚ,
      Format.DecodeSigned ⟨44100, 2, 2, Size.float64⟩ [1, 2, 3, 4, 5] = some (y, Format.Width ⟨44100, 2, 2, Size.float64⟩) ∧
      ∀ p2 : List Byte, Format.Width ⟨44100, 2, 2, Size.float64⟩ ≤ p2.length →
        p2.take (Format.Width ⟨44100, 2, 2, Size.float64⟩).toNat
          = [(1 : Byte), 2, 3, 4, 5].take (Format.Width ⟨44100, 2, 2, Size.float64⟩).toNat →
        Format.DecodeSigned ⟨44100, 2, 2, Size.float64⟩ p2 = some (y, Format.Width ⟨44100, 2, 2, Size.float64⟩)) :=
  ⟨(@codec_frame (Stereo ℚ) _ _ ⟨44100, 2, 2, Size.float64⟩ (by decide) (by decide) [1, 2, 3, 4, 5]
      (by decide)).1,
    (@codec_frame (Stereo ℚ) _ _ ⟨44100, 2, 2, Size.float64⟩ (by decide) (by decide) [1, 2, 3, 4, 5]
      (by decide)).2.2.1⟩

theorem take_call {P : Type} (t : take P) (samples : List P) :
    (t.remains ≤ 0 → take.request t samples = none ∧
      take.Stream t samples = (⟨samples, 0, false⟩, t)) ∧
    (0 < t.remains → ∃ req : List P, take.request t samples = some req ∧
      req = samples.take (min samples.length t.remains.toNat) ∧
      req.length = min samples.length t.remains.toNat ∧
      (take.Stream t samples).1.n = (t.s.Stream req).1.n ∧
      (take.Stream t samples).1.ok = (t.s.Stream req).1.ok ∧
      (take.Stream t samples).2.s = (t.s.Stream req).2 ∧
      (take.Stream t samples).2.remains = t.remains - (t.s.Stream req).1.n) := by
  constructor
  · intro h
    unfold take.request take.Stream
    rw [if_pos h, if_pos h]
    exact ⟨rfl, rfl⟩
  · intro h
    have hk : ¬ t.remains ≤ 0 := by omega
    have hts : (if (samples.length : Int) < t.remains then (samples.length : Int)
        else t.remains).toNat = min samples.length t.remains.toNat := by
      split <;> omega
    refine ⟨samples.take (min samples.length t.remains.toNat), ?_, rfl, ?_, ?_, ?_, ?_, ?_⟩
    · unfold take.request
      rw [if_neg hk]
      simp only [hts]
    · rw [List.length_take]
      omega
    all_goals
      unfold take.Stream
      rw [if_neg hk]
      simp only [hts]

theorem take_child_left {P : Type} (bufs : List (List P)) (hne : ∀ b ∈ bufs, b ≠ []) :
    ∀ (k : Int) (s : Streamer P) (d : List P), s.HasContent d →
      ∃ c : Nat, c = min (min k.toNat (totalSlots bufs)) d.length ∧
        (after take.Stream { s := s, remains := k } bufs).remains = k - (c : Int) ∧
        (after take.Stream { s := s, remains := k } bufs).s.HasContent (d.drop c) ∧
        (k ≤ 0 → (after take.Stream { s := s, remains := k } bufs).s = s) := by
  induction bufs with
  | nil =>
    intro k s d h
    refine ⟨0, by simp [totalSlots], by simp [after], by simpa [after] using h, fun _ => rfl⟩
  | cons b bs ih =>
    intro k s d h
    have hb : b ≠ [] := hne b (List.mem_cons_self _ _)
    have hbs : ∀ x ∈ bs, x ≠ [] := fun x hx => hne x (List.mem_cons_of_mem _ hx)
    have hlen : 0 < b.length := List.length_pos.2 hb
    have htot : totalSlots (b :: bs) = b.length + totalSlots bs := by
      simp [totalSlots]
    by_cases hk : k ≤ 0
    · have e := ((take_call { s := s, remains := k } b).1 hk).2
      obtain ⟨c, hc, h1, h2, h3⟩ := ih hbs k s d h
      refine ⟨c, ?_, ?_, ?_, fun _ => ?_⟩
      · rw [hc, htot]; omega
      · simp only [after, e]; exact h1
      · simp only [after, e]; exact h2
      · simp only [after, e]; exact h3 hk
    · obtain ⟨req, -, hreq, hrl, -, -, e1, e2⟩ :=
        (take_call { s := s, remains := k } b).2 (show (0 : Int) < k by omega)
      have hrl3 : req.length = min b.length k.toNat := hrl
      have hrne : req ≠ [] := List.length_pos.1 (by omega)
      obtain ⟨g1, g2⟩ := h.step hrne
      have hn : (s.Stream req).1.n = ((min req.length d.length : Nat) : Int) := by
        rw [g1]; rfl
      have hrest : (refPull d req).2 = d.drop req.length := rfl
      rw [hrest] at g2
      have hst : take.Stream { s := s, remains := k } b =
          ((take.Stream { s := s, remains := k } b).1,
            { s := (s.Stream req).2, remains := k - (s.Stream req).1.n }) := by
        rw [← e1, ← e2]
      obtain ⟨c, hc, h1, h2, -⟩ := ih hbs (k - (s.Stream req).1.n) (s.Stream req).2
        (d.drop req.length) g2
      have hrl2 : req.length = min b.length k.toNat := hrl
      rw [hn, List.length_drop] at hc
      refine ⟨min req.length d.length + c, ?_, ?_, ?_, fun h0 => absurd h0 hk⟩
      · rw [htot]; omega
      · rw [after, hst]
        simp only
        rw [h1, hn]
        push_cast
        ring
      · rw [after, hst]
        simp only
        have hd : (d.drop req.length).drop c = d.drop (min req.length d.length + c) := by
          rw [List.drop_drop]
          by_cases hle : req.length ≤ d.length
          · rw [Nat.min_eq_left hle, Nat.add_comm]
          · rw [List.drop_eq_nil_of_le (by omega), List.drop_eq_nil_of_le (by omega)]
        rw [← hd]
        exact h2

/-- C34: what `Take(k, s)` asks of its child. In every call, when `remains ≤ 0` the
child is not called and the `take` is left as it was; otherwise the child is called once,
on the first `min(len(samples), remains)` slots, `Take` returns what the child returns
and `remains` decreases by the count the child returned. Hence, for a contract-obeying
finite child with content `d` and any sequence of non-empty pulls, the child has been
asked for `c = min(k, slots requested, |d|)` samples (for `k ≤ 0`: none, and the child is
untouched), `remains` is `k - c`, never negative for `k ≥ 0`, and the child still has
`d[c:]` to stream: exactly `d[k:]` once `k ≤ |d|` slots have been requested. -/
theorem take_frame {P : Type} (k : Int) (s : Streamer P) :
    (∀ (t : take P) (samples : List P),
      (t.remains ≤ 0 → take.request t samples = none ∧
        take.Stream t samples = (⟨samples, 0, false⟩, t)) ∧
      (0 < t.remains → ∃ req : List P, take.request t samples = some req ∧
        req = samples.take (min samples.length t.remains.toNat) ∧
        req.length = min samples.length t.remains.toNat ∧
        (take.Stream t samples).1.n = (t.s.Stream req).1.n ∧
        (take.Stream t samples).1.ok = (t.s.Stream req).1.ok ∧
        (take.Stream t samples).2.s = (t.s.Stream req).2 ∧
        (take.Stream t samples).2.remains = t.remains - (t.s.Stream req).1.n)) ∧
    (∀ (d : List P), s.HasContent d → ∀ bufs : List (List P), (∀ b ∈ bufs, b ≠ []) →
      ∃ c : Nat, c = min (min k.toNat (totalSlots bufs)) d.length ∧
        (c : Int) ≤ max k 0 ∧
        (after take.Stream (Take k s) bufs).remains = k - (c : Int) ∧
        (after take.Stream (Take k s) bufs).s.HasContent (d.drop c) ∧
        (k ≤ 0 → (after take.Stream (Take k s) bufs).s = s) ∧
        (0 ≤ k → k ≤ (d.length : Int) → k ≤ (totalSlots bufs : Int) →
          (after take.Stream (Take k s) bufs).remains = 0 ∧
          (after take.Stream (Take k s) bufs).s.HasContent (d.drop k.toNat))) := by
  refine ⟨fun t samples => take_call t samples, fun d hd bufs hne => ?_⟩
  obtain ⟨c, hc, h1, h2, h3⟩ := take_child_left bufs hne k s d hd
  refine ⟨c, hc, by omega, h1, h2, h3, fun h0 hkd hkt => ?_⟩
  have hck : c = k.toNat := by omega
  refine ⟨?_, ?_⟩
  · show (after take.Stream { s := s, remains := k } bufs).remains = 0
    rw [h1]; omega
  · rw [← hck]; exact h2

/-- C34 on `Take(2, s)` over a child with the content 1, 2, 3, asked for 1 and 2 slots:
the child is left with the content 3. -/
theorem take_frame_witness :
    (dataStreamer [1, 2, 3] 0).toStreamer.HasContent [1, 2, 3] ∧
    (after take.Stream (Take 2 (dataStreamer [1, 2, 3] 0).toStreamer) [[0], [0, 0]]).remains = 0 ∧
    (after take.Stream (Take 2 (dataStreamer [1, 2, 3] 0).toStreamer)
      [[0], [0, 0]]).s.HasContent (List.drop (2 : Int).toNat [1, 2, 3]) :=
  ⟨dataStreamer_hasContent _,
    (Exists.choose_spec ((take_frame 2 (dataStreamer [1, 2, 3] 0).toStreamer).2 [1, 2, 3]
      (dataStreamer_hasContent _) [[0], [0, 0]] (by decide))).2.2.2.2.2 (by decide) (by decide)
      (by decide)⟩

theorem StreamSeeker.Rewinds.rewinds_pull {P : Type} {s : StreamSeeker P} {d r : List P}
    (h : s.Rewinds d r) {b : List P} (hb : b ≠ []) :
    (s.Stream b).1 = (refPull r b).1 ∧ (s.Stream b).2.Rewinds d (refPull r b).2 := by
  obtain ⟨R, h0, hR⟩ := h
  obtain ⟨h1, h2⟩ := (hR _ _ h0).1 b hb
  exact ⟨h1, R, h2, hR⟩

theorem StreamSeeker.Rewinds.rewinds_seek {P : Type} {s : StreamSeeker P} {d r : List P}
    (h : s.Rewinds d r) :
    ((s.Seek 0).1 = false → (s.Seek 0).2.Rewinds d d) ∧
      ((s.Seek 0).1 = true → (s.Seek 0).2.Rewinds d r) := by
  obtain ⟨R, h0, hR⟩ := h
  obtain ⟨-, h1, h2⟩ := hR _ _ h0
  exact ⟨fun e => ⟨R, h1 e, hR⟩, fun e => ⟨R, h2 e, hR⟩⟩

theorem StreamSeeker.Replays.rewinds {P : Type} {s : StreamSeeker P} {d r : List P}
    (h : s.Replays d r) : s.Rewinds d r := by
  obtain ⟨R, h0, hR⟩ := h
  refine ⟨R, h0, fun x y hxy => ?_⟩
  obtain ⟨-, h1, h2, h3⟩ := hR x y hxy
  refine ⟨h1, fun _ => h3, fun e => ?_⟩
  rw [h2] at e
  exact absurd e (by decide)

theorem unseekableStreamer_rewinds {P : Type} (data : List P) (pos : Nat) :
    (unseekableStreamer data pos).Rewinds data (data.drop pos) := by
  refine ⟨fun x y => x.1 = data ∧ y = data.drop x.2, ⟨rfl, rfl⟩, ?_⟩
  rintro ⟨dat, p⟩ y ⟨h1, h2⟩
  simp only at h1 h2
  subst h1 h2
  refine ⟨fun b _ => ?_, fun e => ?_, fun _ => ⟨rfl, rfl⟩⟩
  swap
  · have e2 : (true : Bool) = false := e
    exact absurd e2 (by decide)
  obtain ⟨e1, e2, e3⟩ := dataStreamer.streamFn_spec dat p b
  exact ⟨e1, e2, e3.symm⟩

theorem loop_body_counted {P : Type} (d : List P) (fuel : Nat) :
    ∀ (s : StreamSeeker P) (k : Nat) (filled samples : List P) (n : Int) (r : List P),
      s.Rewinds d r → samples.length + (k + 1) ≤ fuel →
      ∃ (res : Pulled P × loop P) (m : Nat),
        loop.body fuel s ((k : Int) + 1) filled samples n = some res ∧
        loop.bodyDrains fuel s ((k : Int) + 1) samples = some m ∧
        (m : Int) = (k : Int) + 1 - res.2.remains ∧ 0 ≤ res.2.remains ∧
        ∃ r1 : List P, res.2.s.Rewinds d r1 := by
  induction fuel with
  | zero => intro s k filled samples n r _ hfuel; omega
  | succ fuel ih =>
    intro s k filled samples n r hs hfuel
    by_cases hc : 0 < samples.length
    · have hne : samples ≠ [] := List.length_pos.1 hc
      obtain ⟨h1, h2⟩ := hs.rewinds_pull hne
      set p := s.Stream samples with hpdef
      have hok : p.1.ok = !r.isEmpty := by rw [h1]; rfl
      have hplen : p.1.samples.length = samples.length := by
        rw [h1]; exact length_refPull _ _
      have hk1 : ((k : Int) + 1 > 0) := by omega
      cases r with
      | nil =>
        rw [refPull_nil] at h2
        have hokf : p.1.ok = false := by rw [hok]; rfl
        cases k with
        | zero =>
          refine ⟨(⟨filled ++ p.1.samples, n, true⟩, { s := p.2, remains := 0 }), 1,
            ?_, ?_, by simp, le_refl _, [], h2⟩
          · unfold loop.body
            rw [if_pos hc]
            simp only
            rw [← hpdef, hokf]
            simp
          · unfold loop.bodyDrains
            rw [if_pos hc]
            simp only
            rw [← hpdef, hokf]
            simp
        | succ k =>
          have hk3 : ((k + 1 : Nat) : Int) + 1 - 1 = (k : Int) + 1 := by omega
          have hk2 : ¬ (k : Int) + 1 = 0 := by omega
          obtain ⟨e1, e2⟩ := h2.rewinds_seek
          have hb : loop.body (fuel + 1) s (((k + 1 : Nat) : Int) + 1) filled samples n =
              if (p.2.Seek 0).1 then
                some (⟨filled ++ p.1.samples, n, true⟩,
                  { s := (p.2.Seek 0).2, remains := (k : Int) + 1 })
              else loop.body fuel (p.2.Seek 0).2 ((k : Int) + 1) filled p.1.samples n := by
            conv_lhs => unfold loop.body
            rw [if_pos hc]
            simp only
            rw [← hpdef, hokf]
            simp only [Bool.not_false, if_true, hk1, hk3, hk2, if_false]
          have hdr : loop.bodyDrains (fuel + 1) s (((k + 1 : Nat) : Int) + 1) samples =
              if (p.2.Seek 0).1 then some 1
              else (loop.bodyDrains fuel (p.2.Seek 0).2 ((k : Int) + 1) p.1.samples).map
                (fun k => k + 1) := by
            conv_lhs => unfold loop.bodyDrains
            rw [if_pos hc]
            simp only
            rw [← hpdef, hokf]
            simp only [Bool.not_false, if_true, hk1, hk3, hk2, if_false]
          cases hseek : (p.2.Seek 0).1 with
          | true =>
            rw [hseek] at hb hdr
            refine ⟨_, 1, hb, hdr, ?_, ?_, [], e2 hseek⟩
            · show ((1 : Nat) : Int) = ((k + 1 : Nat) : Int) + 1 - ((k : Int) + 1)
              omega
            · show (0 : Int) ≤ (k : Int) + 1
              omega
          | false =>
            rw [hseek] at hb hdr
            obtain ⟨res, m, a1, a2, a3, a4, a5⟩ := ih (p.2.Seek 0).2 k filled p.1.samples n d
              (e1 hseek) (by omega)
            refine ⟨res, m + 1, ?_, ?_, by omega, a4, a5⟩
            · rw [hb]; exact a1
            · rw [hdr, a2]; rfl
      | cons x xs =>
        have hokt : p.1.ok = true := by rw [hok]; rfl
        obtain ⟨m0, hm⟩ : ∃ m, m = min samples.length (x :: xs).length := ⟨_, rfl⟩
        have hm1 : m0 ≤ samples.length := hm ▸ Nat.min_le_left _ _
        have hm3 : 0 < m0 := by
          rw [hm]; exact Nat.lt_min.2 ⟨hc, by simp⟩
        have hn1 : p.1.n = (m0 : Int) := by rw [h1, hm]; rfl
        have hslice : sliceFrom p.1.samples p.1.n = some (p.1.samples.drop m0) := by
          rw [hn1, sliceFrom_ofNat _ (by omega)]
        have hb : loop.body (fuel + 1) s ((k : Int) + 1) filled samples n =
            loop.body fuel p.2 ((k : Int) + 1) (filled ++ p.1.samples.take p.1.n.toNat)
              (p.1.samples.drop m0) (n + p.1.n) := by
          conv_lhs => unfold loop.body
          rw [if_pos hc]
          simp only
          rw [← hpdef, hokt, hslice]
          simp
        have hdr : loop.bodyDrains (fuel + 1) s ((k : Int) + 1) samples =
            loop.bodyDrains fuel p.2 ((k : Int) + 1) (p.1.samples.drop m0) := by
          conv_lhs => unfold loop.bodyDrains
          rw [if_pos hc]
          simp only
          rw [← hpdef, hokt, hslice]
          simp
        obtain ⟨res, m, a1, a2, a3, a4, a5⟩ := ih p.2 k
          (filled ++ p.1.samples.take p.1.n.toNat) (p.1.samples.drop m0) (n + p.1.n) _ h2
          (by rw [List.length_drop, hplen]; omega)
        exact ⟨res, m, by rw [hb]; exact a1, by rw [hdr]; exact a2, a3, a4, a5⟩
    · have hs0 : samples = [] := List.length_eq_zero.1 (by omega)
      subst hs0
      refine ⟨(⟨filled ++ [], n, true⟩, { s := s, remains := (k : Int) + 1 }), 0, ?_, ?_,
        by simp, ?_, r, hs⟩
      · unfold loop.body
        simp
      · unfold loop.bodyDrains
        simp
      · show (0 : Int) ≤ (k : Int) + 1
        omega

theorem loop_body_endless {P : Type} (d : List P) (hd : d ≠ []) (c : Int) (hc : c < 0)
    (fuel : Nat) :
    ∀ (s : StreamSeeker P) (filled samples : List P) (n : Int) (r : List P),
      s.Rewinds d r → 2 * samples.length + (if r.isEmpty then 1 else 0) ≤ fuel →
      ∃ res : Pulled P × loop P, loop.body fuel s c filled samples n = some res ∧
        res.2.remains = c ∧ ∃ r1 : List P, res.2.s.Rewinds d r1 := by
  induction fuel with
  | zero =>
    intro s filled samples n r hs hfuel
    have hs0 : samples = [] := List.length_eq_zero.1 (by omega)
    subst hs0
    refine ⟨(⟨filled ++ [], n, true⟩, { s := s, remains := c }), ?_, rfl, r, hs⟩
    unfold loop.body
    simp
  | succ fuel ih =>
    intro s filled samples n r hs hfuel
    by_cases hlen : 0 < samples.length
    · have hne : samples ≠ [] := List.length_pos.1 hlen
      obtain ⟨h1, h2⟩ := hs.rewinds_pull hne
      set p := s.Stream samples with hpdef
      have hok : p.1.ok = !r.isEmpty := by rw [h1]; rfl
      have hplen : p.1.samples.length = samples.length := by
        rw [h1]; exact length_refPull _ _
      have hc1 : ¬ c > 0 := by omega
      have hc2 : ¬ c = 0 := by omega
      cases r with
      | nil =>
        rw [refPull_nil] at h2
        have hokf : p.1.ok = false := by rw [hok]; rfl
        obtain ⟨e1, e2⟩ := h2.rewinds_seek
        have hb : loop.body (fuel + 1) s c filled samples n =
            if (p.2.Seek 0).1 then
              some (⟨filled ++ p.1.samples, n, true⟩, { s := (p.2.Seek 0).2, remains := c })
            else loop.body fuel (p.2.Seek 0).2 c filled p.1.samples n := by
          conv_lhs => unfold loop.body
          rw [if_pos hlen]
          simp only
          rw [← hpdef, hokf]
          simp only [Bool.not_false, if_true, hc1, hc2, if_false]
        cases hseek : (p.2.Seek 0).1 with
        | true =>
          rw [hseek] at hb
          exact ⟨_, hb, rfl, [], e2 hseek⟩
        | false =>
          rw [hseek] at hb
          have hdne : d.isEmpty = false := by
            cases d with
            | nil => exact absurd rfl hd
            | cons y ys => rfl
          obtain ⟨res, a1, a2, a3⟩ := ih (p.2.Seek 0).2 filled p.1.samples n d (e1 hseek) (by
            rw [hdne, hplen]
            simp only [List.isEmpty_nil, if_true] at hfuel
            simp only [Bool.false_eq_true, if_false]
            omega)
          exact ⟨res, by rw [hb]; exact a1, a2, a3⟩
      | cons x xs =>
        have hokt : p.1.ok = true := by rw [hok]; rfl
        obtain ⟨m0, hm⟩ : ∃ m, m = min samples.length (x :: xs).length := ⟨_, rfl⟩
        have hm1 : m0 ≤ samples.length := hm ▸ Nat.min_le_left _ _
        have hm3 : 0 < m0 := by
          rw [hm]; exact Nat.lt_min.2 ⟨hlen, by simp⟩
        have hn1 : p.1.n = (m0 : Int) := by rw [h1, hm]; rfl
        have hslice : sliceFrom p.1.samples p.1.n = some (p.1.samples.drop m0) := by
          rw [hn1, sliceFrom_ofNat _ (by omega)]
        have hb : loop.body (fuel + 1) s c filled samples n =
            loop.body fuel p.2 c (filled ++ p.1.samples.take p.1.n.toNat)
              (p.1.samples.drop m0) (n + p.1.n) := by
          conv_lhs => unfold loop.body
          rw [if_pos hlen]
          simp only
          rw [← hpdef, hokt, hslice]
          simp
        obtain ⟨res, a1, a2, a3⟩ := ih p.2 (filled ++ p.1.samples.take p.1.n.toNat)
          (p.1.samples.drop m0) (n + p.1.n) _ h2 (by
            rw [List.length_drop, hplen]
            split <;> omega)
        exact ⟨res, by rw [hb]; exact a1, a2, a3⟩
    · have hs0 : samples = [] := List.length_eq_zero.1 (by omega)
      subst hs0
      refine ⟨(⟨filled ++ [], n, true⟩, { s := s, remains := c }), ?_, rfl, r, hs⟩
      unfold loop.body
      simp

/-- C39: one call of `loop.Stream` returns. Let the child be a finite contract-obeying
seekable stream with content `d` (a `Seek(0)` that fails leaves the position unchanged).
When `remains ≥ 0`, a call on `N` slots returns given fuel for `N + remains` rounds of
the loop; it sees the child drained at most `remains` times (as often as `remains`
decreases in the call), and `remains` does not become negative. When `remains < 0` and the
child has at least one sample, a call on `N` slots returns given fuel for `2 * N + 1`
rounds, and `remains` is left as it was. In both cases the child is again such a stream,
so the same holds for every later call; `remains` of `Loop(count, s)` starts as `count`. -/
theorem loop_terminates {P : Type} (d r : List P) (l : loop P) (hs : l.s.Rewinds d r)
    (samples : List P) (fuel : Nat) :
    (0 ≤ l.remains → samples.length + l.remains.toNat ≤ fuel →
      ∃ (res : Pulled P × loop P) (m : Nat), loop.Stream fuel l samples = some res ∧
        loop.drains fuel l samples = some m ∧ (m : Int) ≤ l.remains ∧
        (m : Int) = l.remains - res.2.remains ∧ 0 ≤ res.2.remains ∧
        ∃ r1 : List P, res.2.s.Rewinds d r1) ∧
    (l.remains < 0 → 1 ≤ d.length → 2 * samples.length + 1 ≤ fuel →
      ∃ res : Pulled P × loop P, loop.Stream fuel l samples = some res ∧
        res.2.remains = l.remains ∧ ∃ r1 : List P, res.2.s.Rewinds d r1) ∧
    (∀ (count : Int) (s : StreamSeeker P), (Loop count s).remains = count) := by
  refine ⟨fun h0 hf => ?_, fun h0 hd hf => ?_, fun _ _ => rfl⟩
  · by_cases hstop : l.remains = 0 ∨ l.s.Err = true
    · refine ⟨(⟨samples, 0, false⟩, l), 0, ?_, ?_, by simpa using h0, by simp, h0, r, hs⟩
      · unfold loop.Stream
        rw [if_pos hstop]
      · unfold loop.drains
        rw [if_pos hstop]
    · obtain ⟨k, hk⟩ : ∃ k : Nat, l.remains = (k : Int) + 1 :=
        ⟨(l.remains - 1).toNat, by
          have : l.remains ≠ 0 := fun e => hstop (Or.inl e)
          omega⟩
      obtain ⟨res, m, a1, a2, a3, a4, a5⟩ :=
        loop_body_counted d fuel l.s k [] samples 0 r hs (by omega)
      refine ⟨res, m, ?_, ?_, by omega, by omega, a4, a5⟩
      · unfold loop.Stream
        rw [if_neg hstop, hk]
        exact a1
      · unfold loop.drains
        rw [if_neg hstop, hk]
        exact a2
  · by_cases hstop : l.remains = 0 ∨ l.s.Err = true
    · refine ⟨(⟨samples, 0, false⟩, l), ?_, rfl, r, hs⟩
      unfold loop.Stream
      rw [if_pos hstop]
    · have hd2 : d ≠ [] := by
        intro h
        rw [h] at hd
        exact absurd hd (Nat.not_succ_le_zero 0)
      obtain ⟨res, a1, a2, a3⟩ := loop_body_endless d hd2 l.remains h0 fuel l.s [] samples 0 r
        hs (by split <;> omega)
      refine ⟨res, ?_, a2, a3⟩
      unfold loop.Stream
      rw [if_neg hstop]
      exact a1

/-- C39 on `Loop(2, s)` over a seeker with the samples 1, 2, asked for 5 slots, and on
`Loop(-1, s)` over a seeker that cannot seek. -/
theorem loop_terminates_witness :
    (∃ (res : Pulled Nat × loop Nat) (m : Nat),
      loop.Stream 7 (Loop 2 (dataStreamer [1, 2] 0)) [0, 0, 0, 0, 0] = some res ∧
      loop.drains 7 (Loop 2 (dataStreamer [1, 2] 0)) [0, 0, 0, 0, 0] = some m ∧
      (m : Int) ≤ (Loop 2 (dataStreamer [1, 2] 0)).remains ∧
      (m : Int) = (Loop 2 (dataStreamer [1, 2] 0)).remains - res.2.remains ∧
      0 ≤ res.2.remains ∧ ∃ r1 : List Nat, res.2.s.Rewinds [1, 2] r1) ∧
    (∃ res : Pulled Nat × loop Nat,
      loop.Stream 5 (Loop (-1) (unseekableStreamer [1] 0)) [0, 0] = some res ∧
      res.2.remains = (Loop (-1) (unseekableStreamer [1] 0)).remains ∧
      ∃ r1 : List Nat, res.2.s.Rewinds [1] r1) :=
  ⟨(loop_terminates [1, 2] [1, 2] (Loop 2 (dataStreamer [1, 2] 0))
      (dataStreamer_replays _).rewinds [0, 0, 0, 0, 0] 7).1 (by decide) (by decide),
    (loop_terminates [1] [1] (Loop (-1) (unseekableStreamer [1] 0))
      (unseekableStreamer_rewinds [1] 0) [0, 0] 5).2.1 (by decide) (by decide) (by decide)⟩

/-! ### One round of the Mixer -/

theorem Mixer.round_requests {S P : Type} [Point S P] (ct toStream : Nat) (ht : toStream ≤ 512)
    (fuel : Nat) :
    ∀ (streamers : List (Streamer P)) (si : Nat) (samples tmp : List P)
      (calls : List (MixerCall P))
      (res : List (Streamer P) × List P × List P × List (MixerCall P)),
      tmp.length = 512 →
      Mixer.round ct toStream fuel streamers si samples tmp calls = some res →
      ∃ new : List (MixerCall P), res.2.2.2 = calls ++ new ∧
        ∀ c ∈ new, c.OfSize toStream := by
  induction fuel with
  | zero =>
    intro streamers si samples tmp calls res _ h
    unfold Mixer.round at h
    by_cases hsi : si < streamers.length
    · rw [dif_pos hsi] at h
      simp at h
    · rw [dif_neg hsi] at h
      simp only [Option.some.injEq] at h
      subst h
      exact ⟨[], by simp, fun c hc => absurd hc (List.not_mem_nil _)⟩
  | succ fuel ih =>
    intro streamers si samples tmp calls res htmp h
    unfold Mixer.round at h
    by_cases hsi : si < streamers.length
    · rw [dif_pos hsi] at h
      simp only at h
      set c := (streamers.get ⟨si, hsi⟩).Stream (tmp.take toStream) with hcdef
      have hreq : (tmp.take toStream).length = toStream := by
        rw [List.length_take, htmp]; omega
      have htmp1 : (c.1.samples ++ tmp.drop toStream).length = 512 := by
        rw [List.length_append, hcdef, Streamer.length_stream, hreq, List.length_drop, htmp]
        omega
      have hcall : MixerCall.OfSize
          { before := streamers.get ⟨si, hsi⟩, after := c.2, ok := c.1.ok } toStream :=
        ⟨tmp.take toStream, hreq, rfl, rfl⟩
      split at h
      · split at h
        · simp at h
        · split at h
          · obtain ⟨new, h1, h2⟩ := ih _ _ _ _ _ _ htmp1 h
            refine ⟨{ before := streamers.get ⟨si, hsi⟩, after := c.2, ok := c.1.ok } :: new,
              by rw [h1]; simp, fun x hx => ?_⟩
            rcases List.mem_cons.1 hx with rfl | hx
            · exact hcall
            · exact h2 x hx
          · obtain ⟨new, h1, h2⟩ := ih _ _ _ _ _ _ htmp1 h
            refine ⟨{ before := streamers.get ⟨si, hsi⟩, after := c.2, ok := c.1.ok } :: new,
              by rw [h1]; simp, fun x hx => ?_⟩
            rcases List.mem_cons.1 hx with rfl | hx
            · exact hcall
            · exact h2 x hx
      · simp at h
    · rw [dif_neg hsi] at h
      simp only [Option.some.injEq] at h
      subst h
      exact ⟨[], by simp, fun c hc => absurd hc (List.not_mem_nil _)⟩

/-- C38: one round of `Mixer.Stream`, the loop over `m.streamers` on a request of
`toStream ≤ 512` slots. Whenever the round returns, the streamers it called, each as it
was when the round started, are exactly the streamers held at the start, each once (as
lists up to order): none is skipped and none is called twice, whichever calls report
drained. Every call is on a slice of `toStream` slots, and the streamers held afterwards
are exactly those whose call returned `ok`, as the call left them. For streamers that
return counts in range the round does return, given fuel for `len(m.streamers)`
iterations. -/
theorem mixer_round_once {S P : Type} [Point S P] (toStream : Nat) (ht : toStream ≤ 512)
    (streamers : List (Streamer P)) (samples tmp : List P) (htmp : tmp.length = 512) :
    (∀ (ct fuel : Nat) (res : List (Streamer P) × List P × List P × List (MixerCall P)),
      Mixer.round ct toStream fuel streamers 0 samples tmp [] = some res →
      (res.2.2.2.map (fun c => c.before)).Perm streamers ∧
      res.2.2.2.length = streamers.length ∧
      (∀ c ∈ res.2.2.2, c.OfSize toStream) ∧
      res.1.Perm (survivors res.2.2.2)) ∧
    (∀ [LawfulPoint S P], (∀ s ∈ streamers, s.InRange) → toStream ≤ samples.length →
      ∃ res : List (Streamer P) × List P × List P × List (MixerCall P),
        Mixer.round (Point.Count (Point.zero : P)) toStream streamers.length streamers 0
          samples tmp [] = some res) := by
  constructor
  · intro ct fuel res h
    obtain ⟨new, h1, h2, h3⟩ := Mixer.round_log ct toStream fuel streamers 0 samples tmp [] res h
    obtain ⟨new2, g1, g2⟩ :=
      Mixer.round_requests ct toStream ht fuel streamers 0 samples tmp [] res htmp h
    rw [List.nil_append] at h1 g1
    rw [List.drop_zero] at h2
    rw [List.take_zero, List.nil_append] at h3
    refine ⟨by rw [h1]; exact h2, ?_, by rw [g1]; exact g2, by rw [h1]; exact h3⟩
    rw [h1]
    have := h2.length_eq
    rwa [List.length_map] at this
  · intro _ hin hs
    obtain ⟨s1, tmp1, calls1, e, -⟩ := Mixer.round_total toStream streamers.length streamers 0
      samples tmp [] hin htmp hs ht (by omega)
    exact ⟨_, e⟩

/-- C38 on a round of one slot over a stream without samples, which reports drained and
is swapped out, and a stream of one sample: the round returns. -/
theorem mixer_round_once_witness :
    ∃ res : List (Streamer (Stereo ℚ)) × List (Stereo ℚ) × List (Stereo ℚ) ×
        List (MixerCall (Stereo ℚ)),
      Mixer.round (Point.Count (Point.zero : Stereo ℚ)) 1
        [(dataStreamer ([] : List (Stereo ℚ)) 0).toStreamer,
          (dataStreamer [(⟨1, 1⟩ : Stereo ℚ)] 0).toStreamer].length
        [(dataStreamer ([] : List (Stereo ℚ)) 0).toStreamer,
          (dataStreamer [(⟨1, 1⟩ : Stereo ℚ)] 0).toStreamer] 0
        [⟨0, 0⟩] (List.replicate 512 ⟨0, 0⟩) [] = some res :=
  (@mixer_round_once ℚ (Stereo ℚ) _ 1 (by decide)
    [(dataStreamer ([] : List (Stereo ℚ)) 0).toStreamer,
      (dataStreamer [(⟨1, 1⟩ : Stereo ℚ)] 0).toStreamer] [⟨0, 0⟩] (List.replicate 512 ⟨0, 0⟩)
    (List.length_replicate _ _)).2
    (fun s hs => by
      rcases List.mem_cons.1 hs with rfl | hs
      · exact dataStreamer_inRange _ _
      · rw [List.mem_singleton.1 hs]
        exact dataStreamer_inRange _ _)
    (by decide)

/-! ### The queues of Dup -/

theorem dup_step_queue {P : Type} (h : DupHandle) (q : DupState P) (b : List P)
    (r : Pulled P) (q2 : DupState P) (he : dup.Stream h q b = some (r, q2)) :
    q2.myBuf h = (q.myBuf h).drop b.length ∧
    q2.myBuf h.other = q.myBuf h.other ++ (dup.fetched h q b).getD [] ∧
    r.samples.take r.n.toNat = (q.myBuf h).take b.length ++ (dup.fetched h q b).getD [] ∧
    ((dup.fetched h q b).isSome = true ↔ (q.myBuf h).length < b.length) := by
  have hs1 : ∀ l : List P, (q.setMyBuf h l).s = q.s := fun l => DupState.s_setMyBuf _ _ _
  by_cases hle : b.length ≤ (q.myBuf h).length
  · have hc2 : (copy b (q.myBuf h)).2 = b.length := by
      simp only [copy]
      omega
    have hc1 : (copy b (q.myBuf h)).1 = (q.myBuf h).take b.length := by
      simp only [copy]
      rw [List.drop_eq_nil_of_le hle, List.append_nil]
    have hrest : ¬ 0 < ((copy b (q.myBuf h)).1.drop (copy b (q.myBuf h)).2).length := by
      rw [List.length_drop, length_copy, hc2]
      omega
    have hf : dup.fetched h q b = none := by
      unfold dup.fetched
      simp only
      rw [if_neg hrest]
    unfold dup.Stream at he
    simp only at he
    rw [if_neg hrest, hc2, hc1] at he
    simp only [Option.some.injEq, Prod.mk.injEq] at he
    obtain ⟨rfl, rfl⟩ := he
    rw [hf]
    refine ⟨DupState.myBuf_setMyBuf _ _ _, ?_, ?_, ?_⟩
    · rw [DupState.myBuf_setMyBuf_other]
      simp
    · simp
    · simp only [Option.isSome_none, Bool.false_eq_true, false_iff]
      omega
  · have hlt : (q.myBuf h).length < b.length := by omega
    have hc2 : (copy b (q.myBuf h)).2 = (q.myBuf h).length := by
      simp only [copy]
      omega
    have hc1 : (copy b (q.myBuf h)).1 = q.myBuf h ++ b.drop (q.myBuf h).length := by
      simp only [copy]
      rw [List.take_of_length_le (le_of_lt hlt)]
    have hrest : 0 < ((copy b (q.myBuf h)).1.drop (copy b (q.myBuf h)).2).length := by
      rw [List.length_drop, length_copy, hc2]
      omega
    have hf : dup.fetched h q b =
        sliceTo (q.s.Stream ((copy b (q.myBuf h)).1.drop (copy b (q.myBuf h)).2)).1.samples
          (q.s.Stream ((copy b (q.myBuf h)).1.drop (copy b (q.myBuf h)).2)).1.n := by
      unfold dup.fetched
      simp only
      rw [if_pos hrest]
    unfold dup.Stream at he
    simp only at he
    rw [if_pos hrest, hs1] at he
    cases hsl : sliceTo
        (q.s.Stream ((copy b (q.myBuf h)).1.drop (copy b (q.myBuf h)).2)).1.samples
        (q.s.Stream ((copy b (q.myBuf h)).1.drop (copy b (q.myBuf h)).2)).1.n with
    | none =>
      rw [hsl] at he
      exact absurd he (by simp)
    | some fresh =>
      rw [hsl] at he
      simp only [Option.some.injEq, Prod.mk.injEq] at he
      obtain ⟨rfl, rfl⟩ := he
      rw [hf, hsl]
      have hfr := hsl
      unfold sliceTo at hfr
      split at hfr
      · rename_i hrange
        injection hfr with hfr
        refine ⟨?_, ?_, ?_, ?_⟩
        · rw [DupState.myBuf_setMyBuf_other2, DupState.myBuf_with_s, DupState.myBuf_setMyBuf,
            hc2, List.drop_eq_nil_of_le (le_refl _), List.drop_eq_nil_of_le (le_of_lt hlt)]
        · rw [DupState.myBuf_setMyBuf, DupState.myBuf_setMyBuf_other]
          rfl
        · simp only [Option.getD_some]
          rw [hc2, hc1, List.take_left' rfl, List.take_of_length_le (le_of_lt hlt), ← hfr]
          have hn : ((((q.myBuf h).length : Int) +
              (q.s.Stream ((q.myBuf h ++ b.drop (q.myBuf h).length).drop
                (q.myBuf h).length)).1.n).toNat)
              = (q.myBuf h).length + (q.s.Stream ((q.myBuf h ++ b.drop (q.myBuf h).length).drop
                (q.myBuf h).length)).1.n.toNat := by
            rw [hc2, hc1] at hrange
            omega
          rw [hn, List.take_append, hc2, hc1]
        · simp only [Option.isSome_some, true_iff]
          exact hlt
      · exact absurd hfr (by simp)

theorem fetchedAll_cons {P : Type} (h : DupHandle) (x : List P)
    (f : List (DupHandle × List P)) : fetchedAll ((h, x) :: f) = x ++ fetchedAll f := by
  simp [fetchedAll]

theorem fetchedBy_cons_self {P : Type} (h : DupHandle) (x : List P)
    (f : List (DupHandle × List P)) : fetchedBy h ((h, x) :: f) = x ++ fetchedBy h f := by
  simp [fetchedBy, fetchedAll]

theorem fetchedBy_cons_other {P : Type} (g h : DupHandle) (hne : h ≠ g) (x : List P)
    (f : List (DupHandle × List P)) : fetchedBy g ((h, x) :: f) = fetchedBy g f := by
  simp [fetchedBy, hne]

theorem dupRun_queues {P : Type} (calls : List (DupHandle × List P)) :
    ∀ (q : DupState P) (C : List P) (out Fo : DupHandle → List P)
      (rs : List (DupHandle × Pulled P)) (f : List (DupHandle × List P)) (q2 : DupState P),
      (q.tBuf = [] ∨ q.uBuf = []) → (∀ g : DupHandle, C = out g ++ q.myBuf g) →
      (∀ g : DupHandle, q.myBuf g <:+ Fo g.other) →
      dupRun q calls = some (rs, f, q2) →
      (q2.tBuf = [] ∨ q2.uBuf = []) ∧
        ∀ g : DupHandle, C ++ fetchedAll f = out g ++ returnedBy g rs ++ q2.myBuf g ∧
          q2.myBuf g <:+ Fo g.other ++ fetchedBy g.other f := by
  induction calls with
  | nil =>
    intro q C out Fo rs f q2 h1 h2 h3 he
    simp only [dupRun, Option.some.injEq, Prod.mk.injEq] at he
    obtain ⟨rfl, rfl, rfl⟩ := he
    refine ⟨h1, fun g => ⟨?_, ?_⟩⟩
    · rw [returnedBy_nil, List.append_nil]
      simp only [fetchedAll, List.map_nil, List.flatten_nil, List.append_nil]
      exact h2 g
    · simp only [fetchedBy, fetchedAll, List.filter_nil, List.map_nil, List.flatten_nil,
        List.append_nil]
      exact h3 g
  | cons c cs ih =>
    intro q C out Fo rs f q2 h1 h2 h3 he
    obtain ⟨h, b⟩ := c
    rw [dupRun] at he
    cases hst : dup.Stream h q b with
    | none => rw [hst] at he; exact absurd he (by simp)
    | some x =>
      obtain ⟨r, q1⟩ := x
      rw [hst] at he
      simp only at he
      cases hrun : dupRun q1 cs with
      | none => rw [hrun] at he; exact absurd he (by simp)
      | some y =>
        obtain ⟨rs1, f1, q3⟩ := y
        rw [hrun] at he
        simp only [Option.some.injEq, Prod.mk.injEq] at he
        obtain ⟨rfl, rfl, rfl⟩ := he
        obtain ⟨a1, a2, a3, a4⟩ := dup_step_queue h q b r q1 hst
        have hnone : ¬ (dup.fetched h q b).isSome = true → (dup.fetched h q b).getD [] = [] := by
          intro hf
          cases hfe : dup.fetched h q b with
          | none => rfl
          | some v => rw [hfe] at hf; exact absurd rfl hf
        -- the queues after this call
        have hone : q1.tBuf = [] ∨ q1.uBuf = [] := by
          by_cases hf : (dup.fetched h q b).isSome = true
          · have hlt := a4.1 hf
            have hmy : q1.myBuf h = [] := by
              rw [a1]; exact List.drop_eq_nil_of_le (le_of_lt hlt)
            cases h with
            | t => exact Or.inl hmy
            | u => exact Or.inr hmy
          · rw [hnone hf] at a2
            simp only [List.append_nil] at a2
            cases h with
            | t =>
              rcases h1 with h1 | h1
              · left
                have : q1.tBuf = q.tBuf.drop b.length := a1
                rw [this, h1, List.drop_nil]
              · right
                have : q1.uBuf = q.uBuf := a2
                rw [this, h1]
            | u =>
              rcases h1 with h1 | h1
              · left
                have : q1.tBuf = q.tBuf := a2
                rw [this, h1]
              · right
                have : q1.uBuf = q.uBuf.drop b.length := a1
                rw [this, h1, List.drop_nil]
        have hinv : ∀ g : DupHandle, C ++ (dup.fetched h q b).getD [] =
            (Function.update out h (out h ++ r.samples.take r.n.toNat)) g ++ q1.myBuf g := by
          intro g
          by_cases hg : g = h
          · subst hg
            rw [Function.update_same, a3, a1, h2 g]
            have hsplit : q.myBuf g = (q.myBuf g).take b.length ++ (q.myBuf g).drop b.length :=
              (List.take_append_drop _ _).symm
            by_cases hf : (dup.fetched g q b).isSome = true
            · have hlt := a4.1 hf
              rw [List.take_of_length_le (le_of_lt hlt), List.drop_eq_nil_of_le (le_of_lt hlt)]
              simp
            · rw [hnone hf]
              simp only [List.append_nil]
              rw [List.append_assoc, ← hsplit]
          · have hgo : g = h.other := (DupHandle.eq_or_other h g).resolve_left hg
            rw [Function.update_noteq hg, hgo, a2, ← hgo, h2 g, List.append_assoc]
        have hsuf : ∀ g : DupHandle, q1.myBuf g <:+
            (Function.update Fo h (Fo h ++ (dup.fetched h q b).getD [])) g.other := by
          intro g
          by_cases hg : g = h
          · subst hg
            rw [Function.update_noteq (DupHandle.other_ne g), a1]
            exact (List.drop_suffix _ _).trans (h3 g)
          · have hgo : g = h.other := (DupHandle.eq_or_other h g).resolve_left hg
            have hoo : g.other = h := by
              rw [hgo]; cases h <;> rfl
            rw [hoo, Function.update_same, hgo, a2]
            have := h3 g
            rw [hoo, hgo] at this
            obtain ⟨pre, hpre⟩ := this
            exact ⟨pre, by rw [← hpre, List.append_assoc]⟩
        obtain ⟨b1, b2⟩ := ih q1 _ _ _ rs1 f1 q3 hone hinv hsuf hrun
        refine ⟨b1, fun g => ⟨?_, ?_⟩⟩
        · rw [returnedBy_cons, ← (b2 g).1, fetchedAll_cons, List.append_assoc]
        · have hb := (b2 g).2
          by_cases hg : h = g.other
          · rw [← hg, fetchedBy_cons_self]
            rw [← hg, Function.update_same, List.append_assoc] at hb
            exact hb
          · rw [fetchedBy_cons_other _ _ hg]
            rw [Function.update_noteq (Ne.symm hg)] at hb
            exact hb

theorem dupRun_total {P : Type} (calls : List (DupHandle × List P)) :
    ∀ q : DupState P, q.s.InRange → ∃ res, dupRun q calls = some res := by
  induction calls with
  | nil => intro q _; exact ⟨_, rfl⟩
  | cons c cs ih =>
    intro q hq
    obtain ⟨h, b⟩ := c
    have hcall := dup_call h q b
    by_cases hle : b.length ≤ (q.myBuf h).length
    · obtain ⟨X, hX, _⟩ := hcall.1 hle
      obtain ⟨res, hres⟩ := ih (q.setMyBuf h ((q.myBuf h).drop b.length))
        (by rw [DupState.s_setMyBuf]; exact hq)
      obtain ⟨rs, f, q2⟩ := res
      rw [dupRun, hX]
      simp only
      rw [hres]
      exact ⟨_, rfl⟩
    · obtain ⟨rest, hrl, hrest⟩ := hcall.2 (by omega)
      have hc := hq.call rest
      obtain ⟨X, q1, hX, _, hs, _, _⟩ := hrest hc.1 hc.2.1
      obtain ⟨res, hres⟩ := ih q1 (by rw [hs]; exact hc.2.2.1)
      obtain ⟨rs, f, q2⟩ := res
      rw [dupRun, hX]
      simp only
      rw [hres]
      exact ⟨_, rfl⟩

/-- C35: after every serialized sequence of calls on the two handles of `Dup(s)` that
returns, at most one of the two queues is non-empty; for each handle, the samples taken
from the shared child so far are what the handle has returned followed by its queue, and
its queue is the end of what the calls on the other handle took from the child; and a
next call that calls the child has first handed out the whole of its own queue and leaves
it empty. With a child whose counts are in range every such sequence returns. -/
theorem dup_queues {P : Type} (s : Streamer P) (calls : List (DupHandle × List P)) :
    (∀ (rs : List (DupHandle × Pulled P)) (f : List (DupHandle × List P)) (q : DupState P),
      dupRun (Dup s) calls = some (rs, f, q) →
        (q.tBuf = [] ∨ q.uBuf = []) ∧
        (∀ g : DupHandle, fetchedAll f = returnedBy g rs ++ q.myBuf g ∧
          q.myBuf g <:+ fetchedBy g.other f) ∧
        (∀ (h : DupHandle) (b : List P) (r : Pulled P) (q2 : DupState P),
          dup.Stream h q b = some (r, q2) → (dup.fetched h q b).isSome = true →
            (q.myBuf h).length < b.length ∧ r.samples.take (q.myBuf h).length = q.myBuf h ∧
              q2.myBuf h = [])) ∧
    (s.InRange → ∃ res, dupRun (Dup s) calls = some res) := by
  refine ⟨fun rs f q he => ?_, fun hs => dupRun_total calls (Dup s) hs⟩
  obtain ⟨h1, h2⟩ := dupRun_queues calls (Dup s) [] (fun _ => []) (fun _ => []) rs f q
    (Or.inl rfl) (fun g => by cases g <;> rfl)
    (fun g => by cases g <;> exact List.suffix_refl _) he
  refine ⟨h1, fun g => ?_, ?_⟩
  · have := h2 g
    simpa using this
  · intro h b r q2 hst hf
    obtain ⟨a1, a2, a3, a4⟩ := dup_step_queue h q b r q2 hst
    have hlt := a4.1 hf
    refine ⟨hlt, ?_, ?_⟩
    · have h3 := congrArg (List.take (q.myBuf h).length) a3
      rw [List.take_of_length_le (le_of_lt hlt), List.take_left' rfl, List.take_take] at h3
      have hlen := congrArg List.length a3
      rw [List.take_of_length_le (le_of_lt hlt), List.length_append, List.length_take] at hlen
      rw [min_eq_left (by omega)] at h3
      exact h3
    · rw [a1]
      exact List.drop_eq_nil_of_le (le_of_lt hlt)

theorem dup_queues_witness :
    (dataStreamer [1, 2, 3] 0).toStreamer.InRange ∧
    ∃ (rs : List (DupHandle × Pulled Nat)) (f : List (DupHandle × List Nat))
      (q : DupState Nat),
      dupRun (Dup (dataStreamer [1, 2, 3] 0).toStreamer)
        [(DupHandle.t, [0, 0]), (DupHandle.u, [0]), (DupHandle.u, [0, 0, 0])] =
          some (rs, f, q) ∧
      (q.tBuf = [] ∨ q.uBuf = []) ∧
      ∀ g : DupHandle, fetchedAll f = returnedBy g rs ++ q.myBuf g :=
  ⟨dataStreamer_inRange _ _,
    ((dup_queues (dataStreamer [1, 2, 3] 0).toStreamer
      [(DupHandle.t, [0, 0]), (DupHandle.u, [0]), (DupHandle.u, [0, 0, 0])]).2
        (dataStreamer_inRange _ _)).elim
      (fun res hres => ⟨res.1, res.2.1, res.2.2, hres,
        ((dup_queues (dataStreamer [1, 2, 3] 0).toStreamer
          [(DupHandle.t, [0, 0]), (DupHandle.u, [0]), (DupHandle.u, [0, 0, 0])]).1
            res.1 res.2.1 res.2.2 hres).1,
        fun g => (((dup_queues (dataStreamer [1, 2, 3] 0).toStreamer
          [(DupHandle.t, [0, 0]), (DupHandle.u, [0]), (DupHandle.u, [0, 0, 0])]).1
            res.1 res.2.1 res.2.2 hres).2.1 g).1⟩)⟩

/-! ### Iterate -/

theorem pull_step_eq {P : Type} (y samples : List P) (m : Nat) (h1 : m ≤ samples.length)
    (h2 : m ≤ y.length) :
    y.take m ++ ((y.drop m).take (samples.drop m).length ++
        (samples.drop m).drop (y.drop m).length) =
      y.take samples.length ++ samples.drop y.length := by
  rw [← List.append_assoc, List.length_drop, List.length_drop, List.drop_drop]
  have e1 : y.take m ++ (y.drop m).take (samples.length - m) = y.take samples.length := by
    have := (List.take_add y m (samples.length - m)).symm
    rw [show m + (samples.length - m) = samples.length by omega] at this
    exact this
  rw [e1]
  congr 2
  omega

theorem IterState.iterLoop_spec {P : Type} (fuel : Nat) :
    ∀ (q : IterState P) (filled samples : List P) (n : Int) (k : Nat) (y : List P)
      (live : Bool), q.first = false → q.Left k y live →
      samples.length + (k + 1 - q.calls) ≤ fuel →
      ∃ q2 : IterState P, IterState.loop fuel q filled samples n =
          some (⟨filled ++ (y.take samples.length ++ samples.drop y.length),
            n + (min samples.length y.length : Nat), true⟩, q2) ∧
        q2.Left k (y.drop samples.length) (live && decide (samples.length ≤ y.length)) ∧
        q2.first = false ∧ q.calls ≤ q2.calls := by
  induction fuel with
  | zero =>
    intro q filled samples n k y live hfirst hy hfuel
    have hs : samples = [] := List.length_eq_zero.1 (by omega)
    subst hs
    refine ⟨q, ?_, by simpa using hy, hfirst, le_refl _⟩
    unfold IterState.loop
    simp
  | succ fuel ih =>
    intro q filled samples n k y live hfirst hy hfuel
    by_cases hc : 0 < samples.length
    · have hne : samples ≠ [] := List.length_pos.1 hc
      rcases hy with ⟨_, hs, rfl, rfl, hcalls⟩ | ⟨_, h1c, rfl, s, d, ss, ds, hs, hd, hds, hg, rfl, hk⟩ |
        ⟨hf, _⟩
      · -- `s` is nil: the loop breaks
        refine ⟨q, ?_, Or.inl ⟨hfirst, hs, by simp, by simp, hcalls⟩, hfirst, le_refl _⟩
        unfold IterState.loop
        rw [if_pos hc, hs]
        simp
      · obtain ⟨h1, h2⟩ := hd.step hne
        set c := s.Stream samples with hcdef
        obtain ⟨m, hm⟩ : ∃ m, m = min samples.length d.length := ⟨_, rfl⟩
        have hm1 : m ≤ samples.length := hm ▸ Nat.min_le_left _ _
        have hm2 : m ≤ d.length := hm ▸ Nat.min_le_right _ _
        have hn1 : c.1.n = (m : Int) := by rw [h1, hm]; rfl
        have hok : c.1.ok = !d.isEmpty := by rw [h1]; rfl
        have hslice : sliceFrom c.1.samples c.1.n = some (samples.drop m) := by
          have hlen : c.1.samples.length = samples.length := by
            rw [h1]; simp only [refPull, List.length_append, List.length_take, List.length_drop]
            omega
          rw [hn1, sliceFrom_ofNat _ (by omega), h1, hm, refPull_samples_drop]
        have htake : c.1.samples.take c.1.n.toNat = d.take m := by
          rw [hn1, Int.toNat_ofNat, h1, hm, refPull_samples_take]
        have hunf : IterState.loop (fuel + 1) q filled samples n =
            IterState.loop fuel (if !c.1.ok then q.callG else { q with s := some c.2 })
              (filled ++ d.take m) (samples.drop m) (n + m) := by
          conv_lhs => unfold IterState.loop
          rw [if_pos hc, hs]
          simp only
          rw [← hcdef, hslice]
          simp only
          rw [htake, hn1]
        have hYm : m ≤ (d ++ ds.flatten).length := by
          rw [List.length_append]; omega
        have hres : ∀ q2 : IterState P,
            (⟨filled ++ d.take m ++ (((d ++ ds.flatten).drop m).take (samples.drop m).length ++
                (samples.drop m).drop ((d ++ ds.flatten).drop m).length),
              n + (m : Int) + ((min (samples.drop m).length
                ((d ++ ds.flatten).drop m).length : Nat) : Int), true⟩, q2) =
            ((⟨filled ++ ((d ++ ds.flatten).take samples.length ++
                samples.drop (d ++ ds.flatten).length),
              n + ((min samples.length (d ++ ds.flatten).length : Nat) : Int), true⟩ : Pulled P),
              q2) := by
          intro q2
          congr 1
          refine Pulled.mk.injEq .. ▸ ⟨?_, ?_, rfl⟩
          · rw [List.append_assoc,
              ← (List.take_append_of_le_length hm2 : (d ++ ds.flatten).take m = d.take m),
              pull_step_eq _ _ m hm1 hYm]
          · rw [List.length_drop, List.length_drop]
            omega
        have hlive : (decide ((samples.drop m).length ≤ ((d ++ ds.flatten).drop m).length)) =
            decide (samples.length ≤ (d ++ ds.flatten).length) := by
          rw [List.length_drop, List.length_drop]
          apply decide_eq_decide.2
          omega
        cases d with
        | nil =>
          have hm0 : m = 0 := by simpa using hm2
          have hok2 : c.1.ok = false := by rw [hok]; rfl
          rw [hok2] at hunf
          simp only [Bool.not_false, if_true] at hunf
          cases hds with
          | nil =>
            -- the generator returns nil
            have hg0 : q.g q.calls = none := hg
            have hleft : q.callG.Left k (([] ++ ([] : List (List P)).flatten).drop m) false :=
              Or.inl ⟨hfirst, by simp only [IterState.callG]; exact hg0, by simp, rfl,
                by simp only [IterState.callG]; simpa using hk⟩
            obtain ⟨q2, hq1, hq2, hq3, hq4⟩ := ih q.callG (filled ++ ([] : List P).take m)
              (samples.drop m) (n + m) k _ false hfirst hleft (by
                simp only [IterState.callG, List.length_drop]; omega)
            refine ⟨q2, ?_, ?_, hq3, ?_⟩
            · rw [hunf, hq1]
              exact congrArg some (hres q2)
            · rw [List.drop_drop] at hq2
              have e : m + (samples.drop m).length = samples.length := by
                rw [List.length_drop]; omega
              rw [e] at hq2
              have hl : (true && decide (samples.length ≤
                  (([] : List P) ++ ([] : List (List P)).flatten).length)) = false := by
                simp only [List.flatten_nil, List.append_nil, List.length_nil, Bool.true_and,
                  decide_eq_false_iff_not]
                omega
              rw [hl]
              simpa using hq2
            · have : q.calls ≤ q.callG.calls := by simp [IterState.callG]
              omega
          | cons hd1 htl =>
            rename_i s1 d1 ss1 ds1
            have hleft : q.callG.Left k (([] ++ (d1 :: ds1).flatten).drop m) true :=
              Or.inr (Or.inl ⟨hfirst, by simp [IterState.callG], rfl, s1, d1, ss1, ds1,
                by simp only [IterState.callG]; exact hg.1, hd1, htl,
                by simp only [IterState.callG]; exact hg.2,
                by simp [hm0],
                by simp only [IterState.callG, List.length_cons] at hk ⊢; omega⟩)
            obtain ⟨q2, hq1, hq2, hq3, hq4⟩ := ih q.callG (filled ++ ([] : List P).take m)
              (samples.drop m) (n + m) k _ true hfirst hleft (by
                simp only [IterState.callG, List.length_drop, List.length_cons] at hk ⊢; omega)
            refine ⟨q2, ?_, ?_, hq3, ?_⟩
            · rw [hunf, hq1]
              exact congrArg some (hres q2)
            · rw [List.drop_drop] at hq2
              have e : m + (samples.drop m).length = samples.length := by
                rw [List.length_drop]; omega
              rw [e, hlive] at hq2
              exact hq2
            · have : q.calls ≤ q.callG.calls := by simp [IterState.callG]
              omega
        | cons x xs =>
          have hok2 : c.1.ok = true := by rw [hok]; rfl
          have hmpos : 0 < m := by
            rw [hm]; exact Nat.lt_min.2 ⟨hc, by simp⟩
          rw [hok2] at hunf
          simp only [Bool.not_true, Bool.false_eq_true, if_false] at hunf
          have hleft : ({ q with s := some c.2 } : IterState P).Left k
              (((x :: xs) ++ ds.flatten).drop m) true :=
            Or.inr (Or.inl ⟨hfirst, h1c, rfl, c.2, (x :: xs).drop samples.length, ss, ds, rfl, h2,
              hds, hg, by
                rw [List.drop_append_of_le_length hm2]
                congr 1
                rcases Nat.le_total samples.length (x :: xs).length with h | h
                · rw [hm, min_eq_left h]
                · rw [hm, min_eq_right h, List.drop_eq_nil_of_le (le_refl _),
                    List.drop_eq_nil_of_le h], hk⟩)
          obtain ⟨q2, hq1, hq2, hq3, hq4⟩ := ih { q with s := some c.2 }
            (filled ++ (x :: xs).take m) (samples.drop m) (n + m) k _ true hfirst hleft (by
              simp only [List.length_drop]; omega)
          refine ⟨q2, ?_, ?_, hq3, hq4⟩
          · rw [hunf, hq1]
            exact congrArg some (hres q2)
          · rw [List.drop_drop] at hq2
            have e : m + (samples.drop m).length = samples.length := by
              rw [List.length_drop]; omega
            rw [e, hlive] at hq2
            exact hq2
      · rw [hfirst] at hf
        exact absurd hf (by decide)
    · have hs : samples = [] := List.length_eq_zero.1 (by omega)
      subst hs
      refine ⟨q, ?_, by simpa using hy, hfirst, le_refl _⟩
      unfold IterState.loop
      simp

theorem IterState.stream_first {P : Type} (fuel : Nat) (q : IterState P) (b : List P)
    (hf : q.first = true) :
    IterState.Stream fuel q b = IterState.Stream fuel
      { g := q.g, calls := q.calls + 1, s := q.g q.calls, first := false } b := by
  unfold IterState.Stream
  simp only [hf, if_true, Bool.false_eq_true, if_false]
  rfl

theorem IterState.stream_later {P : Type} (fuel : Nat) (q : IterState P) (b : List P)
    (k : Nat) (y : List P) (live : Bool) (hf : q.first = false) (hy : q.Left k y live)
    (hb : b ≠ []) (hfuel : b.length + (k + 1 - q.calls) ≤ fuel) :
    ∃ q2 : IterState P, IterState.Stream fuel q b = some ((loopRefPull y live b).1, q2) ∧
      q2.Left k (loopRefPull y live b).2.1 (loopRefPull y live b).2.2 ∧
      q2.first = false ∧ 1 ≤ q2.calls ∧ q.calls ≤ q2.calls := by
  have hbl : 0 < b.length := List.length_pos.2 hb
  rcases hy with ⟨_, hs, rfl, rfl, hcalls⟩ | ⟨_, h1c, rfl, s, d, ss, ds, hs, hd, hds, hg, rfl, hk⟩ |
    ⟨hf1, _⟩
  · refine ⟨q, ?_, Or.inl ⟨hf, hs, by simp [loopRefPull], by simp [loopRefPull], hcalls⟩, hf,
      by omega, le_refl _⟩
    unfold IterState.Stream
    simp only [hf, Bool.false_eq_true, if_false, hs]
    simp [loopRefPull]
  · have hleft : q.Left k (d ++ ds.flatten) true :=
      Or.inr (Or.inl ⟨hf, h1c, rfl, s, d, ss, ds, hs, hd, hds, hg, rfl, hk⟩)
    obtain ⟨q2, h1, h2, h3, h4⟩ := IterState.iterLoop_spec fuel q [] b 0 k _ true hf hleft
      hfuel
    refine ⟨q2, ?_, h2, h3, by omega, h4⟩
    unfold IterState.Stream
    simp only [hf, Bool.false_eq_true, if_false, hs]
    rw [h1]
    simp [loopRefPull]
  · rw [hf] at hf1
    exact absurd hf1 (by decide)

theorem IterState.iterStream_spec {P : Type} (fuel : Nat) (q : IterState P) (b : List P)
    (k : Nat) (y : List P) (live : Bool) (hy : q.Left k y live) (hb : b ≠ [])
    (hfuel : b.length + k + 1 ≤ fuel) :
    ∃ q2 : IterState P, IterState.Stream fuel q b = some ((loopRefPull y live b).1, q2) ∧
      q2.Left k (loopRefPull y live b).2.1 (loopRefPull y live b).2.2 ∧
      q2.first = false ∧ 1 ≤ q2.calls ∧ q.calls ≤ q2.calls := by
  by_cases hf : q.first = false
  · exact IterState.stream_later fuel q b k y live hf hy hb (by omega)
  · have hft : q.first = true := by simpa using hf
    rcases hy with ⟨hf1, _⟩ | ⟨hf1, _⟩ | ⟨_, hc0, ss, ds, hds, hg, rfl, hk, rfl⟩
    · exact absurd hf1 hf
    · exact absurd hf1 hf
    · rw [IterState.stream_first fuel q b hft]
      have hleft : ({ g := q.g, calls := q.calls + 1, s := q.g q.calls, first := false } :
          IterState P).Left k ds.flatten (!ss.isEmpty) := by
        cases hds with
        | nil =>
          have hg0 : q.g 0 = none := hg
          refine Or.inl ⟨rfl, ?_, rfl, rfl, ?_⟩
          · show q.g q.calls = none
            rw [hc0]; exact hg0
          · show q.calls + 1 = k + 1
            simp only [List.length_nil] at hk
            omega
        | cons hd1 htl =>
          rename_i s1 d1 ss1 ds1
          have hg1 : q.g 0 = some s1 := hg.1
          refine Or.inr (Or.inl ⟨rfl, ?_, rfl, s1, d1, ss1, ds1, ?_, hd1, htl, ?_, rfl, ?_⟩)
          · show 1 ≤ q.calls + 1
            omega
          · show q.g q.calls = some s1
            rw [hc0]; exact hg1
          · show Yields q.g (q.calls + 1) ss1
            rw [hc0]; exact hg.2
          · show q.calls + 1 + ss1.length = k
            simp only [List.length_cons] at hk
            omega
      obtain ⟨q2, h1, h2, h3, h4, h5⟩ := IterState.stream_later fuel _ b k _ _ rfl hleft hb (by
        show b.length + (k + 1 - (q.calls + 1)) ≤ fuel
        omega)
      have h6 : q.calls + 1 ≤ q2.calls := h5
      exact ⟨q2, h1, h2, h3, h4, by omega⟩

theorem iterRun_spec {P : Type} (fuel : Nat) (bufs : List (List P)) :
    ∀ (q : IterState P) (k : Nat) (y : List P) (live : Bool), q.Left k y live →
      (∀ b ∈ bufs, b ≠ [] ∧ b.length + k + 1 ≤ fuel) →
      ∃ (q2 : IterState P) (y2 : List P) (live2 : Bool),
        iterRun fuel q bufs = some (loopRefTrace y live bufs, q2) ∧ q2.Left k y2 live2 ∧
        q.calls ≤ q2.calls ∧ (bufs ≠ [] → 1 ≤ q2.calls) ∧
        ((∃ r ∈ loopRefTrace y live bufs, r.ok = false) → live2 = false) ∧
        (live = false → live2 = false) := by
  induction bufs with
  | nil =>
    intro q k y live hy _
    exact ⟨q, y, live, rfl, hy, le_refl _, fun h => absurd rfl h,
      fun h => by simp [loopRefTrace] at h, fun h => h⟩
  | cons b bs ih =>
    intro q k y live hy hb
    obtain ⟨hb1, hb2⟩ := hb b (List.mem_cons_self _ _)
    obtain ⟨q1, h1, h2, h3, h4, h5⟩ := IterState.iterStream_spec fuel q b k y live hy hb1 hb2
    obtain ⟨q2, y2, live2, g1, g2, g3, g4, g5, g6⟩ := ih q1 k _ _ h2
      (fun x hx => hb x (List.mem_cons_of_mem _ hx))
    refine ⟨q2, y2, live2, ?_, g2, by omega, fun _ => by omega, ?_, ?_⟩
    · rw [iterRun, h1]
      simp only
      rw [g1]
      rfl
    · rintro ⟨r, hr, hrok⟩
      rw [loopRefTrace] at hr
      rcases List.mem_cons.1 hr with rfl | hr
      · apply g6
        have : live = false := hrok
        rw [this]
        rfl
      · exact g5 ⟨r, hr, hrok⟩
    · intro hl
      apply g6
      rw [hl]
      rfl

theorem Iterate_left {P : Type} (g : Nat → Option (Streamer P)) (ss : List (Streamer P))
    (ds : List (List P)) (hg : Yields g 0 ss) (h : List.Forall₂ Streamer.HasContent ss ds) :
    (Iterate g).Left ss.length ds.flatten (!ss.isEmpty) :=
  Or.inr (Or.inr ⟨rfl, rfl, ss, ds, h, hg, rfl, rfl, rfl⟩)

/-- C37: for a generator `g` that returns the finite contract-obeying streamers `ss` with
contents `ds` on its first calls and then nil, a sequence of non-empty pulls on
`Iterate(g)` (given enough fuel for each pull) returns; the samples collected are the
concatenation of `ds` cut at the number of slots requested, and the whole concatenation
once a pull has reported drained. `g` has not been called before the first pull, has been
called after it, is never called more than `len(ss) + 1` times, and has been called
exactly that often once a pull has reported drained. Once `s` is nil after a pull, `g` has
been called `len(ss) + 1` times and every later pull returns `(0, false)` and leaves the
state, with its count of calls, as it is. -/
theorem iterate_drain {P : Type} (g : Nat → Option (Streamer P)) (ss : List (Streamer P))
    (ds : List (List P)) (hg : Yields g 0 ss) (h : List.Forall₂ Streamer.HasContent ss ds)
    (fuel : Nat) (bufs : List (List P))
    (hne : ∀ b ∈ bufs, b ≠ [] ∧ b.length + ss.length + 1 ≤ fuel) :
    ∃ (rs : List (Pulled P)) (q : IterState P),
      iterRun fuel (Iterate g) bufs = some (rs, q) ∧
      rs = loopRefTrace ds.flatten (!ss.isEmpty) bufs ∧
      collected rs = ds.flatten.take (totalSlots bufs) ∧
      ((∃ r ∈ rs, r.ok = false) → collected rs = ds.flatten ∧ q.calls = ss.length + 1) ∧
      (Iterate g).calls = 0 ∧ (bufs ≠ [] → 1 ≤ q.calls) ∧ q.calls ≤ ss.length + 1 ∧
      (q.first = false → q.s = none → q.calls = ss.length + 1 ∧
        ∀ (fuel2 : Nat) (b : List P), IterState.Stream fuel2 q b = some (⟨b, 0, false⟩, q)) := by
  obtain ⟨q, y2, live2, h1, h2, h3, h4, h5, h6⟩ := iterRun_spec fuel bufs (Iterate g) ss.length
    ds.flatten (!ss.isEmpty) (Iterate_left g ss ds hg h) hne
  have hcalls : q.calls ≤ ss.length + 1 := by
    rcases h2 with ⟨_, _, _, _, hc⟩ | ⟨_, _, _, s, d, ss1, ds1, _, _, _, _, _, hk⟩ | ⟨_, hc, _⟩
    · omega
    · omega
    · omega
  refine ⟨_, q, h1, rfl, loopRefTrace_collected _ _ _, ?_, rfl, h4, hcalls, ?_⟩
  · intro hdr
    have hl := h5 hdr
    constructor
    · obtain ⟨r, hr, hrok⟩ := hdr
      obtain ⟨pre, post, hsplit⟩ := List.append_of_mem hr
      have hpre := (loopRefTrace_drained bufs ds.flatten (!ss.isEmpty) (by
        intro he
        cases hds : ss with
        | nil =>
          rw [hds] at h
          cases h
          rfl
        | cons a as => rw [hds] at he; simp at he) pre r post hsplit hrok).2
      have hcol := loopRefTrace_collected bufs ds.flatten (!ss.isEmpty)
      rw [hcol]
      apply List.take_of_length_le
      have hlen := congrArg List.length hcol
      rw [hsplit] at hlen
      have hpl : (collected pre).length ≤ (collected (pre ++ r :: post)).length := by
        simp only [collected, List.map_append, List.flatten_append, List.length_append]
        omega
      rw [hlen, hpre, List.length_take] at hpl
      omega
    · rcases h2 with ⟨_, _, _, _, hc⟩ | ⟨_, _, hlive, _⟩ | ⟨hf, hc, ss1, ds1, _, _, _, hk, hlive⟩
      · exact hc
      · rw [hl] at hlive
        exact absurd hlive (by decide)
      · -- no pull has been made: no pull has reported drained
        exfalso
        cases bufs with
        | nil =>
          obtain ⟨r, hr, _⟩ := hdr
          simp [loopRefTrace] at hr
        | cons b bs =>
          have := h4 (by simp)
          omega
  · intro hf hs
    rcases h2 with ⟨_, _, _, _, hc⟩ | ⟨_, _, _, s, d, ss1, ds1, hs1, _⟩ | ⟨hf1, _⟩
    · refine ⟨hc, fun fuel2 b => ?_⟩
      unfold IterState.Stream
      simp only [hf, Bool.false_eq_true, if_false, hs]
    · rw [hs] at hs1
      exact absurd hs1 (by simp)
    · rw [hf] at hf1
      exact absurd hf1 (by decide)

theorem iterate_drain_witness :
    Yields (fun i => [(dataStreamer [1, 2] 0).toStreamer, (dataStreamer [3] 0).toStreamer].get? i)
      0 [(dataStreamer [1, 2] 0).toStreamer, (dataStreamer [3] 0).toStreamer] ∧
    List.Forall₂ Streamer.HasContent
      [(dataStreamer [1, 2] 0).toStreamer, (dataStreamer [3] 0).toStreamer] [[1, 2], [3]] ∧
    ∃ (rs : List (Pulled Nat)) (q : IterState Nat),
      iterRun 5 (Iterate (fun i =>
        [(dataStreamer [1, 2] 0).toStreamer, (dataStreamer [3] 0).toStreamer].get? i))
        [[0, 0], [0, 0], [0]] = some (rs, q) ∧
      collected rs = [[1, 2], [3]].flatten.take (totalSlots [[0, 0], [0, 0], [0]]) ∧
      q.calls ≤ 2 + 1 :=
  ⟨⟨rfl, rfl, rfl⟩,
    List.Forall₂.cons (dataStreamer_hasContent _)
      (List.Forall₂.cons (dataStreamer_hasContent _) List.Forall₂.nil),
    (iterate_drain (fun i =>
        [(dataStreamer [1, 2] 0).toStreamer, (dataStreamer [3] 0).toStreamer].get? i)
      [(dataStreamer [1, 2] 0).toStreamer, (dataStreamer [3] 0).toStreamer] [[1, 2], [3]]
      ⟨rfl, rfl, rfl⟩
      (List.Forall₂.cons (dataStreamer_hasContent _)
        (List.Forall₂.cons (dataStreamer_hasContent _) List.Forall₂.nil))
      5 [[0, 0], [0, 0], [0]] (by decide)).elim
      (fun rs hrs => hrs.elim (fun q hq => ⟨rs, q, hq.1, hq.2.2.1, hq.2.2.2.2.2.2.1⟩))⟩

/-! ### Tone generators -/

theorem tone_error_iff (sr : Int) (freq : ℚ) :
    ((SineTone sr freq).isNone = true ↔ freq / (sr : ℚ) ≥ 1 / 2) ∧
    ((SquareTone sr freq).isNone = true ↔ freq / (sr : ℚ) ≥ 1 / 2) ∧
    ((SawtoothTone sr freq).isNone = true ↔ freq / (sr : ℚ) ≥ 1 / 2) ∧
    ((SawtoothToneReversed sr freq).isNone = true ↔ freq / (sr : ℚ) ≥ 1 / 2) := by
  refine ⟨?_, ?_, ?_, ?_⟩
  · unfold SineTone
    by_cases h : freq / (sr : ℚ) ≥ 1 / 2 <;> simp [h]
  · unfold SquareTone
    by_cases h : freq / (sr : ℚ) ≥ 1 / 2 <;> simp [h]
  · unfold SawtoothTone
    by_cases h : freq / (sr : ℚ) ≥ 1 / 2 <;> simp [h]
  · unfold SawtoothToneReversed
    by_cases h : freq / (sr : ℚ) ≥ 1 / 2 <;> simp [h]

theorem toneLoop_two_channels {P : Type} [Point ℚ P] [ArrayPoint P]
    (h2 : 2 ≤ Point.Count (Point.zero : P)) (value : ℚ → ℚ) (dt : ℚ) (samples : List P) :
    ∀ t : ℚ, ∃ r : List P × ℚ, toneLoop value dt t samples = some r ∧
      r.1.length = samples.length := by
  induction samples with
  | nil => intro t; exact ⟨_, rfl, rfl⟩
  | cons sample rest ih =>
    intro t
    obtain ⟨p0, hp0, hs0⟩ := ArrayPoint.set_eq sample 0 (value t)
      (by rw [ArrayPoint.count_zero]; omega)
    obtain ⟨p1, hp1, _⟩ := ArrayPoint.set_eq p0 1 (value t)
      (by rw [ArrayPoint.count_zero]; omega)
    obtain ⟨r, hr, hlen⟩ := ih (modfFrac (t + dt))
    refine ⟨(p1 :: r.1, r.2), ?_, by simp [hlen]⟩
    rw [toneLoop, hp0]
    simp only
    rw [hp1]
    simp only
    rw [hr]

theorem tone_two_channels {P : Type} [Point ℚ P] [ArrayPoint P]
    (h2 : 2 ≤ Point.Count (Point.zero : P)) (samples : List P) :
    (∀ (sin : ℚ → ℚ) (g : sineGenerator), g.Err = false ∧
      ∃ (out : List P) (g2 : sineGenerator),
        g.Stream sin samples = some (⟨out, samples.length, true⟩, g2) ∧
          out.length = samples.length) ∧
    (∀ g : squareGenerator, g.Err = false ∧
      ∃ (out : List P) (g2 : squareGenerator),
        g.Stream samples = some (⟨out, samples.length, true⟩, g2) ∧
          out.length = samples.length) ∧
    (∀ g : sawGenerator, g.Err = false ∧
      ∃ (out : List P) (g2 : sawGenerator),
        g.Stream samples = some (⟨out, samples.length, true⟩, g2) ∧
          out.length = samples.length) := by
  refine ⟨fun sin g => ⟨rfl, ?_⟩, fun g => ⟨rfl, ?_⟩, fun g => ⟨rfl, ?_⟩⟩
  · obtain ⟨r, hr, hlen⟩ := toneLoop_two_channels h2 sin g.dt samples g.t
    refine ⟨r.1, { g with t := r.2 }, ?_, hlen⟩
    unfold sineGenerator.Stream
    rw [hr]
  · obtain ⟨r, hr, hlen⟩ := toneLoop_two_channels h2 (fun t => if t < 1 / 2 then 1 else -1)
      g.dt samples g.t
    refine ⟨r.1, { g with t := r.2 }, ?_, hlen⟩
    unfold squareGenerator.Stream
    rw [hr]
  · cases hrev : g.reverse with
    | true =>
      obtain ⟨r, hr, hlen⟩ := toneLoop_two_channels h2 (fun t => 2 * (1 - t) - 1)
        g.dt samples g.t
      refine ⟨r.1, { g with t := r.2 }, ?_, hlen⟩
      unfold sawGenerator.Stream
      rw [hrev]
      simp only [if_true]
      rw [hr]
    | false =>
      obtain ⟨r, hr, hlen⟩ := toneLoop_two_channels h2 (fun t => 2 * t - 1)
        g.dt samples g.t
      refine ⟨r.1, { g with t := r.2 }, ?_, hlen⟩
      unfold sawGenerator.Stream
      rw [hrev]
      simp only [Bool.false_eq_true, if_false]
      rw [hr]

theorem toneLoop_mono (value : ℚ → ℚ) (dt t : ℚ) (sample : Mono ℚ) (rest : List (Mono ℚ)) :
    toneLoop value dt t (sample :: rest) = none := rfl

/-- C33 fails on the code for Mono points: at sample rate 44100 and frequency 440, below
the Nyquist limit, each of the four constructors returns a streamer, and a pull of one
Mono slot on it faults at `samples[0][1]` instead of returning `(1, true)`. -/
theorem tone_mono_faults (sin : ℚ → ℚ) :
    (∃ g, SineTone 44100 440 = some g ∧ g.Stream sin [(⟨0⟩ : Mono ℚ)] = none) ∧
    (∃ g, SquareTone 44100 440 = some g ∧ g.Stream [(⟨0⟩ : Mono ℚ)] = none) ∧
    (∃ g, SawtoothTone 44100 440 = some g ∧ g.Stream [(⟨0⟩ : Mono ℚ)] = none) ∧
    (∃ g, SawtoothToneReversed 44100 440 = some g ∧ g.Stream [(⟨0⟩ : Mono ℚ)] = none) := by
  have hlt : ¬ ((440 : ℚ) / ((44100 : Int) : ℚ) ≥ 1 / 2) := by norm_num
  refine ⟨⟨⟨(440 : ℚ) / ((44100 : Int) : ℚ), 0⟩, ?_, ?_⟩,
    ⟨⟨(440 : ℚ) / ((44100 : Int) : ℚ), 0⟩, ?_, ?_⟩,
    ⟨⟨(440 : ℚ) / ((44100 : Int) : ℚ), 0, false⟩, ?_, ?_⟩,
    ⟨⟨(440 : ℚ) / ((44100 : Int) : ℚ), 0, true⟩, ?_, ?_⟩⟩
  · unfold SineTone
    simp only [if_neg hlt]
  · unfold sineGenerator.Stream
    rw [toneLoop_mono]
  · unfold SquareTone
    simp only [if_neg hlt]
  · unfold squareGenerator.Stream
    rw [toneLoop_mono]
  · unfold SawtoothTone
    simp only [if_neg hlt]
  · unfold sawGenerator.Stream
    simp only [Bool.false_eq_true, if_false]
    rw [toneLoop_mono]
  · unfold SawtoothToneReversed
    simp only [if_neg hlt]
  · unfold sawGenerator.Stream
    simp only [if_true]
    rw [toneLoop_mono]

/-! ### The reference resampling -/

theorem lagrange.term_zero (pj : point) (j : Nat) (x : ℚ) (rest : List point) :
    ∀ m : Nat, lagrange.term pj j x m rest 0 = 0 := by
  induction rest with
  | nil => intro m; rfl
  | cons pm rest ih =>
    intro m
    rw [lagrange.term]
    have : (if j = m then (0 : ℚ) else 0 * ((x - pm.X) / (pj.X - pm.X))) = 0 := by
      split <;> simp
    rw [this]
    exact ih _

theorem lagrange.term_at_other (pj : point) (j : Nat) (x : ℚ) (rest : List point) :
    ∀ (m : Nat) (l : ℚ), (∃ (a : Nat) (pa : point), rest.get? a = some pa ∧ m + a ≠ j ∧ pa.X = x) →
      lagrange.term pj j x m rest l = 0 := by
  induction rest with
  | nil =>
    intro m l h
    obtain ⟨a, pa, ha, _⟩ := h
    simp at ha
  | cons pm rest ih =>
    intro m l h
    obtain ⟨a, pa, ha, hne, hx⟩ := h
    rw [lagrange.term]
    cases a with
    | zero =>
      have hpm : pm = pa := by simpa using ha
      have hjm : ¬ j = m := fun e => hne (by omega)
      rw [if_neg hjm, hpm, hx, sub_self, zero_div, mul_zero]
      exact lagrange.term_zero _ _ _ _ _
    | succ a =>
      exact ih _ _ ⟨a, pa, by simpa using ha, by omega, hx⟩

theorem lagrange.term_at_self (pj : point) (j : Nat) (rest : List point) :
    ∀ (m : Nat) (l : ℚ), (∀ (a : Nat) (pa : point), rest.get? a = some pa → m + a ≠ j →
        pa.X ≠ pj.X) →
      lagrange.term pj j pj.X m rest l = l := by
  induction rest with
  | nil => intro m l _; rfl
  | cons pm rest ih =>
    intro m l h
    rw [lagrange.term]
    have hstep : (if j = m then l else l * ((pj.X - pm.X) / (pj.X - pm.X))) = l := by
      split
      · rfl
      · rename_i hjm
        have hne : pm.X ≠ pj.X := h 0 pm rfl (fun e => hjm (by omega))
        rw [div_self (sub_ne_zero.2 (Ne.symm hne)), mul_one]
    rw [hstep]
    exact ih _ _ (fun a pa ha hne => h (a + 1) pa (by simpa using ha) (by omega))

theorem lagrange.sum_at_node (pts : List point) (j0 : Nat) (p0 : point)
    (h0 : pts.get? j0 = some p0)
    (hdist : ∀ (a b : Nat) (pa pb : point), pts.get? a = some pa → pts.get? b = some pb →
      a ≠ b → pa.X ≠ pb.X) (rest : List point) :
    ∀ (j : Nat) (y : ℚ), (∀ a : Nat, rest.get? a = pts.get? (j + a)) →
      lagrange.sum pts p0.X j rest y = y + (if j ≤ j0 then p0.Y else 0) := by
  induction rest with
  | nil =>
    intro j y hrest
    rw [lagrange.sum]
    have : ¬ j ≤ j0 := by
      intro hle
      have := hrest (j0 - j)
      rw [show j + (j0 - j) = j0 by omega, h0] at this
      simp at this
    rw [if_neg this, add_zero]
  | cons pj rest ih =>
    intro j y hrest
    rw [lagrange.sum]
    have hpj : pts.get? j = some pj := by
      have := hrest 0
      simpa using this.symm
    rw [ih (j + 1) _ (fun a => by
      have := hrest (a + 1)
      rw [show j + 1 + a = j + (a + 1) by omega]
      simpa using this)]
    by_cases hj : j = j0
    · subst hj
      have hp : pj = p0 := by
        rw [h0] at hpj
        exact (Option.some.inj hpj).symm
      subst hp
      rw [lagrange.term_at_self pj j pts 0 1 (fun a pa ha hne =>
        hdist a j pa pj ha hpj (by omega))]
      rw [if_neg (by omega), if_pos (le_refl _)]
      ring
    · rw [lagrange.term_at_other pj j p0.X pts 0 1 ⟨j0, p0, h0, by omega, rfl⟩]
      by_cases hle : j ≤ j0
      · rw [if_pos hle, if_pos (by omega)]
        ring
      · rw [if_neg hle, if_neg (by omega)]
        ring

theorem lagrange_at_node (pts : List point) (j0 : Nat) (p0 : point)
    (h0 : pts.get? j0 = some p0)
    (hdist : ∀ (a b : Nat) (pa pb : point), pts.get? a = some pa → pts.get? b = some pb →
      a ≠ b → pa.X ≠ pb.X) :
    lagrange pts p0.X = p0.Y := by
  unfold lagrange
  rw [lagrange.sum_at_node pts j0 p0 h0 hdist pts 0 0 (fun a => by rw [Nat.zero_add])]
  simp

theorem truncInt_natCast (i : Nat) : truncInt (i : ℚ) = (i : Int) := by
  unfold truncInt
  rw [if_pos (Nat.cast_nonneg i)]
  exact Int.floor_natCast i

theorem resampleCorrect.node_spec {P : Type} [Point ℚ P] [ArrayPoint P] (p : List P) (c : Nat)
    (hc : c < Point.Count (Point.zero : P)) (fl : Int) (len k : Nat) :
    ∃ y : ℚ, resampleCorrect.node p c fl len k =
        some ⟨((fl + (k : Int) - ((len / 2 : Nat) : Int) + 1 : Int) : ℚ), y⟩ ∧
      (∀ (i : Nat) (pi : P), fl + (k : Int) - ((len / 2 : Nat) : Int) + 1 = (i : Int) →
        p.get? i = some pi → Point.Get pi c = some y) ∧
      ((¬ (0 ≤ fl + (k : Int) - ((len / 2 : Nat) : Int) + 1 ∧
        fl + (k : Int) - ((len / 2 : Nat) : Int) + 1 < (p.length : Int))) → y = 0) := by
  obtain ⟨l, hl⟩ : ∃ l : Int, l = fl + (k : Int) - ((len / 2 : Nat) : Int) + 1 := ⟨_, rfl⟩
  rw [← hl]
  unfold resampleCorrect.node
  simp only
  rw [← hl]
  by_cases hr : 0 ≤ l ∧ l < (p.length : Int)
  · rw [if_pos hr]
    have hlt : l.toNat < p.length := by omega
    obtain ⟨pl, hpl⟩ : ∃ pl, p.get? l.toNat = some pl := ⟨p.get ⟨_, hlt⟩, List.get?_eq_get hlt⟩
    rw [hpl]
    simp only
    have hcl : c < (Point.Slice pl).length := by
      rw [ArrayPoint.length_slice, ArrayPoint.count_zero]; exact hc
    obtain ⟨y, hy⟩ : ∃ y, Point.Get pl c = some y := by
      rw [ArrayPoint.get_eq]
      exact ⟨_, List.get?_eq_get hcl⟩
    rw [hy]
    refine ⟨y, rfl, ?_, fun h => absurd hr h⟩
    intro i pi hi hpi
    have : l.toNat = i := by omega
    rw [this, hpi] at hpl
    rw [Option.some.inj hpl]
    exact hy
  · rw [if_neg hr]
    refine ⟨0, rfl, ?_, fun _ => rfl⟩
    intro i pi hi hpi
    exfalso
    have hlt : i < p.length := by
      by_contra hge
      rw [List.get?_eq_none.2 (by omega)] at hpi
      exact absurd hpi (by simp)
    exact hr ⟨by omega, by omega⟩

theorem resampleCorrect.points_spec {P : Type} [Point ℚ P] [ArrayPoint P] (p : List P) (c : Nat)
    (hc : c < Point.Count (Point.zero : P)) (fl : Int) (len : Nat) (cnt : Nat) :
    ∀ k : Nat, ∃ pts : List point, resampleCorrect.points p c fl len k cnt = some pts ∧
      pts.length = cnt ∧
      ∀ a : Nat, a < cnt → pts.get? a = resampleCorrect.node p c fl len (k + a) := by
  induction cnt with
  | zero =>
    intro k
    exact ⟨[], rfl, rfl, fun a ha => absurd ha (by omega)⟩
  | succ cnt ih =>
    intro k
    obtain ⟨y, hy, _⟩ := resampleCorrect.node_spec p c hc fl len k
    obtain ⟨rest, hrest, hlen, hget⟩ := ih (k + 1)
    refine ⟨(⟨((fl + (k : Int) - ((len / 2 : Nat) : Int) + 1 : Int) : ℚ), y⟩ : point) :: rest, ?_,
      by simp [hlen], ?_⟩
    · rw [resampleCorrect.points, hy]
      simp only
      rw [hrest]
    · intro a ha
      cases a with
      | zero => simpa using hy.symm
      | succ a =>
        have := hget a (by omega)
        rw [show k + (a + 1) = k + 1 + a by omega]
        simpa using this

theorem resampleCorrect.channels_spec {P : Type} [Point ℚ P] [ArrayPoint P] (p : List P) (j : ℚ)
    (len : Nat) (target : List ℚ)
    (htl : target.length = Point.Count (Point.zero : P))
    (hval : ∀ c : Nat, c < Point.Count (Point.zero : P) →
      ∃ pts : List point, resampleCorrect.points p c (truncInt j) len 0 len = some pts ∧
        target.get? c = some (lagrange pts j)) (cnt : Nat) :
    ∀ (c : Nat) (s : P), c + cnt = Point.Count (Point.zero : P) →
      (∀ a : Nat, a < c → (Point.Slice s).get? a = target.get? a) →
      ∃ s2 : P, resampleCorrect.channels p j len c cnt s = some s2 ∧
        Point.Slice s2 = target := by
  induction cnt with
  | zero =>
    intro c s hcount hs
    refine ⟨s, rfl, ?_⟩
    apply List.ext_get?
    intro a
    by_cases ha : a < c
    · exact hs a ha
    · rw [List.get?_eq_none.2 (by
        rw [ArrayPoint.length_slice, ArrayPoint.count_zero]; omega),
        List.get?_eq_none.2 (by omega)]
  | succ cnt ih =>
    intro c s hcount hs
    obtain ⟨pts, hpts, hv⟩ := hval c (by omega)
    obtain ⟨s1, hs1, hsl⟩ := ArrayPoint.set_eq s c (lagrange pts j)
      (by rw [ArrayPoint.count_zero]; omega)
    obtain ⟨s2, h2, h3⟩ := ih (c + 1) s1 (by omega) (by
      intro a ha
      rw [hsl]
      by_cases hac : a = c
      · subst hac
        rw [hv, List.get?_eq_getElem?, List.getElem?_set_self (by
          rw [ArrayPoint.length_slice, ArrayPoint.count_zero]; omega)]
      · rw [List.get?_eq_getElem?, List.getElem?_set_ne (Ne.symm hac), ← List.get?_eq_getElem?]
        exact hs a (by omega))
    refine ⟨s2, ?_, h3⟩
    rw [resampleCorrect.channels, hpts]
    simp only
    rw [hs1]
    simp only
    exact h2

theorem resampleCorrect.identity_value {P : Type} [Point ℚ P] [ArrayPoint P] (p : List P)
    (q : Nat) (hq : 1 ≤ q) (i : Nat) (pi : P) (hpi : p.get? i = some pi) (c : Nat)
    (hc : c < Point.Count (Point.zero : P)) :
    ∃ pts : List point, resampleCorrect.points p c (i : Int) (2 * q) 0 (2 * q) = some pts ∧
      (Point.Slice pi).get? c = some (lagrange pts (i : ℚ)) := by
  obtain ⟨pts, hpts, hlen, hget⟩ := resampleCorrect.points_spec p c hc (i : Int) (2 * q) (2 * q) 0
  refine ⟨pts, hpts, ?_⟩
  have hhalf : 2 * q / 2 = q := by omega
  obtain ⟨y, hy, hy2, _⟩ := resampleCorrect.node_spec p c hc (i : Int) (2 * q) (q - 1)
  have hl : (i : Int) + ((q - 1 : Nat) : Int) - ((2 * q / 2 : Nat) : Int) + 1 = (i : Int) := by
    rw [hhalf]; omega
  have h0 : pts.get? (q - 1) = some ⟨(i : ℚ), y⟩ := by
    rw [hget (q - 1) (by omega), Nat.zero_add, hy, hl]
    rfl
  have hdist : ∀ (a b : Nat) (pa pb : point), pts.get? a = some pa → pts.get? b = some pb →
      a ≠ b → pa.X ≠ pb.X := by
    intro a b pa pb ha hb hab
    have hal : a < 2 * q := by
      by_contra hge
      rw [List.get?_eq_none.2 (by omega)] at ha
      exact absurd ha (by simp)
    have hbl : b < 2 * q := by
      by_contra hge
      rw [List.get?_eq_none.2 (by omega)] at hb
      exact absurd hb (by simp)
    obtain ⟨ya, hya, _⟩ := resampleCorrect.node_spec p c hc (i : Int) (2 * q) a
    obtain ⟨yb, hyb, _⟩ := resampleCorrect.node_spec p c hc (i : Int) (2 * q) b
    rw [hget a hal, Nat.zero_add, hya] at ha
    rw [hget b hbl, Nat.zero_add, hyb] at hb
    rw [← Option.some.inj ha, ← Option.some.inj hb]
    simp only
    intro e
    have := Int.cast_injective e
    omega
  have hlag := lagrange_at_node pts (q - 1) ⟨(i : ℚ), y⟩ h0 hdist
  simp only at hlag
  rw [hlag, ← ArrayPoint.get_eq]
  exact hy2 i pi hl hpi

theorem resampleCorrect.loop_identity {P : Type} [Point ℚ P] [ArrayPoint P]
    (hinj : ∀ a b : P, Point.Slice a = Point.Slice b → a = b) (p : List P) (q : Nat)
    (hq : 1 ≤ q) (fuel : Nat) :
    ∀ i : Nat, i ≤ p.length → p.length - i < fuel →
      resampleCorrect.loop 1 (2 * q) p fuel i = some (p.drop i) := by
  induction fuel with
  | zero => intro i _ h; omega
  | succ fuel ih =>
    intro i hi hfuel
    rw [resampleCorrect.loop]
    simp only [mul_one]
    rw [truncInt_natCast]
    by_cases hend : (i : Int) ≥ (p.length : Int)
    · rw [if_pos hend, List.drop_eq_nil_of_le (by omega)]
    · rw [if_neg hend]
      have hlt : i < p.length := by omega
      have hpi : p.get? i = some (p.get ⟨i, hlt⟩) := List.get?_eq_get hlt
      obtain ⟨s2, hs2, hsl⟩ := resampleCorrect.channels_spec p (i : ℚ) (2 * q)
        (Point.Slice (p.get ⟨i, hlt⟩))
        (by rw [ArrayPoint.length_slice, ArrayPoint.count_zero])
        (fun c hc => by
          rw [truncInt_natCast]
          exact resampleCorrect.identity_value p q hq i _ hpi c hc)
        (Point.Count (Point.zero : P)) 0 (Point.zero : P) (by omega)
        (fun a ha => absurd ha (by omega))
      rw [ArrayPoint.length_slice, hs2]
      simp only
      rw [ih (i + 1) (by omega) (by omega), hinj _ _ hsl]
      simp only
      congr 1
      exact (List.drop_eq_getElem_cons hlt).symm

theorem resampleCorrect.identity {P : Type} [Point ℚ P] [ArrayPoint P]
    (hinj : ∀ a b : P, Point.Slice a = Point.Slice b → a = b) (q : Int) (hq : 1 ≤ q) (r : Int)
    (hr : 0 < r) (p : List P) (fuel : Nat) (hfuel : p.length < fuel) :
    resampleCorrect fuel q r r p = some p := by
  unfold resampleCorrect
  rw [if_neg (by omega)]
  have hratio : ((r : ℚ) / (r : ℚ)) = 1 := by
    have : (r : ℚ) ≠ 0 := by exact_mod_cast (ne_of_gt hr)
    exact div_self this
  have hlen : (q * 2).toNat = 2 * q.toNat := by omega
  rw [hratio, hlen, resampleCorrect.loop_identity hinj p q.toNat (by omega) fuel 0 (by omega)
    (by omega)]
  rfl

theorem slice_injective_mono (a b : Mono ℚ) (h : Point.Slice a = Point.Slice b) : a = b := by
  cases a
  cases b
  have h2 := List.cons.inj h
  simp only [Mono.mk.injEq]
  exact h2.1

theorem slice_injective_stereo (a b : Stereo ℚ) (h : Point.Slice a = Point.Slice b) : a = b := by
  cases a
  cases b
  have h2 := List.cons.inj h
  have h3 := List.cons.inj h2.2
  simp only [Stereo.mk.injEq]
  exact ⟨h2.1, h3.1⟩

/-- C32: for every quality `q ≥ 1`, every rate `r > 0` and every list `p` of Mono or of
Stereo samples, `resampleCorrect(q, r, r, p)` returns (given fuel for `len(p) + 1` rounds of
its loop) exactly `p`: the position `j` of output `i` is `i` itself, which is the node of
index `q - 1` of the window, and `lagrange` at one of its nodes returns the value of that
node. -/
theorem resample_identity (q : Int) (hq : 1 ≤ q) (r : Int) (hr : 0 < r) :
    (∀ (p : List (Mono ℚ)) (fuel : Nat), p.length < fuel →
      resampleCorrect fuel q r r p = some p) ∧
    (∀ (p : List (Stereo ℚ)) (fuel : Nat), p.length < fuel →
      resampleCorrect fuel q r r p = some p) :=
  ⟨fun p fuel h => resampleCorrect.identity slice_injective_mono q hq r hr p fuel h,
    fun p fuel h => resampleCorrect.identity slice_injective_stereo q hq r hr p fuel h⟩

theorem resample_identity_witness :
    (1 : Int) ≤ 3 ∧ (0 : Int) < 44100 ∧
    resampleCorrect 3 3 44100 44100 [(⟨1, 2⟩ : Stereo ℚ), ⟨3, 4⟩] =
      some [(⟨1, 2⟩ : Stereo ℚ), ⟨3, 4⟩] :=
  ⟨by decide, by decide,
    (resample_identity 3 (by decide) 44100 (by decide)).2 [(⟨1, 2⟩ : Stereo ℚ), ⟨3, 4⟩] 3
      (by decide)⟩

/-! ### Resample -/

theorem lagrange.term_eq_prod (pj : point) (j : Nat) (x : ℚ) (pts : List point)
    (rest : List point) :
    ∀ (m : Nat) (l : ℚ), rest = pts.drop m →
      lagrange.term pj j x m rest l = l * ∏ a ∈ Finset.Ico m pts.length,
        (if j = a then 1 else (x - (pts.getD a ⟨0, 0⟩).X) / (pj.X - (pts.getD a ⟨0, 0⟩).X)) := by
  induction rest with
  | nil =>
    intro m l h
    have hm : pts.length ≤ m := by
      by_contra hlt
      have := congrArg List.length h
      rw [List.length_drop, List.length_nil] at this
      omega
    rw [lagrange.term, Finset.Ico_eq_empty (by omega), Finset.prod_empty, mul_one]
  | cons pm rest ih =>
    intro m l h
    have hm : m < pts.length := by
      by_contra hge
      rw [List.drop_eq_nil_of_le (by omega)] at h
      exact absurd h (by simp)
    rw [List.drop_eq_getElem_cons hm] at h
    obtain ⟨h1, h2⟩ := List.cons.inj h
    rw [lagrange.term, ih (m + 1) _ h2, Finset.prod_eq_prod_Ico_succ_bot hm,
      List.getD_eq_getElem _ _ hm, ← h1]
    split <;> ring

theorem lagrange.sum_eq_sum (pts : List point) (x : ℚ) (rest : List point) :
    ∀ (j : Nat) (y : ℚ), rest = pts.drop j →
      lagrange.sum pts x j rest y = y + ∑ a ∈ Finset.Ico j pts.length,
        (pts.getD a ⟨0, 0⟩).Y * lagrange.term (pts.getD a ⟨0, 0⟩) a x 0 pts 1 := by
  induction rest with
  | nil =>
    intro j y h
    have hm : pts.length ≤ j := by
      by_contra hlt
      have := congrArg List.length h
      rw [List.length_drop, List.length_nil] at this
      omega
    rw [lagrange.sum, Finset.Ico_eq_empty (by omega), Finset.sum_empty, add_zero]
  | cons pj rest ih =>
    intro j y h
    have hm : j < pts.length := by
      by_contra hge
      rw [List.drop_eq_nil_of_le (by omega)] at h
      exact absurd h (by simp)
    rw [List.drop_eq_getElem_cons hm] at h
    obtain ⟨h1, h2⟩ := List.cons.inj h
    rw [lagrange.sum, ih (j + 1) _ h2, Finset.sum_eq_sum_Ico_succ_bot hm,
      List.getD_eq_getElem _ _ hm, ← h1]
    ring

theorem lagrange_eq_interpolant (pts : List point) (x : ℚ) :
    lagrange pts x = Resample.interpolant pts.length (fun k => (pts.getD k ⟨0, 0⟩).X)
      (fun k => (pts.getD k ⟨0, 0⟩).Y) x := by
  unfold lagrange Resample.interpolant
  rw [lagrange.sum_eq_sum pts x pts 0 0 rfl, zero_add, ← Finset.range_eq_Ico]
  apply Finset.sum_congr rfl
  intro k _
  congr 1
  rw [lagrange.term_eq_prod _ k x pts pts 0 1 rfl, one_mul, ← Finset.range_eq_Ico,
    ← Finset.prod_erase (Finset.range pts.length) (a := k) (by simp)]
  apply Finset.prod_congr rfl
  intro m hm
  rw [if_neg (Ne.symm (Finset.ne_of_mem_erase hm))]

theorem interpolant_eq_eval (n : Nat) (X Y : Nat → ℚ) (x : ℚ) :
    Resample.interpolant n X Y x =
      Polynomial.eval x (Lagrange.interpolate (Finset.range n) X Y) := by
  unfold Resample.interpolant
  rw [Lagrange.interpolate_apply, Polynomial.eval_finset_sum]
  apply Finset.sum_congr rfl
  intro k _
  rw [Polynomial.eval_mul, Polynomial.eval_C, Lagrange.basis, Polynomial.eval_prod]
  congr 1
  apply Finset.prod_congr rfl
  intro m _
  unfold Lagrange.basisDivisor
  simp only [Polynomial.eval_mul, Polynomial.eval_C, Polynomial.eval_sub, Polynomial.eval_X]
  rw [div_eq_mul_inv, mul_comm]

theorem interpolant_congr (n : Nat) (X Y X2 Y2 : Nat → ℚ) (x : ℚ)
    (hX : ∀ k, k < n → X k = X2 k) (hY : ∀ k, k < n → Y k = Y2 k) :
    Resample.interpolant n X Y x = Resample.interpolant n X2 Y2 x := by
  unfold Resample.interpolant
  apply Finset.sum_congr rfl
  intro k hk
  rw [hY k (Finset.mem_range.1 hk), hX k (Finset.mem_range.1 hk)]
  congr 1
  apply Finset.prod_congr rfl
  intro m hm
  rw [hX m (Finset.mem_range.1 (Finset.mem_of_mem_erase hm))]

theorem truncInt_of_nonneg (j : ℚ) (h : 0 ≤ j) : truncInt j = ⌊j⌋ := by
  unfold truncInt
  rw [if_pos h]

theorem resampleCorrect.node_eq {P : Type} [Point ℚ P] [ArrayPoint P] (p : List P) (c : Nat)
    (hc : c < Point.Count (Point.zero : P)) (fl : Int) (len k : Nat) :
    resampleCorrect.node p c fl len k =
      some ⟨((fl + (k : Int) - ((len / 2 : Nat) : Int) + 1 : Int) : ℚ),
        Resample.source p c (fl + (k : Int) - ((len / 2 : Nat) : Int) + 1)⟩ := by
  obtain ⟨y, hy, hy2, hy3⟩ := resampleCorrect.node_spec p c hc fl len k
  rw [hy]
  congr 2
  unfold Resample.source
  by_cases hr : 0 ≤ fl + (k : Int) - ((len / 2 : Nat) : Int) + 1 ∧
      fl + (k : Int) - ((len / 2 : Nat) : Int) + 1 < (p.length : Int)
  · rw [if_pos hr]
    have hlt : (fl + (k : Int) - ((len / 2 : Nat) : Int) + 1).toNat < p.length := by omega
    have hget : p.get? (fl + (k : Int) - ((len / 2 : Nat) : Int) + 1).toNat =
        some (p.get ⟨_, hlt⟩) := List.get?_eq_get hlt
    rw [hget]
    rw [Option.some_bind]
    rw [hy2 _ _ (by omega) hget]
    rfl
  · rw [if_neg hr]
    exact hy3 hr

theorem resampleCorrect.window_value {P : Type} [Point ℚ P] [ArrayPoint P] (p : List P)
    (q : Nat) (c : Nat) (hc : c < Point.Count (Point.zero : P)) (j : ℚ) (hj : 0 ≤ j) :
    ∃ pts : List point,
      resampleCorrect.points p c (truncInt j) (2 * q) 0 (2 * q) = some pts ∧
      lagrange pts j = Resample.value q p c j := by
  obtain ⟨pts, hpts, hlen, hget⟩ :=
    resampleCorrect.points_spec p c hc (truncInt j) (2 * q) (2 * q) 0
  refine ⟨pts, hpts, ?_⟩
  have hhalf : 2 * q / 2 = q := by omega
  have hnode : ∀ k, k < 2 * q → pts.getD k ⟨0, 0⟩ =
      ⟨((⌊j⌋ - (q : Int) + 1 + (k : Int) : Int) : ℚ),
        Resample.source p c (⌊j⌋ - (q : Int) + 1 + (k : Int))⟩ := by
    intro k hk
    have h1 := hget k hk
    rw [Nat.zero_add, resampleCorrect.node_eq p c hc, hhalf, truncInt_of_nonneg j hj] at h1
    have e : ⌊j⌋ + (k : Int) - (q : Int) + 1 = ⌊j⌋ - (q : Int) + 1 + (k : Int) := by ring
    rw [e] at h1
    rw [List.getD_eq_getElem?_getD, ← List.get?_eq_getElem?, h1]
    rfl
  rw [lagrange_eq_interpolant, hlen]
  unfold Resample.value
  apply interpolant_congr
  · intro k hk
    rw [hnode k hk]
  · intro k hk
    rw [hnode k hk]

theorem resample_fill_eq {P : Type} [Point ℚ P] [ArrayPoint P] (p : List P) (q : Nat) (j : ℚ)
    (hj : 0 ≤ j) (cnt : Nat) :
    ∀ (c : Nat) (s : P), c + cnt = Point.Count (Point.zero : P) →
      Resample.fill q p j c cnt s = resampleCorrect.channels p j (2 * q) c cnt s := by
  induction cnt with
  | zero => intro c s _; rfl
  | succ cnt ih =>
    intro c s hcount
    obtain ⟨pts, hpts, hv⟩ := resampleCorrect.window_value p q c (by omega) j hj
    rw [Resample.fill, resampleCorrect.channels, hpts]
    simp only
    rw [hv]
    cases hset : Point.Set s c (Resample.value q p c j) with
    | none => rfl
    | some s1 => exact ih (c + 1) s1 (by omega)

theorem resample_drain_eq {P : Type} [Point ℚ P] [ArrayPoint P] (p : List P) (q : Nat)
    (ratio : ℚ) (hr : 0 ≤ ratio) (fuel : Nat) :
    ∀ i : Nat, Resample.drain q ratio p fuel ((i : ℚ) * ratio) =
      resampleCorrect.loop ratio (2 * q) p fuel i := by
  induction fuel with
  | zero => intro i; rfl
  | succ fuel ih =>
    intro i
    have hj : 0 ≤ (i : ℚ) * ratio := mul_nonneg (Nat.cast_nonneg i) hr
    rw [Resample.drain, resampleCorrect.loop]
    rw [truncInt_of_nonneg _ hj, ArrayPoint.length_slice,
      resample_fill_eq p q _ hj _ 0 _ (by omega)]
    have hnext : (i : ℚ) * ratio + ratio = ((i + 1 : Nat) : ℚ) * ratio := by
      push_cast; ring
    rw [hnext, ih (i + 1)]

theorem resampleCorrect.loop_total {P : Type} [Point ℚ P] [ArrayPoint P] (p : List P) (q : Nat)
    (ratio : ℚ) (hr : 0 ≤ ratio) (B : Nat) (hB : (p.length : ℚ) ≤ (B : ℚ) * ratio)
    (fuel : Nat) :
    ∀ i : Nat, i ≤ B → B - i < fuel →
      ∃ out : List P, resampleCorrect.loop ratio (2 * q) p fuel i = some out ∧
        (∀ a : Nat, a < out.length ↔ ⌊((i + a : Nat) : ℚ) * ratio⌋ < (p.length : Int)) ∧
        ∀ (a : Nat) (s : P), out.get? a = some s → ∀ c : Nat,
          c < Point.Count (Point.zero : P) →
            Point.Get s c = some (Resample.value q p c (((i + a : Nat) : ℚ) * ratio)) := by
  induction fuel with
  | zero => intro i _ h; omega
  | succ fuel ih =>
    intro i hi hfuel
    have hj : 0 ≤ (i : ℚ) * ratio := mul_nonneg (Nat.cast_nonneg i) hr
    rw [resampleCorrect.loop]
    rw [truncInt_of_nonneg _ hj]
    by_cases hend : ⌊(i : ℚ) * ratio⌋ ≥ (p.length : Int)
    · rw [if_pos hend]
      refine ⟨[], rfl, fun a => ?_, fun a s h => by simp at h⟩
      constructor
      · intro h
        simp at h
      · intro h
        exfalso
        have hmono : ⌊(i : ℚ) * ratio⌋ ≤ ⌊((i + a : Nat) : ℚ) * ratio⌋ := by
          apply Int.floor_le_floor
          apply mul_le_mul_of_nonneg_right _ hr
          exact_mod_cast Nat.le_add_right i a
        omega
    · rw [if_neg hend]
      have hiB : i < B := by
        by_contra hge
        have hiB2 : i = B := by omega
        apply hend
        rw [hiB2]
        exact Int.le_floor.2 (by exact_mod_cast hB)
      obtain ⟨rest, hrest, hlen, hget⟩ := ih (i + 1) (by omega) (by omega)
      obtain ⟨s, hs, hsl⟩ := resampleCorrect.channels_spec p ((i : ℚ) * ratio) (2 * q)
        ((List.range (Point.Count (Point.zero : P))).map
          (fun c => Resample.value q p c ((i : ℚ) * ratio)))
        (by simp)
        (fun c hc => by
          obtain ⟨pts, hpts, hv⟩ := resampleCorrect.window_value p q c hc ((i : ℚ) * ratio) hj
          refine ⟨pts, hpts, ?_⟩
          rw [hv, List.get?_eq_getElem?, List.getElem?_map, List.getElem?_range hc]
          rfl)
        (Point.Count (Point.zero : P)) 0 (Point.zero : P) (by omega)
        (fun a ha => absurd ha (by omega))
      rw [ArrayPoint.length_slice, hs]
      simp only
      rw [hrest]
      refine ⟨s :: rest, rfl, fun a => ?_, fun a s2 h c hc => ?_⟩
      · cases a with
        | zero =>
          simp only [List.length_cons, Nat.add_zero]
          constructor
          · intro _; omega
          · intro _; omega
        | succ a =>
          have := hlen a
          rw [show i + 1 + a = i + (a + 1) by omega] at this
          simp only [List.length_cons]
          constructor
          · intro h
            exact this.1 (by omega)
          · intro h
            have := this.2 h
            omega
      · cases a with
        | zero =>
          have hs2 : s = s2 := by simpa using h
          subst hs2
          rw [ArrayPoint.get_eq, hsl, List.get?_eq_getElem?, List.getElem?_map,
            List.getElem?_range hc]
          rfl
        | succ a =>
          have := hget a s2 (by simpa using h) c hc
          rw [show i + 1 + a = i + (a + 1) by omega] at this
          exact this

/-- C31: for every quality `q ≥ 1`, positive rates `old` and `new` and source content `p`,
draining `Resample(q, old, new, s)`, as §4.6 of the spec describes it, yields (given fuel
for every round) exactly what `resampleCorrect(q, old, new, p)` returns; that sequence has
an output `i` for exactly the `i` with `floor(i * old / new) < len(p)`, and every channel
`c` of output `i` is the value at `j = i * old / new` of the Lagrange interpolation
polynomial through the `2q` points at the source indices `floor(j) - q + 1` to
`floor(j) + q`, with the value 0 outside the source. -/
theorem resample_matches {P : Type} [Point ℚ P] [ArrayPoint P] (q : Nat) (hq : 1 ≤ q)
    (old new : Int) (ho : 0 < old) (hn : 0 < new) (p : List P) (fuel : Nat)
    (hfuel : p.length * new.toNat / old.toNat + 1 < fuel) :
    ∃ out : List P, Resample fuel q old new p = some out ∧
      resampleCorrect fuel (q : Int) old new p = some out ∧
      (∀ i : Nat, i < out.length ↔
        ⌊(i : ℚ) * ((old : ℚ) / (new : ℚ))⌋ < (p.length : Int)) ∧
      ∀ (i : Nat) (s : P), out.get? i = some s → ∀ c : Nat,
        c < Point.Count (Point.zero : P) →
          Point.Get s c = some (Polynomial.eval ((i : ℚ) * ((old : ℚ) / (new : ℚ)))
            (Lagrange.interpolate (Finset.range (2 * q))
              (fun k => ((⌊(i : ℚ) * ((old : ℚ) / (new : ℚ))⌋ - (q : Int) + 1 + (k : Int) : Int) : ℚ))
              (fun k => Resample.source p c
                (⌊(i : ℚ) * ((old : ℚ) / (new : ℚ))⌋ - (q : Int) + 1 + (k : Int))))) := by
  have hoq : (0 : ℚ) < (old : ℚ) := by exact_mod_cast ho
  have hnq : (0 : ℚ) < (new : ℚ) := by exact_mod_cast hn
  have hr : (0 : ℚ) ≤ (old : ℚ) / (new : ℚ) := le_of_lt (div_pos hoq hnq)
  have hB : (p.length : ℚ) ≤
      ((p.length * new.toNat / old.toNat + 1 : Nat) : ℚ) * ((old : ℚ) / (new : ℚ)) := by
    have hnat : p.length * new.toNat < old.toNat * (p.length * new.toNat / old.toNat + 1) :=
      Nat.lt_mul_div_succ _ (by omega)
    have hO : ((old.toNat : Nat) : ℚ) = (old : ℚ) := by
      have : ((old.toNat : Nat) : Int) = old := Int.toNat_of_nonneg (le_of_lt ho)
      exact_mod_cast this
    have hN : ((new.toNat : Nat) : ℚ) = (new : ℚ) := by
      have : ((new.toNat : Nat) : Int) = new := Int.toNat_of_nonneg (le_of_lt hn)
      exact_mod_cast this
    have hq2 : ((p.length * new.toNat : Nat) : ℚ) <
        ((old.toNat * (p.length * new.toNat / old.toNat + 1) : Nat) : ℚ) := by
      exact_mod_cast hnat
    rw [Nat.cast_mul, Nat.cast_mul, hO, hN] at hq2
    rw [← mul_div_assoc, le_div_iff₀ hnq]
    linarith
  obtain ⟨out, h1, h2, h3⟩ := resampleCorrect.loop_total p q _ hr _ hB fuel 0 (Nat.zero_le _)
    (by rw [Nat.sub_zero]; exact hfuel)
  refine ⟨out, ?_, ?_, ?_, ?_⟩
  · unfold Resample
    have := resample_drain_eq p q _ hr fuel 0
    rw [Nat.cast_zero, zero_mul] at this
    rw [this, h1]
  · unfold resampleCorrect
    rw [if_neg (by omega), show ((q : Int) * 2).toNat = 2 * q by omega, h1]
  · intro i
    have := h2 i
    rw [Nat.zero_add] at this
    exact this
  · intro i s hs c hc
    have := h3 i s hs c hc
    rw [Nat.zero_add] at this
    rw [this, ← interpolant_eq_eval]
    rfl

theorem resample_matches_witness :
    (1 : Nat) ≤ 3 ∧ (0 : Int) < 1 ∧ (0 : Int) < 2 ∧
    ∃ out : List (Stereo ℚ),
      Resample 6 3 1 2 [(⟨1, 2⟩ : Stereo ℚ), ⟨3, 4⟩] = some out ∧
      resampleCorrect 6 ((3 : Nat) : Int) 1 2 [(⟨1, 2⟩ : Stereo ℚ), ⟨3, 4⟩] = some out :=
  ⟨by decide, by decide, by decide,
    (@resample_matches (Stereo ℚ) _ _ 3 (by decide) 1 2 (by decide) (by decide)
      [(⟨1, 2⟩ : Stereo ℚ), ⟨3, 4⟩] 6 (by decide)).imp (fun _ h => ⟨h.1, h.2.1⟩)⟩

end Beep
